import Mathlib

/-!
# hssp: the alignment-to-profile core of `hmmer-hssp.cpp`

A shallow embedding of the sequence buffer (`seq`), of `seq::update`, of the two
alignment readers `ReadStockholm` and `ReadFastA` and the writer `WriteFastA`, of the hits
and their ranking, of the conservation weights (`CalculateConservation`), of the residue
profile (`ChainToHits`, `ResidueHInfo::CalculateVariability`), of the clustering of the
chain sequences (`ClusterSequences`) and of the value printed in the column `VAR`,
followed by theorems about them.

Modelling conventions

* A `char` is its byte value, a natural number; a `std::string` is a `List Nat`.
  `str "AC-DE"` is the byte string of an ASCII literal.
* An `istream` is the list of lines that successive `getline` calls return; after the
  last line `getline` yields an empty line and the stream is no longer `good()`.
* A `seq` handle is modelled by the value of its `seq_impl`; the readers never hold two
  handles on the same `seq_impl` in their `mseq`.
* Exceptions, failed `assert`s and accesses outside the initialised storage of a row are
  results of type `Error`.
* `VERBOSE` output is left out; the worker threads of the readers all run `seq::update`
  on distinct rows against the same read-only query, so the rows are updated in order.
* A `float` or `double` is a value of type `flt` where a division by zero can occur (the
  score of a row, the identity of a hit), and a rational number elsewhere (the
  conservation sums and weights): the arithmetic on finite values is exact.
* An `ostream` is, like an `istream`, the list of the lines written to it.
* A loop without a bound in the source (`for (;;)` in `ClusterSequences`) takes the
  number of passes it may make as an argument and yields `none` when that is used up;
  the theorems show how many passes are enough.
-/

namespace hmmer

/-- Byte strings (`std::string`). -/
abbrev Str := List Nat

/-- Byte string of an ASCII literal. -/
def str (s : String) : Str := s.toList.map Char.toNat

/-- Ways in which the modelled code fails. -/
inductive Error where
  /-- "Not a stockholm file, missing first line" -/
  | not_stockholm
  /-- "Not a valid stockholm file, missing #=GF ID line" -/
  | missing_gf_id
  /-- "Stockholm file is truncated or incomplete" -/
  | truncated
  /-- "Invalid stockholm file" (a body line without a space) -/
  | invalid_stockholm
  /-- "Invalid Stockholm file, ID does not match (%s != %s)" -/
  | id_mismatch (id expected : Str)
  /-- "Insufficient sequences in Stockholm MSA" -/
  | insufficient_sequences
  /-- "Query used for Stockholm file is too short for the chain" -/
  | query_too_short
  /-- "Invalid Stockholm file for chain" (query substring not found) -/
  | query_not_found
  /-- "Invalid alignment file, too few sequences" -/
  | too_few_sequences
  /-- "Invalid alignment file, not all sequences are of same length" -/
  | not_same_length
  /-- "Invalid letter in query sequence (%c)" -/
  | invalid_letter (c : Nat)
  /-- `boost::bad_lexical_cast` thrown by `lexical_cast<uint32>` -/
  | bad_lexical_cast
  /-- A failed `assert` -/
  | assertion
  /-- An access outside the initialised part of a buffer (undefined behaviour in C++) -/
  | memory
  deriving DecidableEq, Repr

/-- The value `numeric_limits<uint32>::max()`. -/
def UINT32_MAX : Nat := 4294967295

/-- Conversion of a table entry to `uint8`. -/
def uint8 (x : Int) : Nat := (x % 256).toNat

/-- The table `kResidueIX` (residue to index mapping), 256 entries of type `int8`. -/
def kResidueIX_data : List Int := [
  -1, -1, -1, -1, -1, -1, -1, -1, -1, -1, -1, -1, -1, -1, -1, -1,
  -1, -1, -1, -1, -1, -1, -1, -1, -1, -1, -1, -1, -1, -1, -1, -1,
  -2, -1, -1, -1, -1, -1, -1, -1, -1, -1, -1, -1, -1, -2, -2, -1,
  -1, -1, -1, -1, -1, -1, -1, -1, -1, -1, -1, -1, -1, -1, -1, -1,
  -1, 8, -1, 12, 19, 17, 4, 7, 13, 2, -1, 15, 1, 3, 18, -1,
  9, 16, 14, 10, 11, -1, 0, 5, -1, 6, -1, -1, -1, -1, -1, -2,
  -1, 8, -1, 12, 19, 17, 4, 7, 13, 2, -1, 15, 1, 3, 18, -1,
  9, 16, 14, 10, 11, -1, 0, 5, -1, 6, -1, -1, -1, -1, -1, -2,
  -1, -1, -1, -1, -1, -1, -1, -1, -1, -1, -1, -1, -1, -1, -1, -1,
  -1, -1, -1, -1, -1, -1, -1, -1, -1, -1, -1, -1, -1, -1, -1, -1,
  -1, -1, -1, -1, -1, -1, -1, -1, -1, -1, -1, -1, -1, -1, -1, -1,
  -1, -1, -1, -1, -1, -1, -1, -1, -1, -1, -1, -1, -1, -1, -1, -1,
  -1, -1, -1, -1, -1, -1, -1, -1, -1, -1, -1, -1, -1, -1, -1, -1,
  -1, -1, -1, -1, -1, -1, -1, -1, -1, -1, -1, -1, -1, -1, -1, -1,
  -1, -1, -1, -1, -1, -1, -1, -1, -1, -1, -1, -1, -1, -1, -1, -1,
  -1, -1, -1, -1, -1, -1, -1, -1, -1, -1, -1, -1, -1, -1, -1, -1]

/-- The lookup `kResidueIX[uint8(aa)]`. -/
def kResidueIX (aa : Nat) : Int := kResidueIX_data.getD (aa % 256) (-1)

/-- The routine `is_gap`: `kResidueIX[uint8(aa)] == -2`. -/
def is_gap (aa : Nat) : Bool := kResidueIX aa == -2

/-- The table `kDayhoffData` (Dayhoff matrix as used by maxhom), lower triangle row by
row, every entry in tenths (`1.5f` is `15`). -/
def kDayhoffData : List Int := [
  15,   -- V
  8, 15,   -- L
  11, 8, 15,   -- I
  6, 13, 6, 15,   -- M
  2, 12, 7, 5, 15,   -- F
  -8, 5, -5, -3, 13, 15,   -- W
  -1, 3, 1, -1, 14, 11, 15,   -- Y
  2, -5, -3, -3, -6, -10, -7, 15,   -- G
  2, -1, 0, 0, -5, -8, -3, 7, 15,   -- A
  1, -3, -2, -2, -7, -8, -8, 3, 5, 15,   -- P
  -1, -4, -1, -3, -3, 3, -4, 6, 4, 4, 15,   -- S
  2, -1, 2, 0, -3, -6, -3, 4, 4, 3, 3, 15,   -- T
  2, -8, 2, -6, -1, -12, 10, 2, 3, 1, 7, 2, 15,   -- C
  -3, -2, -3, -3, -1, -1, 3, -2, -1, 2, -2, -1, -1, 15,   -- H
  -3, -4, -3, 2, -5, 14, -6, -3, -3, 3, 1, -1, -3, 5, 15,   -- R
  -2, -3, -2, 2, -7, 1, -6, -1, 0, 1, 2, 2, -6, 1, 8, 15,   -- K
  -2, -1, -3, 0, -8, -5, -6, 2, 2, 3, -1, -1, -6, 7, 4, 4, 15,   -- Q
  -2, -3, -2, -2, -7, -11, -5, 5, 3, 1, 2, 2, -6, 4, 0, 3, 7, 15,   -- E
  -3, -4, -3, -3, -5, -3, -1, 4, 2, 0, 3, 2, -3, 5, 1, 4, 4, 5, 15,   -- N
  -2, -5, -2, -4, -10, -11, -5, 7, 3, 1, 2, 2, -5, 4, 0, 3, 7, 10, 7, 15] -- D

/-- Modelled from the spec: `symmetric_matrix<float>::operator()` of `matrix.h`, which is
not among the sources. `kD` is "a fixed symmetric 20×20 table over the 20 standard amino
acids" built on `kDayhoffData`, so `kD(i, j)` for `i, j < 20` is the entry of the packed
lower triangle at row `max i j`, column `min i j` (in tenths). The class does no range
check known to this file: what a lookup with an index of 20 or more reads is not
specified and is the parameter `oob`. -/
def kD (oob : Nat → Nat → Int) (i j : Nat) : Int :=
  if i < 20 ∧ j < 20 then
    kDayhoffData.getD (if i < j then j * (j + 1) / 2 + i else i * (i + 1) / 2 + j) 0
  else oob i j

/-- The C function `tolower` in the "C" locale. -/
def tolower (c : Nat) : Nat := if 65 ≤ c ∧ c ≤ 90 then c + 32 else c

/-- The struct `insertion`. -/
structure insertion where
  m_ipos : Nat
  m_jpos : Nat
  m_seq : Str
  deriving DecidableEq, Repr

/-- The struct `seq::seq_impl`. The storage `m_data` is the list of its initialised bytes
(`m_space` bytes are allocated); the pointer `m_seq` is its offset from `m_data`; the
`float m_score` is kept as the pair (numerator, denominator) of the quotient that
`update` stores. -/
structure seq where
  m_id : Str
  m_id2 : Str
  m_ifir : Nat
  m_ilas : Nat
  m_jfir : Nat
  m_jlas : Nat
  m_identical : Nat
  m_similar : Nat
  m_length : Nat
  m_score : Nat × Nat
  m_begin : Nat
  m_end : Nat
  m_pruned : Bool
  m_gaps : Nat
  m_gapn : Nat
  m_insertions : List insertion
  m_data : Str
  m_seq : Nat
  m_size : Nat
  m_space : Nat
  deriving DecidableEq, Repr

/-- The type `mseq` (`vector<seq>`). -/
abbrev mseq := List seq

/-- The constant `kBlockSize`. -/
def kBlockSize : Nat := 512

/-- The characters `begin() .. end()` of a row: `m_size` bytes from `m_seq` on. -/
def seq.chars (s : seq) : Str := (s.m_data.drop s.m_seq).take s.m_size

/-- The constructor `seq_impl::seq_impl(const string& id)`; `m_id2` is filled in by
`seq::seq`. -/
def seq_impl (id : Str) : seq :=
  { m_id := id, m_id2 := [], m_ifir := 0, m_ilas := 0, m_jfir := 0, m_jlas := 0,
    m_identical := 0, m_similar := 0, m_length := 0, m_score := (0, 1),
    m_begin := 0, m_end := 0, m_pruned := false, m_gaps := 0, m_gapn := 0,
    m_insertions := [], m_data := [], m_seq := 0, m_size := 0, m_space := 0 }

/-- The regex class `\d`. -/
def is_digit (c : Nat) : Bool := 48 ≤ c && c ≤ 57

/-- The regex class `[-a-zA-Z0-9_]`. -/
def is_id_char (c : Nat) : Bool :=
  c == 45 || (97 ≤ c && c ≤ 122) || (65 ≤ c && c ≤ 90) || is_digit c || c == 95

/-- Decimal value of a string of digits. -/
def digits_value (ds : Str) : Nat := ds.foldl (fun v d => 10 * v + (d - 48)) 0

/-- The call `boost::lexical_cast<uint32>` on a non-empty string of digits: it throws
when the value does not fit 32 bits. -/
def lexical_cast_uint32 (ds : Str) : Except Error Nat :=
  if digits_value ds ≤ UINT32_MAX then .ok (digits_value ds) else .error .bad_lexical_cast

/-- A whole-string match of the regex `([-a-zA-Z0-9_]+)/(\d+)-(\d+)` of `seq::seq`: the
three groups. The first group holds no `/` and the second no `-`, so the string splits
at its first `/` and what follows at its first `-`. -/
def match_range_id (id : Str) : Option (Str × Str × Str) :=
  let name := id.takeWhile (fun c => c != 47)
  match id.dropWhile (fun c => c != 47) with
  | [] => none
  | _ :: rest =>
    let d1 := rest.takeWhile (fun c => c != 45)
    match rest.dropWhile (fun c => c != 45) with
    | [] => none
    | _ :: d2 =>
      if name ≠ [] ∧ name.all is_id_char ∧ d1 ≠ [] ∧ d1.all is_digit ∧
          d2 ≠ [] ∧ d2.all is_digit then
        some (name, d1, d2)
      else none

/-- The constructor `seq::seq(const string& id)`. -/
def seq.new (id : Str) : Except Error seq :=
  match match_range_id id with
  | some (name, d1, d2) => do
    let jfir ← lexical_cast_uint32 d1
    let jlas ← lexical_cast_uint32 d2
    .ok { seq_impl id with m_jfir := jfir, m_jlas := jlas, m_id2 := name }
  | none => .ok { seq_impl id with m_id2 := id }

/-- The size `n` of the new storage in `seq::append`, a `uint32`: twice the old capacity
(twice `kBlockSize` for an empty buffer), or the length of the text if that is more. -/
def new_space (s : seq) (len : Nat) : Nat :=
  if ((if s.m_space = 0 then kBlockSize else s.m_space) * 2) % 2 ^ 32 < len then len % 2 ^ 32
  else ((if s.m_space = 0 then kBlockSize else s.m_space) * 2) % 2 ^ 32

/-- The block `if (m_size + seq.length() > m_space)` of `seq::append` ("increase storage
for the sequences"): `m_size` bytes are copied from `m_data` to new storage of
`new_space` bytes. -/
def seq.reserve (s : seq) (len : Nat) : Except Error seq :=
  if s.m_size + len > s.m_space then
    if new_space s len < s.m_size ∨ s.m_data.length < s.m_size then .error .memory
    else .ok { s with m_data := s.m_data.take s.m_size, m_seq := 0, m_space := new_space s len }
  else .ok s

/-- The last two statements of `seq::append`: the `memcpy` of the text to
`m_seq + m_size` and the new `m_size` and `m_end`. A write past the `m_space` allocated
bytes is a `memory` error. -/
def seq.write (s : seq) (text : Str) : Except Error seq :=
  if s.m_seq + s.m_size + text.length > s.m_space ∨ s.m_data.length < s.m_seq + s.m_size then
    .error .memory
  else
    .ok { s with
      m_data := s.m_data.take (s.m_seq + s.m_size) ++ text ++
        s.m_data.drop (s.m_seq + s.m_size + text.length),
      m_size := (s.m_size + text.length) % 2 ^ 32,
      m_end := (s.m_size + text.length) % 2 ^ 32 }

/-- The method `seq::append`. -/
def seq.append (s : seq) (text : Str) : Except Error seq :=
  match s.reserve text.length with
  | .error e => .error e
  | .ok s1 => s1.write text

/-- The method `seq::seq_impl::cut`. -/
def seq.cut (s : seq) (pos n : Nat) : Except Error seq :=
  if ¬ (pos + n ≤ s.m_size) then .error .assertion else
  let b := if s.m_begin > pos then s.m_begin - pos else 0
  let e := if s.m_end > pos then s.m_end - pos else 0
  .ok { s with
    m_seq := s.m_seq + pos, m_size := n, m_begin := b,
    m_end := if e > n then n else e }

/-- Local variables of `seq::seq_impl::update` together with the row being updated. -/
structure update_state where
  s : seq
  ipos : Nat
  jpos : Nat
  sgapf : Bool
  qgapf : Bool
  gapn : Nat
  gaps : Nat
  ins : insertion
  length : Nat
  deriving DecidableEq, Repr

/-- The scan `while (gsi != begin() and is_gap(*gsi)) --gsi;` of `update`, on positions of
the storage: `b` is the position of `begin()`, the argument the position of `gsi`. The
result is the final position of `gsi`, or `none` when the scan reads outside the
initialised storage. -/
def gsi_scan (data : Str) (b : Nat) : Nat → Option Nat
  | 0 =>
    match data[0]? with
    | none => none
    | some c => if 0 ≠ b ∧ is_gap c then none else some 0
  | p + 1 =>
    match data[p + 1]? with
    | none => none
    | some c => if p + 1 ≠ b ∧ is_gap c then gsi_scan data b p else some (p + 1)

/-- The counting statements at the end of the loop body of `update`: `m_identical`,
`m_similar`, `m_begin` and `m_end` for column `i`, where `qc` is `*qi`, `sc` is `*si`, and
`rq`, `rs` are their `uint8` residue indices. -/
def compare_column (oob : Nat → Nat → Int) (qc sc i : Nat) (st : update_state) :
    update_state :=
  { st with s := { st.s with
    m_identical := if qc = sc then st.s.m_identical + 1 else st.s.m_identical,
    m_similar :=
      if (0 : Int) ≤ (uint8 (kResidueIX qc) : Int) ∧ (0 : Int) ≤ (uint8 (kResidueIX sc) : Int) ∧
          0 ≤ kD oob (uint8 (kResidueIX qc)) (uint8 (kResidueIX sc)) then st.s.m_similar + 1
      else st.s.m_similar,
    m_begin := if st.s.m_begin = UINT32_MAX then i else st.s.m_begin,
    m_end := i + 1 } }

/-- The end of the loop body of `update` (from `if (*qi == *si)` on), reached on columns
where the row has no gap: the two validity tests `if (rq == -1) THROW` and
`if (rs == -1) THROW` on the `uint8` variables `rq` and `rs`, compared as `int`, around
the counting statements. -/
def update_tail (oob : Nat → Nat → Int) (qc sc i : Nat) (st : update_state) :
    Except Error update_state :=
  if (uint8 (kResidueIX qc) : Int) = -1 then .error (.invalid_letter qc)
  else if (uint8 (kResidueIX sc) : Int) = -1 then .error (.invalid_letter sc)
  else .ok (compare_column oob qc sc i st)

/-- The statement `if (length > 0) ++length;` ("only update alignment length when we have
started"). -/
def count_length (st : update_state) : update_state :=
  { st with length := if st.length > 0 then st.length + 1 else st.length }

/-- The branch `if (sgap)` of the loop body: a deletion column. -/
def deletion_column (st : update_state) : update_state :=
  { st with
    gaps := if !(st.sgapf || st.qgapf) then st.gaps + 1 else st.gaps,
    sgapf := true, gapn := st.gapn + 1, ipos := st.ipos + 1 }

/-- The block `if (not qgapf)` of the branch `else if (qgap)`: look back from `si - 1` for
the residue before the insertion, lower-case it and start the insertion record. -/
def open_insertion (i : Nat) (st : update_state) : Except Error update_state :=
  if !st.qgapf then
    if st.s.m_seq + i = 0 then .error .memory else
    match gsi_scan st.s.m_data st.s.m_seq (st.s.m_seq + i - 1) with
    | none => .error .memory
    | some p =>
      .ok { st with
        s := { st.s with m_data := st.s.m_data.set p (tolower (st.s.m_data.getD p 0)) },
        ins := { m_ipos := st.ipos, m_jpos := st.jpos,
                 m_seq := [tolower (st.s.m_data.getD p 0)] } }
  else .ok st

/-- The rest of the branch `else if (qgap)`: an insertion column holding `sc`. -/
def insertion_column (sc : Nat) (st : update_state) : update_state :=
  { st with
    ins := { st.ins with m_seq := st.ins.m_seq ++ [sc] },
    gaps := if !(st.sgapf || st.qgapf) then st.gaps + 1 else st.gaps,
    qgapf := true, gapn := st.gapn + 1, jpos := (st.jpos + 1) % 2 ^ 32 }

/-- The block `if (qgapf)` of the last branch: the residue `sc` at column `i` closes an
insertion, is lower-cased and ends the insertion record, which is stored. -/
def close_insertion (sc i : Nat) (st : update_state) : update_state :=
  if st.qgapf then
    { st with
      s := { st.s with
        m_data := st.s.m_data.set (st.s.m_seq + i) (tolower sc),
        m_insertions := st.s.m_insertions ++
          [{ st.ins with m_seq := st.ins.m_seq ++ [tolower sc] }] },
      ins := { st.ins with m_seq := st.ins.m_seq ++ [tolower sc] } }
  else st

/-- The value of `*si` after the block `if (qgapf)`. -/
def closed_char (sc : Nat) (st : update_state) : Nat := if st.qgapf then tolower sc else sc

/-- The rest of the last branch (from `sgapf = false` on): a matched column. -/
def matched_column (st : update_state) : update_state :=
  { st with
    s := { st.s with
      m_ilas := st.ipos,
      m_ifir := if st.s.m_ifir = 0 then st.ipos else st.s.m_ifir,
      m_gapn := if st.s.m_ifir = 0 then st.s.m_gapn else st.s.m_gapn + st.gapn,
      m_gaps := if st.s.m_ifir = 0 then st.s.m_gaps else st.s.m_gaps + st.gaps,
      m_length := if st.s.m_ifir = 0 then st.s.m_length else st.length },
    sgapf := false, qgapf := false,
    length := if st.s.m_ifir = 0 then 1 else st.length,
    gaps := 0, gapn := 0,
    ipos := st.ipos + 1, jpos := (st.jpos + 1) % 2 ^ 32 }

/-- One pass through the loop body of `update`, for column `i` with query character
`qc`. -/
def update_column (oob : Nat → Nat → Int) (qc i : Nat) (st : update_state) :
    Except Error update_state :=
  match st.s.m_data[st.s.m_seq + i]? with
  | none => .error .memory
  | some sc =>
    if is_gap qc && is_gap sc then .ok st
    else if is_gap sc then .ok (deletion_column (count_length st))
    else if is_gap qc then
      match open_insertion i (count_length st) with
      | .error e => .error e
      | .ok st1 => update_tail oob qc sc i (insertion_column sc st1)
    else
      update_tail oob qc (closed_char sc st) i
        (matched_column (close_insertion sc i (count_length st)))

/-- The loop `for (; qi != qseq.end(); ++qi, ++si, ++i)` of `update` over the remaining
query characters, from column `i` on. -/
def update_loop (oob : Nat → Nat → Int) : Str → Nat → update_state →
    Except Error update_state
  | [], _, st => .ok st
  | qc :: qs, i, st =>
    match update_column oob qc i st with
    | .error e => .error e
    | .ok st1 => update_loop oob qs (i + 1) st1

/-- The loop `for (i = 0; i < m_size; ++i)` at the end of `update`, over the characters
of the row from column `i` on: blank outside `[b, e)`, gaps inside become `.`. -/
def normalize (b e : Nat) : Nat → Str → Str
  | _, [] => []
  | i, c :: cs =>
    (if i < b ∨ i ≥ e then 32 else if is_gap c then 46 else c) :: normalize b e (i + 1) cs

/-- The statements of `update` after the loop over the query. -/
def update_finish (s : seq) : Except Error seq :=
  let score := (s.m_identical, s.m_length)
  if s.m_begin = UINT32_MAX then
    .ok { s with m_begin := 0, m_end := 0, m_score := score }
  else if ¬ (s.m_begin ≤ s.m_size) then .error .assertion
  else if ¬ (s.m_end ≤ s.m_size) then .error .assertion
  else if s.m_data.length < s.m_seq + s.m_size then .error .memory
  else
    .ok { s with
      m_data := s.m_data.take s.m_seq ++ normalize s.m_begin s.m_end 0 s.chars
        ++ s.m_data.drop (s.m_seq + s.m_size),
      m_score := score }

/-- The state of `update` on entry of its loop. -/
def update_init (s : seq) : update_state :=
  { s := { s with m_begin := UINT32_MAX, m_end := 0 },
    ipos := 1, jpos := if s.m_jfir = 0 then 1 else s.m_jfir,
    sgapf := false, qgapf := false, gapn := 0, gaps := 0,
    ins := { m_ipos := 0, m_jpos := 0, m_seq := [] }, length := 0 }

/-- The method `seq::seq_impl::update`: `s` is the row (`*this`), `qseq` the query. The
counters other than `jpos` stay below the row width and are not reduced modulo `2^32`. -/
def seq.update (oob : Nat → Nat → Int) (qseq s : seq) : Except Error seq :=
  if qseq.m_data.length < qseq.m_seq + qseq.m_size then .error .memory else
  match update_loop oob qseq.chars 0 (update_init s) with
  | .error e => .error e
  | .ok st => update_finish st.s

/-- A row holding `text` after one `append` on a fresh `seq`, as the readers build it. -/
def row (id text : String) : Except Error seq :=
  match seq.new (str id) with
  | .error e => .error e
  | .ok s => s.append (str text)

/-- The call `ba::starts_with(text, p)`. -/
def starts_with : Str → Str → Bool
  | _, [] => true
  | [], _ :: _ => false
  | c :: text, d :: p => c == d && starts_with text p

/-- The call `text.find(needle)`: the position of the first occurrence, `none` for
`string::npos`. -/
def find (needle : Str) : Str → Option Nat
  | [] => if needle = [] then some 0 else none
  | c :: text =>
    if starts_with (c :: text) needle then some 0
    else match find needle text with
      | some k => some (k + 1)
      | none => none

/-- White space as `ba::trim` sees it in the "C" locale. -/
def is_space (c : Nat) : Bool := c == 32 || (9 ≤ c && c ≤ 13)

/-- The call `ba::trim(id)`. -/
def trim (id : Str) : Str := ((id.dropWhile is_space).reverse.dropWhile is_space).reverse

/-- Whether a text is `-i` followed by one or more digits and nothing else. -/
def is_iteration_suffix : Str → Bool
  | 45 :: 105 :: d :: ds => (d :: ds).all is_digit
  | _ => false

/-- The search of `regex_match(id, sm, "(.+?)-i(?:\\d+)$")` for the shortest non-empty
first group: `acc` is the part of the id already given to the group. -/
def match_iteration_from (acc : Str) : Str → Option Str
  | [] => none
  | c :: rest =>
    if is_iteration_suffix rest then some (acc ++ [c])
    else match_iteration_from (acc ++ [c]) rest

/-- The id of row 0 in `ReadStockholm`: `sm.str(1)` when the regex matches, else the
name as it stands. -/
def strip_iteration (id : Str) : Str :=
  match match_iteration_from [] id with
  | some g => g
  | none => id

/-- The non-gap characters of a text (`if (not is_gap(r)) qr += r`). -/
def non_gap (text : Str) : Str := text.filter (fun r => !is_gap r)

/-- The variables of the line loop of `ReadStockholm`. The variables `n` and `qseq` only
feed the `VERBOSE` message and the computation of `qr` and are left out. -/
structure stockholm_state where
  msa : mseq
  ix : Nat
  qr : Str
  deriving DecidableEq, Repr

/-- The line `# STOCKHOLM 1.0`. -/
def stockholm_tag : Str := str "# STOCKHOLM 1.0"

/-- The leading text `#=GF ID ` of the second line. -/
def gf_id_tag : Str := str "#=GF ID "

/-- The id of a `#=GS ` line: the text after the tag, up to `DE ` if that occurs, trimmed. -/
def gs_id (line : Str) : Str :=
  match find [68, 69, 32] (line.drop 5) with             -- "DE "
  | some s => trim ((line.drop 5).take s)
  | none => trim (line.drop 5)

/-- The statement `if (msa.size() > 1 or msa.front().id() != id) msa.push_back(seq(id));`
of the `#=GS ` branch. -/
def declare_row (id : Str) (front : seq) (st : stockholm_state) :
    Except Error stockholm_state :=
  if st.msa.length > 1 ∨ front.m_id ≠ id then
    match seq.new id with
    | .error e => .error e
    | .ok s => .ok { st with msa := st.msa ++ [s] }
  else .ok st

/-- The statement `if (ix >= msa.size()) msa.push_back(seq(id));` for the incremented
`ix`. -/
def grow_msa (id : Str) (ix : Nat) (msa : mseq) : Except Error mseq :=
  if ix ≥ msa.length then
    match seq.new id with
    | .error e => .error e
    | .ok s => .ok (msa ++ [s])
  else .ok msa

/-- The statement `if (ix < msa.size() and id != msa[ix].id()) THROW(...)`. -/
def check_id (id : Str) (ix : Nat) (msa : mseq) : Except Error Unit :=
  match msa[ix]? with
  | some r => if id ≠ r.m_id then .error (.id_mismatch id r.m_id) else .ok ()
  | none => .ok ()

/-- The statement `if (id == msa[0].id()) ... else ...` of a sequence line: the row index
`ix` for the line, with the rows and `qr` brought up to date. -/
def select_row (id sseq : Str) (front : seq) (st : stockholm_state) :
    Except Error stockholm_state :=
  if id = front.m_id then .ok { st with ix := 0, qr := st.qr ++ non_gap sseq }
  else
    match grow_msa id (st.ix + 1) st.msa with
    | .error e => .error e
    | .ok msa =>
      match check_id id (st.ix + 1) msa with
      | .error e => .error e
      | .ok _ => .ok { st with msa := msa, ix := st.ix + 1 }

/-- The statement `if (ix < msa.size()) msa[ix].append(sseq);`. -/
def append_row (sseq : Str) (st : stockholm_state) : Except Error stockholm_state :=
  match st.msa[st.ix]? with
  | some r =>
    match r.append sseq with
    | .error e => .error e
    | .ok r1 => .ok { st with msa := st.msa.set st.ix r1 }
  | none => .ok st

/-- The branch `if (line[0] != '#')` of the line loop: a line `<id> <sequence>`. -/
def sequence_line (line : Str) (front : seq) (st : stockholm_state) :
    Except Error stockholm_state :=
  match find [32] line with
  | none => .error .invalid_stockholm
  | some s =>
    match select_row (line.take s) ((line.drop s).dropWhile (fun c => c == 32)) front st with
    | .error e => .error e
    | .ok st1 => append_row ((line.drop s).dropWhile (fun c => c == 32)) st1

/-- The body of the line loop of `ReadStockholm` for a non-empty line other than `//`. -/
def stockholm_line (line : Str) (st : stockholm_state) : Except Error stockholm_state :=
  match st.msa with
  | [] => .error .memory
  | front :: _ =>
    if starts_with line [35, 61, 71, 83, 32] then         -- "#=GS "
      declare_row (gs_id line) front st
    else if line.head? ≠ some 35 then                    -- line[0] != '#'
      sequence_line line front st
    else .ok st

/-- The line loop `for (;;)` of `ReadStockholm` on the lines still to be read. -/
def stockholm_body : List Str → stockholm_state → Except Error stockholm_state
  | [], _ => .error .truncated
  | line :: rest, st =>
    if line = [] then stockholm_body rest st
    else if line = [47, 47] then .ok st                  -- "//"
    else
      match stockholm_line line st with
      | .error e => .error e
      | .ok st1 => stockholm_body rest st1

/-- The first part of `ReadStockholm`, up to the test on the number of rows: the rows as
parsed and the raw query `qr`. -/
def stockholm_parse (is : List Str) : Except Error (mseq × Str) :=
  match is with
  | [] => .error .not_stockholm
  | line1 :: rest =>
    if line1 ≠ stockholm_tag then .error .not_stockholm else
    match rest with
    | [] => .error .missing_gf_id
    | line2 :: body =>
      if !starts_with line2 gf_id_tag then .error .missing_gf_id else
      match seq.new (strip_iteration (line2.drop 8)) with
      | .error e => .error e
      | .ok s0 =>
        match stockholm_body body { msa := [s0], ix := 0, qr := [] } with
        | .error e => .error e
        | .ok st =>
          if st.msa.length < 2 then .error .insufficient_sequences
          else .ok (st.msa, st.qr)

/-- The two counting loops of the readers, `if (is_gap(*r) or offset-- > 0)` and
`if (is_gap(*r) or length-- > 0)`: from the characters at `r` on, count the columns
passed until a residue is met with the counter `k` at zero. Returns the count and the
characters from the final `r` on. -/
def count_columns : Str → Nat → Nat → Nat × Str
  | [], _, cnt => (cnt, [])
  | c :: cs, k, cnt =>
    if is_gap c then count_columns cs k (cnt + 1)
    else if k > 0 then count_columns cs (k - 1) (cnt + 1)
    else (cnt, c :: cs)

/-- The loop `foreach (seq& s, msa) s.cut(pos, n)`. -/
def cut_all (pos n : Nat) : mseq → Except Error mseq
  | [] => .ok []
  | s :: rest =>
    match s.cut pos n with
    | .error e => .error e
    | .ok s1 =>
      match cut_all pos n rest with
      | .error e => .error e
      | .ok rest1 => .ok (s1 :: rest1)

/-- The block "first cut the msa, if needed" of both readers; `qr` is the raw query. -/
def crop (msa : mseq) (qr q : Str) : Except Error mseq :=
  if q ≠ [] ∧ q ≠ qr then
    if qr.length < q.length then .error .query_too_short
    else
      match find q qr with
      | none => .error .query_not_found
      | some offset =>
        match msa with
        | [] => .error .memory
        | front :: _ =>
          if front.m_data.length < front.m_seq + front.m_size then .error .memory else
          let skipped := count_columns front.chars offset 0
          let kept := count_columns skipped.2 q.length 0
          cut_all skipped.1 kept.1 msa
  else .ok msa

/-- The updates `seq::update(_1, msa.front())` of the rows after the first. -/
def update_rows (oob : Nat → Nat → Int) (front : seq) : mseq → Except Error mseq
  | [] => .ok []
  | s :: rest =>
    match seq.update oob front s with
    | .error e => .error e
    | .ok s1 =>
      match update_rows oob front rest with
      | .error e => .error e
      | .ok rest1 => .ok (s1 :: rest1)

/-- The block "update seq counters" of both readers. -/
def update_homologs (oob : Nat → Nat → Int) (msa : mseq) : Except Error mseq :=
  match msa with
  | [] => .error .memory
  | front :: rest =>
    match update_rows oob front rest with
    | .error e => .error e
    | .ok rest1 => .ok (front :: rest1)

/-- The function `ReadStockholm(is, msa, q)` called with an empty `msa`, as all its
callers do; the result is the final `msa`. -/
def ReadStockholm (oob : Nat → Nat → Int) (is : List Str) (q : Str) : Except Error mseq :=
  match stockholm_parse is with
  | .error e => .error e
  | .ok (msa, qr) =>
    match crop msa qr q with
    | .error e => .error e
    | .ok msa1 => update_homologs oob msa1

/-- The method `seq::length()`: `m_end - m_begin` in `uint32`. -/
def seq.length (s : seq) : Nat := (s.m_end + 2 ^ 32 - s.m_begin % 2 ^ 32) % 2 ^ 32

/-- The line loop of `ReadFastA` on the lines still to be read. -/
def fasta_body : List Str → mseq → Except Error mseq
  | [], msa => .ok msa
  | line :: rest, msa =>
    if line = [] then fasta_body rest msa
    else if line.head? = some 62 then                    -- line[0] == '>'
      match seq.new ((line.drop 1).takeWhile (fun c => c != 32)) with
      | .error e => .error e
      | .ok s => fasta_body rest (msa ++ [s])
    else
      match msa.getLast? with
      | none => .error .memory
      | some back =>
        match back.append line with
        | .error e => .error e
        | .ok back1 => fasta_body rest (msa.dropLast ++ [back1])

/-- The first part of `ReadFastA`, up to the tests on the number of rows and on their
lengths: the rows as parsed. -/
def fasta_parse (is : List Str) : Except Error mseq :=
  match fasta_body is [] with
  | .error e => .error e
  | .ok msa =>
    match msa with
    | [] => .error .too_few_sequences
    | [_] => .error .too_few_sequences
    | front :: rest =>
      if rest.any (fun s => s.length != front.length) then .error .not_same_length
      else .ok msa

/-- The function `ReadFastA(is, msa, q)` called with an empty `msa`. -/
def ReadFastA (oob : Nat → Nat → Int) (is : List Str) (q : Str) : Except Error mseq :=
  match fasta_parse is with
  | .error e => .error e
  | .ok msa =>
    match msa with
    | [] => .error .memory
    | front :: _ =>
      match crop msa (non_gap front.chars) q with
      | .error e => .error e
      | .ok msa1 => update_homologs oob msa1

/-- A lookup outside the similarity matrix that reads `0`. -/
def oob_zero : Nat → Nat → Int := fun _ _ => 0

/-- A small Stockholm file: the query row `test` and one homolog `B` with an insertion. -/
def sample_lines : List Str :=
  [str "# STOCKHOLM 1.0", str "#=GF ID test-i3", str "test AC-DE", str "B ACCDE", str "//"]

/-- The rows that `ReadStockholm` builds from `sample_lines`. -/
def sample_rows : mseq :=
  [ { seq_impl (str "test") with
      m_id2 := str "test", m_data := str "AC-DE", m_size := 5, m_end := 5, m_space := 1024 },
    { seq_impl (str "B") with
      m_id2 := str "B", m_data := str "AcCdE", m_size := 5, m_end := 5, m_space := 1024,
      m_ifir := 1, m_ilas := 4, m_identical := 3, m_similar := 5, m_length := 5,
      m_score := (3, 5), m_gaps := 1, m_gapn := 1,
      m_insertions := [{ m_ipos := 3, m_jpos := 3, m_seq := str "cCd" }] } ]

/-- Loop invariant of `update` on the span: before column `i`, either no column was
compared yet or `m_begin < m_end`, and `m_end ≤ i`. -/
def span_inv (i : Nat) (s : seq) : Prop :=
  (s.m_begin = UINT32_MAX ∨ s.m_begin < s.m_end) ∧ s.m_end ≤ i

/-- Span of a row that was built by `append` (and `cut`) only. -/
def fresh_span (s : seq) : Prop := s.m_begin = 0 ∧ s.m_end ≤ s.m_size

/-- The call `s.update(q)` for two rows built like the readers build them: one `append`
of the text on a fresh `seq`. -/
def update_text (oob : Nat → Nat → Int) (q s : String) : Except Error seq :=
  match row "Q" q, row "S" s with
  | .ok qseq, .ok sseq => seq.update oob qseq sseq
  | .error e, _ => .error e
  | _, .error e => .error e

/-- The identity count in the words of the specification: the number of columns in which
both rows hold a residue (neither is a gap) and the character of the homolog, as parsed,
equals that of the query. -/
def identical_columns : Str → Str → Nat
  | qc :: q, sc :: s =>
    (if !is_gap qc && !is_gap sc && qc == sc then 1 else 0) + identical_columns q s
  | _, _ => 0

/-- The Stockholm file of the scenario of the specification: the `#=GF ID` name is
`test-i3` and the two rows are named `A` and `B`. -/
def scenario_lines : List Str :=
  [str "# STOCKHOLM 1.0", str "#=GF ID test-i3", str "A AC-DE", str "B ACCDE", str "//"]

/-- A Stockholm file whose homolog row `B` is wider than its query row `test`. -/
def ragged_lines : List Str :=
  [str "# STOCKHOLM 1.0", str "#=GF ID test", str "test A", str "B AC", str "//"]

/-- The homolog row `A--D` as the readers build it. -/
def sample_deletion_row : seq :=
  { seq_impl (str "S") with
    m_id2 := str "S", m_data := str "A--D", m_size := 4, m_end := 4, m_space := 1024 }

/-- The state of `update` on `sample_deletion_row` after its first column, matched with
the `A` of the query row `ABCD`. -/
def sample_deletion_state : update_state :=
  { s := { sample_deletion_row with
      m_begin := 0, m_end := 1, m_ifir := 1, m_ilas := 1, m_identical := 1, m_similar := 1 },
    ipos := 2, jpos := 2, sgapf := false, qgapf := false, gapn := 0, gaps := 0,
    ins := { m_ipos := 0, m_jpos := 0, m_seq := [] }, length := 1 }

/-- What the body of the loop at column `i` leaves alone: the offset and the length of
the storage, every byte above column `i`, and the sign of `ipos`. -/
def column_frame (i : Nat) (st st1 : update_state) : Prop :=
  st1.s.m_seq = st.s.m_seq ∧ st1.s.m_data.length = st.s.m_data.length ∧
    (∀ j, st.s.m_seq + i < j → st1.s.m_data[j]? = st.s.m_data[j]?) ∧
    (1 ≤ st.ipos → 1 ≤ st1.ipos)

/-- A row as the line loops of the readers leave it: the row starts at the start of its
storage, all of the storage written so far belongs to it, and its span is the whole
row. -/
def parsed_row (s : seq) : Prop :=
  s.m_seq = 0 ∧ s.m_data.length = s.m_size ∧ s.m_begin = 0 ∧ s.m_end = s.m_size ∧
    s.m_space < 2 ^ 32

/-- Invariant of the line loop of `ReadStockholm`: every row is as parsed, there is a
row 0, and `qr` holds the non-gap characters of row 0. -/
def stockholm_inv (st : stockholm_state) : Prop :=
  (∀ s ∈ st.msa, parsed_row s) ∧
    ∃ front rest, st.msa = front :: rest ∧ st.qr = non_gap front.m_data

/-- How a row `r` that a reader returns relates to the row `r0` it parsed when the rows
were cut to the window of `n` columns from column `pos` on: same id, and the row now
starts `pos` bytes further in its storage and has `n` columns. -/
def cut_to (pos n : Nat) (r0 r : seq) : Prop :=
  r.m_id = r0.m_id ∧ r.m_seq = r0.m_seq + pos ∧ r.m_size = n

/-- A Stockholm file in which the query row `test` is `-ACDEF-G`. -/
def window_stockholm : List Str :=
  [str "# STOCKHOLM 1.0", str "#=GF ID test", str "test -ACDEF-G", str "B ACCD-FGG", str "//"]

/-- The same alignment as a FASTA file. -/
def window_fasta : List Str :=
  [str ">test", str "-ACDEF-G", str ">B", str "ACCD-FGG"]

/-- The query row that both readers parse from these files. -/
def window_query : seq :=
  { seq_impl (str "test") with
    m_id2 := str "test", m_data := str "-ACDEF-G", m_size := 8, m_end := 8, m_space := 1024 }

/-- The homolog row that both readers parse from these files. -/
def window_homolog : seq :=
  { seq_impl (str "B") with
    m_id2 := str "B", m_data := str "ACCD-FGG", m_size := 8, m_end := 8, m_space := 1024 }

/-- Capacity of a row between two calls of `append`: the row fits its storage, and the
storage is empty or at least two blocks and at most twice the row. -/
def cap_ok (s : seq) : Prop :=
  s.m_size ≤ s.m_space ∧ (s.m_space = 0 ∨ 1024 ≤ s.m_space) ∧
    s.m_space ≤ max 1024 (2 * s.m_size)

/-- The row with the id `id` holds the text `text` and was built by `append` only. -/
def holds (id text : Str) (s : seq) : Prop :=
  parsed_row s ∧ cap_ok s ∧ s.m_id = id ∧ s.m_data = text

/-- A sequence line of a Stockholm file: `<id> <sequence-fragment>`. -/
def seq_line (id frag : Str) : Str := id ++ 32 :: frag

/-- An id that can name a row of a Stockholm file: it holds no space, does not start
with `#`, and the constructor `seq::seq` accepts it (a `/start-end` range at its end
fits 32 bits). -/
def row_id (id : Str) : Prop :=
  32 ∉ id ∧ id.head? ≠ some 35 ∧ ∃ s, seq.new id = .ok s

/-- The loop body of `ReadStockholm` run over some lines. -/
def run_lines : List Str → stockholm_state → Except Error stockholm_state
  | [], st => .ok st
  | line :: rest, st =>
    match stockholm_line line st with
    | .error e => .error e
    | .ok st1 => run_lines rest st1

/-- A character and what `update` may have made of it by lower-casing. -/
def case_variant (c c1 : Nat) : Prop := c1 = c ∨ c1 = tolower c

/-- Two characters that are both gaps, or the same residue letter up to case. -/
def same_letter (c c1 : Nat) : Prop :=
  (is_gap c = true ∧ is_gap c1 = true) ∨ (is_gap c = false ∧ case_variant c c1)

/-- The residue letters of a text, ignoring case. -/
def letters (text : Str) : Str := (non_gap text).map tolower

/-- Loop invariant of `update` on the characters of the row whose storage was `data0`
on entry, at offset `o`: every byte is what it was up to case, and every column before
`i` that holds a residue lies inside the span found so far. -/
def letters_inv (data0 : Str) (o i : Nat) (st : update_state) : Prop :=
  (∀ (j c : Nat), data0[j]? = some c → ∃ c1, st.s.m_data[j]? = some c1 ∧ case_variant c c1) ∧
  (∀ (j c : Nat), j < i → data0[o + j]? = some c → is_gap c = false →
    st.s.m_begin ≠ UINT32_MAX ∧ st.s.m_begin ≤ j ∧ j < st.s.m_end)

/-- The lines of block `b` of a Stockholm file: the line of the query with its `b`-th
fragment, then one line for every homolog with its `b`-th fragment. -/
def block_lines (qid : Str) (qfrags : List Str) (homologs : List (Str × List Str))
    (b : Nat) : List Str :=
  seq_line qid (qfrags.getD b []) :: homologs.map (fun h => seq_line h.1 (h.2.getD b []))

/-- A Stockholm file made of the two header lines, one block for every fragment of the
query, and the final `//`. A homolog is its id with its list of fragments. -/
def stockholm_file (name qid : Str) (qfrags : List Str) (homologs : List (Str × List Str)) :
    List Str :=
  stockholm_tag :: (gf_id_tag ++ name) ::
    ((List.range qfrags.length).flatMap (block_lines qid qfrags homologs) ++ [[47, 47]])

/-- The fragments of a row of `w` columns that the parser takes in as they are: no
fragment starts with a space (the parser skips the spaces after the id), every fragment
after the first has at most 1024 characters (two blocks of storage), and the fragments
add up to `w` characters. -/
def fragments_ok (frags : List Str) (w : Nat) : Prop :=
  (∀ b, (frags.getD b []).head? ≠ some 32) ∧
    (∀ b, 1 ≤ b → (frags.getD b []).length ≤ 1024) ∧ frags.flatten.length = w

/-! ## Floating-point values, `seq::drop` and the ranking of hits -/

/-- Equality of two results of type `Except` can be decided. -/
instance instDecidableEqExcept {ε α : Type} [DecidableEq ε] [DecidableEq α] :
    DecidableEq (Except ε α) := fun a b =>
  match a, b with
  | .ok x, .ok y =>
    if h : x = y then isTrue (by rw [h]) else isFalse (fun e => h (by cases e; rfl))
  | .error x, .error y =>
    if h : x = y then isTrue (by rw [h]) else isFalse (fun e => h (by cases e; rfl))
  | .ok _, .error _ => isFalse (fun e => by cases e)
  | .error _, .ok _ => isFalse (fun e => by cases e)

/-- A value of type `float` or `double`. A finite value is kept exactly, as a rational
number: rounding is not modelled. `nan`, `pinf` and `ninf` are the IEEE 754 values "not a
number" and plus and minus infinity, which a division by zero produces. -/
inductive flt where
  | nan
  | ninf
  | fin (q : ℚ)
  | pinf
  deriving DecidableEq

/-- The comparison `a < b` of two floating-point values: false when either is `nan`. -/
def flt.lt : flt → flt → Bool
  | .nan, _ => false
  | _, .nan => false
  | .ninf, .ninf => false
  | .ninf, _ => true
  | .fin _, .ninf => false
  | .fin a, .fin b => decide (a < b)
  | .fin _, .pinf => true
  | .pinf, _ => false

/-- The comparison `a == b` of two floating-point values: false when either is `nan`. -/
def flt.eq : flt → flt → Bool
  | .nan, _ => false
  | _, .nan => false
  | .ninf, .ninf => true
  | .fin a, .fin b => decide (a = b)
  | .pinf, .pinf => true
  | _, _ => false

/-- The comparison `a <= b` of two floating-point values. -/
def flt.le (a b : flt) : Bool := flt.lt a b || flt.eq a b

/-- The sum `a + b` of two floating-point values. -/
def flt.add : flt → flt → flt
  | .nan, _ => .nan
  | _, .nan => .nan
  | .ninf, .pinf => .nan
  | .pinf, .ninf => .nan
  | .ninf, _ => .ninf
  | _, .ninf => .ninf
  | .pinf, _ => .pinf
  | _, .pinf => .pinf
  | .fin a, .fin b => .fin (a + b)

/-- The quotient `float(a) / float(b)` of two `uint32` values: `0/0` is `nan` and `a/0`
is plus infinity for a positive `a`. -/
def float_div (a b : Nat) : flt :=
  if b = 0 then (if a = 0 then .nan else .pinf) else .fin ((a : ℚ) / (b : ℚ))

/-- The table `kHomologyThreshold` ("precalculated threshold table for identity values
between 10 and 80"). -/
def kHomologyThreshold : List ℚ := [
  0.795468, 0.75398, 0.717997, 0.686414, 0.658413, 0.633373, 0.610811,
  0.590351, 0.571688, 0.554579, 0.53882, 0.524246, 0.510718, 0.498117,
  0.486344, 0.475314, 0.464951, 0.455194, 0.445984, 0.437275, 0.429023,
  0.421189, 0.413741, 0.406647, 0.399882, 0.39342, 0.38724, 0.381323,
  0.375651, 0.370207, 0.364976, 0.359947, 0.355105, 0.35044, 0.345941,
  0.341599, 0.337406, 0.333352, 0.329431, 0.325636, 0.32196, 0.318396,
  0.314941, 0.311587, 0.308331, 0.305168, 0.302093, 0.299103, 0.296194,
  0.293362, 0.290604, 0.287917, 0.285298, 0.282744, 0.280252, 0.277821,
  0.275448, 0.273129, 0.270865, 0.268652, 0.266488, 0.264372, 0.262302,
  0.260277, 0.258294, 0.256353, 0.254452, 0.252589, 0.250764, 0.248975,
  0.247221]

/-- The accessor `seq::score()`: the `float` that `update` stores, `float(m_identical) /
m_length`, and `0` for a row that was never updated. -/
def seq.score (s : seq) : flt := float_div s.m_score.1 s.m_score.2

/-- The method `seq::drop` without its `VERBOSE` message. A read past the end of
`kHomologyThreshold` is a `memory` error. -/
def seq.drop (s : seq) (inThreshold : flt) : Except Error Bool :=
  match kHomologyThreshold[max 10 (min s.m_length 80) - 10]? with
  | none => .error .memory
  | some t => .ok (flt.lt s.score (flt.add (.fin t) inThreshold))

/-- The function `clamp(x, lo, hi)` in the words of the specification. -/
def clamp (x lo hi : Nat) : Nat := if x < lo then lo else if hi < x then hi else x

/-- The comparison `a < b` of two `std::string`s: lexicographic on the bytes. -/
def string_lt : Str → Str → Bool
  | [], [] => false
  | [], _ :: _ => true
  | _ :: _, [] => false
  | a :: as, b :: bs => decide (a < b) || (a == b && string_lt as bs)

/-- The struct `Hit`. The references `m_seq` and `m_qseq` are modelled by the rows they
refer to. -/
structure Hit where
  m_seq : seq
  m_qseq : seq
  m_chain : Nat
  m_nr : Nat
  m_ifir : Nat
  m_ilas : Nat
  m_offset : Nat
  m_ide : flt
  m_wsim : flt
  deriving DecidableEq

/-- The constructor `Hit::Hit` (the databank is not used by it). -/
def Hit.new (s q : seq) (chain offset : Nat) : Hit :=
  { m_seq := s, m_qseq := q, m_chain := chain, m_nr := 0,
    m_ifir := (s.m_ifir + offset) % 2 ^ 32, m_ilas := (s.m_ilas + offset) % 2 ^ 32,
    m_offset := offset,
    m_ide := float_div s.m_identical s.m_length,
    m_wsim := float_div s.m_similar s.m_length }

/-- The operator `Hit::operator<`; `a.lt rhs` is `a < rhs`, "`a` ranks before `rhs`". -/
def Hit.lt (a rhs : Hit) : Bool :=
  flt.lt rhs.m_ide a.m_ide ||
    (flt.eq a.m_ide rhs.m_ide && decide (a.m_seq.m_length > rhs.m_seq.m_length)) ||
    (flt.eq a.m_ide rhs.m_ide && decide (a.m_seq.m_length = rhs.m_seq.m_length) &&
      string_lt rhs.m_seq.m_id2 a.m_seq.m_id2)

/-- One step of the insertion sort that stands for `std::sort`: `h` goes in front of the
first element that does not rank before it. -/
def insert_hit (h : Hit) : List Hit → List Hit
  | [] => [h]
  | x :: xs => if x.lt h then x :: insert_hit h xs else h :: x :: xs

/-- The call `sort(hits.begin(), hits.end(), compare_hit())`. The C++ standard fixes what
`std::sort` returns only for a comparison that is a strict weak ordering, and then only
up to the order of equivalent elements; the algorithm is that of the library. It is
modelled by an insertion sort. -/
def sort_hits (hits : List Hit) : List Hit := hits.foldr insert_hit []

/-- The loop `foreach (hit_ptr h, hits) h->m_nr = nr++` for a `uint32 nr`. -/
def number_hits : Nat → List Hit → List Hit
  | _, [] => []
  | nr, h :: hs => { h with m_nr := nr } :: number_hits ((nr + 1) % 2 ^ 32) hs

/-- The hits that the ranking step of `CreateHSSP` erases, `[begin + inMaxHits, end)` of
the sorted list. -/
def discarded_hits (inMaxHits : Nat) (hits : List Hit) : List Hit :=
  if (sort_hits hits).length > inMaxHits then (sort_hits hits).drop inMaxHits else []

/-- The ranking step of `CreateHSSP`: sort, `erase` from `inMaxHits` on, number. -/
def rank_hits (inMaxHits : Nat) (hits : List Hit) : List Hit :=
  number_hits 1
    (if (sort_hits hits).length > inMaxHits then (sort_hits hits).take inMaxHits
     else sort_hits hits)


/-- Place of a floating-point value that is not `nan` in the order of the extended
reals. -/
def flt.rank : flt → ℤ ×ₗ ℚ
  | .nan => toLex (-2, 0)
  | .ninf => toLex (-1, 0)
  | .fin q => toLex (0, q)
  | .pinf => toLex (1, 0)

/-- The three values that `Hit::operator<` compares, as one key in their lexicographic
order. -/
def Hit.key (h : Hit) : (ℤ ×ₗ ℚ) ×ₗ ℕ ×ₗ List ℕ :=
  toLex (h.m_ide.rank, toLex (h.m_seq.m_length, h.m_seq.m_id2))

/-- A row with the identity 1/5 on an alignment of 5 columns. -/
def sample_weak_row : seq :=
  { seq_impl (str "W") with
    m_id2 := str "W", m_identical := 1, m_length := 5, m_score := (1, 5) }

/-- A row with the given secondary id, `identical` count and alignment length, as a hit
of chain `A`. -/
def sample_hit (id2 : String) (identical length : Nat) : Hit :=
  Hit.new { seq_impl (str id2) with
      m_id2 := str id2, m_identical := identical, m_length := length,
      m_score := (identical, length) }
    (seq_impl (str "Q")) 65 0

/-- Four hits in the order in which they are gathered: identities 1, 1/2, 0/0 and
9/10. -/
def sample_hits : List Hit :=
  [sample_hit "P1" 2 2, sample_hit "P2" 1 2, sample_hit "P3" 0 0, sample_hit "P4" 9 10]

/-! ## Conservation weights and the residue profile -/

/-- The accessor `seq::operator[]`: `assert(offset < m_size)`, then the byte at
`m_seq[offset]`. -/
def seq.char_at (s : seq) (offset : Nat) : Except Error Nat :=
  if ¬ offset < s.m_size then .error .assertion
  else
    match s.m_data[s.m_seq + offset]? with
    | none => .error .memory
    | some c => .ok c

/-- The value `numeric_limits<float>::min()`, the smallest positive normalised `float`;
`CalculateConservation` marks with it a column whose pair of residues has no similarity
value. -/
def kFloatMin : ℚ := 1 / 2 ^ 126

/-- The three vectors of a worker of `CalculateConservation`, all of the length of the
query row. The arithmetic on their `float` entries is exact. -/
structure conservation_state where
  sumvar : List ℚ
  sumdist : List ℚ
  simval : List ℚ
  deriving DecidableEq

/-- The variables `simval`, `len` and `agr` of the first loop over the columns of a pair
of rows. -/
structure pair_state where
  simval : List ℚ
  len : Nat
  agr : Nat
  deriving DecidableEq

/-- The body of the first loop over the columns `k` of a pair of rows `si`, `sj` in the
worker of `CalculateConservation`. A write outside the vector `simval` is a `memory`
error. -/
def compare_rows_column (oob : Nat → Nat → Int) (si sj : seq) (k : Nat) (st : pair_state) :
    Except Error pair_state :=
  match si.char_at k with
  | .error e => .error e
  | .ok ci =>
    if is_gap ci then .ok st else
    match sj.char_at k with
    | .error e => .error e
    | .ok cj =>
      if is_gap cj then .ok st else
      if k < st.simval.length then
        .ok { simval := st.simval.set k
                (if kResidueIX ci ≠ -1 ∧ kResidueIX cj ≠ -1 then
                  (kD oob (kResidueIX ci).toNat (kResidueIX cj).toNat : ℚ) / 10
                 else kFloatMin),
              len := st.len + 1,
              agr := if ci = cj then st.agr + 1 else st.agr }
      else .error .memory

/-- The first loop `for (uint32 k = b; k < e; ++k)` of a pair, over the columns `ks`. -/
def compare_rows (oob : Nat → Nat → Int) (si sj : seq) :
    List Nat → pair_state → Except Error pair_state
  | [], st => .ok st
  | k :: ks, st =>
    match compare_rows_column oob si sj k st with
    | .error e => .error e
    | .ok st1 => compare_rows oob si sj ks st1

/-- The second loop `for (uint32 k = b; k < e; ++k)` of a pair, over the columns `ks`:
every column whose `simval` is not the marker gets `distance * simval[k]` added to
`sumvar[k]` and `distance * 1.5f` to `sumdist[k]`. -/
def add_distance (distance : ℚ) :
    List Nat → conservation_state → Except Error conservation_state
  | [], st => .ok st
  | k :: ks, st =>
    match st.simval[k]?, st.sumvar[k]?, st.sumdist[k]? with
    | some v, some sv, some sd =>
      if v ≠ kFloatMin then
        add_distance distance ks
          { st with sumvar := st.sumvar.set k (sv + distance * v),
                    sumdist := st.sumdist.set k (sd + distance * (3 / 2)) }
      else add_distance distance ks st
    | _, _, _ => .error .memory

/-- The columns `b, b + 1, .., e - 1` of the two loops of a pair: the overlap of the
alignment spans of the two rows. -/
def overlap_columns (si sj : seq) : List Nat :=
  List.range' (max si.m_begin sj.m_begin)
    (min si.m_end sj.m_end - max si.m_begin sj.m_begin)

/-- The body of the loop over `j` in the worker of `CalculateConservation` for an
unpruned row `sj`: the pair `(si, sj)`. The vector `simval` is that of the worker; it is
not cleared between two pairs. -/
def conservation_pair (oob : Nat → Nat → Int) (si sj : seq) (st : conservation_state) :
    Except Error conservation_state :=
  match compare_rows oob si sj (overlap_columns si sj)
      { simval := st.simval, len := 0, agr := 0 } with
  | .error e => .error e
  | .ok p =>
    if p.len > 0 then
      add_distance (1 - (p.agr : ℚ) / (p.len : ℚ)) (overlap_columns si sj)
        { st with simval := p.simval }
    else .ok { st with simval := p.simval }

/-- The loop `for (uint32 j = i + 1; j < msa.size(); ++j)` of the worker, over the rows
after row `i`. -/
def conservation_row (oob : Nat → Nat → Int) (si : seq) :
    mseq → conservation_state → Except Error conservation_state
  | [], st => .ok st
  | sj :: rest, st =>
    if sj.m_pruned then conservation_row oob si rest st
    else
      match conservation_pair oob si sj st with
      | .error e => .error e
      | .ok st1 => conservation_row oob si rest st1

/-- The loop `for (;;)` of the worker over the row indices that it gets from the
buffer. -/
def conservation_rows (oob : Nat → Nat → Int) (msa : mseq) :
    List Nat → conservation_state → Except Error conservation_state
  | [], st => .ok st
  | i :: indices, st =>
    match msa[i]? with
    | none => .error .memory
    | some si =>
      if si.m_pruned then .error .assertion
      else
        match conservation_row oob si (msa.drop (i + 1)) st with
        | .error e => .error e
        | .ok st1 => conservation_rows oob msa indices st1

/-- The call `transform(sum.begin(), sum.end(), csum.begin(), csum.begin(),
plus<float>())`: every entry of `sum` is added to the entry of `csum` at its place. -/
def accumulate (sum csum : List ℚ) : Except Error (List ℚ) :=
  if sum.length ≤ csum.length then
    .ok (List.zipWith (fun a b => a + b) sum csum ++ csum.drop sum.length)
  else .error .memory

/-- The worker `CalculateConservation(msa, b, csumvar, csumdist)` on the row indices
`indices` that it gets from the buffer, one after the other: its own sums are computed
from vectors of zeros and then added to the shared `csumvar` and `csumdist`. -/
def conservation_worker (oob : Nat → Nat → Int) (msa : mseq) (indices : List Nat)
    (csum : List ℚ × List ℚ) : Except Error (List ℚ × List ℚ) :=
  match msa with
  | [] => .error .memory
  | s :: _ =>
    match conservation_rows oob msa indices
        { sumvar := List.replicate s.length 0, sumdist := List.replicate s.length 0,
          simval := List.replicate s.length 0 } with
    | .error e => .error e
    | .ok st =>
      match accumulate st.sumvar csum.1, accumulate st.sumdist csum.2 with
      | .ok csumvar, .ok csumdist => .ok (csumvar, csumdist)
      | _, _ => .error .memory

/-- The row indices that the driver of `CalculateConservation` puts in the buffer: every
`i` with `i + 1 < msa.size()` whose row is not pruned. -/
def conservation_indices (msa : mseq) : List Nat :=
  (List.range (msa.length - 1)).filter (fun i => !(msa.getD i (seq_impl [])).m_pruned)

/-- Modelled from the spec: the class `buffer` is not among the sources; it is "a shared
bounded queue (blocking get/put semantics)" from which the workers read row indices until
they see the sentinel. Every index that the driver puts is got by exactly one worker, and
a worker gets its indices in the order in which they were put: `parts` holds, for every
worker, the indices it gets. -/
def distributes (indices : List Nat) (parts : List (List Nat)) : Prop :=
  parts.flatten.Perm indices ∧ ∀ p ∈ parts, p.Sublist indices

/-- The workers of `CalculateConservation` one after the other (each adds its sums to
the shared vectors under the lock `sSumLock`), for the distribution `parts` of the row
indices. -/
def conservation_workers (oob : Nat → Nat → Int) (msa : mseq) :
    List (List Nat) → List ℚ × List ℚ → Except Error (List ℚ × List ℚ)
  | [], csum => .ok csum
  | p :: parts, csum =>
    match conservation_worker oob msa p csum with
    | .error e => .error e
    | .ok csum1 => conservation_workers oob msa parts csum1

/-- The first part of the driver `CalculateConservation(msa, res)`: the vectors `sumvar`
and `sumdist` after all workers were joined. -/
def conservation_sums (oob : Nat → Nat → Int) (msa : mseq) (parts : List (List Nat)) :
    Except Error (List ℚ × List ℚ) :=
  match msa with
  | [] => .error .memory
  | s :: _ =>
    conservation_workers oob msa parts
      (List.replicate s.length 0, List.replicate s.length 0)

/-- The struct `ResidueHInfo`. The field `entropy`, a `float` computed with `log`, is
left out; `consweight` is kept exactly. -/
structure ResidueHInfo where
  letter : Nat
  chain : Nat
  dssp : Str
  seqNr : Nat
  pdbNr : Int
  pos : Nat
  nocc : Nat
  ndel : Nat
  nins : Nat
  consweight : ℚ
  dist : List Nat
  deriving DecidableEq

/-- The first constructor `ResidueHInfo::ResidueHInfo(uint32 seqNr)`, "for a
'chain-break'". The members that it leaves uninitialised are given as zero. -/
def ResidueHInfo.chain_break (seqNr : Nat) : ResidueHInfo :=
  { letter := 0, chain := 0, dssp := [], seqNr := seqNr, pdbNr := 0, pos := 0,
    nocc := 1, ndel := 0, nins := 0, consweight := 1, dist := List.replicate 20 0 }

/-- The second constructor of `ResidueHInfo`. -/
def ResidueHInfo.new (a pos chain seqNr : Nat) (pdbNr : Int) (dssp : Str) : ResidueHInfo :=
  { letter := a, chain := chain, dssp := dssp, seqNr := seqNr, pdbNr := pdbNr, pos := pos,
    nocc := 1, ndel := 0, nins := 0, consweight := 1, dist := List.replicate 20 0 }

/-- Modelled from the spec: the class `MResidue` of `structure.h`, which is not among
the sources, as far as `ChainToHits` uses it: the collaborator exposes, "per residue, a
stable integer number and a formatted structural-descriptor substring" (the text
`ResidueToDSSPLine(r).substr(5, 34)`). -/
structure MResidue where
  number : Int
  dssp : Str
  deriving DecidableEq

/-- Modelled from the spec: the class `MChain` of `structure.h`, as far as `ChainToHits`
uses it: the chain identifier and the residue records. -/
structure MChain where
  id : Nat
  residues : List MResidue
  deriving DecidableEq

/-- The loop of `ChainToHits` that creates the hits, over the rows `msa[1 ..]`.
Modelled from the spec: the databank is "a sequence database provider exposing document
lookup by id"; `has_document id2` says whether `GetDocumentNr` finds the id. -/
def create_hits (has_document : Str → Bool) (q : seq) (chain offset : Nat) : mseq → List Hit
  | [] => []
  | s :: rest =>
    if has_document s.m_id2 then
      Hit.new s q chain offset :: create_hits has_document q chain offset rest
    else create_hits has_document q chain offset rest

/-- The variables of the second loop of `ChainToHits`: the residue before the iterator
`ri` (none at `residues.begin()`), the residues from `ri` on, and the list `res`. -/
structure residue_state where
  prev : Option MResidue
  todo : List MResidue
  res : List ResidueHInfo
  deriving DecidableEq

/-- The body of the loop of `ChainToHits` over the columns `i` of the query row `s`. -/
def residue_column (s : seq) (chain i : Nat) (st : residue_state) :
    Except Error residue_state :=
  match s.char_at i with
  | .error e => .error e
  | .ok c =>
    if is_gap c then .ok st else
    match st.todo with
    | [] => .error .assertion
    | r :: rest =>
      let res1 :=
        match st.prev with
        | some p =>
          if r.number > p.number + 1 then
            st.res ++ [ResidueHInfo.chain_break ((st.res.length + 1) % 2 ^ 32)]
          else st.res
        | none => st.res
      .ok { prev := some r, todo := rest,
            res := res1 ++ [ResidueHInfo.new c i chain ((res1.length + 1) % 2 ^ 32)
              r.number r.dssp] }

/-- The loop `for (uint32 i = 0; i < s.length(); ++i)` of `ChainToHits` over the columns
`is`. -/
def residue_columns (s : seq) (chain : Nat) :
    List Nat → residue_state → Except Error residue_state
  | [], st => .ok st
  | i :: is, st =>
    match residue_column s chain i st with
    | .error e => .error e
    | .ok st1 => residue_columns s chain is st1

/-- The function `ChainToHits`: the hits of the rows whose id the databank knows are
added to `hits`, and the entries of the residues of the chain to `res`. -/
def ChainToHits (has_document : Str → Bool) (msa : mseq) (chain : MChain)
    (hits : List Hit) (res : List ResidueHInfo) :
    Except Error (List Hit × List ResidueHInfo) :=
  match msa with
  | [] => .error .memory
  | s :: rest =>
    match residue_columns s chain.id (List.range s.length)
        { prev := none, todo := chain.residues, res := res } with
    | .error e => .error e
    | .ok st =>
      if st.todo ≠ [] then .error .assertion
      else .ok (hits ++ create_hits has_document s chain.id (res.length % 2 ^ 32) rest, st.res)

/-- The weight of a column in `CalculateConservation`: `sumvar / sumdist` if `sumdist >
0`, else `1.0f`. -/
def column_weight (sumvar sumdist : ℚ) : ℚ := if sumdist > 0 then sumvar / sumdist else 1

/-- The loop `do ++ri; while (ri != res.end() and (*ri)->letter == 0)` after its first
`++ri`: the entries with `letter == 0` that the iterator passes, and the entries from the
final `ri` on. -/
def skip_breaks : List ResidueHInfo → List ResidueHInfo × List ResidueHInfo
  | [] => ([], [])
  | r :: rest =>
    if r.letter = 0 then (r :: (skip_breaks rest).1, (skip_breaks rest).2)
    else ([], r :: rest)

/-- The iterator `ri` of the driver of `CalculateConservation` in the range `res`: the
entries before it and the entries from it on. -/
structure weight_state where
  done : List ResidueHInfo
  todo : List ResidueHInfo
  deriving DecidableEq

/-- The body of the last loop of the driver of `CalculateConservation`, for the column
`i` of the query row `s`. Dereferencing `ri` at `res.end()` and a read outside `sumvar`
or `sumdist` are `memory` errors. -/
def weight_column (s : seq) (sumvar sumdist : List ℚ) (i : Nat) (st : weight_state) :
    Except Error weight_state :=
  match s.char_at i with
  | .error e => .error e
  | .ok c =>
    if is_gap c then .ok st else
    match sumdist[i]? with
    | none => .error .memory
    | some sd =>
      match (if sd > 0 then sumvar[i]? else some 0) with
      | none => .error .memory
      | some sv =>
        match st.todo with
        | [] => .error .memory
        | r :: rest =>
          .ok { done := st.done ++ { r with consweight := column_weight sv sd } ::
                  (skip_breaks rest).1,
                todo := (skip_breaks rest).2 }

/-- The last loop of the driver of `CalculateConservation` over the columns `is`. -/
def weight_columns (s : seq) (sumvar sumdist : List ℚ) :
    List Nat → weight_state → Except Error weight_state
  | [], st => .ok st
  | i :: is, st =>
    match weight_column s sumvar sumdist i st with
    | .error e => .error e
    | .ok st1 => weight_columns s sumvar sumdist is st1

/-- The second part of the driver `CalculateConservation(msa, res)`: the weights are
written to the entries of the range `res`, and `assert(ri == res.end())`. -/
def assign_weights (s : seq) (sumvar sumdist : List ℚ) (res : List ResidueHInfo) :
    Except Error (List ResidueHInfo) :=
  match weight_columns s sumvar sumdist (List.range s.length) { done := [], todo := res } with
  | .error e => .error e
  | .ok st => if st.todo ≠ [] then .error .assertion else .ok st.done

/-- The driver `CalculateConservation(msa, res)` for the distribution `parts` of the row
indices over its workers; the result is the range `res` with the weights filled in. -/
def CalculateConservation (oob : Nat → Nat → Int) (msa : mseq) (parts : List (List Nat))
    (res : List ResidueHInfo) : Except Error (List ResidueHInfo) :=
  match msa with
  | [] => .error .memory
  | s :: _ =>
    match conservation_sums oob msa parts with
    | .error e => .error e
    | .ok (sumvar, sumdist) => assign_weights s sumvar sumdist res

/-- The statement `dist[ix] = f(dist[ix])` for an index `ix` of type `int8` in the array
`uint32 dist[20]`; an index outside the array is a `memory` error. -/
def update_dist (dist : List Nat) (ix : Int) (f : Nat → Nat) : Except Error (List Nat) :=
  if 0 ≤ ix then
    match dist[ix.toNat]? with
    | some d => .ok (dist.set ix.toNat (f d))
    | none => .error .memory
  else .error .memory

/-- The variables `nocc` and `dist` in the first loop over the hits in
`ResidueHInfo::CalculateVariability`. -/
structure occurrence_state where
  nocc : Nat
  dist : List Nat
  deriving DecidableEq

/-- The first loop over the hits in `ResidueHInfo::CalculateVariability`, for the entry
with the chain `chain` and the column `pos`. -/
def count_occurrences (chain pos : Nat) :
    List Hit → occurrence_state → Except Error occurrence_state
  | [], st => .ok st
  | hit :: hits, st =>
    if hit.m_chain ≠ chain then count_occurrences chain pos hits st
    else
      match hit.m_seq.char_at pos with
      | .error e => .error e
      | .ok c =>
        if kResidueIX c ≠ -1 then
          match update_dist st.dist (kResidueIX c) (fun d => d + 1) with
          | .error e => .error e
          | .ok dist1 => count_occurrences chain pos hits { nocc := st.nocc + 1, dist := dist1 }
        else count_occurrences chain pos hits st

/-- The statement `dist[a] = uint32((100.0 * freq) + 0.5)` with `freq = double(dist[a]) /
nocc`, in exact arithmetic. -/
def percentage (nocc d : Nat) : Nat := (200 * d + nocc) / (2 * nocc)

/-- The variables `ndel` and `nins` in the last loop of
`ResidueHInfo::CalculateVariability`. -/
structure indel_state where
  ndel : Nat
  nins : Nat
  deriving DecidableEq

/-- The last loop over the hits in `ResidueHInfo::CalculateVariability`. -/
def count_indels (chain pos : Nat) (gap : Bool) :
    List Hit → indel_state → Except Error indel_state
  | [], st => .ok st
  | hit :: hits, st =>
    if hit.m_chain ≠ chain then count_indels chain pos gap hits st
    else
      match (if pos > hit.m_seq.m_begin ∧ pos < hit.m_seq.m_end then
              (hit.m_seq.char_at pos).map is_gap else .ok false) with
      | .error e => .error e
      | .ok deleted =>
        match (if gap then
                (hit.m_seq.char_at pos).map (fun c => decide (97 ≤ c ∧ c ≤ 121))
               else .ok false) with
        | .error e => .error e
        | .ok inserted =>
          count_indels chain pos gap hits
            { ndel := if deleted then st.ndel + 1 else st.ndel,
              nins := if inserted then st.nins + 1 else st.nins }

/-- The method `ResidueHInfo::CalculateVariability` without the `entropy`. Taking
`hits.front()` of an empty list is a `memory` error. -/
def ResidueHInfo.CalculateVariability (r : ResidueHInfo) (hits : List Hit) :
    Except Error ResidueHInfo :=
  if kResidueIX r.letter ≠ -1 then
    match update_dist (List.replicate 20 0) (kResidueIX r.letter) (fun _ => 1) with
    | .error e => .error e
    | .ok dist0 =>
      match count_occurrences r.chain r.pos hits { nocc := r.nocc, dist := dist0 } with
      | .error e => .error e
      | .ok occ =>
        match hits with
        | [] => .error .memory
        | first :: _ =>
          match (if (r.pos + 1) % 2 ^ 32 < first.m_qseq.length then
                  (first.m_qseq.char_at ((r.pos + 1) % 2 ^ 32)).map is_gap
                 else .ok false) with
          | .error e => .error e
          | .ok gap =>
            match count_indels r.chain r.pos gap hits { ndel := r.ndel, nins := r.nins } with
            | .error e => .error e
            | .ok ind =>
              .ok { r with nocc := occ.nocc, dist := occ.dist.map (percentage occ.nocc),
                           ndel := ind.ndel, nins := ind.nins }
  else .ok { r with dist := List.replicate 20 0 }

/-- A FASTA alignment of the query `ACD` and one homolog with a deletion in column 1. -/
def sample_fasta_gap : List Str := [str ">Q", str "ACD", str ">H", str "A-E"]

/-- A FASTA alignment of the query `ACD` and two homologs, the second with a deletion in
column 1. -/
def sample_fasta_three : List Str :=
  [str ">Q", str "ACD", str ">H1", str "ACE", str ">H2", str "A-D"]

/-- A FASTA alignment of the query `AC` and one homolog that starts in column 1. -/
def sample_fasta_late : List Str := [str ">Q", str "AC", str ">H", str "-C"]

/-- The hit holds a valid amino-acid letter at the column `pos`. -/
def valid_at (pos : Nat) (h : Hit) : Bool :=
  match h.m_seq.char_at pos with
  | .ok c => decide (0 ≤ kResidueIX c)
  | .error _ => false

/-- A chain `A` of two residues numbered 1 and 2. -/
def sample_chain : MChain := { id := 65, residues := [⟨1, []⟩, ⟨2, []⟩] }

/-- The columns of the query row `s` that hold a residue. -/
def query_columns (s : seq) : List Nat :=
  (List.range s.length).filter (fun i =>
    match s.char_at i with
    | .ok c => !is_gap c
    | .error _ => false)

/-- An entry and what the driver of `CalculateConservation` makes of it: only the weight
may differ. -/
def weighted (r r1 : ResidueHInfo) : Prop := r1 = { r with consweight := r1.consweight }

/-- A chain `A` of three residues numbered 1, 2 and 5. -/
def sample_chain_break : MChain := { id := 65, residues := [⟨1, []⟩, ⟨2, []⟩, ⟨5, []⟩] }

/-- The rows that `ReadFastA` builds from `sample_fasta_gap`. -/
def sample_gap_rows : mseq :=
  match ReadFastA oob_zero sample_fasta_gap [] with
  | .ok msa => msa
  | .error _ => []

/-- The query row of `sample_gap_rows`. -/
def sample_gap_query : seq := sample_gap_rows.headD (seq_impl [])

/-! ## Writing an alignment as FASTA -/

/-- The loop `foreach (char r, s)` of `WriteFastA` over the characters still to be
written: `n` is the counter of the characters written, `line` the text of the current
line; every `endl` ends a line. -/
def write_row : Str → Nat → Str → List Str
  | [], _, line => [line]
  | r :: rs, n, line =>
    if (n + 1) % 2 ^ 32 % 72 = 0 then
      (line ++ [if is_gap r then 45 else r]) :: write_row rs ((n + 1) % 2 ^ 32) []
    else write_row rs ((n + 1) % 2 ^ 32) (line ++ [if is_gap r then 45 else r])

/-- The function `WriteFastA`; the text written is the list of its lines. After `>`, the
id and a space, the first line of a row holds the score and the identical count, whose
formatted text is `stats s`. A row that reaches beyond its storage is a `memory` error. -/
def WriteFastA (stats : seq → Str) : mseq → Except Error (List Str)
  | [] => .ok []
  | s :: rest =>
    if s.m_data.length < s.m_seq + s.m_size then .error .memory
    else
      match WriteFastA stats rest with
      | .error e => .error e
      | .ok lines => .ok ((62 :: (s.m_id ++ 32 :: stats s)) :: (write_row s.chars 0 [] ++ lines))

/-- The characters of a row as `WriteFastA` writes them: `-` for every gap. -/
def dashed (text : Str) : Str := text.map (fun r => if is_gap r then 45 else r)

/-- The constructor `seq::seq` accepts the id of the row. -/
def accepted (s : seq) : Prop := ∃ s0, seq.new s.m_id = .ok s0

/-- The homolog row `h` has no residue opposite a gap of the query row `f` in column
0. -/
def starts_aligned (f h : seq) : Prop :=
  ∀ qc sc, f.chars.head? = some qc → h.chars.head? = some sc → is_gap qc = true →
    is_gap sc = true

/-- What the rows that a reader returns have in common: there is a query row and at
least one homolog, the constructor accepts every id, every row lies inside its storage,
and no homolog has a residue opposite a gap of the query in column 0. -/
def read_rows (msa : mseq) : Prop :=
  ∃ f rest, msa = f :: rest ∧ rest ≠ [] ∧
    (∀ r ∈ msa, accepted r ∧ r.m_seq + r.m_size ≤ r.m_data.length) ∧
    ∀ h ∈ rest, starts_aligned f h

/-! ## Chain breaks, the clustering of the chains, the column `VAR` and sample rows -/

/-- The entries that `ChainToHits` adds to `res` for the residue `r` of the chain: the
entry of the residue, and in front of it a chain-break marker when `marked` holds. -/
def residue_block (chain : Nat) (r : MResidue) (marked : Prop) (b : List ResidueHInfo) :
    Prop :=
  ∃ c i n, (¬ marked ∧ b = [ResidueHInfo.new c i chain n r.number r.dssp]) ∨
    (marked ∧ ∃ m, b = [ResidueHInfo.chain_break m, ResidueHInfo.new c i chain n r.number r.dssp])

/-- The entries that `ChainToHits` adds for the residues of a chain, one block for each
residue: a marker stands in front of the entry of a residue when there is a residue
before it whose number plus one is less than its own. -/
def residue_blocks (chain : Nat) :
    Option MResidue → List MResidue → List (List ResidueHInfo) → Prop
  | prev, r :: rs, b :: bs =>
    residue_block chain r (∃ p, prev = some p ∧ r.number > p.number + 1) b ∧
      residue_blocks chain (some r) rs bs
  | _, [], [] => True
  | _, _, _ => False

/-- The number of pairs of consecutive residue numbers that differ by more than one, in
the words of the specification. -/
def numbering_gaps : List Int → Nat
  | a :: b :: rest => (if 1 < (b - a).natAbs then 1 else 0) + numbering_gaps (b :: rest)
  | _ => 0

/-- A chain `A` of three residues numbered 1, 5 and 3. -/
def sample_chain_down : MChain := { id := 65, residues := [⟨1, []⟩, ⟨5, []⟩, ⟨3, []⟩] }

/-- A chain `A` of three residues numbered 4, 5 and 8. -/
def sample_chain_gap : MChain := { id := 65, residues := [⟨4, []⟩, ⟨5, []⟩, ⟨8, []⟩] }

/-- The call `ba::contains(input, test)`: `test` occurs in `input`. -/
def contains (input test : Str) : Bool := (find test input).isSome

/-- The inner loop `for (uint32 j = i + 1; not found and j < s.size(); ++j)` of
`ClusterSequences` for the string `a = s[i]`, over the strings `s[j], s[j + 1], ...`: the
first `j` for which the loop sets `found`, with `true` when "j fully contained in i" and
`false` when "i fully contained in j". -/
def cluster_scan (a : Str) : Nat → List Str → Option (Nat × Bool)
  | _, [] => none
  | j, b :: rest =>
    if a = [] ∨ b = [] then cluster_scan a (j + 1) rest
    else if contains a b then some (j, true)
    else if contains b a then some (j, false)
    else cluster_scan a (j + 1) rest

/-- The two nested loops of `ClusterSequences` over the strings `s[i], s[i + 1], ...`: the
first pair `(i, j)` for which they set `found`, if any. -/
def cluster_pass : Nat → List Str → Option (Nat × Nat × Bool)
  | _, [] => none
  | i, a :: rest =>
    match cluster_scan a (i + 1) rest with
    | some (j, c) => some (i, j, c)
    | none => cluster_pass (i + 1) rest

/-- The function `ClusterSequences(s, ix)`: the loop `for (;;)` runs until a pass finds
no pair; `fuel` bounds the number of passes, and the result is `none` when it is used up.
A write outside `ix` is a `memory` error. -/
def ClusterSequences : Nat → List Str → List Nat → Option (Except Error (List Str × List Nat))
  | 0, _, _ => none
  | fuel + 1, s, ix =>
    match cluster_pass 0 s with
    | none => some (.ok (s, ix))
    | some (i, j, true) =>
      if j < ix.length then ClusterSequences fuel (s.set j []) (ix.set j i)
      else some (.error .memory)
    | some (i, j, false) =>
      if i < ix.length then ClusterSequences fuel (s.set i []) (ix.set i j)
      else some (.error .memory)

/-- The call `std::unique` followed by `erase`: of every run of equal consecutive
elements only the first is kept. -/
def unique : List Nat → List Nat
  | a :: b :: rest => if a = b then unique (b :: rest) else a :: unique (b :: rest)
  | l => l

/-- The statements of the first `CreateHSSP` between the loop that gathers `seqset` and
the loop over `ix`: `ix` holds `0, 1, ...`, `ClusterSequences` is called for more than
one sequence, and `ix.erase(unique(ix.begin(), ix.end()), ix.end())` ("only take the
unique sequences"); the result is `ix`, the indices of the chains that are profiled. -/
def selected_chains (fuel : Nat) (seqset : List Str) : Option (Except Error (List Nat)) :=
  if seqset.length > 1 then
    (ClusterSequences fuel seqset (List.range seqset.length)).map
      (fun r => r.map (fun p => unique p.2))
  else some (.ok (unique (List.range seqset.length)))

/-- The selection in the words of the specification: the chains whose sequence is not a
substring of the sequence of another selected chain, each once. -/
def maximal_selection (seqset : List Str) (sel : List Nat) : Prop :=
  sel.Nodup ∧ (∀ i ∈ sel, i < seqset.length) ∧
    (∀ i, i < seqset.length →
      (i ∈ sel ↔ ∀ j ∈ sel, j ≠ i → contains (seqset.getD j []) (seqset.getD i []) = false))

/-- Loop invariant of `update` on the two ends of the span, for the row whose storage was
`data0` on entry, at offset `o`: once a column was compared, the first and the last column
of the span found so far hold a residue. -/
def ends_inv (data0 : Str) (o : Nat) (st : update_state) : Prop :=
  st.s.m_begin ≠ UINT32_MAX →
    (∃ c, data0[o + st.s.m_begin]? = some c ∧ is_gap c = false) ∧
    (∃ c, data0[o + (st.s.m_end - 1)]? = some c ∧ is_gap c = false)

/-- The query row `ACDEF` as the readers build it. -/
def sample_span_query : seq :=
  { seq_impl (str "Q") with
    m_id2 := str "Q", m_data := str "ACDEF", m_size := 5, m_end := 5, m_space := 1024 }

/-- The homolog row `-C-E-` as the readers build it. -/
def sample_span_row : seq :=
  { seq_impl (str "S") with
    m_id2 := str "S", m_data := str "-C-E-", m_size := 5, m_end := 5, m_space := 1024 }

/-- The statement `uint32 ivar = uint32(100 * (1 - ri->consweight))` of `CreateHSSPOutput`,
the value printed in the column `VAR`: the product is truncated; the result is `none`
when the truncated value is not a `uint32`, where the conversion is undefined. -/
def ivar (consweight : ℚ) : Option Nat :=
  if 100 * (1 - consweight) ≤ -1 ∨ 2 ^ 32 ≤ 100 * (1 - consweight) then none
  else some (Rat.floor (100 * (1 - consweight))).toNat

/-- A FASTA alignment of the query `ACDEFGHIKW` and one homolog that differs from it in
the last column, where it has a `G`. -/
def sample_fasta_var : List Str :=
  [str ">Q", str "ACDEFGHIKW", str ">H", str "ACDEFGHIKG"]

/-- A chain `A` of ten residues numbered 1 to 10. -/
def sample_chain_ten : MChain :=
  { id := 65, residues := (List.range 10).map (fun k => ⟨(k : Int) + 1, []⟩) }

/-- Bounds on the sums of `CalculateConservation`: the two vectors are equally long, and
for every column `sumdist` is not negative and `sumvar` lies between `-4/5` times and one
times `sumdist`. -/
def weight_bounds (sumvar sumdist : List ℚ) : Prop :=
  sumvar.length = sumdist.length ∧
    ∀ (k : Nat) (sv sd : ℚ), sumvar[k]? = some sv → sumdist[k]? = some sd →
      0 ≤ sd ∧ sv ≤ sd ∧ -(4 / 5) * sd ≤ sv

/-- Bounds on the entries of `simval`: the least and the greatest entry of the Dayhoff
matrix, `-1.2` and `1.5`. -/
def simval_bounds (simval : List ℚ) : Prop := ∀ v ∈ simval, -(6 / 5) ≤ v ∧ v ≤ 3 / 2

/-- The loop `foreach (const MChain* chain, chains)` of the last `CreateHSSP` over the
chains with their alignments: a chain-break marker is put in front of the entries of
every chain but the first, and `ChainToHits` adds the hits and the entries of the
chain. -/
def chains_to_hits (has_document : Str → Bool) :
    List (mseq × MChain) → List Hit × List ResidueHInfo →
    Except Error (List Hit × List ResidueHInfo)
  | [], p => .ok p
  | (msa, chain) :: rest, (hits, res) =>
    match ChainToHits has_document msa chain hits
        (if res ≠ [] then res ++ [ResidueHInfo.chain_break ((res.length + 1) % 2 ^ 32)]
         else res) with
    | .error e => .error e
    | .ok p => chains_to_hits has_document rest p

/-- The hit holds a character from `a` to `y` at the column `pos`: the test of
`CalculateVariability` for an insertion mark. -/
def marked_at (pos : Nat) (h : Hit) : Bool :=
  match h.m_seq.char_at pos with
  | .ok c => decide (97 ≤ c ∧ c ≤ 121)
  | .error _ => false

/-- The column after `pos` of the row `q` exists and holds a gap: the value of `gap` in
`CalculateVariability` for the query row `q`. -/
def gap_follows (q : seq) (pos : Nat) : Bool :=
  match (if (pos + 1) % 2 ^ 32 < q.length then
          (q.char_at ((pos + 1) % 2 ^ 32)).map is_gap else .ok false) with
  | .ok b => b
  | .error _ => false

/-- The statement `msa.erase(remove_if(msa.begin() + 1, msa.end(), boost::bind(&seq::drop,
_1, inCutOff)), msa.end())` of `CreateHSSP` on the rows behind row 0 ("remove all hits
that are not above the threshold"). -/
def drop_rows (inCutOff : flt) : mseq → Except Error mseq
  | [] => .ok []
  | s :: rest =>
    match s.drop inCutOff, drop_rows inCutOff rest with
    | .ok d, .ok kept => .ok (if d then kept else s :: kept)
    | .error e, _ => .error e
    | _, .error e => .error e

/-- A chain with the identifier `id` and `n` residues numbered 1 to `n`. -/
def sample_chain_of (id n : Nat) : MChain :=
  { id := id, residues := (List.range n).map (fun k => ⟨(k : Int) + 1, []⟩) }

/-- A FASTA alignment for a chain `A`: the query has a gap behind its ninth residue,
where the homolog has an inserted `A`. -/
def sample_fasta_ins : List Str :=
  [str ">QA", str "ACDEFGHIK-LMNPQRSTVWY", str ">HA", str "ACDEFGHIKALMNPQRSTVWY"]

/-- A FASTA alignment for a chain `B`: the query and an identical homolog. -/
def sample_fasta_same : List Str :=
  [str ">QB", str "ACDEFGHIKLMNPQRSTVWY", str ">HB", str "ACDEFGHIKLMNPQRSTVWY"]

/-- The ranked hits and the residue entries that `CreateHSSP` gathers for the chains
`alignments`, with the cutoff 0.1 and a limit of 100 hits: the rows below the threshold
are dropped, `ChainToHits` is called chain by chain, and the hits are ranked. -/
def sample_profile (alignments : List (List Str × MChain)) :
    Except Error (List Hit × List ResidueHInfo) :=
  match alignments.mapM (fun a =>
      (ReadFastA oob_zero a.1 []).bind (fun msa =>
        match msa with
        | [] => .error .memory
        | q :: rest =>
          (drop_rows (.fin (1 / 10)) rest).map (fun kept => (q :: kept, a.2)))) with
  | .error e => .error e
  | .ok chains =>
    (chains_to_hits (fun _ => true) chains ([], [])).map (fun p => (rank_hits 100 p.1, p.2))

/-- The query row `A-C-E` as the readers build it. -/
def sample_block_query : seq :=
  { seq_impl (str "Q") with
    m_id2 := str "Q", m_data := str "A-C-E", m_size := 5, m_end := 5, m_space := 1024 }

/-- The homolog row `AD-FE` as the readers build it: opposite the query `A-C-E` it has
the insertion `D`, a deletion, and the insertion `F`. -/
def sample_block_row : seq :=
  { seq_impl (str "S") with
    m_id2 := str "S", m_data := str "AD-FE", m_size := 5, m_end := 5, m_space := 1024 }

/-! ## The residue letters, calls of `append`, the counters of `update`, the numbering of
the entries and further samples -/

/-- The residue letters in the order of the columns of the header line
`V L I M F W Y G A P S T C H R K Q E N D` of the sequence profile table that
`CreateHSSPOutput` prints. -/
def profile_letters : Str := str "VLIMFWYGAPSTCHRKQEND"

/-- Calls of `seq::append` on one row, one after the other, as the line loops of the
readers make them for the fragments of a row. -/
def append_calls (s : seq) : List Str → Except Error seq
  | [] => .ok s
  | text :: rest =>
    match s.append text with
    | .error e => .error e
    | .ok s1 => append_calls s1 rest

/-- The entries that `ChainToHits` builds for `sample_gap_rows` and the chain
`sample_chain_break`. -/
def sample_gap_entries : List ResidueHInfo :=
  match ChainToHits (fun _ => true) sample_gap_rows sample_chain_break [] [] with
  | .ok p => p.2
  | .error _ => []

/-- The entries `sample_gap_entries` with the weights of `CalculateConservation`. -/
def sample_gap_weights : List ResidueHInfo :=
  match CalculateConservation oob_zero sample_gap_rows [[0]] sample_gap_entries with
  | .ok res1 => res1
  | .error _ => []

/-- The indices `ix` at which the first loop over the hits in
`ResidueHInfo::CalculateVariability` executes `dist[ix] += 1`, in the order of the
hits: for every hit of the chain the index `kResidueIX[hit->m_seq[pos]]` if it passes
the test `ix != -1`. -/
def incremented_bins (chain pos : Nat) : List Hit → Except Error (List Int)
  | [] => .ok []
  | hit :: hits =>
    if hit.m_chain ≠ chain then incremented_bins chain pos hits
    else
      match hit.m_seq.char_at pos with
      | .error e => .error e
      | .ok c =>
        if kResidueIX c ≠ -1 then
          (incremented_bins chain pos hits).map (fun bins => kResidueIX c :: bins)
        else incremented_bins chain pos hits

/-- A chain `A` of three residues numbered 1, 2 and 3. -/
def sample_chain_three : MChain := { id := 65, residues := [⟨1, []⟩, ⟨2, []⟩, ⟨3, []⟩] }

/-- The arguments `(rq, rs)` of the call `kD(rq, rs)` in the test `if (rq >= 0 and
rs >= 0 and kD(rq, rs) >= 0)` of `update` for the characters `qc`, `sc` of a column, or
`none` when the test stops before the call. -/
def similarity_lookup (qc sc : Nat) : Option (Nat × Nat) :=
  if (0 : Int) ≤ (uint8 (kResidueIX qc) : Int) ∧ (0 : Int) ≤ (uint8 (kResidueIX sc) : Int) then
    some (uint8 (kResidueIX qc), uint8 (kResidueIX sc))
  else none

/-- The counters of `update` behind the alignment length: the locals `ipos`, `length`
and `gapn` and the members `m_ifir`, `m_ilas`, `m_length` and `m_gapn`. -/
structure tally where
  ipos : Nat
  length : Nat
  gapn : Nat
  m_ifir : Nat
  m_ilas : Nat
  m_length : Nat
  m_gapn : Nat
  deriving DecidableEq

/-- The counters of a state of `update`. -/
def update_state.tally (st : update_state) : tally :=
  { ipos := st.ipos, length := st.length, gapn := st.gapn, m_ifir := st.s.m_ifir,
    m_ilas := st.s.m_ilas, m_length := st.s.m_length, m_gapn := st.s.m_gapn }

/-- What one pass through the loop body of `update` does to the counters, for a column
with the query character `c.1` and the character `c.2` of the row: nothing when both are
gaps; a deletion and an insertion column count for `length` (once the alignment has
started) and `gapn`; a matched column is the first one (`m_ifir == 0`) or stores `gapn`
and `length`. -/
def tally_column (t : tally) (c : Nat × Nat) : tally :=
  if is_gap c.1 && is_gap c.2 then t
  else if is_gap c.2 then
    { t with length := if t.length > 0 then t.length + 1 else t.length,
             gapn := t.gapn + 1, ipos := t.ipos + 1 }
  else if is_gap c.1 then
    { t with length := if t.length > 0 then t.length + 1 else t.length,
             gapn := t.gapn + 1 }
  else
    { ipos := t.ipos + 1,
      length := if t.m_ifir = 0 then 1
        else if t.length > 0 then t.length + 1 else t.length,
      gapn := 0,
      m_ifir := if t.m_ifir = 0 then t.ipos else t.m_ifir,
      m_ilas := t.ipos,
      m_length := if t.m_ifir = 0 then t.m_length
        else if t.length > 0 then t.length + 1 else t.length,
      m_gapn := if t.m_ifir = 0 then t.m_gapn else t.m_gapn + t.gapn }

/-- The columns of a query/homolog pair: the characters of the two rows, side by side. -/
def columns (qseq s : seq) : List (Nat × Nat) := qseq.chars.zip s.chars

/-- A matched column: a residue in both rows. -/
def matched (c : Nat × Nat) : Bool := !is_gap c.1 && !is_gap c.2

/-- A column in which exactly one of the two rows has a gap. -/
def one_sided (c : Nat × Nat) : Bool := is_gap c.1 != is_gap c.2

/-- The columns strictly between the first and the last matched column. -/
def strictly_between (cols : List (Nat × Nat)) : List (Nat × Nat) :=
  (((cols.dropWhile (fun c => !matched c)).tail.reverse.dropWhile
    (fun c => !matched c)).tail).reverse

/-- The columns up to the last matched column, that column included. -/
def upto_last_matched : List (Nat × Nat) → List (Nat × Nat)
  | [] => []
  | c :: cols =>
    if cols.any matched then c :: upto_last_matched cols
    else if matched c then [c] else []

/-- How the result `r` of `ClusterSequences` relates to the strings `s` and the indices
`ix` on entry: at every position the string is unchanged, and so is the index, or the
string was not empty and is cleared, and the index names another position whose string
on entry contains it. -/
def clustered (s : List Str) (ix : List Nat) (r : List Str × List Nat) : Prop :=
  r.1.length = s.length ∧ r.2.length = ix.length ∧
    ∀ (j : Nat) (a : Str), s[j]? = some a →
      (r.1[j]? = some a ∧ r.2[j]? = ix[j]?) ∨
      (a ≠ [] ∧ r.1[j]? = some [] ∧
        ∃ i b, r.2[j]? = some i ∧ i ≠ j ∧ s[i]? = some b ∧ contains b a = true)

/-- The test `ri->seqNr >= hit->m_ifir and ri->seqNr <= hit->m_ilas` of `CreateHSSPOutput`:
the hit is shown in the line of the entry `ri`. -/
def covers (hit : Hit) (ri : ResidueHInfo) : Bool :=
  decide (ri.seqNr ≥ hit.m_ifir ∧ ri.seqNr ≤ hit.m_ilas)

/-- The number of residues of `rs` in front of which `ChainToHits` puts a chain-break
marker, when `prev` is the residue before them: those whose number is more than one above
the number of the residue before. -/
def chain_breaks : Option MResidue → List MResidue → Nat
  | _, [] => 0
  | none, r :: rs => chain_breaks (some r) rs
  | some p, r :: rs => (if r.number > p.number + 1 then 1 else 0) + chain_breaks (some r) rs

/-- The entries from position `n` on have their position plus one as `seqNr`. -/
def numbered (n : Nat) (res : List ResidueHInfo) : Prop :=
  ∀ (p : Nat) (e : ResidueHInfo), n ≤ p → res[p]? = some e → e.seqNr = (p + 1) % 2 ^ 32

/-! # Theorems -/

/-! ## Effect of the pieces of the loop body on the row -/

/-- A `uint8` compared as `int` is never `-1`: the two validity tests of `update` never
fire. -/
theorem update_tail_eq (oob : Nat → Nat → Int) (qc sc i : Nat) (st : update_state) :
    update_tail oob qc sc i st = .ok (compare_column oob qc sc i st) := by
  unfold update_tail
  rw [if_neg (by omega), if_neg (by omega)]

@[simp] theorem count_length_s (st : update_state) : (count_length st).s = st.s := rfl

@[simp] theorem deletion_column_s (st : update_state) : (deletion_column st).s = st.s := rfl

@[simp] theorem insertion_column_s (sc : Nat) (st : update_state) :
    (insertion_column sc st).s = st.s := rfl

theorem open_insertion_span {i : Nat} {st st1 : update_state}
    (h : open_insertion i st = .ok st1) :
    st1.s.m_begin = st.s.m_begin ∧ st1.s.m_end = st.s.m_end ∧ st1.s.m_size = st.s.m_size := by
  unfold open_insertion at h
  split at h
  · split at h
    · cases h
    · split at h
      · cases h
      · injection h with h; subst h; exact ⟨rfl, rfl, rfl⟩
  · injection h with h; subst h; exact ⟨rfl, rfl, rfl⟩

theorem close_insertion_span (sc i : Nat) (st : update_state) :
    (close_insertion sc i st).s.m_begin = st.s.m_begin ∧
    (close_insertion sc i st).s.m_end = st.s.m_end ∧
    (close_insertion sc i st).s.m_size = st.s.m_size := by
  unfold close_insertion
  split <;> exact ⟨rfl, rfl, rfl⟩

/-! ## The alignment span -/

theorem span_inv_of_eq {i : Nat} {s t : seq} (hb : t.m_begin = s.m_begin)
    (he : t.m_end = s.m_end) (h : span_inv i s) : span_inv i t := by
  unfold span_inv at *
  rw [hb, he]; exact h

theorem compare_column_span (oob : Nat → Nat → Int) (qc sc i : Nat) (st : update_state)
    (hinv : span_inv i st.s) :
    span_inv (i + 1) (compare_column oob qc sc i st).s ∧
      (compare_column oob qc sc i st).s.m_size = st.s.m_size := by
  unfold span_inv at *
  refine ⟨?_, rfl⟩
  show ((if st.s.m_begin = UINT32_MAX then i else st.s.m_begin) = UINT32_MAX ∨
    (if st.s.m_begin = UINT32_MAX then i else st.s.m_begin) < i + 1) ∧ i + 1 ≤ i + 1
  split <;> omega

/-- The four ways through the loop body of `update` that do not fail. -/
theorem update_column_cases {oob : Nat → Nat → Int} {qc i : Nat} {st st1 : update_state}
    (h : update_column oob qc i st = .ok st1) :
    ∃ sc, st.s.m_data[st.s.m_seq + i]? = some sc ∧
      ((is_gap qc = true ∧ is_gap sc = true ∧ st1 = st) ∨
       (is_gap qc = false ∧ is_gap sc = true ∧ st1 = deletion_column (count_length st)) ∨
       (is_gap qc = true ∧ is_gap sc = false ∧
          ∃ st2, open_insertion i (count_length st) = .ok st2 ∧
            st1 = compare_column oob qc sc i (insertion_column sc st2)) ∨
       (is_gap qc = false ∧ is_gap sc = false ∧
          st1 = compare_column oob qc (closed_char sc st) i
            (matched_column (close_insertion sc i (count_length st))))) := by
  unfold update_column at h
  cases hsc : st.s.m_data[st.s.m_seq + i]? with
  | none => rw [hsc] at h; cases h
  | some sc =>
    rw [hsc] at h
    refine ⟨sc, rfl, ?_⟩
    simp only [update_tail_eq] at h
    cases hq : is_gap qc <;> cases hs : is_gap sc <;> simp only [hq, hs] at h
    · right; right; right
      simp at h
      exact ⟨rfl, rfl, h.symm⟩
    · right; left
      simp at h
      exact ⟨rfl, rfl, h.symm⟩
    · right; right; left
      simp at h
      cases ho : open_insertion i (count_length st) with
      | error e => rw [ho] at h; cases h
      | ok st2 =>
        rw [ho] at h
        simp at h
        exact ⟨rfl, rfl, st2, rfl, h.symm⟩
    · left
      simp at h
      exact ⟨rfl, rfl, h.symm⟩

theorem update_column_span {oob : Nat → Nat → Int} {qc i : Nat} {st st1 : update_state}
    (h : update_column oob qc i st = .ok st1) (hinv : span_inv i st.s) :
    span_inv (i + 1) st1.s ∧ st1.s.m_size = st.s.m_size := by
  have hmono : span_inv (i + 1) st.s := ⟨hinv.1, by have := hinv.2; omega⟩
  obtain ⟨sc, -, h | h | h | h⟩ := update_column_cases h
  · obtain ⟨-, -, rfl⟩ := h; exact ⟨hmono, rfl⟩
  · obtain ⟨-, -, rfl⟩ := h; exact ⟨hmono, rfl⟩
  · obtain ⟨-, -, st2, hst2, rfl⟩ := h
    obtain ⟨hb, he, hs⟩ := open_insertion_span hst2
    have := compare_column_span oob qc sc i (insertion_column sc st2)
      (span_inv_of_eq (s := st.s) hb he hinv)
    exact ⟨this.1, by rw [this.2]; exact hs⟩
  · obtain ⟨-, -, rfl⟩ := h
    obtain ⟨hb, he, hs⟩ := close_insertion_span sc i (count_length st)
    have := compare_column_span oob qc (closed_char sc st) i
      (matched_column (close_insertion sc i (count_length st)))
      (span_inv_of_eq (s := st.s) hb he hinv)
    exact ⟨this.1, by rw [this.2]; exact hs⟩

theorem update_loop_span {oob : Nat → Nat → Int} (qs : Str) :
    ∀ (i : Nat) (st st1 : update_state), update_loop oob qs i st = .ok st1 →
      span_inv i st.s → span_inv (i + qs.length) st1.s ∧ st1.s.m_size = st.s.m_size := by
  induction qs with
  | nil =>
    intro i st st1 h hinv
    injection h with h; subst h; exact ⟨hinv, rfl⟩
  | cons qc qs ih =>
    intro i st st1 h hinv
    unfold update_loop at h
    split at h
    · cases h
    · rename_i st2 hst2
      obtain ⟨h1, h2⟩ := update_column_span hst2 hinv
      obtain ⟨h3, h4⟩ := ih (i + 1) st2 st1 h h1
      refine ⟨?_, by rw [h4, h2]⟩
      have : i + (qc :: qs).length = i + 1 + qs.length := by simp; omega
      rw [this]; exact h3

/-- Any successful `update` leaves `m_begin ≤ m_end ≤ m_size`, and keeps the width. -/
theorem update_span {oob : Nat → Nat → Int} {qseq s s1 : seq}
    (h : seq.update oob qseq s = .ok s1) :
    s1.m_begin ≤ s1.m_end ∧ s1.m_end ≤ s1.m_size ∧ s1.m_size = s.m_size := by
  unfold seq.update at h
  split at h
  · cases h
  · split at h
    · cases h
    · rename_i st hst
      have hinit : span_inv 0 (update_init s).s := ⟨Or.inl rfl, Nat.le_refl 0⟩
      obtain ⟨⟨h1, _⟩, h2⟩ := update_loop_span _ 0 _ _ hst hinit
      have h2 : st.s.m_size = s.m_size := h2
      unfold update_finish at h
      split at h
      · injection h with h; subst h; exact ⟨Nat.le_refl 0, Nat.zero_le _, h2⟩
      · split at h
        · cases h
        · split at h
          · cases h
          · split at h
            · cases h
            · injection h with h; subst h
              rename_i hb _ he _
              simp only [not_not] at he
              exact ⟨by rcases h1 with h1 | h1 <;> [exact absurd h1 hb; exact Nat.le_of_lt h1],
                he, h2⟩

/-! ## Rows that were never updated -/

theorem seq_new_fresh {id : Str} {s : seq} (h : seq.new id = .ok s) : fresh_span s := by
  unfold seq.new at h
  split at h
  · rename_i name d1 d2 _
    cases h1 : lexical_cast_uint32 d1 with
    | error e => rw [h1] at h; cases h
    | ok v1 =>
      cases h2 : lexical_cast_uint32 d2 with
      | error e => rw [h1, h2] at h; cases h
      | ok v2 =>
        rw [h1, h2] at h
        injection h with h; subst h
        exact ⟨rfl, Nat.le_refl 0⟩
  · injection h with h; subst h
    exact ⟨rfl, Nat.le_refl 0⟩

theorem reserve_fresh {s s1 : seq} {len : Nat} (h : s.reserve len = .ok s1)
    (hs : fresh_span s) : fresh_span s1 := by
  unfold seq.reserve at h
  split at h
  · split at h
    · cases h
    · injection h with h; subst h; exact hs
  · injection h with h; subst h; exact hs

theorem write_fresh {s s1 : seq} {text : Str} (h : s.write text = .ok s1)
    (hs : fresh_span s) : fresh_span s1 := by
  unfold seq.write at h
  split at h
  · cases h
  · injection h with h; subst h
    exact ⟨hs.1, Nat.le_refl _⟩

theorem append_fresh {s s1 : seq} {text : Str} (h : s.append text = .ok s1)
    (hs : fresh_span s) : fresh_span s1 := by
  unfold seq.append at h
  split at h
  · cases h
  · rename_i s2 hs2
    exact write_fresh h (reserve_fresh hs2 hs)

theorem cut_fresh {s s1 : seq} {pos n : Nat} (h : s.cut pos n = .ok s1)
    (hs : fresh_span s) : fresh_span s1 ∧ s1.m_size = n := by
  unfold seq.cut at h
  split at h
  · cases h
  · injection h with h; subst h
    refine ⟨⟨?_, ?_⟩, rfl⟩
    · show (if s.m_begin > pos then s.m_begin - pos else 0) = 0
      rw [hs.1]; simp
    · show (if (if s.m_end > pos then s.m_end - pos else 0) > n then n
        else (if s.m_end > pos then s.m_end - pos else 0)) ≤ n
      generalize (if s.m_end > pos then s.m_end - pos else 0) = e
      split <;> omega

theorem cut_all_fresh {pos n : Nat} : ∀ {msa msa1 : mseq}, cut_all pos n msa = .ok msa1 →
    (∀ s ∈ msa, fresh_span s) → ∀ s ∈ msa1, fresh_span s := by
  intro msa
  induction msa with
  | nil =>
    intro msa1 h _ s hs
    injection h with h; subst h; cases hs
  | cons r rest ih =>
    intro msa1 h hall s hs
    unfold cut_all at h
    cases hc : r.cut pos n with
    | error e => rw [hc] at h; cases h
    | ok r1 =>
      cases hr : cut_all pos n rest with
      | error e => rw [hc, hr] at h; cases h
      | ok rest1 =>
        rw [hc, hr] at h
        injection h with h; subst h
        rcases List.mem_cons.1 hs with rfl | hs
        · exact (cut_fresh hc (hall r (List.mem_cons_self _ _))).1
        · exact ih hr (fun t ht => hall t (List.mem_cons_of_mem _ ht)) s hs

theorem crop_fresh {msa msa1 : mseq} {qr q : Str} (h : crop msa qr q = .ok msa1)
    (hall : ∀ s ∈ msa, fresh_span s) : ∀ s ∈ msa1, fresh_span s := by
  unfold crop at h
  split at h
  · split at h
    · cases h
    · split at h
      · cases h
      · split at h
        · cases h
        · split at h
          · cases h
          · exact cut_all_fresh h hall
  · injection h with h; subst h; exact hall

theorem mem_set_fresh {msa : mseq} {k : Nat} {r : seq} (hall : ∀ s ∈ msa, fresh_span s)
    (hr : fresh_span r) : ∀ s ∈ msa.set k r, fresh_span s := by
  intro s hs
  rcases List.mem_or_eq_of_mem_set hs with h | h
  · exact hall s h
  · rw [h]; exact hr

theorem mem_append_fresh {msa : mseq} {r : seq} (hall : ∀ s ∈ msa, fresh_span s)
    (hr : fresh_span r) : ∀ s ∈ msa ++ [r], fresh_span s := by
  intro s hs
  rcases List.mem_append.1 hs with h | h
  · exact hall s h
  · rw [List.mem_singleton.1 h]; exact hr

theorem declare_row_fresh {id : Str} {front : seq} {st st1 : stockholm_state}
    (h : declare_row id front st = .ok st1) (hall : ∀ s ∈ st.msa, fresh_span s) :
    ∀ s ∈ st1.msa, fresh_span s := by
  unfold declare_row at h
  split at h
  · split at h
    · cases h
    · rename_i s0 hs0
      injection h with h; subst h
      exact mem_append_fresh hall (seq_new_fresh hs0)
  · injection h with h; subst h; exact hall

theorem grow_msa_fresh {id : Str} {ix : Nat} {msa msa1 : mseq}
    (h : grow_msa id ix msa = .ok msa1) (hall : ∀ s ∈ msa, fresh_span s) :
    ∀ s ∈ msa1, fresh_span s := by
  unfold grow_msa at h
  split at h
  · split at h
    · cases h
    · rename_i s0 hs0
      injection h with h; subst h
      exact mem_append_fresh hall (seq_new_fresh hs0)
  · injection h with h; subst h; exact hall

theorem select_row_fresh {id sseq : Str} {front : seq} {st st1 : stockholm_state}
    (h : select_row id sseq front st = .ok st1) (hall : ∀ s ∈ st.msa, fresh_span s) :
    ∀ s ∈ st1.msa, fresh_span s := by
  unfold select_row at h
  split at h
  · injection h with h; subst h; exact hall
  · split at h
    · cases h
    · rename_i msa hmsa
      split at h
      · cases h
      · injection h with h; subst h
        exact grow_msa_fresh hmsa hall

theorem append_row_fresh {sseq : Str} {st st1 : stockholm_state}
    (h : append_row sseq st = .ok st1) (hall : ∀ s ∈ st.msa, fresh_span s) :
    ∀ s ∈ st1.msa, fresh_span s := by
  unfold append_row at h
  split at h
  · rename_i r hr
    split at h
    · cases h
    · rename_i r1 hr1
      injection h with h; subst h
      exact mem_set_fresh hall (append_fresh hr1 (hall r (List.mem_iff_getElem?.2 ⟨_, hr⟩)))
  · injection h with h; subst h; exact hall

theorem stockholm_line_fresh {line : Str} {st st1 : stockholm_state}
    (h : stockholm_line line st = .ok st1) (hall : ∀ s ∈ st.msa, fresh_span s) :
    ∀ s ∈ st1.msa, fresh_span s := by
  unfold stockholm_line at h
  split at h
  · cases h
  · split at h
    · exact declare_row_fresh h hall
    · split at h
      · unfold sequence_line at h
        split at h
        · cases h
        · split at h
          · cases h
          · rename_i st2 hst2
            exact append_row_fresh h (select_row_fresh hst2 hall)
      · injection h with h; subst h; exact hall

theorem stockholm_body_fresh : ∀ (lines : List Str) (st st1 : stockholm_state),
    stockholm_body lines st = .ok st1 → (∀ s ∈ st.msa, fresh_span s) →
    ∀ s ∈ st1.msa, fresh_span s := by
  intro lines
  induction lines with
  | nil => intro st st1 h; cases h
  | cons line rest ih =>
    intro st st1 h hall
    unfold stockholm_body at h
    split at h
    · exact ih st st1 h hall
    · split at h
      · injection h with h; subst h; exact hall
      · split at h
        · cases h
        · rename_i st2 hst2
          exact ih st2 st1 h (stockholm_line_fresh hst2 hall)

theorem stockholm_parse_fresh {is : List Str} {msa : mseq} {qr : Str}
    (h : stockholm_parse is = .ok (msa, qr)) : ∀ s ∈ msa, fresh_span s := by
  unfold stockholm_parse at h
  split at h
  · cases h
  · split at h
    · cases h
    · split at h
      · cases h
      · split at h
        · cases h
        · split at h
          · cases h
          · rename_i s0 hs0
            split at h
            · cases h
            · rename_i st hst
              split at h
              · cases h
              · injection h with h
                injection h with h1 h2
                subst h1
                refine stockholm_body_fresh _ _ _ hst ?_
                intro s hs
                rw [List.mem_singleton.1 hs]; exact seq_new_fresh hs0

theorem update_rows_span {oob : Nat → Nat → Int} {front : seq} :
    ∀ {rows rows1 : mseq}, update_rows oob front rows = .ok rows1 →
      ∀ s ∈ rows1, s.m_begin ≤ s.m_end ∧ s.m_end ≤ s.m_size := by
  intro rows
  induction rows with
  | nil => intro rows1 h s hs; injection h with h; subst h; cases hs
  | cons r rest ih =>
    intro rows1 h s hs
    unfold update_rows at h
    cases hu : seq.update oob front r with
    | error e => rw [hu] at h; cases h
    | ok r1 =>
      cases hr : update_rows oob front rest with
      | error e => rw [hu, hr] at h; cases h
      | ok rest1 =>
        rw [hu, hr] at h
        injection h with h; subst h
        rcases List.mem_cons.1 hs with rfl | hs
        · exact ⟨(update_span hu).1, (update_span hu).2.1⟩
        · exact ih hr s hs

/-! ## Number of rows -/

theorem cut_all_length {pos n : Nat} : ∀ {msa msa1 : mseq}, cut_all pos n msa = .ok msa1 →
    msa1.length = msa.length := by
  intro msa
  induction msa with
  | nil => intro msa1 h; injection h with h; subst h; rfl
  | cons r rest ih =>
    intro msa1 h
    unfold cut_all at h
    cases hc : r.cut pos n with
    | error e => rw [hc] at h; cases h
    | ok r1 =>
      cases hr : cut_all pos n rest with
      | error e => rw [hc, hr] at h; cases h
      | ok rest1 =>
        rw [hc, hr] at h
        injection h with h; subst h
        simp [ih hr]

theorem crop_length {msa msa1 : mseq} {qr q : Str} (h : crop msa qr q = .ok msa1) :
    msa1.length = msa.length := by
  unfold crop at h
  split at h
  · split at h
    · cases h
    · split at h
      · cases h
      · split at h
        · cases h
        · split at h
          · cases h
          · exact cut_all_length h
  · injection h with h; subst h; rfl

theorem update_rows_length {oob : Nat → Nat → Int} {front : seq} :
    ∀ {rows rows1 : mseq}, update_rows oob front rows = .ok rows1 →
      rows1.length = rows.length := by
  intro rows
  induction rows with
  | nil => intro rows1 h; injection h with h; subst h; rfl
  | cons r rest ih =>
    intro rows1 h
    unfold update_rows at h
    cases hu : seq.update oob front r with
    | error e => rw [hu] at h; cases h
    | ok r1 =>
      cases hr : update_rows oob front rest with
      | error e => rw [hu, hr] at h; cases h
      | ok rest1 =>
        rw [hu, hr] at h
        injection h with h; subst h
        simp [ih hr]

theorem update_homologs_length {oob : Nat → Nat → Int} {msa msa1 : mseq}
    (h : update_homologs oob msa = .ok msa1) : msa1.length = msa.length := by
  unfold update_homologs at h
  cases msa with
  | nil => cases h
  | cons front rest =>
    simp only at h
    cases hu : update_rows oob front rest with
    | error e => rw [hu] at h; cases h
    | ok rest1 =>
      rw [hu] at h
      injection h with h; subst h
      simp [update_rows_length hu]

theorem stockholm_parse_length {is : List Str} {msa : mseq} {qr : Str}
    (h : stockholm_parse is = .ok (msa, qr)) : 2 ≤ msa.length := by
  unfold stockholm_parse at h
  split at h
  · cases h
  · split at h
    · cases h
    · split at h
      · cases h
      · split at h
        · cases h
        · split at h
          · cases h
          · split at h
            · cases h
            · split at h
              · cases h
              · injection h with h
                injection h with h1 h2
                subst h1
                omega

/-! ## C1 -/

/-- C1: whenever `ReadStockholm` returns an alignment (which it only does with at least
two rows), every row of it, the query row and every homolog row that `seq::update` went
over, satisfies `0 ≤ alignment_begin ≤ alignment_end ≤` number of columns of the row. -/
theorem ReadStockholm_span (oob : Nat → Nat → Int) (is : List Str) (q : Str) (msa : mseq)
    (h : ReadStockholm oob is q = .ok msa) :
    2 ≤ msa.length ∧
      ∀ s ∈ msa, 0 ≤ s.m_begin ∧ s.m_begin ≤ s.m_end ∧ s.m_end ≤ s.m_size := by
  unfold ReadStockholm at h
  cases hp : stockholm_parse is with
  | error e => rw [hp] at h; cases h
  | ok pr =>
    obtain ⟨msa0, qr⟩ := pr
    rw [hp] at h
    simp only at h
    cases hc : crop msa0 qr q with
    | error e => rw [hc] at h; cases h
    | ok msa1 =>
      rw [hc] at h
      simp only at h
      have hlen : 2 ≤ msa.length := by
        rw [update_homologs_length h, crop_length hc]
        exact stockholm_parse_length hp
      refine ⟨hlen, ?_⟩
      have hfresh := crop_fresh hc (stockholm_parse_fresh hp)
      unfold update_homologs at h
      cases msa1 with
      | nil => cases h
      | cons front rest =>
        simp only at h
        cases hu : update_rows oob front rest with
        | error e => rw [hu] at h; cases h
        | ok rest1 =>
          rw [hu] at h
          injection h with h; subst h
          intro s hs
          rcases List.mem_cons.1 hs with rfl | hs
          · have := hfresh s (List.mem_cons_self _ _)
            exact ⟨Nat.zero_le _, by rw [this.1]; exact Nat.zero_le _, this.2⟩
          · exact ⟨Nat.zero_le _, update_rows_span hu s hs⟩

theorem ReadStockholm_span_witness :
    2 ≤ sample_rows.length ∧
      ∀ s ∈ sample_rows, 0 ≤ s.m_begin ∧ s.m_begin ≤ s.m_end ∧ s.m_end ≤ s.m_size :=
  ReadStockholm_span oob_zero sample_lines (str "ACDE") sample_rows rfl

/-! ## C2 to C6: `update` on small rows -/

theorem open_insertion_error {i : Nat} {st : update_state} {e : Error}
    (h : open_insertion i st = .error e) : e = .memory := by
  unfold open_insertion at h
  split at h
  · split at h
    · injection h with h; exact h.symm
    · split at h
      · injection h with h; exact h.symm
      · cases h
  · cases h

theorem update_column_error {oob : Nat → Nat → Int} {qc i : Nat} {st : update_state}
    {e : Error} (h : update_column oob qc i st = .error e) : e = .memory := by
  unfold update_column at h
  cases hsc : st.s.m_data[st.s.m_seq + i]? with
  | none => rw [hsc] at h; injection h with h; exact h.symm
  | some sc =>
    rw [hsc] at h
    simp only [update_tail_eq] at h
    cases hq : is_gap qc <;> cases hs : is_gap sc <;> simp only [hq, hs] at h
    · simp at h
    · simp at h
    · simp at h
      cases ho : open_insertion i (count_length st) with
      | error e1 =>
        rw [ho] at h
        simp at h
        rw [← h]; exact open_insertion_error ho
      | ok st2 => rw [ho] at h; simp at h
    · simp at h

theorem update_loop_error {oob : Nat → Nat → Int} (qs : Str) :
    ∀ (i : Nat) (st : update_state) (e : Error),
      update_loop oob qs i st = .error e → e = .memory := by
  induction qs with
  | nil => intro i st e h; cases h
  | cons qc qs ih =>
    intro i st e h
    unfold update_loop at h
    cases hc : update_column oob qc i st with
    | error e1 =>
      rw [hc] at h
      injection h with h
      rw [← h]; exact update_column_error hc
    | ok st1 =>
      rw [hc] at h
      exact ih (i + 1) st1 e h

theorem update_finish_error {s : seq} {e : Error} (h : update_finish s = .error e) :
    e = .memory ∨ e = .assertion := by
  unfold update_finish at h
  split at h
  · cases h
  · split at h
    · injection h with h; exact Or.inr h.symm
    · split at h
      · injection h with h; exact Or.inr h.symm
      · split at h
        · injection h with h; exact Or.inl h.symm
        · cases h

/-- The only failures of `update` are memory errors and failed assertions. -/
theorem update_error {oob : Nat → Nat → Int} {qseq s : seq} {e : Error}
    (h : seq.update oob qseq s = .error e) : e = .memory ∨ e = .assertion := by
  unfold seq.update at h
  split at h
  · injection h with h; exact Or.inl h.symm
  · cases hl : update_loop oob qseq.chars 0 (update_init s) with
    | error e1 =>
      rw [hl] at h
      injection h with h
      rw [← h]; exact Or.inl (update_loop_error _ _ _ _ hl)
    | ok st =>
      rw [hl] at h
      exact update_finish_error h

/-- C2: on the query row `A-C` and the homolog row `AAC` two columns hold the same
residue in both rows (the `A` of column 0 and the `C` of column 2, which follows the
inserted `A`), but `seq::update` lower-cases the `C` before it compares it and counts
`identical = 1`. -/
theorem update_identical_after_insertion (oob : Nat → Nat → Int) :
    identical_columns (str "A-C") (str "AAC") = 2 ∧
      (update_text oob "A-C" "AAC").map (fun r => (r.m_identical, r.m_data)) =
        .ok (1, str "aAc") :=
  ⟨rfl, rfl⟩

/-- C3: `seq::update` of the homolog row `ACCDE` against the query row `AC-DE` yields
`identical = 3`, whatever the lookup outside the similarity matrix reads. -/
theorem update_sample_identical (oob : Nat → Nat → Int) :
    (update_text oob "AC-DE" "ACCDE").map (fun r => r.m_identical) = .ok 3 :=
  rfl

/-- C4, as stated, fails: `seq::update` of `ACCDE` against `AC-DE` does not give
`alignment_length = 4` with an empty insertion list; it gives `alignment_length = 5` and
one insertion. -/
theorem update_sample_length_counterexample :
    (update_text oob_zero "AC-DE" "ACCDE").map (fun r => (r.m_length, r.m_insertions)) ≠
        .ok (4, []) ∧
      (update_text oob_zero "AC-DE" "ACCDE").map (fun r => (r.m_length, r.m_insertions)) =
        .ok (5, [{ m_ipos := 3, m_jpos := 3, m_seq := str "cCd" }]) :=
  ⟨fun h => by
      have h5 : (update_text oob_zero "AC-DE" "ACCDE").map
          (fun r => (r.m_length, r.m_insertions)) =
          .ok (5, [{ m_ipos := 3, m_jpos := 3, m_seq := str "cCd" }]) := rfl
      rw [h5] at h
      injection h with h
      injection h with h1 h2
      exact absurd h1 (by decide),
    rfl⟩

/-- C4, amended: `seq::update` of the homolog row `ACCDE` against the query row `AC-DE`
leaves exactly one record in the insertion list of the homolog: the insertion at query
position 3 and homolog position 3 whose sequence `cCd` is the inserted `C` between its
two lower-cased neighbours, which are lower-cased in the row as well. -/
theorem update_sample_insertions (oob : Nat → Nat → Int) :
    (update_text oob "AC-DE" "ACCDE").map (fun r => (r.m_insertions, r.m_data)) =
      .ok ([{ m_ipos := 3, m_jpos := 3, m_seq := str "cCd" }], str "AcCdE") :=
  rfl

/-- C5, as stated, fails: on the lines of the scenario `ReadStockholm` with the query
substring `ACDE` does not complete; it throws "Query used for Stockholm file is too short
for the chain". -/
theorem ReadStockholm_scenario_counterexample :
    ReadStockholm oob_zero scenario_lines (str "ACDE") = .error .query_too_short :=
  rfl

/-- C5, amended: on the lines of the scenario row 0 gets the id `test` (the `-i3` suffix
stripped) but stays empty, because no line carries that id: the rows `A` and `B` are both
stored as homologs, the raw query is empty and `ReadStockholm` with the query substring
`ACDE` fails. When the query row is named `test` instead of `A`, `ReadStockholm` completes:
row 0 has the id `test` and is the query, row `B` is the homolog, and no column is cropped
(both rows keep their 5 columns from offset 0). -/
theorem ReadStockholm_scenario (oob : Nat → Nat → Int) :
    (stockholm_parse scenario_lines).map
        (fun p => (p.1.map (fun r => (r.m_id, r.m_size)), p.2)) =
      .ok ([(str "test", 0), (str "A", 5), (str "B", 5)], []) ∧
    ReadStockholm oob scenario_lines (str "ACDE") = .error .query_too_short ∧
    (ReadStockholm oob sample_lines (str "ACDE")).map
        (fun msa => msa.map (fun r => (r.m_id, r.m_seq, r.m_size, r.chars))) =
      .ok [(str "test", 0, 5, str "AC-DE"), (str "B", 0, 5, str "AcCdE")] :=
  ⟨rfl, rfl, rfl⟩

/-- C6: `seq::update` never fails with the invalid-letter error, because it compares the
`uint8` variables `rq` and `rs` with `-1`; on the query row `X` (not a residue letter)
and the homolog row `A` it returns normally. -/
theorem update_never_invalid_letter (oob : Nat → Nat → Int) :
    (∀ (qseq s : seq) (c : Nat), seq.update oob qseq s ≠ .error (.invalid_letter c)) ∧
      str "X" = [88] ∧ kResidueIX 88 = -1 ∧
      (update_text oob "X" "A").map (fun r => (r.m_identical, r.m_begin, r.m_end)) =
        .ok (0, 0, 1) := by
  refine ⟨?_, rfl, rfl, rfl⟩
  intro qseq s c h
  rcases update_error h with h | h <;> cases h

/-! ## The loop of `update`, column by column -/

theorem update_loop_cons (oob : Nat → Nat → Int) (qc : Nat) (qs : Str) (i : Nat)
    (st : update_state) :
    update_loop oob (qc :: qs) i st =
      match update_column oob qc i st with
      | .error e => .error e
      | .ok st1 => update_loop oob qs (i + 1) st1 := rfl

theorem update_loop_append (oob : Nat → Nat → Int) (xs ys : Str) :
    ∀ (i : Nat) (st : update_state),
      update_loop oob (xs ++ ys) i st =
        match update_loop oob xs i st with
        | .error e => .error e
        | .ok st1 => update_loop oob ys (i + xs.length) st1 := by
  induction xs with
  | nil => intro i st; simp [update_loop]
  | cons x xs ih =>
    intro i st
    have hlen : i + (x :: xs).length = i + 1 + xs.length := by
      simp only [List.length_cons]; omega
    rw [List.cons_append, hlen, update_loop_cons, update_loop_cons]
    cases hc : update_column oob x i st with
    | error e => rfl
    | ok st1 => exact ih (i + 1) st1

theorem update_column_deletion (oob : Nat → Nat → Int) {qc i sc : Nat} {st : update_state}
    (hr : st.s.m_data[st.s.m_seq + i]? = some sc) (hq : is_gap qc = false)
    (hs : is_gap sc = true) :
    update_column oob qc i st = .ok (deletion_column (count_length st)) := by
  unfold update_column
  rw [hr]
  simp [hq, hs]

theorem update_column_matched (oob : Nat → Nat → Int) {qc i sc : Nat} {st : update_state}
    (hr : st.s.m_data[st.s.m_seq + i]? = some sc) (hq : is_gap qc = false)
    (hs : is_gap sc = false) :
    update_column oob qc i st =
      .ok (compare_column oob qc (closed_char sc st) i
        (matched_column (close_insertion sc i (count_length st)))) := by
  unfold update_column
  rw [hr]
  simp [hq, hs, update_tail_eq]

theorem gsi_scan_le {data : Str} {b : Nat} : ∀ {p0 p : Nat}, gsi_scan data b p0 = some p →
    p ≤ p0 ∧ p < data.length := by
  intro p0
  induction p0 with
  | zero =>
    intro p h
    unfold gsi_scan at h
    cases hd : data[0]? with
    | none => rw [hd] at h; cases h
    | some c =>
      rw [hd] at h
      simp only at h
      split at h
      · cases h
      · injection h with h
        subst h
        exact ⟨Nat.le_refl 0, (List.getElem?_eq_some_iff.1 hd).1⟩
  | succ n ih =>
    intro p h
    unfold gsi_scan at h
    cases hd : data[n + 1]? with
    | none => rw [hd] at h; cases h
    | some c =>
      rw [hd] at h
      simp only at h
      split at h
      · exact ⟨Nat.le_succ_of_le (ih h).1, (ih h).2⟩
      · injection h with h
        subst h
        exact ⟨Nat.le_refl _, (List.getElem?_eq_some_iff.1 hd).1⟩

theorem open_insertion_frame {i : Nat} {st st1 : update_state}
    (h : open_insertion i st = .ok st1) :
    st1.s.m_seq = st.s.m_seq ∧ st1.s.m_data.length = st.s.m_data.length ∧
      (∀ j, st.s.m_seq + i ≤ j → st1.s.m_data[j]? = st.s.m_data[j]?) ∧
      st1.ipos = st.ipos := by
  unfold open_insertion at h
  split at h
  · split at h
    · cases h
    · rename_i hne
      split at h
      · cases h
      · rename_i p hp
        injection h with h; subst h
        refine ⟨rfl, by simp, ?_, rfl⟩
        intro j hj
        have := (gsi_scan_le hp).1
        simp only
        rw [List.getElem?_set_ne (by omega)]
  · injection h with h; subst h; exact ⟨rfl, rfl, fun _ _ => rfl, rfl⟩

theorem close_insertion_frame (sc i : Nat) (st : update_state) :
    (close_insertion sc i st).s.m_seq = st.s.m_seq ∧
      (close_insertion sc i st).s.m_data.length = st.s.m_data.length ∧
      (∀ j, st.s.m_seq + i < j →
        (close_insertion sc i st).s.m_data[j]? = st.s.m_data[j]?) ∧
      (close_insertion sc i st).ipos = st.ipos := by
  unfold close_insertion
  split
  · refine ⟨rfl, by simp, ?_, rfl⟩
    intro j hj
    simp only
    rw [List.getElem?_set_ne (by omega)]
  · exact ⟨rfl, rfl, fun _ _ => rfl, rfl⟩

theorem update_column_frame {oob : Nat → Nat → Int} {qc i : Nat} {st st1 : update_state}
    (h : update_column oob qc i st = .ok st1) : column_frame i st st1 := by
  obtain ⟨sc, -, h | h | h | h⟩ := update_column_cases h
  · obtain ⟨-, -, rfl⟩ := h; exact ⟨rfl, rfl, fun _ _ => rfl, fun h => h⟩
  · obtain ⟨-, -, rfl⟩ := h
    exact ⟨rfl, rfl, fun _ _ => rfl, fun h => Nat.le_succ_of_le h⟩
  · obtain ⟨-, -, st2, hst2, rfl⟩ := h
    obtain ⟨h1, h2, h3, h4⟩ := open_insertion_frame hst2
    exact ⟨h1, h2, fun j hj => h3 j (Nat.le_of_lt hj), fun h => by
      show 1 ≤ st2.ipos
      rw [h4]; exact h⟩
  · obtain ⟨-, -, rfl⟩ := h
    obtain ⟨h1, h2, h3, h4⟩ := close_insertion_frame sc i (count_length st)
    exact ⟨h1, h2, h3, fun _ => Nat.le_add_left 1 _⟩

theorem update_loop_frame {oob : Nat → Nat → Int} (qs : Str) :
    ∀ (i : Nat) (st st1 : update_state), update_loop oob qs i st = .ok st1 →
      st1.s.m_seq = st.s.m_seq ∧ st1.s.m_data.length = st.s.m_data.length ∧
      (∀ j, st.s.m_seq + i + qs.length ≤ j → st1.s.m_data[j]? = st.s.m_data[j]?) ∧
      (1 ≤ st.ipos → 1 ≤ st1.ipos) := by
  induction qs with
  | nil =>
    intro i st st1 h
    injection h with h; subst h
    exact ⟨rfl, rfl, fun _ _ => rfl, fun h => h⟩
  | cons qc qs ih =>
    intro i st st1 h
    unfold update_loop at h
    cases hc : update_column oob qc i st with
    | error e => rw [hc] at h; cases h
    | ok st2 =>
      rw [hc] at h
      obtain ⟨a1, a2, a3, a4⟩ := update_column_frame hc
      obtain ⟨b1, b2, b3, b4⟩ := ih (i + 1) st2 st1 h
      refine ⟨by rw [b1, a1], by rw [b2, a2], ?_, fun h => b4 (a4 h)⟩
      intro j hj
      simp only [List.length_cons] at hj
      rw [b3 j (by rw [a1]; omega), a3 j (by omega)]

/-! ## C7: deletion runs -/

theorem deletion_run (oob : Nat → Nat → Int) (D : Str) : ∀ (i : Nat) (st : update_state),
    (∀ x ∈ D, is_gap x = false) →
    (∀ j, j < D.length →
      ∃ g, st.s.m_data[st.s.m_seq + i + j]? = some g ∧ is_gap g = true) →
    ∃ st1, update_loop oob D i st = .ok st1 ∧ st1.s = st.s ∧
      st1.gapn = st.gapn + D.length ∧ st1.qgapf = st.qgapf ∧
      st1.gaps = (if D = [] ∨ st.sgapf = true ∨ st.qgapf = true then st.gaps
        else st.gaps + 1) := by
  induction D with
  | nil => intro i st _ _; exact ⟨st, rfl, rfl, rfl, rfl, by simp⟩
  | cons x D ih =>
    intro i st hD hG
    obtain ⟨g, hg, hgg⟩ := hG 0 (by simp)
    have hx : is_gap x = false := hD x (List.mem_cons_self _ _)
    rw [update_loop_cons, update_column_deletion oob (by simpa using hg) hx hgg]
    obtain ⟨st1, h1, h2, h3, h4, h5⟩ := ih (i + 1) (deletion_column (count_length st))
      (fun y hy => hD y (List.mem_cons_of_mem _ hy))
      (fun j hj => by
        obtain ⟨g1, hg1, hgg1⟩ := hG (j + 1) (by simpa using hj)
        refine ⟨g1, ?_, hgg1⟩
        rw [← hg1]
        show st.s.m_data[st.s.m_seq + (i + 1) + j]? = st.s.m_data[st.s.m_seq + i + (j + 1)]?
        congr 1; omega)
    refine ⟨st1, h1, h2, ?_, h4, ?_⟩
    · rw [h3]
      show st.gapn + 1 + D.length = st.gapn + (x :: D).length
      simp only [List.length_cons]; omega
    · rw [h5]
      have : (deletion_column (count_length st)).sgapf = true := rfl
      simp only [this, true_or, or_true, if_true]
      show (if (!(st.sgapf || st.qgapf)) = true then st.gaps + 1 else st.gaps) = _
      cases hs : st.sgapf <;> cases hq : st.qgapf <;> simp

/-- C7: a run of `k ≥ 1` deletion columns (query residues `D` opposite gaps of the
homolog) that lies directly between two matched columns (`a` over `b` before it, `c`
over `d` after it) adds exactly 1 to `gaps` and exactly `k` to `gapn`: when the loop of
`update` has gone through the columns up to the first matched column with the state
`st1`, it goes on through the run and the second matched column without failing, and
then `m_gaps` is 1 more and `m_gapn` is `k` more than in `st1`. -/
theorem deletion_run_counts (oob : Nat → Nat → Int) (s : seq) (qa D : Str)
    (a b c d : Nat) (st1 : update_state)
    (ha : is_gap a = false) (hb : s.m_data[s.m_seq + qa.length]? = some b)
    (hbg : is_gap b = false)
    (hk : 1 ≤ D.length) (hD : ∀ x ∈ D, is_gap x = false)
    (hG : ∀ j, j < D.length →
      ∃ g, s.m_data[s.m_seq + qa.length + 1 + j]? = some g ∧ is_gap g = true)
    (hc : is_gap c = false) (hd : s.m_data[s.m_seq + qa.length + 1 + D.length]? = some d)
    (hdg : is_gap d = false)
    (h1 : update_loop oob (qa ++ [a]) 0 (update_init s) = .ok st1) :
    ∃ st2, update_loop oob (qa ++ [a] ++ D ++ [c]) 0 (update_init s) = .ok st2 ∧
      st2.s.m_gaps = st1.s.m_gaps + 1 ∧ st2.s.m_gapn = st1.s.m_gapn + D.length := by
  -- the columns before the first matched column
  rw [update_loop_append] at h1
  cases h0 : update_loop oob qa 0 (update_init s) with
  | error e => rw [h0] at h1; cases h1
  | ok st0 =>
    rw [h0] at h1
    simp only [Nat.zero_add] at h1
    obtain ⟨f1, -, f3, f4⟩ := update_loop_frame qa 0 _ _ h0
    have f1 : st0.s.m_seq = s.m_seq := f1
    have hipos : 1 ≤ st0.ipos := f4 (Nat.le_refl 1)
    have hdata : ∀ j, s.m_seq + qa.length ≤ j → st0.s.m_data[j]? = s.m_data[j]? := by
      intro j hj
      exact f3 j (by simpa using hj)
    -- the first matched column
    rw [update_loop_cons] at h1
    have hb0 : st0.s.m_data[st0.s.m_seq + qa.length]? = some b := by
      rw [f1, hdata _ (Nat.le_refl _)]; exact hb
    rw [update_column_matched oob hb0 ha hbg] at h1
    injection h1 with h1
    obtain ⟨g1, -, g3, -⟩ := close_insertion_frame b qa.length (count_length st0)
    have hseq1 : st1.s.m_seq = s.m_seq := by rw [← h1]; exact g1.trans f1
    have hdata1 : ∀ j, s.m_seq + qa.length < j → st1.s.m_data[j]? = s.m_data[j]? := by
      intro j hj
      rw [← h1]
      exact (g3 j (by rw [show (count_length st0).s.m_seq = s.m_seq from f1]; exact hj)).trans
        (hdata j (Nat.le_of_lt hj))
    have hflags : st1.sgapf = false ∧ st1.qgapf = false ∧ st1.gaps = 0 ∧ st1.gapn = 0 := by
      rw [← h1]; exact ⟨rfl, rfl, rfl, rfl⟩
    have hifir : st1.s.m_ifir ≠ 0 := by
      rw [← h1]
      show (if (close_insertion b qa.length (count_length st0)).s.m_ifir = 0 then
        (close_insertion b qa.length (count_length st0)).ipos
        else (close_insertion b qa.length (count_length st0)).s.m_ifir) ≠ 0
      have hip : (close_insertion b qa.length (count_length st0)).ipos = st0.ipos :=
        (close_insertion_frame b qa.length (count_length st0)).2.2.2
      split
      · rw [hip]; omega
      · assumption
    -- the run
    obtain ⟨st3, r1, r2, r3, r4, r5⟩ := deletion_run oob D (qa.length + 1) st1 hD
      (fun j hj => by
        obtain ⟨g, hg, hgg⟩ := hG j hj
        refine ⟨g, ?_, hgg⟩
        rw [hseq1, ← Nat.add_assoc, hdata1 _ (by omega)]
        exact hg)
    -- the second matched column
    have hd3 : st3.s.m_data[st3.s.m_seq + (qa.length + 1 + D.length)]? = some d := by
      rw [r2, hseq1, ← Nat.add_assoc, ← Nat.add_assoc, hdata1 _ (by omega)]
      exact hd
    refine ⟨compare_column oob c (closed_char d st3) (qa.length + 1 + D.length)
      (matched_column (close_insertion d (qa.length + 1 + D.length) (count_length st3))),
      ?_, ?_, ?_⟩
    · rw [List.append_assoc, List.append_assoc, update_loop_append, h0]
      simp only [Nat.zero_add, List.cons_append, List.nil_append]
      rw [update_loop_cons, update_column_matched oob hb0 ha hbg]
      simp only [h1]
      rw [update_loop_append, r1]
      simp only
      rw [update_loop_cons, update_column_matched oob hd3 hc hdg]
      rfl
    · have hq3 : (count_length st3).qgapf = false := by
        show st3.qgapf = false
        rw [r4]; exact hflags.2.1
      have hcl : close_insertion d (qa.length + 1 + D.length) (count_length st3) =
          count_length st3 := by
        unfold close_insertion
        rw [hq3]; rfl
      rw [hcl]
      show (if st3.s.m_ifir = 0 then st3.s.m_gaps else st3.s.m_gaps + st3.gaps) = _
      rw [r2, if_neg hifir, r5, hflags.1, hflags.2.1, hflags.2.2.1]
      have : D ≠ [] := by
        intro h; rw [h] at hk; simp at hk
      simp [this]
    · have hq3 : (count_length st3).qgapf = false := by
        show st3.qgapf = false
        rw [r4]; exact hflags.2.1
      have hcl : close_insertion d (qa.length + 1 + D.length) (count_length st3) =
          count_length st3 := by
        unfold close_insertion
        rw [hq3]; rfl
      rw [hcl]
      show (if st3.s.m_ifir = 0 then st3.s.m_gapn else st3.s.m_gapn + st3.gapn) = _
      rw [r2, if_neg hifir, r3, hflags.2.2.2]
      omega

theorem deletion_run_counts_witness :
    row "S" "A--D" = .ok sample_deletion_row ∧
    (∃ st2, update_loop oob_zero (str "ABCD") 0 (update_init sample_deletion_row) = .ok st2 ∧
      st2.s.m_gaps = 0 + 1 ∧ st2.s.m_gapn = 0 + 2) ∧
    (update_text oob_zero "ABCD" "A--D").map (fun r => (r.m_gaps, r.m_gapn)) = .ok (1, 2) :=
  ⟨rfl,
   deletion_run_counts oob_zero sample_deletion_row [] (str "BC") 65 65 68 68
     sample_deletion_state rfl rfl rfl (by decide) (by decide)
     (fun j hj => by
       have hj2 : j < 2 := hj
       interval_cases j
       · exact ⟨45, rfl, rfl⟩
       · exact ⟨45, rfl, rfl⟩)
     rfl rfl rfl rfl,
   rfl⟩

/-! ## Rows as parsed -/

theorem parsed_row_chars {s : seq} (h : parsed_row s) : s.chars = s.m_data := by
  unfold seq.chars
  rw [h.1, List.drop_zero, ← h.2.1, List.take_length]

theorem seq_new_parsed {id : Str} {s : seq} (h : seq.new id = .ok s) :
    parsed_row s ∧ s.m_data = [] ∧ s.m_id = id ∧ s.m_size = 0 := by
  unfold seq.new at h
  split at h
  · rename_i name d1 d2 _
    cases h1 : lexical_cast_uint32 d1 with
    | error e => rw [h1] at h; cases h
    | ok v1 =>
      cases h2 : lexical_cast_uint32 d2 with
      | error e => rw [h1, h2] at h; cases h
      | ok v2 =>
        rw [h1, h2] at h
        injection h with h; subst h
        exact ⟨⟨rfl, rfl, rfl, rfl, Nat.two_pow_pos 32⟩, rfl, rfl, rfl⟩
  · injection h with h; subst h
    exact ⟨⟨rfl, rfl, rfl, rfl, Nat.two_pow_pos 32⟩, rfl, rfl, rfl⟩

theorem new_space_lt (s : seq) (len : Nat) : new_space s len < 2 ^ 32 := by
  unfold new_space
  generalize (if s.m_space = 0 then kBlockSize else s.m_space) * 2 = k
  split <;> exact Nat.mod_lt _ (Nat.two_pow_pos 32)

theorem reserve_parsed {s s1 : seq} {len : Nat} (h : s.reserve len = .ok s1)
    (hs : parsed_row s) : parsed_row s1 ∧ s1.m_data = s.m_data ∧ s1.m_id = s.m_id ∧
      s1.m_size = s.m_size := by
  unfold seq.reserve at h
  split at h
  · split at h
    · cases h
    · injection h with h; subst h
      obtain ⟨h1, h2, h3, h4, h5⟩ := hs
      have ht : s.m_data.take s.m_size = s.m_data := by rw [← h2, List.take_length]
      exact ⟨⟨rfl, by show (s.m_data.take s.m_size).length = s.m_size; rw [ht, h2], h3, h4,
        new_space_lt s len⟩, ht, rfl, rfl⟩
  · injection h with h; subst h; exact ⟨hs, rfl, rfl, rfl⟩

theorem write_parsed {s s1 : seq} {text : Str} (h : s.write text = .ok s1)
    (hs : parsed_row s) : parsed_row s1 ∧ s1.m_data = s.m_data ++ text ∧ s1.m_id = s.m_id ∧
      s1.m_size = s.m_size + text.length := by
  unfold seq.write at h
  split at h
  · cases h
  · rename_i hc
    injection h with h; subst h
    obtain ⟨h1, h2, h3, h4, h5⟩ := hs
    simp only [not_or, not_lt] at hc
    have hsz : (s.m_size + text.length) % 2 ^ 32 = s.m_size + text.length := by
      apply Nat.mod_eq_of_lt
      have := hc.1
      omega
    have hd : s.m_data.take (s.m_seq + s.m_size) ++ text ++
        s.m_data.drop (s.m_seq + s.m_size + text.length) = s.m_data ++ text := by
      rw [h1, Nat.zero_add, ← h2, List.take_length, List.drop_eq_nil_of_le (by omega),
        List.append_nil]
    refine ⟨⟨h1, ?_, h3, rfl, h5⟩, hd, rfl, hsz⟩
    show (s.m_data.take (s.m_seq + s.m_size) ++ text ++
        s.m_data.drop (s.m_seq + s.m_size + text.length)).length =
      (s.m_size + text.length) % 2 ^ 32
    rw [hd, hsz, List.length_append, h2]

theorem append_parsed {s s1 : seq} {text : Str} (h : s.append text = .ok s1)
    (hs : parsed_row s) : parsed_row s1 ∧ s1.m_data = s.m_data ++ text ∧ s1.m_id = s.m_id ∧
      s1.m_size = s.m_size + text.length := by
  unfold seq.append at h
  split at h
  · cases h
  · rename_i s2 hs2
    obtain ⟨a1, a2, a3, a4⟩ := reserve_parsed hs2 hs
    obtain ⟨b1, b2, b3, b4⟩ := write_parsed h a1
    exact ⟨b1, by rw [b2, a2], by rw [b3, a3], by rw [b4, a4]⟩

theorem mem_set_parsed {msa : mseq} {k : Nat} {r : seq} (hall : ∀ s ∈ msa, parsed_row s)
    (hr : parsed_row r) : ∀ s ∈ msa.set k r, parsed_row s := by
  intro s hs
  rcases List.mem_or_eq_of_mem_set hs with h | h
  · exact hall s h
  · rw [h]; exact hr

theorem mem_append_parsed {msa : mseq} {r : seq} (hall : ∀ s ∈ msa, parsed_row s)
    (hr : parsed_row r) : ∀ s ∈ msa ++ [r], parsed_row s := by
  intro s hs
  rcases List.mem_append.1 hs with h | h
  · exact hall s h
  · rw [List.mem_singleton.1 h]; exact hr

theorem non_gap_append (a b : Str) : non_gap (a ++ b) = non_gap a ++ non_gap b := by
  unfold non_gap
  exact List.filter_append a b

theorem declare_row_inv {id : Str} {front : seq} {st st1 : stockholm_state}
    (h : declare_row id front st = .ok st1) (hinv : stockholm_inv st) :
    stockholm_inv st1 := by
  unfold declare_row at h
  split at h
  · split at h
    · cases h
    · rename_i s0 hs0
      injection h with h; subst h
      obtain ⟨hall, f, rest, hm, hq⟩ := hinv
      refine ⟨mem_append_parsed hall (seq_new_parsed hs0).1, f, rest ++ [s0], ?_, hq⟩
      show st.msa ++ [s0] = f :: (rest ++ [s0])
      rw [hm]; rfl
  · injection h with h; subst h; exact hinv

theorem grow_msa_inv {id : Str} {ix : Nat} {msa msa1 : mseq} {f : seq} {rest : mseq}
    (h : grow_msa id ix msa = .ok msa1) (hall : ∀ s ∈ msa, parsed_row s)
    (hm : msa = f :: rest) :
    (∀ s ∈ msa1, parsed_row s) ∧ ∃ rest1, msa1 = f :: rest1 := by
  unfold grow_msa at h
  split at h
  · split at h
    · cases h
    · rename_i s0 hs0
      injection h with h; subst h
      exact ⟨mem_append_parsed hall (seq_new_parsed hs0).1, rest ++ [s0], by rw [hm]; rfl⟩
  · injection h with h; subst h; exact ⟨hall, rest, hm⟩

theorem sequence_line_inv {line : Str} {front : seq} {st st1 : stockholm_state}
    (h : sequence_line line front st = .ok st1) (hinv : stockholm_inv st)
    (hfront : st.msa.head? = some front) : stockholm_inv st1 := by
  obtain ⟨hall, f, rest, hm, hq⟩ := hinv
  have hf : f = front := by
    rw [hm] at hfront
    exact Option.some.inj hfront
  subst hf
  unfold sequence_line at h
  split at h
  · cases h
  · rename_i sp hsp
    cases hsel : select_row (line.take sp) ((line.drop sp).dropWhile (fun c => c == 32)) f st with
    | error e => rw [hsel] at h; cases h
    | ok st2 =>
      rw [hsel] at h
      simp only at h
      unfold select_row at hsel
      split at hsel
      · -- a line of the query
        injection hsel with hsel; subst hsel
        unfold append_row at h
        simp only [hm, List.getElem?_cons_zero] at h
        split at h
        · cases h
        · rename_i r1 hr1
          injection h with h; subst h
          obtain ⟨p1, p2, -, -⟩ := append_parsed hr1 (hall f (by rw [hm]; exact List.mem_cons_self _ _))
          refine ⟨?_, r1, rest, by simp, ?_⟩
          · have := mem_set_parsed (k := 0) hall p1
            rw [hm] at this
            simpa using this
          · show st.qr ++ non_gap _ = non_gap r1.m_data
            rw [p2, non_gap_append, hq]
      · -- a line of a homolog
        split at hsel
        · cases hsel
        · rename_i msa2 hmsa2
          split at hsel
          · cases hsel
          · injection hsel with hsel; subst hsel
            obtain ⟨hall2, rest2, hm2⟩ := grow_msa_inv hmsa2 hall hm
            unfold append_row at h
            simp only at h
            split at h
            · rename_i r hr
              split at h
              · cases h
              · rename_i r1 hr1
                injection h with h; subst h
                obtain ⟨p1, -, -, -⟩ := append_parsed hr1 (hall2 r (List.mem_iff_getElem?.2 ⟨_, hr⟩))
                refine ⟨mem_set_parsed hall2 p1, f, rest2.set st.ix r1, ?_, hq⟩
                show msa2.set (st.ix + 1) r1 = f :: rest2.set st.ix r1
                rw [hm2]; rfl
            · injection h with h; subst h
              exact ⟨hall2, f, rest2, hm2, hq⟩

theorem stockholm_line_inv {line : Str} {st st1 : stockholm_state}
    (h : stockholm_line line st = .ok st1) (hinv : stockholm_inv st) :
    stockholm_inv st1 := by
  unfold stockholm_line at h
  split at h
  · cases h
  · rename_i front tl hm
    split at h
    · exact declare_row_inv h hinv
    · split at h
      · exact sequence_line_inv h hinv (by rw [hm]; rfl)
      · injection h with h; subst h; exact hinv

theorem stockholm_body_inv : ∀ (lines : List Str) (st st1 : stockholm_state),
    stockholm_body lines st = .ok st1 → stockholm_inv st → stockholm_inv st1 := by
  intro lines
  induction lines with
  | nil => intro st st1 h; cases h
  | cons line rest ih =>
    intro st st1 h hinv
    unfold stockholm_body at h
    split at h
    · exact ih st st1 h hinv
    · split at h
      · injection h with h; subst h; exact hinv
      · split at h
        · cases h
        · rename_i st2 hst2
          exact ih st2 st1 h (stockholm_line_inv hst2 hinv)

/-- The rows that the first part of `ReadStockholm` returns are as parsed, and the raw
query holds the non-gap characters of row 0. -/
theorem stockholm_parse_inv {is : List Str} {msa : mseq} {qr : Str}
    (h : stockholm_parse is = .ok (msa, qr)) :
    (∀ s ∈ msa, parsed_row s) ∧ ∃ front rest, msa = front :: rest ∧ qr = non_gap front.chars := by
  unfold stockholm_parse at h
  split at h
  · cases h
  · split at h
    · cases h
    · split at h
      · cases h
      · split at h
        · cases h
        · split at h
          · cases h
          · rename_i s0 hs0
            split at h
            · cases h
            · rename_i st hst
              split at h
              · cases h
              · injection h with h
                injection h with h1 h2
                subst h1; subst h2
                obtain ⟨p1, p2, -, -⟩ := seq_new_parsed hs0
                have := stockholm_body_inv _ _ _ hst
                  ⟨fun s hs => by rw [List.mem_singleton.1 hs]; exact p1, s0, [], rfl,
                    by show [] = non_gap s0.m_data; rw [p2]; rfl⟩
                obtain ⟨hall, f, rest, hm, hq⟩ := this
                refine ⟨hall, f, rest, hm, ?_⟩
                rw [parsed_row_chars (hall f (by rw [hm]; exact List.mem_cons_self _ _))]
                exact hq

theorem fasta_body_parsed : ∀ (lines : List Str) (msa msa1 : mseq),
    fasta_body lines msa = .ok msa1 → (∀ s ∈ msa, parsed_row s) →
    ∀ s ∈ msa1, parsed_row s := by
  intro lines
  induction lines with
  | nil => intro msa msa1 h hall; injection h with h; subst h; exact hall
  | cons line rest ih =>
    intro msa msa1 h hall
    unfold fasta_body at h
    split at h
    · exact ih msa msa1 h hall
    · split at h
      · split at h
        · cases h
        · rename_i s0 hs0
          exact ih _ msa1 h (mem_append_parsed hall (seq_new_parsed hs0).1)
      · split at h
        · cases h
        · rename_i back hback
          split at h
          · cases h
          · rename_i back1 hback1
            refine ih _ msa1 h ?_
            have hb : parsed_row back := hall back (List.mem_of_getLast?_eq_some hback)
            intro s hs
            rcases List.mem_append.1 hs with hs | hs
            · exact hall s (List.dropLast_subset msa hs)
            · rw [List.mem_singleton.1 hs]; exact (append_parsed hback1 hb).1

theorem fasta_parse_parsed {is : List Str} {msa : mseq} (h : fasta_parse is = .ok msa) :
    (∀ s ∈ msa, parsed_row s) ∧ 2 ≤ msa.length := by
  unfold fasta_parse at h
  cases hb : fasta_body is [] with
  | error e => rw [hb] at h; cases h
  | ok msa0 =>
    rw [hb] at h
    simp only at h
    have hall := fasta_body_parsed is [] msa0 hb (fun s hs => by cases hs)
    split at h
    · cases h
    · cases h
    · rename_i front rest hne
      split at h
      · cases h
      · injection h with h; subst h
        refine ⟨hall, ?_⟩
        cases rest with
        | nil => exact absurd rfl hne
        | cons r rs => simp

/-! ## Substring search and the column window -/

theorem starts_with_iff : ∀ (text p : Str), starts_with text p = true ↔ text.take p.length = p := by
  intro text p
  induction p generalizing text with
  | nil => cases text <;> simp [starts_with]
  | cons d p ih =>
    cases text with
    | nil => simp [starts_with]
    | cons c text =>
      simp only [starts_with, Bool.and_eq_true, beq_iff_eq, List.length_cons, List.take_succ_cons,
        List.cons.injEq]
      rw [ih]

theorem find_spec {needle : Str} : ∀ {text : Str} {k : Nat}, find needle text = some k →
    (text.drop k).take needle.length = needle ∧ k ≤ text.length := by
  intro text
  induction text with
  | nil =>
    intro k h
    unfold find at h
    split at h
    · rename_i hn
      injection h with h; subst h; subst hn
      exact ⟨rfl, Nat.le_refl 0⟩
    · cases h
  | cons c text ih =>
    intro k h
    unfold find at h
    split at h
    · rename_i hs
      injection h with h; subst h
      exact ⟨(starts_with_iff _ _).1 hs, Nat.zero_le _⟩
    · split at h
      · rename_i k1 hk1
        injection h with h; subst h
        exact ⟨(ih hk1).1, Nat.succ_le_succ (ih hk1).2⟩
      · cases h

theorem find_of_infix {needle : Str} : ∀ {text : Str}, needle <:+: text →
    ∃ k, find needle text = some k := by
  intro text
  induction text with
  | nil =>
    intro h
    have : needle = [] := List.eq_nil_of_infix_nil h
    subst this
    exact ⟨0, rfl⟩
  | cons c text ih =>
    intro h
    unfold find
    by_cases hs : starts_with (c :: text) needle = true
    · exact ⟨0, by rw [if_pos hs]⟩
    · rw [if_neg hs]
      rcases List.infix_cons_iff.1 h with hp | hi
      · exfalso
        apply hs
        rw [starts_with_iff]
        exact List.prefix_iff_eq_take.1 hp |>.symm
      · obtain ⟨k, hk⟩ := ih hi
        exact ⟨k + 1, by rw [hk]⟩

theorem infix_of_find {needle text : Str} {k : Nat} (h : find needle text = some k) :
    needle <:+: text := by
  obtain ⟨h1, -⟩ := find_spec h
  rw [← h1]
  exact (List.take_prefix _ _).isInfix.trans (List.drop_suffix _ _).isInfix

/-- What the counting loop of the readers computes: it splits the characters at `r` into
the columns it passes and the rest; the passed columns hold the first `k` residues
(fewer if the row ends before), the rest holds the other residues. -/
theorem count_columns_spec : ∀ (cs : Str) (k cnt : Nat),
    ∃ pre, cs = pre ++ (count_columns cs k cnt).2 ∧
      (count_columns cs k cnt).1 = cnt + pre.length ∧
      non_gap pre = (non_gap cs).take k ∧
      non_gap (count_columns cs k cnt).2 = (non_gap cs).drop k := by
  intro cs
  induction cs with
  | nil => intro k cnt; exact ⟨[], rfl, rfl, by simp [non_gap], by simp [non_gap, count_columns]⟩
  | cons c cs ih =>
    intro k cnt
    unfold count_columns
    by_cases hg : is_gap c = true
    · rw [if_pos hg]
      obtain ⟨pre, h1, h2, h3, h4⟩ := ih k (cnt + 1)
      refine ⟨c :: pre, by rw [List.cons_append, ← h1], by rw [h2, List.length_cons]; omega, ?_, ?_⟩
      · have e1 : non_gap (c :: pre) = non_gap pre := by simp [non_gap, hg]
        have e2 : non_gap (c :: cs) = non_gap cs := by simp [non_gap, hg]
        rw [e1, e2, h3]
      · have e2 : non_gap (c :: cs) = non_gap cs := by simp [non_gap, hg]
        rw [e2, h4]
    · rw [if_neg hg]
      have e2 : non_gap (c :: cs) = c :: non_gap cs := by simp [non_gap, hg]
      by_cases hk : k > 0
      · rw [if_pos hk]
        obtain ⟨pre, h1, h2, h3, h4⟩ := ih (k - 1) (cnt + 1)
        refine ⟨c :: pre, by rw [List.cons_append, ← h1], by rw [h2, List.length_cons]; omega,
          ?_, ?_⟩
        · have e1 : non_gap (c :: pre) = c :: non_gap pre := by simp [non_gap, hg]
          obtain ⟨k1, rfl⟩ : ∃ k1, k = k1 + 1 := ⟨k - 1, by omega⟩
          rw [e1, e2, h3]; rfl
        · obtain ⟨k1, rfl⟩ : ∃ k1, k = k1 + 1 := ⟨k - 1, by omega⟩
          rw [e2, h4]; rfl
      · rw [if_neg hk]
        have hk0 : k = 0 := by omega
        subst hk0
        exact ⟨[], rfl, rfl, by simp [non_gap], by simp⟩

theorem count_columns_rest : ∀ (cs : Str) (k cnt c : Nat) (tl : Str),
    (count_columns cs k cnt).2 = c :: tl → is_gap c = false := by
  intro cs
  induction cs with
  | nil => intro k cnt c tl h; cases h
  | cons x cs ih =>
    intro k cnt c tl h
    unfold count_columns at h
    by_cases hg : is_gap x = true
    · rw [if_pos hg] at h; exact ih _ _ c tl h
    · rw [if_neg hg] at h
      by_cases hk : k > 0
      · rw [if_pos hk] at h; exact ih _ _ c tl h
      · rw [if_neg hk] at h
        injection h with h1 h2
        subst h1
        simpa using hg

/-- The window that the readers cut: when `q` is found in the raw query of the row, the
two counts `pos` and `n` lie inside the row and the residues of the columns
`[pos, pos + n)` are exactly `q`; for a non-empty `q` the window starts on a residue. -/
theorem window_spec {chars q : Str} {offset : Nat} (hf : find q (non_gap chars) = some offset) :
    (count_columns chars offset 0).1 +
        (count_columns (count_columns chars offset 0).2 q.length 0).1 ≤ chars.length ∧
      non_gap ((chars.drop (count_columns chars offset 0).1).take
        (count_columns (count_columns chars offset 0).2 q.length 0).1) = q ∧
      (q ≠ [] → ∃ c, ((chars.drop (count_columns chars offset 0).1).take
        (count_columns (count_columns chars offset 0).2 q.length 0).1).head? = some c ∧
        is_gap c = false) := by
  obtain ⟨pre1, a1, a2, a3, a4⟩ := count_columns_spec chars offset 0
  have hhead := count_columns_rest chars offset 0
  obtain ⟨pre2, b1, b2, b3, b4⟩ :=
    count_columns_spec (count_columns chars offset 0).2 q.length 0
  generalize (count_columns chars offset 0).2 = r at *
  generalize (count_columns chars offset 0).1 = pos at *
  generalize (count_columns r q.length 0).2 = r2 at *
  generalize (count_columns r q.length 0).1 = n at *
  rw [Nat.zero_add] at a2 b2
  subst a2 b2
  have hchars : chars = pre1 ++ (pre2 ++ r2) := by rw [a1, b1]
  have hwin : (chars.drop pre1.length).take pre2.length = pre2 := by
    rw [hchars, List.drop_left, List.take_left]
  have hq : non_gap pre2 = q := by
    rw [b3, a4]
    exact (find_spec hf).1
  refine ⟨?_, by rw [hwin]; exact hq, ?_⟩
  · rw [hchars]; simp only [List.length_append]; omega
  · intro hne
    rw [hwin]
    -- the rest `r` after the first loop starts with a residue, and so does `pre2`
    cases hpre2 : pre2 with
    | nil => rw [hpre2] at hq; exact absurd hq.symm hne
    | cons c tl =>
      refine ⟨c, rfl, ?_⟩
      -- `c` is the head of `r`; the first loop only stops on a residue
      have hr : r = c :: (tl ++ r2) := by rw [b1, hpre2]; rfl
      exact hhead c (tl ++ r2) hr

/-! ## `update` on rows as wide as the query -/

theorem gsi_scan_ok (data : Str) (b : Nat) : ∀ (p : Nat), b ≤ p → p < data.length →
    ∃ r, gsi_scan data b p = some r := by
  intro p
  induction p with
  | zero =>
    intro hb hp
    unfold gsi_scan
    rw [List.getElem?_eq_getElem hp]
    simp only
    have : b = 0 := by omega
    subst this
    exact ⟨0, by simp⟩
  | succ n ih =>
    intro hb hp
    unfold gsi_scan
    rw [List.getElem?_eq_getElem hp]
    simp only
    split
    · rename_i hc
      exact ih (by omega) (by omega)
    · exact ⟨n + 1, rfl⟩

theorem open_insertion_ok (i : Nat) (st : update_state) (hi : 1 ≤ i)
    (hr : st.s.m_seq + i < st.s.m_data.length) : ∃ st1, open_insertion i st = .ok st1 := by
  unfold open_insertion
  split
  · rw [if_neg (by omega)]
    obtain ⟨r, hr⟩ := gsi_scan_ok st.s.m_data st.s.m_seq
      (st.s.m_seq + i - 1) (by omega) (by omega)
    rw [hr]
    exact ⟨_, rfl⟩
  · exact ⟨st, rfl⟩

theorem update_column_ok (oob : Nat → Nat → Int) (qc i : Nat) (st : update_state)
    (hr : st.s.m_seq + i < st.s.m_data.length) (h0 : i = 0 → is_gap qc = false) :
    ∃ st1, update_column oob qc i st = .ok st1 := by
  unfold update_column
  rw [List.getElem?_eq_getElem hr]
  simp only [update_tail_eq]
  split
  · exact ⟨st, rfl⟩
  · split
    · exact ⟨_, rfl⟩
    · split
      · rename_i hq
        have hi : 1 ≤ i := by
          rcases Nat.eq_zero_or_pos i with h | h
          · rw [h0 h] at hq; cases hq
          · exact h
        obtain ⟨st1, h1⟩ := open_insertion_ok i (count_length st) hi hr
        rw [h1]
        exact ⟨_, rfl⟩
      · exact ⟨_, rfl⟩

theorem update_loop_ok (oob : Nat → Nat → Int) (qs : Str) : ∀ (i : Nat) (st : update_state),
    st.s.m_seq + i + qs.length ≤ st.s.m_data.length →
    (i = 0 → ∀ c, qs.head? = some c → is_gap c = false) →
    ∃ st1, update_loop oob qs i st = .ok st1 := by
  induction qs with
  | nil => intro i st _ _; exact ⟨st, rfl⟩
  | cons qc qs ih =>
    intro i st hlen h0
    simp only [List.length_cons] at hlen
    obtain ⟨st1, h1⟩ := update_column_ok oob qc i st
      (by omega) (fun hi => h0 hi qc rfl)
    rw [update_loop_cons, h1]
    obtain ⟨f1, f2, -, -⟩ := update_column_frame h1
    exact ih (i + 1) st1 (by rw [f1, f2]; omega) (fun h => by omega)

theorem open_insertion_id {i : Nat} {st st1 : update_state}
    (h : open_insertion i st = .ok st1) : st1.s.m_id = st.s.m_id := by
  unfold open_insertion at h
  split at h
  · split at h
    · cases h
    · split at h
      · cases h
      · injection h with h; subst h; rfl
  · injection h with h; subst h; rfl

theorem close_insertion_id (sc i : Nat) (st : update_state) :
    (close_insertion sc i st).s.m_id = st.s.m_id := by
  unfold close_insertion
  split <;> rfl

theorem update_column_id {oob : Nat → Nat → Int} {qc i : Nat} {st st1 : update_state}
    (h : update_column oob qc i st = .ok st1) : st1.s.m_id = st.s.m_id := by
  obtain ⟨sc, -, h | h | h | h⟩ := update_column_cases h
  · obtain ⟨-, -, rfl⟩ := h; rfl
  · obtain ⟨-, -, rfl⟩ := h; rfl
  · obtain ⟨-, -, st2, hst2, rfl⟩ := h
    exact (open_insertion_id hst2 : st2.s.m_id = (count_length st).s.m_id)
  · obtain ⟨-, -, rfl⟩ := h
    exact close_insertion_id sc i (count_length st)

theorem update_loop_id {oob : Nat → Nat → Int} (qs : Str) :
    ∀ (i : Nat) (st st1 : update_state), update_loop oob qs i st = .ok st1 →
      st1.s.m_id = st.s.m_id := by
  induction qs with
  | nil => intro i st st1 h; injection h with h; subst h; rfl
  | cons qc qs ih =>
    intro i st st1 h
    rw [update_loop_cons] at h
    cases hc : update_column oob qc i st with
    | error e => rw [hc] at h; cases h
    | ok st2 =>
      rw [hc] at h
      rw [ih (i + 1) st2 st1 h, update_column_id hc]

theorem chars_length {s : seq} (h : s.m_seq + s.m_size ≤ s.m_data.length) :
    s.chars.length = s.m_size := by
  unfold seq.chars
  rw [List.length_take, List.length_drop]
  omega

/-- A successful `update` keeps the id, the offset and the width of the row. -/
theorem update_keeps {oob : Nat → Nat → Int} {qseq s s1 : seq}
    (h : seq.update oob qseq s = .ok s1) :
    s1.m_id = s.m_id ∧ s1.m_seq = s.m_seq ∧ s1.m_size = s.m_size := by
  have hsize := (update_span h).2.2
  unfold seq.update at h
  split at h
  · cases h
  · cases hl : update_loop oob qseq.chars 0 (update_init s) with
    | error e => rw [hl] at h; cases h
    | ok st =>
      rw [hl] at h
      simp only at h
      have hid : st.s.m_id = s.m_id := update_loop_id _ _ _ _ hl
      have hseq : st.s.m_seq = s.m_seq := (update_loop_frame _ _ _ _ hl).1
      unfold update_finish at h
      split at h
      · injection h with h; subst h; exact ⟨hid, hseq, hsize⟩
      · split at h
        · cases h
        · split at h
          · cases h
          · split at h
            · cases h
            · injection h with h; subst h; exact ⟨hid, hseq, hsize⟩

/-- On a row that is as wide as the query, `update` does not fail, provided that the
query does not start with a gap. -/
theorem update_ok (oob : Nat → Nat → Int) (qseq s : seq)
    (hq : qseq.m_seq + qseq.m_size ≤ qseq.m_data.length)
    (hs : s.m_seq + s.m_size ≤ s.m_data.length)
    (hw : s.m_size = qseq.m_size)
    (hhead : ∀ c, qseq.chars.head? = some c → is_gap c = false) :
    ∃ s1, seq.update oob qseq s = .ok s1 := by
  unfold seq.update
  rw [if_neg (by omega)]
  have hlen := chars_length hq
  obtain ⟨st, hst⟩ := update_loop_ok oob qseq.chars 0 (update_init s)
    (by show s.m_seq + 0 + qseq.chars.length ≤ s.m_data.length; rw [hlen]; omega)
    (fun _ => hhead)
  rw [hst]
  simp only
  have hinit : span_inv 0 (update_init s).s := ⟨Or.inl rfl, Nat.le_refl 0⟩
  obtain ⟨⟨h1, h2⟩, h3⟩ := update_loop_span _ 0 _ _ hst hinit
  have h3 : st.s.m_size = s.m_size := h3
  obtain ⟨f1, f2, -, -⟩ := update_loop_frame _ 0 _ _ hst
  have f1 : st.s.m_seq = s.m_seq := f1
  have f2 : st.s.m_data.length = s.m_data.length := f2
  rw [Nat.zero_add, hlen] at h2
  unfold update_finish
  split
  · exact ⟨_, rfl⟩
  · rename_i hb
    have hlt : st.s.m_begin < st.s.m_end := by
      rcases h1 with h1 | h1
      · exact absurd h1 hb
      · exact h1
    rw [if_neg (by omega), if_neg (by omega), if_neg (by omega)]
    exact ⟨_, rfl⟩

/-! ## C9: the cut to the query substring -/

theorem cut_ok (s : seq) (pos n : Nat) (h : pos + n ≤ s.m_size) :
    ∃ s1, s.cut pos n = .ok s1 ∧ s1.m_id = s.m_id ∧ s1.m_seq = s.m_seq + pos ∧
      s1.m_size = n ∧ s1.m_data = s.m_data := by
  unfold seq.cut
  rw [if_neg (by omega)]
  exact ⟨_, rfl, rfl, rfl, rfl, rfl⟩

theorem rows_cut_update (oob : Nat → Nat → Int) (f1 : seq) (pos n w : Nat)
    (hq : f1.m_seq + f1.m_size ≤ f1.m_data.length)
    (hhead : ∀ c, f1.chars.head? = some c → is_gap c = false)
    (hn : f1.m_size = n) (hpn : pos + n ≤ w) :
    ∀ (rows : mseq), (∀ s ∈ rows, parsed_row s ∧ s.m_size = w) →
      ∃ rows1 rows2, cut_all pos n rows = .ok rows1 ∧
        update_rows oob f1 rows1 = .ok rows2 ∧ List.Forall₂ (cut_to pos n) rows rows2 := by
  intro rows
  induction rows with
  | nil => intro _; exact ⟨[], [], rfl, rfl, List.Forall₂.nil⟩
  | cons s rest ih =>
    intro h
    obtain ⟨hp, hsw⟩ := h s (List.mem_cons_self _ _)
    obtain ⟨s1, h1, h2, h3, h4, h5⟩ := cut_ok s pos n (by omega)
    obtain ⟨s2, hs2⟩ := update_ok oob f1 s1 hq
      (by rw [h3, h4, h5, hp.1, hp.2.1]; omega) (by rw [h4, hn]) hhead
    obtain ⟨k1, k2, k3⟩ := update_keeps hs2
    obtain ⟨rest1, rest2, hc, hu, hf⟩ := ih (fun t ht => h t (List.mem_cons_of_mem _ ht))
    refine ⟨s1 :: rest1, s2 :: rest2, ?_, ?_,
      List.Forall₂.cons ⟨by rw [k1, h2], by rw [k2, h3], by rw [k3, h4]⟩ hf⟩
    · unfold cut_all; rw [h1, hc]
    · unfold update_rows; rw [hs2, hu]

/-- The common second part of the readers on rows of one width `w`, when the query
substring occurs in the raw query: the rows are cut to one window and updated. -/
theorem crop_update_window (oob : Nat → Nat → Int) (q : Str) (w : Nat) (front : seq)
    (rest : mseq) (hall : ∀ s ∈ front :: rest, parsed_row s)
    (hw : ∀ s ∈ front :: rest, s.m_size = w)
    (hq : q ≠ []) (hne : q ≠ non_gap front.chars) (hin : q <:+: non_gap front.chars) :
    ∃ pos n msa1 msa, crop (front :: rest) (non_gap front.chars) q = .ok msa1 ∧
      update_homologs oob msa1 = .ok msa ∧ pos + n ≤ w ∧
      List.Forall₂ (cut_to pos n) (front :: rest) msa ∧
      ∃ f r, msa = f :: r ∧ f.chars = (front.chars.drop pos).take n ∧ non_gap f.chars = q := by
  obtain ⟨offset, hoff⟩ := find_of_infix hin
  obtain ⟨w1, w2, w3⟩ := window_spec hoff
  have hfp := hall front (List.mem_cons_self _ _)
  have hfw := hw front (List.mem_cons_self _ _)
  have hflen : front.chars.length = w := by
    rw [parsed_row_chars hfp, hfp.2.1, hfw]
  generalize hn : (count_columns (count_columns front.chars offset 0).2 q.length 0).1 = n
    at w1 w2 w3
  generalize hpos : (count_columns front.chars offset 0).1 = pos at w1 w2 w3
  rw [hflen] at w1
  obtain ⟨f1, c0, c1, c2, c3, c4⟩ := cut_ok front pos n (by omega)
  have hf1chars : f1.chars = (front.chars.drop pos).take n := by
    unfold seq.chars
    rw [c2, c3, c4, hfp.1, Nat.zero_add, List.drop_zero, ← hfp.2.1, List.take_length]
  have hf1len : f1.m_seq + f1.m_size ≤ f1.m_data.length := by
    rw [c2, c3, c4, hfp.1, hfp.2.1, hfw]; omega
  obtain ⟨rest1, rest2, hc, hu, hf⟩ := rows_cut_update oob f1 pos n w hf1len
    (fun c hc => by
      rw [hf1chars] at hc
      obtain ⟨c', hc1, hc2⟩ := w3 hq
      rw [hc1] at hc
      injection hc with hc
      rw [← hc]; exact hc2) c3 w1 rest
    (fun s hs => ⟨hall s (List.mem_cons_of_mem _ hs), hw s (List.mem_cons_of_mem _ hs)⟩)
  refine ⟨pos, n, f1 :: rest1, f1 :: rest2, ?_, ?_, w1,
    List.Forall₂.cons ⟨c1, c2, c3⟩ hf, f1, rest2, rfl, hf1chars, by rw [hf1chars]; exact w2⟩
  · unfold crop
    rw [if_pos ⟨hq, hne⟩, if_neg (by have := hin.length_le; omega), hoff]
    simp only
    rw [if_neg (by rw [hfp.1, hfp.2.1]; omega), hpos, hn]
    unfold cut_all
    rw [c0, hc]
  · unfold update_homologs
    simp only
    rw [hu]

/-- The common second part of the readers fails when the query substring differs from
the raw query and does not occur in it. -/
theorem crop_not_found (msa : mseq) (qr q : Str) (hq : q ≠ []) (hne : q ≠ qr)
    (hin : ¬ q <:+: qr) :
    crop msa qr q = .error .query_too_short ∨ crop msa qr q = .error .query_not_found := by
  unfold crop
  rw [if_pos ⟨hq, hne⟩]
  by_cases hl : qr.length < q.length
  · left; rw [if_pos hl]
  · right
    rw [if_neg hl]
    cases hf : find q qr with
    | none => rfl
    | some k => exact absurd (infix_of_find hf) hin

/-- C9: for `ReadStockholm` and `ReadFastA` alike, on parsed rows that all have the same
width `w` and a non-empty query substring `q` that differs from the raw query (the
non-gap characters of row 0): if `q` does not occur in the raw query (which includes a
raw query shorter than `q`) the reader fails, with "Query used for Stockholm file is too
short for the chain" or "Invalid Stockholm file for chain"; if `q` occurs in it, the
reader returns the rows, every row cut to the same window of `n` columns from column
`pos` on, and the non-gap characters of row 0 are then exactly `q`. -/
theorem crop_to_query (oob : Nat → Nat → Int) (q : Str) (w : Nat) (hq : q ≠ []) :
    (∀ (is : List Str) (msa0 : mseq) (qr : Str),
      stockholm_parse is = .ok (msa0, qr) → (∀ s ∈ msa0, s.m_size = w) → q ≠ qr →
      (∃ front rest, msa0 = front :: rest ∧ qr = non_gap front.chars) ∧
      (¬ q <:+: qr → ReadStockholm oob is q = .error .query_too_short ∨
          ReadStockholm oob is q = .error .query_not_found) ∧
      (q <:+: qr → ∃ pos n msa, ReadStockholm oob is q = .ok msa ∧ pos + n ≤ w ∧
          List.Forall₂ (cut_to pos n) msa0 msa ∧
          ∃ f r, msa = f :: r ∧ non_gap f.chars = q)) ∧
    (∀ (is : List Str) (front : seq) (rest : mseq),
      fasta_parse is = .ok (front :: rest) → (∀ s ∈ front :: rest, s.m_size = w) →
      q ≠ non_gap front.chars →
      (¬ q <:+: non_gap front.chars → ReadFastA oob is q = .error .query_too_short ∨
          ReadFastA oob is q = .error .query_not_found) ∧
      (q <:+: non_gap front.chars → ∃ pos n msa, ReadFastA oob is q = .ok msa ∧
          pos + n ≤ w ∧ List.Forall₂ (cut_to pos n) (front :: rest) msa ∧
          ∃ f r, msa = f :: r ∧ non_gap f.chars = q)) := by
  constructor
  · intro is msa0 qr hp hw hne
    obtain ⟨hall, front, rest, hm, hqr⟩ := stockholm_parse_inv hp
    subst hm
    refine ⟨⟨front, rest, rfl, hqr⟩, ?_, ?_⟩
    · intro hin
      unfold ReadStockholm
      rw [hp]
      simp only
      rcases crop_not_found (front :: rest) qr q hq hne hin with h | h
      · left; rw [h]
      · right; rw [h]
    · intro hin
      subst hqr
      obtain ⟨pos, n, msa1, msa, h1, h2, h3, h4, f, r, h5, -, h6⟩ :=
        crop_update_window oob q w front rest hall hw hq hne hin
      refine ⟨pos, n, msa, ?_, h3, h4, f, r, h5, h6⟩
      unfold ReadStockholm
      rw [hp]
      simp only
      rw [h1]
      exact h2
  · intro is front rest hp hw hne
    obtain ⟨hall, -⟩ := fasta_parse_parsed hp
    constructor
    · intro hin
      unfold ReadFastA
      rw [hp]
      simp only
      rcases crop_not_found (front :: rest) _ q hq hne hin with h | h
      · left; rw [h]
      · right; rw [h]
    · intro hin
      obtain ⟨pos, n, msa1, msa, h1, h2, h3, h4, f, r, h5, -, h6⟩ :=
        crop_update_window oob q w front rest hall hw hq hne hin
      refine ⟨pos, n, msa, ?_, h3, h4, f, r, h5, h6⟩
      unfold ReadFastA
      rw [hp]
      simp only
      rw [h1]
      exact h2

theorem crop_to_query_witness :
    (∃ pos n msa, ReadStockholm oob_zero window_stockholm (str "CDE") = .ok msa ∧
      pos + n ≤ 8 ∧ List.Forall₂ (cut_to pos n) [window_query, window_homolog] msa ∧
      ∃ f r, msa = f :: r ∧ non_gap f.chars = str "CDE") ∧
    (∃ pos n msa, ReadFastA oob_zero window_fasta (str "CDE") = .ok msa ∧
      pos + n ≤ 8 ∧ List.Forall₂ (cut_to pos n) [window_query, window_homolog] msa ∧
      ∃ f r, msa = f :: r ∧ non_gap f.chars = str "CDE") ∧
    (ReadStockholm oob_zero window_stockholm (str "CDE")).map
        (fun msa => msa.map (fun r => (r.m_seq, r.m_size, r.chars))) =
      .ok [(2, 3, str "CDE"), (2, 3, str "CD ")] :=
  ⟨((crop_to_query oob_zero (str "CDE") 8 (by decide)).1 window_stockholm
      [window_query, window_homolog] (str "ACDEFG") rfl (by decide) (by decide)).2.2
      ⟨str "A", str "FG", rfl⟩,
   ((crop_to_query oob_zero (str "CDE") 8 (by decide)).2 window_fasta window_query
      [window_homolog] rfl (by decide) (by decide)).2 ⟨str "A", str "FG", rfl⟩,
   rfl⟩

/-! ## C8: block-structured Stockholm files -/

theorem append_ok {s : seq} {text : Str} (hp : parsed_row s) (hc : cap_ok s)
    (hlen : s.m_space = 0 ∨ text.length ≤ 1024) (hw : s.m_size + text.length < 2 ^ 30) :
    ∃ s1, s.append text = .ok s1 ∧ cap_ok s1 := by
  obtain ⟨p1, p2, p3, p4, p5⟩ := hp
  obtain ⟨c1, c2, c3⟩ := hc
  unfold seq.append seq.reserve
  by_cases hg : s.m_size + text.length > s.m_space
  · rw [if_pos hg]
    have hns : s.m_size + text.length ≤ new_space s text.length ∧
        (new_space s text.length = 0 ∨ 1024 ≤ new_space s text.length) ∧
        new_space s text.length ≤ max 1024 (2 * (s.m_size + text.length)) := by
      unfold new_space kBlockSize
      by_cases h0 : s.m_space = 0
      · have hs0 : s.m_size = 0 := by omega
        rw [if_pos h0, hs0]
        norm_num
        split <;> omega
      · rw [if_neg h0]
        have h1024 : 1024 ≤ s.m_space := by omega
        have hl : text.length ≤ 1024 := by omega
        have hsp : s.m_space * 2 % 2 ^ 32 = s.m_space * 2 := by
          apply Nat.mod_eq_of_lt
          have : s.m_space ≤ 2 * s.m_size ∨ s.m_space ≤ 1024 := by omega
          omega
        rw [hsp, if_neg (by omega)]
        omega
    rw [if_neg (by omega)]
    simp only
    unfold seq.write
    simp only []
    rw [if_neg (by
      rw [List.length_take]
      omega)]
    refine ⟨_, rfl, ?_⟩
    have hmod : (s.m_size + text.length) % 2 ^ 32 = s.m_size + text.length :=
      Nat.mod_eq_of_lt (by omega)
    exact ⟨by show (s.m_size + text.length) % 2 ^ 32 ≤ new_space s text.length
              rw [hmod]; exact hns.1,
      hns.2.1,
      by show new_space s text.length ≤ max 1024 (2 * ((s.m_size + text.length) % 2 ^ 32))
         rw [hmod]; exact hns.2.2⟩
  · rw [if_neg hg]
    simp only
    unfold seq.write
    rw [if_neg (by omega)]
    refine ⟨_, rfl, ?_⟩
    have hmod : (s.m_size + text.length) % 2 ^ 32 = s.m_size + text.length :=
      Nat.mod_eq_of_lt (by omega)
    exact ⟨by show (s.m_size + text.length) % 2 ^ 32 ≤ s.m_space
              rw [hmod]; omega,
      c2,
      by show s.m_space ≤ max 1024 (2 * ((s.m_size + text.length) % 2 ^ 32))
         rw [hmod]; omega⟩

/-- Appending to a row that holds a text gives the row that holds the longer text. -/
theorem append_holds {id text : Str} (frag : Str) {s : seq} (h : holds id text s)
    (hlen : s.m_space = 0 ∨ frag.length ≤ 1024) (hw : text.length + frag.length < 2 ^ 30) :
    ∃ s1, s.append frag = .ok s1 ∧ holds id (text ++ frag) s1 := by
  obtain ⟨hp, hc, hid, hd⟩ := h
  have hsz : s.m_size = text.length := by rw [← hp.2.1, hd]
  obtain ⟨s1, h1, h2⟩ := append_ok hp hc hlen (by rw [hsz]; exact hw)
  obtain ⟨q1, q2, q3, -⟩ := append_parsed h1 hp
  exact ⟨s1, h1, q1, h2, by rw [q3, hid], by rw [q2, hd]⟩

theorem seq_new_holds {id : Str} {s : seq} (h : seq.new id = .ok s) :
    holds id [] s ∧ s.m_space = 0 := by
  obtain ⟨p1, p2, p3, p4⟩ := seq_new_parsed h
  have hsp : s.m_space = 0 := by
    unfold seq.new at h
    split at h
    · rename_i name d1 d2 _
      cases h1 : lexical_cast_uint32 d1 with
      | error e => rw [h1] at h; cases h
      | ok v1 =>
        cases h2 : lexical_cast_uint32 d2 with
        | error e => rw [h1, h2] at h; cases h
        | ok v2 =>
          rw [h1, h2] at h
          injection h with h; subst h; rfl
    · injection h with h; subst h; rfl
  refine ⟨⟨p1, ⟨by rw [p4]; exact Nat.zero_le _, Or.inl hsp, by rw [hsp]; exact Nat.zero_le _⟩,
    p3, p2⟩, hsp⟩

theorem find_space (id rest : Str) (h : 32 ∉ id) :
    find [32] (id ++ 32 :: rest) = some id.length := by
  induction id with
  | nil => simp [find, starts_with]
  | cons c id ih =>
    have hc : c ≠ 32 := fun hc => h (by rw [hc]; exact List.mem_cons_self _ _)
    have hid : 32 ∉ id := fun hm => h (List.mem_cons_of_mem _ hm)
    have hs : starts_with (c :: (id ++ 32 :: rest)) [32] = false := by
      simp [starts_with, hc]
    rw [List.cons_append]
    unfold find
    rw [hs, ih hid]
    rfl

theorem dropWhile_space (frag : Str) (h : frag.head? ≠ some 32) :
    (32 :: frag).dropWhile (fun c => c == 32) = frag := by
  cases frag with
  | nil => simp
  | cons c frag =>
    have hc : c ≠ 32 := fun hc => h (by rw [hc]; rfl)
    have hb : (c == 32) = false := by simpa using hc
    simp [List.dropWhile, hb]

theorem seq_line_not_gs (id frag : Str) (h : id.head? ≠ some 35) :
    starts_with (seq_line id frag) [35, 61, 71, 83, 32] = false ∧
      (seq_line id frag).head? ≠ some 35 := by
  unfold seq_line
  cases id with
  | nil => simp [starts_with]
  | cons c id =>
    have hc : c ≠ 35 := fun hc => h (by rw [hc]; rfl)
    simp [starts_with, hc]

theorem seq_line_ordinary (id frag : Str) :
    seq_line id frag ≠ [] ∧ seq_line id frag ≠ [47, 47] := by
  unfold seq_line
  constructor
  · simp
  · intro he
    have : (32 : Nat) ∈ id ++ 32 :: frag := by simp
    rw [he] at this
    simp at this

/-- What the loop body does with a sequence line of a well-formed id: it selects the row
and appends the fragment. -/
theorem stockholm_line_seq (front : seq) (tl : mseq) {id frag : Str} {st : stockholm_state}
    (hid : 32 ∉ id) (hh : id.head? ≠ some 35) (hfrag : frag.head? ≠ some 32)
    (hm : st.msa = front :: tl) :
    stockholm_line (seq_line id frag) st =
      match select_row id frag front st with
      | .error e => .error e
      | .ok st1 => append_row frag st1 := by
  unfold stockholm_line
  rw [hm]
  simp only
  obtain ⟨h1, h2⟩ := seq_line_not_gs id frag hh
  rw [h1]
  simp only [Bool.false_eq_true, if_false]
  rw [if_pos h2]
  unfold sequence_line
  have hf : find [32] (seq_line id frag) = some id.length := find_space id frag hid
  rw [hf]
  simp only
  have ht : (seq_line id frag).take id.length = id := by
    unfold seq_line; simp
  have hd : ((seq_line id frag).drop id.length).dropWhile (fun c => c == 32) = frag := by
    unfold seq_line
    rw [List.drop_left]
    exact dropWhile_space frag hfrag
  rw [ht, hd]

theorem query_line_step (qid qt frag : Str) (f : seq) (tl : mseq) (qr : Str) (ix : Nat)
    (hq : row_id qid) (hf : holds qid qt f) (hfrag : frag.head? ≠ some 32)
    (hlen : f.m_space = 0 ∨ frag.length ≤ 1024) (hw : qt.length + frag.length < 2 ^ 30) :
    ∃ f1, stockholm_line (seq_line qid frag) { msa := f :: tl, ix := ix, qr := qr } =
        .ok { msa := f1 :: tl, ix := 0, qr := qr ++ non_gap frag } ∧
      holds qid (qt ++ frag) f1 := by
  obtain ⟨f1, h1, h2⟩ := append_holds frag hf hlen hw
  refine ⟨f1, ?_, h2⟩
  rw [stockholm_line_seq f tl hq.1 hq.2.1 hfrag rfl]
  unfold select_row
  rw [if_pos hf.2.2.1.symm]
  simp only
  unfold append_row
  simp only [List.getElem?_cons_zero, h1, List.set_cons_zero]

theorem new_row_step (f : seq) (done : mseq) (qr : Str) {id frag : Str}
    (hid : row_id id) (hne : id ≠ f.m_id) (hfrag : frag.head? ≠ some 32)
    (hw : frag.length < 2 ^ 30) :
    ∃ r, stockholm_line (seq_line id frag)
        { msa := f :: done, ix := done.length, qr := qr } =
        .ok { msa := f :: (done ++ [r]), ix := done.length + 1, qr := qr } ∧
      holds id frag r := by
  obtain ⟨s0, hs0⟩ := hid.2.2
  obtain ⟨h0, hsp⟩ := seq_new_holds hs0
  obtain ⟨r, h1, h2⟩ := append_holds frag h0 (Or.inl hsp)
    (by simpa using hw)
  refine ⟨r, ?_, by simpa using h2⟩
  rw [stockholm_line_seq f done hid.1 hid.2.1 hfrag rfl]
  unfold select_row
  rw [if_neg hne]
  simp only
  unfold grow_msa
  rw [if_pos (by simp)]
  rw [hs0]
  simp only
  have hget : (f :: done ++ [s0])[done.length + 1]? = some s0 := by
    rw [List.cons_append, List.getElem?_cons_succ, List.getElem?_append_right (Nat.le_refl _)]
    simp
  unfold check_id
  rw [hget]
  simp only
  rw [if_neg (by rw [h0.2.2.1]; simp)]
  simp only
  unfold append_row
  simp only
  rw [hget]
  simp only
  rw [h1]
  simp only
  congr 1
  simp [List.set_append]

theorem old_row_step (f : seq) (done todo : mseq) (qr : Str) {id text frag : Str} {r : seq}
    (hid : row_id id) (hne : id ≠ f.m_id) (hr : holds id text r)
    (hfrag : frag.head? ≠ some 32) (hlen : frag.length ≤ 1024)
    (hw : text.length + frag.length < 2 ^ 30) :
    ∃ r1, stockholm_line (seq_line id frag)
        { msa := f :: (done ++ r :: todo), ix := done.length, qr := qr } =
        .ok { msa := f :: (done ++ r1 :: todo), ix := done.length + 1, qr := qr } ∧
      holds id (text ++ frag) r1 := by
  obtain ⟨r1, h1, h2⟩ := append_holds frag hr (Or.inr hlen) hw
  refine ⟨r1, ?_, h2⟩
  rw [stockholm_line_seq f (done ++ r :: todo) hid.1 hid.2.1 hfrag rfl]
  unfold select_row
  rw [if_neg hne]
  simp only
  unfold grow_msa
  rw [if_neg (by simp)]
  simp only
  have hget : (f :: (done ++ r :: todo))[done.length + 1]? = some r := by
    rw [List.getElem?_cons_succ, List.getElem?_append_right (Nat.le_refl _)]
    simp
  unfold check_id
  rw [hget]
  simp only
  rw [if_neg (by rw [hr.2.2.1]; simp)]
  simp only
  unfold append_row
  simp only
  rw [hget]
  simp only
  rw [h1]
  simp only
  congr 1
  simp [List.set_append]

theorem run_lines_cons (x : Str) (xs : List Str) (st : stockholm_state) :
    run_lines (x :: xs) st =
      match stockholm_line x st with
      | .error e => .error e
      | .ok st1 => run_lines xs st1 := rfl

theorem run_lines_append (xs ys : List Str) : ∀ (st : stockholm_state),
    run_lines (xs ++ ys) st =
      match run_lines xs st with
      | .error e => .error e
      | .ok st1 => run_lines ys st1 := by
  induction xs with
  | nil => intro st; rfl
  | cons x xs ih =>
    intro st
    rw [List.cons_append, run_lines_cons, run_lines_cons]
    cases hx : stockholm_line x st with
    | error e => rfl
    | ok st1 => exact ih st1

/-- The sequence lines of the homologs in the first block: every line makes a new row. -/
theorem first_block_rows (f : seq) (qr : Str) : ∀ (rows : List (Str × Str)) (done : mseq),
    (∀ p ∈ rows, row_id p.1 ∧ p.1 ≠ f.m_id ∧ p.2.head? ≠ some 32 ∧ p.2.length < 2 ^ 30) →
    ∃ new, run_lines (rows.map (fun p => seq_line p.1 p.2))
        { msa := f :: done, ix := done.length, qr := qr } =
        .ok { msa := f :: (done ++ new), ix := done.length + rows.length, qr := qr } ∧
      List.Forall₂ (fun p r => holds p.1 p.2 r) rows new := by
  intro rows
  induction rows with
  | nil => intro done _; exact ⟨[], by simp [run_lines], List.Forall₂.nil⟩
  | cons p rows ih =>
    intro done h
    obtain ⟨h1, h2, h3, h4⟩ := h p (List.mem_cons_self _ _)
    obtain ⟨r, hr1, hr2⟩ := new_row_step f done qr h1 h2 h3 h4
    obtain ⟨new, hn1, hn2⟩ := ih (done ++ [r]) (fun p' hp' => h p' (List.mem_cons_of_mem _ hp'))
    refine ⟨r :: new, ?_, List.Forall₂.cons hr2 hn2⟩
    rw [List.map_cons, run_lines_cons, hr1]
    simp only
    have e1 : (done ++ [r]).length = done.length + 1 := by simp
    rw [e1] at hn1
    rw [hn1]
    simp only [List.append_assoc, List.singleton_append, List.length_cons]
    congr 2
    omega

/-- The sequence lines of the homologs in a later block: every line extends its row. -/
theorem later_block_rows (f : seq) (qr : Str) :
    ∀ (rows : List (Str × Str × Str)) (done todo : mseq),
    (∀ p ∈ rows, row_id p.1 ∧ p.1 ≠ f.m_id ∧ p.2.2.head? ≠ some 32 ∧ p.2.2.length ≤ 1024 ∧
      p.2.1.length + p.2.2.length < 2 ^ 30) →
    List.Forall₂ (fun p r => holds p.1 p.2.1 r) rows todo →
    ∃ todo1, run_lines (rows.map (fun p => seq_line p.1 p.2.2))
        { msa := f :: (done ++ todo), ix := done.length, qr := qr } =
        .ok { msa := f :: (done ++ todo1), ix := done.length + rows.length, qr := qr } ∧
      List.Forall₂ (fun p r => holds p.1 (p.2.1 ++ p.2.2) r) rows todo1 := by
  intro rows
  induction rows with
  | nil =>
    intro done todo _ hf
    cases hf
    exact ⟨[], by simp [run_lines], List.Forall₂.nil⟩
  | cons p rows ih =>
    intro done todo h hf
    cases hf with
    | cons hp hrest =>
      rename_i r todo'
      obtain ⟨h1, h2, h3, h4, h5⟩ := h p (List.mem_cons_self _ _)
      obtain ⟨r1, hr1, hr2⟩ := old_row_step f done todo' qr
        h1 h2 hp h3 h4 h5
      obtain ⟨todo1, hn1, hn2⟩ := ih (done ++ [r1]) todo'
        (fun p' hp' => h p' (List.mem_cons_of_mem _ hp')) hrest
      refine ⟨r1 :: todo1, ?_, List.Forall₂.cons hr2 hn2⟩
      rw [List.map_cons, run_lines_cons, hr1]
      simp only
      have e1 : (done ++ [r1]).length = done.length + 1 := by simp
      have e2 : done ++ r1 :: todo' = (done ++ [r1]) ++ todo' := by simp
      rw [e1] at hn1
      rw [e2, hn1]
      simp only [List.append_assoc, List.singleton_append, List.length_cons]
      congr 2
      omega

/-! ## What `update` does to the characters of a row -/

theorem tolower_idem (c : Nat) : tolower (tolower c) = tolower c := by
  unfold tolower
  split
  · rw [if_neg (by omega)]
  · rfl

theorem is_gap_tolower (c : Nat) : is_gap (tolower c) = is_gap c := by
  unfold tolower
  split
  · rename_i h
    obtain ⟨h1, h2⟩ := h
    interval_cases c <;> rfl
  · rfl

theorem case_variant_gap {c c1 : Nat} (h : case_variant c c1) : is_gap c1 = is_gap c := by
  rcases h with h | h
  · rw [h]
  · rw [h, is_gap_tolower]

theorem case_variant_tolower {c c1 : Nat} (h : case_variant c c1) :
    case_variant c (tolower c1) := by
  rcases h with h | h
  · right; rw [h]
  · right; rw [h, tolower_idem]

theorem set_tolower_variant {data0 data : Str} {p x : Nat}
    (h : ∀ (j c : Nat), data0[j]? = some c → ∃ c1, data[j]? = some c1 ∧ case_variant c c1)
    (hp : data[p]? = some x) :
    ∀ (j c : Nat), data0[j]? = some c →
      ∃ c1, (data.set p (tolower x))[j]? = some c1 ∧ case_variant c c1 := by
  intro j c hj
  obtain ⟨c1, h1, h2⟩ := h j c hj
  by_cases hjp : p = j
  · subst hjp
    have hlt : p < data.length := (List.getElem?_eq_some_iff.1 hp).1
    refine ⟨tolower x, by rw [List.getElem?_set_self hlt], ?_⟩
    rw [hp] at h1
    injection h1 with h1
    rw [h1]
    exact case_variant_tolower h2
  · exact ⟨c1, by rw [List.getElem?_set_ne hjp]; exact h1, h2⟩

theorem open_insertion_variant {data0 : Str} {i : Nat} {st st1 : update_state}
    (h : open_insertion i st = .ok st1)
    (hv : ∀ (j c : Nat), data0[j]? = some c → ∃ c1, st.s.m_data[j]? = some c1 ∧ case_variant c c1) :
    ∀ (j c : Nat), data0[j]? = some c → ∃ c1, st1.s.m_data[j]? = some c1 ∧ case_variant c c1 := by
  unfold open_insertion at h
  split at h
  · split at h
    · cases h
    · split at h
      · cases h
      · rename_i p hp
        injection h with h; subst h
        have hlt := (gsi_scan_le hp).2
        have hget : st.s.m_data[p]? = some (st.s.m_data.getD p 0) := by
          rw [List.getD_eq_getElem?_getD, List.getElem?_eq_getElem hlt]
          rfl
        exact set_tolower_variant hv hget
  · injection h with h; subst h; exact hv

theorem close_insertion_variant {data0 : Str} {sc i : Nat} (st : update_state)
    (hr : st.s.m_data[st.s.m_seq + i]? = some sc)
    (hv : ∀ (j c : Nat), data0[j]? = some c → ∃ c1, st.s.m_data[j]? = some c1 ∧ case_variant c c1) :
    ∀ (j c : Nat), data0[j]? = some c →
      ∃ c1, (close_insertion sc i st).s.m_data[j]? = some c1 ∧ case_variant c c1 := by
  unfold close_insertion
  split
  · exact set_tolower_variant hv hr
  · exact hv

theorem update_column_letters {oob : Nat → Nat → Int} {data0 : Str} {o qc i : Nat}
    {st st1 : update_state} (h : update_column oob qc i st = .ok st1)
    (ho : st.s.m_seq = o) (hi : i < UINT32_MAX) (hspan : span_inv i st.s)
    (hinv : letters_inv data0 o i st) : letters_inv data0 o (i + 1) st1 := by
  obtain ⟨hv, hcov⟩ := hinv
  obtain ⟨sc, hsc, hcase⟩ := update_column_cases h
  -- the span found so far still covers the earlier residues when the row is untouched
  have hsame : ∀ s1 : seq, s1.m_begin = st.s.m_begin → s1.m_end = st.s.m_end →
      is_gap sc = true →
      ∀ (j c : Nat), j < i + 1 → data0[o + j]? = some c → is_gap c = false →
        s1.m_begin ≠ UINT32_MAX ∧ s1.m_begin ≤ j ∧ j < s1.m_end := by
    intro s1 hb he hgap j c hj hc hg
    rw [hb, he]
    rcases Nat.lt_succ_iff_lt_or_eq.1 hj with hlt | heq
    · exact hcov j c hlt hc hg
    · subst heq
      obtain ⟨c1, h1, h2⟩ := hv _ c hc
      rw [← ho, hsc] at h1
      injection h1 with h1
      rw [← h1] at h2
      rw [case_variant_gap h2, hg] at hgap
      cases hgap
  -- the span after a compared column
  have hcmp : ∀ (sc1 : Nat) (st2 : update_state), st2.s.m_begin = st.s.m_begin →
      st2.s.m_end = st.s.m_end →
      ∀ (j c : Nat), j < i + 1 → data0[o + j]? = some c → is_gap c = false →
        (compare_column oob qc sc1 i st2).s.m_begin ≠ UINT32_MAX ∧
        (compare_column oob qc sc1 i st2).s.m_begin ≤ j ∧
        j < (compare_column oob qc sc1 i st2).s.m_end := by
    intro sc1 st2 hb he j c hj hc hg
    show (if st2.s.m_begin = UINT32_MAX then i else st2.s.m_begin) ≠ UINT32_MAX ∧
      (if st2.s.m_begin = UINT32_MAX then i else st2.s.m_begin) ≤ j ∧ j < i + 1
    rw [hb]
    obtain ⟨hs1, hs2⟩ := hspan
    rcases Nat.lt_succ_iff_lt_or_eq.1 hj with hlt | heq
    · obtain ⟨k1, k2, k3⟩ := hcov j c hlt hc hg
      rw [if_neg k1]
      exact ⟨k1, k2, hj⟩
    · subst heq
      split
      · exact ⟨Nat.ne_of_lt hi, Nat.le_refl _, hj⟩
      · rename_i hne
        rcases hs1 with hs1 | hs1
        · exact absurd hs1 hne
        · exact ⟨hne, by omega, hj⟩
  rcases hcase with hc | hc | hc | hc
  · obtain ⟨-, hg, rfl⟩ := hc
    exact ⟨hv, hsame st1.s rfl rfl hg⟩
  · obtain ⟨-, hg, rfl⟩ := hc
    exact ⟨hv, hsame _ rfl rfl hg⟩
  · obtain ⟨-, -, st2, hst2, rfl⟩ := hc
    obtain ⟨hb, he, -⟩ := open_insertion_span hst2
    have hv2 : ∀ (j c : Nat), data0[j]? = some c →
        ∃ c1, st2.s.m_data[j]? = some c1 ∧ case_variant c c1 :=
      open_insertion_variant hst2 hv
    exact ⟨hv2, hcmp sc (insertion_column sc st2) hb he⟩
  · obtain ⟨-, -, rfl⟩ := hc
    obtain ⟨hb, he, -⟩ := close_insertion_span sc i (count_length st)
    exact ⟨close_insertion_variant (count_length st) hsc hv,
      hcmp (closed_char sc st) (matched_column (close_insertion sc i (count_length st))) hb he⟩

theorem update_loop_letters {oob : Nat → Nat → Int} (data0 : Str) (o : Nat) (qs : Str) :
    ∀ (i : Nat) (st st1 : update_state), update_loop oob qs i st = .ok st1 →
      st.s.m_seq = o → i + qs.length ≤ UINT32_MAX → span_inv i st.s →
      letters_inv data0 o i st → letters_inv data0 o (i + qs.length) st1 := by
  induction qs with
  | nil =>
    intro i st st1 h _ _ _ hinv
    injection h with h; subst h; exact hinv
  | cons qc qs ih =>
    intro i st st1 h ho hi hspan hinv
    rw [update_loop_cons] at h
    simp only [List.length_cons] at hi
    cases hc : update_column oob qc i st with
    | error e => rw [hc] at h; cases h
    | ok st2 =>
      rw [hc] at h
      have h1 := update_column_letters hc ho (by omega) hspan hinv
      have h2 := (update_column_span hc hspan).1
      have h3 := (update_column_frame hc).1
      have := ih (i + 1) st2 st1 h (by rw [h3, ho]) (by omega) h2 h1
      have e : i + (qc :: qs).length = i + 1 + qs.length := by
        simp only [List.length_cons]; omega
      rw [e]; exact this

theorem normalize_getElem? (b e : Nat) : ∀ (cs : Str) (i j : Nat),
    (normalize b e i cs)[j]? =
      (cs[j]?).map (fun c => if i + j < b ∨ i + j ≥ e then 32 else if is_gap c then 46 else c) := by
  intro cs
  induction cs with
  | nil => intro i j; simp [normalize]
  | cons c cs ih =>
    intro i j
    cases j with
    | zero => simp [normalize]
    | succ j =>
      simp only [normalize, List.getElem?_cons_succ]
      rw [ih (i + 1) j]
      have : i + 1 + j = i + (j + 1) := by omega
      rw [this]

theorem normalize_length (b e : Nat) : ∀ (cs : Str) (i : Nat),
    (normalize b e i cs).length = cs.length := by
  intro cs
  induction cs with
  | nil => intro i; rfl
  | cons c cs ih => intro i; simp [normalize, ih]

theorem forall2_of_getElem? {R : Nat → Nat → Prop} : ∀ (l1 l2 : Str),
    l1.length = l2.length → (∀ (j a b : Nat), l1[j]? = some a → l2[j]? = some b → R a b) →
    List.Forall₂ R l1 l2 := by
  intro l1
  induction l1 with
  | nil =>
    intro l2 hl _
    cases l2 with
    | nil => exact List.Forall₂.nil
    | cons b l2 => simp at hl
  | cons a l1 ih =>
    intro l2 hl h
    cases l2 with
    | nil => simp at hl
    | cons b l2 =>
      refine List.Forall₂.cons (h 0 a b (by simp) (by simp)) (ih l2 (by simpa using hl) ?_)
      intro j x y hx hy
      exact h (j + 1) x y (by simpa using hx) (by simpa using hy)

theorem chars_getElem? (s : seq) (j : Nat) (hj : j < s.m_size) :
    s.chars[j]? = s.m_data[s.m_seq + j]? := by
  unfold seq.chars
  rw [List.getElem?_take_of_lt hj, List.getElem?_drop]

theorem chars_getElem?_lt {s : seq} {j a : Nat} (h : s.chars[j]? = some a) : j < s.m_size := by
  unfold seq.chars at h
  have := (List.getElem?_eq_some_iff.1 h).1
  rw [List.length_take] at this
  omega

/-- The characters of the row after the last statements of `update`. -/
theorem update_finish_chars {t s1 : seq} (h : update_finish t = .ok s1)
    (ht : t.m_seq + t.m_size ≤ t.m_data.length) :
    (t.m_begin = UINT32_MAX → s1.chars = t.chars) ∧
    (t.m_begin ≠ UINT32_MAX → s1.chars = normalize t.m_begin t.m_end 0 t.chars) := by
  have hclen : t.chars.length = t.m_size := chars_length ht
  unfold update_finish at h
  split at h
  · rename_i hb
    injection h with h; subst h
    exact ⟨fun _ => rfl, fun hne => absurd hb hne⟩
  · rename_i hb
    split at h
    · cases h
    · split at h
      · cases h
      · split at h
        · cases h
        · injection h with h; subst h
          refine ⟨fun he => absurd he hb, fun _ => ?_⟩
          show ((t.m_data.take t.m_seq ++ normalize t.m_begin t.m_end 0 t.chars ++
            t.m_data.drop (t.m_seq + t.m_size)).drop t.m_seq).take t.m_size = _
          have hl1 : (t.m_data.take t.m_seq).length = t.m_seq := by
            rw [List.length_take]; omega
          rw [List.append_assoc, List.drop_append_of_le_length (by omega),
            List.drop_eq_nil_of_le (by omega), List.nil_append,
            List.take_append_of_le_length (by rw [normalize_length, hclen]),
            List.take_of_length_le (by rw [normalize_length, hclen])]

/-- On a row as wide as the query, `update` leaves every gap a gap and every residue
letter the same letter up to case. -/
theorem update_letters {oob : Nat → Nat → Int} {qseq s s1 : seq}
    (h : seq.update oob qseq s = .ok s1) (hs : s.m_seq + s.m_size ≤ s.m_data.length)
    (hw : s.m_size = qseq.m_size) (hlt : s.m_size < UINT32_MAX) :
    List.Forall₂ same_letter s.chars s1.chars := by
  unfold seq.update at h
  split at h
  · cases h
  · rename_i hq
    have hqlen : qseq.chars.length = s.m_size := by
      rw [chars_length (by omega), hw]
    cases hl : update_loop oob qseq.chars 0 (update_init s) with
    | error e => rw [hl] at h; cases h
    | ok st =>
      rw [hl] at h
      simp only at h
      have hinit : span_inv 0 (update_init s).s := ⟨Or.inl rfl, Nat.le_refl 0⟩
      have hinv0 : letters_inv s.m_data s.m_seq 0 (update_init s) :=
        ⟨fun j c hj => ⟨c, hj, Or.inl rfl⟩, fun j c hj => absurd hj (Nat.not_lt_zero j)⟩
      obtain ⟨hv, hcov⟩ := update_loop_letters s.m_data s.m_seq qseq.chars 0
        (update_init s) st hl rfl (by rw [hqlen]; omega) hinit hinv0
      rw [Nat.zero_add, hqlen] at hcov
      obtain ⟨f1, f2, -, -⟩ := update_loop_frame _ 0 _ _ hl
      have f1 : st.s.m_seq = s.m_seq := f1
      have f2 : st.s.m_data.length = s.m_data.length := f2
      have f3 : st.s.m_size = s.m_size := (update_loop_span _ 0 _ _ hl hinit).2
      have hstb : st.s.m_seq + st.s.m_size ≤ st.s.m_data.length := by omega
      obtain ⟨e1, e2⟩ := update_finish_chars h hstb
      have hstlen : st.s.chars.length = s.chars.length := by
        rw [chars_length hstb, chars_length hs, f3]
      -- the characters of the row after the loop
      have hst : ∀ (j c : Nat), s.chars[j]? = some c →
          ∃ c1, st.s.chars[j]? = some c1 ∧ case_variant c c1 := by
        intro j c hj
        have hjlt := chars_getElem?_lt hj
        rw [chars_getElem? s j hjlt] at hj
        obtain ⟨c1, h1, h2⟩ := hv _ c hj
        exact ⟨c1, by rw [chars_getElem? st.s j (by omega), f1]; exact h1, h2⟩
      by_cases hb : st.s.m_begin = UINT32_MAX
      · -- nothing was compared: the row is as the loop left it
        rw [e1 hb]
        apply forall2_of_getElem? _ _ hstlen.symm
        intro j c c2 hj hj2
        obtain ⟨c1, h1, h2⟩ := hst j c hj
        rw [h1] at hj2
        injection hj2 with hj2
        subst hj2
        cases hg : is_gap c with
        | true => exact Or.inl ⟨hg, by rw [case_variant_gap h2, hg]⟩
        | false => exact Or.inr ⟨hg, h2⟩
      · rw [e2 hb]
        apply forall2_of_getElem? _ _ (by rw [normalize_length, hstlen])
        intro j c c2 hj hj2
        have hjlt := chars_getElem?_lt hj
        obtain ⟨c1, h1, h2⟩ := hst j c hj
        rw [normalize_getElem?, h1] at hj2
        simp only [Option.map_some', Nat.zero_add] at hj2
        injection hj2 with hj2
        cases hg : is_gap c with
        | true =>
          have hg1 : is_gap c1 = true := by rw [case_variant_gap h2, hg]
          left
          refine ⟨hg, ?_⟩
          rw [← hj2]
          by_cases hout : j < st.s.m_begin ∨ j ≥ st.s.m_end
          · rw [if_pos hout]; rfl
          · rw [if_neg hout, if_pos hg1]; rfl
        | false =>
          have hg1 : is_gap c1 = false := by rw [case_variant_gap h2, hg]
          have hcj := hcov j c hjlt (by rw [← chars_getElem? s j hjlt]; exact hj) hg
          right
          refine ⟨hg, ?_⟩
          rw [← hj2, if_neg (by omega), if_neg (by rw [hg1]; simp)]
          exact h2

theorem letters_of_same_letter : ∀ (a b : Str), List.Forall₂ same_letter a b →
    letters b = letters a := by
  intro a
  induction a with
  | nil =>
    intro b h
    cases h
    rfl
  | cons x xs ih =>
    intro b h
    cases h with
    | cons hab hrest =>
      rename_i y ys
      have ih1 := ih ys hrest
      unfold letters non_gap at *
      rcases hab with ⟨h1, h2⟩ | ⟨h1, h2⟩
      · simp only [List.filter_cons, h1, h2, Bool.not_true, Bool.false_eq_true, if_false]
        exact ih1
      · have h3 : is_gap y = false := by rw [case_variant_gap h2, h1]
        simp only [List.filter_cons, h1, h3, Bool.not_false, if_true, List.map_cons]
        rw [ih1]
        congr 1
        rcases h2 with h2 | h2
        · rw [h2]
        · rw [h2, tolower_idem]

theorem take_succ_flatten : ∀ (l : List Str) (b : Nat),
    (l.take (b + 1)).flatten = (l.take b).flatten ++ l.getD b [] := by
  intro l
  induction l with
  | nil => intro b; simp
  | cons a l ih =>
    intro b
    cases b with
    | zero => simp
    | succ b =>
      simp only [List.take_succ_cons, List.flatten_cons, List.getD_cons_succ]
      rw [ih b, List.append_assoc]

theorem take_flatten_length_le : ∀ (l : List Str) (b : Nat),
    (l.take b).flatten.length ≤ l.flatten.length := by
  intro l
  induction l with
  | nil => intro b; simp
  | cons a l ih =>
    intro b
    cases b with
    | zero => simp
    | succ b =>
      simp only [List.take_succ_cons, List.flatten_cons, List.length_append]
      have := ih b
      omega

theorem stockholm_body_cons (line : Str) (rest : List Str) (st : stockholm_state) :
    stockholm_body (line :: rest) st =
      if line = [] then stockholm_body rest st
      else if line = [47, 47] then .ok st
      else
        match stockholm_line line st with
        | .error e => .error e
        | .ok st1 => stockholm_body rest st1 := rfl

theorem body_of_run : ∀ (ls tl : List Str) (st : stockholm_state),
    (∀ l ∈ ls, l ≠ [] ∧ l ≠ [47, 47]) →
    stockholm_body (ls ++ tl) st =
      match run_lines ls st with
      | .error e => .error e
      | .ok st1 => stockholm_body tl st1 := by
  intro ls
  induction ls with
  | nil => intro tl st _; rfl
  | cons l ls ih =>
    intro tl st h
    obtain ⟨h1, h2⟩ := h l (List.mem_cons_self _ _)
    rw [List.cons_append, run_lines_cons, stockholm_body_cons, if_neg h1, if_neg h2]
    cases hl : stockholm_line l st with
    | error e => rfl
    | ok st1 => exact ih tl st1 (fun l' hl' => h l' (List.mem_cons_of_mem _ hl'))

/-- The state of the line loop of `ReadStockholm` after the first `k + 1` blocks of a
block-structured file. -/
theorem blocks_run (qid : Str) (qfrags : List Str) (homologs : List (Str × List Str))
    (w : Nat) (s0 : seq) (hs0 : seq.new qid = .ok s0) (hqid : row_id qid)
    (hq : fragments_ok qfrags w) (hw : w < 2 ^ 30)
    (hh : ∀ h ∈ homologs, row_id h.1 ∧ h.1 ≠ qid ∧ fragments_ok h.2 w) :
    ∀ (k : Nat), ∃ f rest,
      run_lines ((List.range (k + 1)).flatMap (block_lines qid qfrags homologs))
          { msa := [s0], ix := 0, qr := [] } =
        .ok { msa := f :: rest, ix := homologs.length,
              qr := non_gap (qfrags.take (k + 1)).flatten } ∧
      holds qid (qfrags.take (k + 1)).flatten f ∧
      List.Forall₂ (fun h r => holds h.1 (h.2.take (k + 1)).flatten r) homologs rest := by
  have hbound : ∀ (l : List Str) (b : Nat), l.flatten.length = w →
      (l.take b).flatten.length + (l.getD b []).length < 2 ^ 30 := by
    intro l b hl
    have := take_flatten_length_le l (b + 1)
    rw [take_succ_flatten, List.length_append, hl] at this
    omega
  intro k
  induction k with
  | zero =>
    obtain ⟨h0, hsp⟩ := seq_new_holds hs0
    obtain ⟨f, hf1, hf2⟩ := query_line_step qid [] (qfrags.getD 0 [])
      s0 [] [] 0 hqid h0 (hq.1 0) (Or.inl hsp)
      (by have := hbound qfrags 0 hq.2.2; simpa using this)
    obtain ⟨new, hn1, hn2⟩ := first_block_rows f (non_gap (qfrags.getD 0 []))
      (homologs.map (fun h => (h.1, h.2.getD 0 []))) []
      (by
        intro p hp
        obtain ⟨h, hh1, rfl⟩ := List.mem_map.1 hp
        obtain ⟨a1, a2, a3⟩ := hh h hh1
        refine ⟨a1, by rw [hf2.2.2.1]; exact a2, a3.1 0, ?_⟩
        have := hbound h.2 0 a3.2.2
        simpa using this)
    refine ⟨f, new, ?_, ?_, ?_⟩
    · have e : (List.range (0 + 1)).flatMap (block_lines qid qfrags homologs) =
          seq_line qid (qfrags.getD 0 []) ::
            (homologs.map (fun h => (h.1, h.2.getD 0 []))).map (fun p => seq_line p.1 p.2) := by
        simp [block_lines, List.range_succ, List.flatMap]
      rw [e, run_lines_cons, hf1]
      simp only [List.nil_append]
      have e2 : ([] : mseq).length = 0 := rfl
      rw [e2] at hn1
      rw [hn1]
      simp [take_succ_flatten]
    · have := hf2
      simpa [take_succ_flatten] using this
    · rw [List.forall₂_map_left_iff] at hn2
      refine hn2.imp ?_
      intro h r hr
      simpa [take_succ_flatten] using hr
  | succ k ih =>
    obtain ⟨f, rest, h1, h2, h3⟩ := ih
    obtain ⟨f1, hf1, hf2⟩ := query_line_step qid (qfrags.take (k + 1)).flatten
      (qfrags.getD (k + 1) []) f rest
      (non_gap (qfrags.take (k + 1)).flatten) homologs.length hqid h2
      (hq.1 (k + 1)) (Or.inr (hq.2.1 (k + 1) (by omega))) (hbound qfrags (k + 1) hq.2.2)
    obtain ⟨rest1, hn1, hn2⟩ := later_block_rows f1
      (non_gap (qfrags.take (k + 1)).flatten ++ non_gap (qfrags.getD (k + 1) []))
      (homologs.map (fun h => (h.1, (h.2.take (k + 1)).flatten, h.2.getD (k + 1) []))) [] rest
      (by
        intro p hp
        obtain ⟨h, hh1, rfl⟩ := List.mem_map.1 hp
        obtain ⟨a1, a2, a3⟩ := hh h hh1
        exact ⟨a1, by rw [hf2.2.2.1]; exact a2, a3.1 (k + 1), a3.2.1 (k + 1) (by omega),
          hbound h.2 (k + 1) a3.2.2⟩)
      (by rw [List.forall₂_map_left_iff]; exact h3)
    refine ⟨f1, rest1, ?_, ?_, ?_⟩
    · rw [List.range_succ, List.flatMap_append, run_lines_append, h1]
      simp only
      have e : List.flatMap [k + 1] (block_lines qid qfrags homologs) =
          seq_line qid (qfrags.getD (k + 1) []) ::
            (homologs.map (fun h => (h.1, (h.2.take (k + 1)).flatten,
              h.2.getD (k + 1) []))).map (fun p => seq_line p.1 p.2.2) := by
        simp [block_lines, List.flatMap]
      rw [e, run_lines_cons, hf1]
      simp only [List.nil_append]
      have e2 : ([] : mseq).length = 0 := rfl
      rw [e2] at hn1
      simp only [List.nil_append] at hn1
      rw [hn1]
      simp [take_succ_flatten (b := k + 1), non_gap_append]
    · rw [take_succ_flatten qfrags (k + 1)]
      exact hf2
    · rw [List.forall₂_map_left_iff] at hn2
      refine hn2.imp ?_
      intro h r hr
      rw [take_succ_flatten h.2 (k + 1)]
      exact hr

theorem forall2_imp_mem {α β : Type} {R S : α → β → Prop} : ∀ (l : List α) (u : List β),
    List.Forall₂ R l u → (∀ a b, a ∈ l → R a b → S a b) → List.Forall₂ S l u := by
  intro l
  induction l with
  | nil => intro u h _; cases h; exact List.Forall₂.nil
  | cons a l ih =>
    intro u h himp
    cases h with
    | cons hab hrest =>
      exact List.Forall₂.cons (himp _ _ (List.mem_cons_self _ _) hab)
        (ih _ hrest (fun x y hx => himp x y (List.mem_cons_of_mem _ hx)))

theorem update_rows_letters (oob : Nat → Nat → Int) (f : seq) (w : Nat)
    (hf : parsed_row f) (hfw : f.m_size = w) (hw : w < 2 ^ 30)
    (hhead : ∀ c, f.chars.head? = some c → is_gap c = false) :
    ∀ (rows : List (Str × Str)) (rest : mseq),
      List.Forall₂ (fun h r => holds h.1 h.2 r) rows rest →
      (∀ h ∈ rows, h.2.length = w) →
      ∃ rest1, update_rows oob f rest = .ok rest1 ∧
        List.Forall₂ (fun h r => r.m_id = h.1 ∧ r.m_size = h.2.length ∧
          letters r.chars = letters h.2) rows rest1 := by
  intro rows
  induction rows with
  | nil =>
    intro rest h _
    cases h
    exact ⟨[], rfl, List.Forall₂.nil⟩
  | cons p rows ih =>
    intro rest h hlen
    cases h with
    | cons hp hrest =>
      rename_i r rest'
      obtain ⟨⟨p1, p2, p3, p4, p5⟩, -, hid, hdata⟩ := hp
      have hsz : r.m_size = w := by
        rw [← p2, hdata]; exact hlen p (List.mem_cons_self _ _)
      have hb : r.m_seq + r.m_size ≤ r.m_data.length := by omega
      have hfb : f.m_seq + f.m_size ≤ f.m_data.length := by
        rw [hf.1, hf.2.1]; omega
      obtain ⟨r1, hr1⟩ := update_ok oob f r hfb hb (by rw [hsz, hfw]) hhead
      obtain ⟨k1, k2, k3⟩ := update_keeps hr1
      have hlet := letters_of_same_letter _ _
        (update_letters hr1 hb (by rw [hsz, hfw]) (by
          rw [hsz]
          have : (2 : Nat) ^ 30 < UINT32_MAX := by decide
          omega))
      obtain ⟨rest1, hu, hf2⟩ := ih rest' hrest
        (fun h hh => hlen h (List.mem_cons_of_mem _ hh))
      refine ⟨r1 :: rest1, ?_, List.Forall₂.cons ⟨by rw [k1, hid], ?_, ?_⟩ hf2⟩
      · unfold update_rows
        rw [hr1, hu]
      · rw [k3, hsz]; exact (hlen p (List.mem_cons_self _ _)).symm
      · rw [hlet, parsed_row_chars ⟨p1, p2, p3, p4, p5⟩, hdata]

/-- C8, amended: take a Stockholm file with the header lines `# STOCKHOLM 1.0` and
`#=GF ID <name>`, a body of one or more blocks and the final `//`, where every block holds
a line for the id of row 0 (the name without a trailing `-i<digits>`) followed by one
line for each of the same homolog ids, at least one, in the same order. Let the ids be
free of spaces, not start with `#`, be accepted by the constructor of `seq`, and the
homolog ids differ from the id of row 0; let no fragment start with a space, every
fragment after the first block have at most 1024 characters, all rows add up to the same
width `w < 2^30`, and the query not start with a gap. Then `ReadStockholm` with an empty
query substring returns one row per id, the query first and the homologs in the order of
their lines; the query row holds its fragments concatenated in block order; every
homolog row has as many columns as its fragments together and, ignoring case, the
residue letters of these fragments concatenated in block order. -/
theorem ReadStockholm_blocks (oob : Nat → Nat → Int) (name qid : Str) (qfrags : List Str)
    (homologs : List (Str × List Str)) (w : Nat)
    (hname : strip_iteration name = qid) (hqid : row_id qid)
    (hq : fragments_ok qfrags w) (hnb : 1 ≤ qfrags.length) (hw : w < 2 ^ 30)
    (hhead : ∀ c, qfrags.flatten.head? = some c → is_gap c = false)
    (hne : homologs ≠ [])
    (hh : ∀ h ∈ homologs, row_id h.1 ∧ h.1 ≠ qid ∧ h.2.length = qfrags.length ∧
      fragments_ok h.2 w) :
    ∃ front rest,
      ReadStockholm oob (stockholm_file name qid qfrags homologs) [] = .ok (front :: rest) ∧
      front.m_id = qid ∧ front.chars = qfrags.flatten ∧
      List.Forall₂ (fun h r => r.m_id = h.1 ∧ r.m_size = h.2.flatten.length ∧
        letters r.chars = letters h.2.flatten) homologs rest := by
  obtain ⟨s0, hs0⟩ := hqid.2.2
  obtain ⟨k, hk⟩ : ∃ k, qfrags.length = k + 1 := ⟨qfrags.length - 1, by omega⟩
  obtain ⟨f, rest, h1, h2, h3⟩ := blocks_run qid qfrags homologs w s0 hs0 hqid hq hw
    (fun h hm => ⟨(hh h hm).1, (hh h hm).2.1, (hh h hm).2.2.2⟩) k
  have hqall : (qfrags.take (k + 1)).flatten = qfrags.flatten := by
    rw [← hk, List.take_length]
  rw [hqall] at h1 h2
  have h3 : List.Forall₂ (fun h r => holds h.1 h.2 r)
      (homologs.map (fun h => (h.1, h.2.flatten))) rest := by
    rw [List.forall₂_map_left_iff]
    have hmem : ∀ h ∈ homologs, (h.2.take (k + 1)).flatten = h.2.flatten := by
      intro h hm
      rw [← hk, ← (hh h hm).2.2.1, List.take_length]
    refine forall2_imp_mem _ _ h3 ?_
    intro h r hm hr
    rw [← hmem h hm]; exact hr
  have hfp : parsed_row f := h2.1
  have hfd : f.m_data = qfrags.flatten := h2.2.2.2
  have hfw : f.m_size = w := by rw [← hfp.2.1, hfd]; exact hq.2.2
  have hfc : f.chars = qfrags.flatten := by rw [parsed_row_chars hfp, hfd]
  obtain ⟨rest1, hu, hf2⟩ := update_rows_letters oob f w hfp hfw hw
    (by rw [hfc]; exact hhead) (homologs.map (fun h => (h.1, h.2.flatten))) rest h3
    (by
      intro p hp
      obtain ⟨h, hm, rfl⟩ := List.mem_map.1 hp
      exact (hh h hm).2.2.2.2.2)
  rw [List.forall₂_map_left_iff] at hf2
  refine ⟨f, rest1, ?_, h2.2.2.1, hfc, hf2⟩
  -- the parse
  have hlines : ∀ l ∈ (List.range qfrags.length).flatMap (block_lines qid qfrags homologs),
      l ≠ [] ∧ l ≠ [47, 47] := by
    intro l hl
    obtain ⟨b, -, hb⟩ := List.mem_flatMap.1 hl
    unfold block_lines at hb
    rcases List.mem_cons.1 hb with rfl | hb
    · exact seq_line_ordinary _ _
    · obtain ⟨h, -, rfl⟩ := List.mem_map.1 hb
      exact seq_line_ordinary _ _
  have hrestlen : rest.length = homologs.length := by
    have := h3.length_eq
    simpa using this.symm
  have hparse : stockholm_parse (stockholm_file name qid qfrags homologs) =
      .ok (f :: rest, non_gap qfrags.flatten) := by
    unfold stockholm_parse stockholm_file
    simp only [ne_eq, not_true_eq_false, if_false]
    have hst : starts_with (gf_id_tag ++ name) gf_id_tag = true := by
      rw [starts_with_iff, List.take_left]
    rw [hst]
    simp only [Bool.not_true, Bool.false_eq_true, if_false]
    have hdrop : (gf_id_tag ++ name).drop 8 = name := by
      have : gf_id_tag.length = 8 := rfl
      rw [← this, List.drop_left]
    rw [hdrop, hname, hs0]
    simp only
    rw [body_of_run _ _ _ hlines, hk, h1]
    simp only [stockholm_body_cons]
    have hl2 : ¬ (f :: rest).length < 2 := by
      have : homologs.length ≠ 0 := fun h0 => hne (List.length_eq_zero.1 h0)
      simp only [List.length_cons]
      omega
    rw [if_neg (by decide)]
    show (if (f :: rest).length < 2 then Except.error Error.insufficient_sequences
      else Except.ok (f :: rest, non_gap qfrags.flatten)) = _
    rw [if_neg hl2]
  unfold ReadStockholm
  rw [hparse]
  simp only
  have hcrop : crop (f :: rest) (non_gap qfrags.flatten) [] = .ok (f :: rest) := by
    unfold crop
    simp
  rw [hcrop]
  simp only
  unfold update_homologs
  simp only
  rw [hu]

theorem ReadStockholm_blocks_witness :
    stockholm_file (str "test-i3") (str "test") [str "AC-", str "DE"]
        [(str "B", [str "ACC", str "DE"])] =
      [str "# STOCKHOLM 1.0", str "#=GF ID test-i3", str "test AC-", str "B ACC",
        str "test DE", str "B DE", str "//"] ∧
    ∃ front rest,
      ReadStockholm oob_zero (stockholm_file (str "test-i3") (str "test") [str "AC-", str "DE"]
        [(str "B", [str "ACC", str "DE"])]) [] = .ok (front :: rest) ∧
      front.m_id = str "test" ∧ front.chars = [str "AC-", str "DE"].flatten ∧
      List.Forall₂ (fun h r => r.m_id = h.1 ∧ r.m_size = h.2.flatten.length ∧
        letters r.chars = letters h.2.flatten) [(str "B", [str "ACC", str "DE"])] rest :=
  ⟨rfl,
   ReadStockholm_blocks oob_zero (str "test-i3") (str "test") [str "AC-", str "DE"]
    [(str "B", [str "ACC", str "DE"])] 5 rfl ⟨by decide, by decide, ⟨_, rfl⟩⟩
    ⟨fun b => by rcases b with _ | _ | b <;> simp [str],
     fun b _ => by rcases b with _ | _ | b <;> simp [str], rfl⟩
    (by decide) (by decide)
    (fun c hc => by
      have e : [str "AC-", str "DE"].flatten.head? = some 65 := rfl
      rw [e] at hc
      injection hc with hc
      rw [← hc]; rfl)
    (by simp)
    (fun h hm => by
      rw [List.mem_singleton.1 hm]
      exact ⟨⟨by decide, by decide, ⟨_, rfl⟩⟩, by decide, rfl,
        fun b => by rcases b with _ | _ | b <;> simp [str],
        fun b _ => by rcases b with _ | _ | b <;> simp [str], rfl⟩)⟩

/-- C8, as stated, fails: in this file with a valid two-line header the only block
holds a line for the `#=GF ID` name `test-i3` and a line for the homolog `B`, yet
`ReadStockholm` with an empty query substring returns three rows, and the first of them,
the query row `test`, has no column. -/
theorem ReadStockholm_blocks_counterexample :
    stockholm_file (str "test-i3") (str "test-i3") [str "AC"] [(str "B", [str "AC"])] =
      [str "# STOCKHOLM 1.0", str "#=GF ID test-i3", str "test-i3 AC", str "B AC", str "//"] ∧
    (ReadStockholm oob_zero
        (stockholm_file (str "test-i3") (str "test-i3") [str "AC"] [(str "B", [str "AC"])])
        []).map (fun msa => msa.map (fun r => (r.m_id, r.m_size))) =
      .ok [(str "test", 0), (str "test-i3", 2), (str "B", 2)] :=
  ⟨rfl, rfl⟩

/-! ## C10: rows of unequal length -/

theorem append_size_lt {s s1 : seq} {text : Str} (h : s.append text = .ok s1) :
    s1.m_size < 2 ^ 32 := by
  unfold seq.append at h
  split at h
  · cases h
  · rename_i s2 hs2
    unfold seq.write at h
    split at h
    · cases h
    · injection h with h; subst h
      exact Nat.mod_lt _ (by decide)

theorem fasta_body_size : ∀ (lines : List Str) (msa msa1 : mseq),
    fasta_body lines msa = .ok msa1 → (∀ s ∈ msa, s.m_size < 2 ^ 32) →
    ∀ s ∈ msa1, s.m_size < 2 ^ 32 := by
  intro lines
  induction lines with
  | nil => intro msa msa1 h hall; injection h with h; subst h; exact hall
  | cons line rest ih =>
    intro msa msa1 h hall
    unfold fasta_body at h
    split at h
    · exact ih msa msa1 h hall
    · split at h
      · split at h
        · cases h
        · rename_i s0 hs0
          refine ih _ msa1 h ?_
          intro s hs
          rcases List.mem_append.1 hs with hs | hs
          · exact hall s hs
          · rw [List.mem_singleton.1 hs, (seq_new_parsed hs0).2.2.2]; decide
      · split at h
        · cases h
        · rename_i back hback
          split at h
          · cases h
          · rename_i back1 hback1
            refine ih _ msa1 h ?_
            intro s hs
            rcases List.mem_append.1 hs with hs | hs
            · exact hall s (List.dropLast_subset msa hs)
            · rw [List.mem_singleton.1 hs]; exact append_size_lt hback1

/-- For the rows that the line loop of `ReadFastA` builds, `seq::length()` is the
number of columns. -/
theorem fasta_body_length {is : List Str} {msa : mseq} (h : fasta_body is [] = .ok msa) :
    ∀ s ∈ msa, s.length = s.m_size := by
  intro s hs
  have hp := fasta_body_parsed is [] msa h (fun s hs => by cases hs) s hs
  have hl := fasta_body_size is [] msa h (fun s hs => by cases hs) s hs
  obtain ⟨-, -, hb, he, -⟩ := hp
  unfold seq.length
  rw [hb, he]
  simp
  exact hl

/-- The test on the row lengths of `ReadFastA`: when the line loop returns at least two
rows that are not all of the same width, `ReadFastA` throws "not all sequences are of
same length". -/
theorem ReadFastA_ragged_rows (oob : Nat → Nat → Int) (is : List Str) (q : Str) (msa : mseq)
    (h : fasta_body is [] = .ok msa) (h2 : 2 ≤ msa.length)
    (hne : ∃ s ∈ msa, ∃ t ∈ msa, s.m_size ≠ t.m_size) :
    ReadFastA oob is q = .error .not_same_length := by
  have hlen := fasta_body_length h
  unfold ReadFastA fasta_parse
  rw [h]
  match msa, h2, hne, hlen with
  | front :: r :: rest, _, hne, hlen =>
    simp only
    have hany : (r :: rest).any (fun s => s.length != front.length) = true := by
      by_contra hc
      rw [Bool.not_eq_true, List.any_eq_false] at hc
      have hall : ∀ s ∈ front :: r :: rest, s.m_size = front.m_size := by
        intro s hs
        rcases List.mem_cons.1 hs with rfl | hs1
        · rfl
        · have := hc s hs1
          simp at this
          rw [← hlen s hs, ← hlen front (List.mem_cons_self _ _)]
          exact this
      obtain ⟨s, hs, t, ht, hst⟩ := hne
      exact hst ((hall s hs).trans (hall t ht).symm)
    rw [if_pos hany]

/-- C10: `ReadFastA` makes the test on the row lengths: whenever its line loop returns at
least two rows that are not all of the same width, it throws "not all sequences are of
same length" (before any row is cut or updated). `ReadStockholm` has no such test: on a
file whose homolog row `B` has two columns and whose query row has one it returns
normally, after `update` went over row `B` (whose second column it blanked); when row `B`
is the shorter one, `update` reads past the end of that row. -/
theorem ReadStockholm_ragged (oob : Nat → Nat → Int) :
    (∀ (is : List Str) (q : Str) (msa : mseq), fasta_body is [] = .ok msa →
        2 ≤ msa.length → (∃ s ∈ msa, ∃ t ∈ msa, s.m_size ≠ t.m_size) →
        ReadFastA oob is q = .error .not_same_length) ∧
    ReadFastA oob [str ">test", str "A", str ">B", str "AC"] [] = .error .not_same_length ∧
    (ReadStockholm oob ragged_lines []).map
        (fun msa => msa.map (fun r => (r.m_id, r.m_size, r.chars))) =
      .ok [(str "test", 1, str "A"), (str "B", 2, str "A ")] ∧
    ReadStockholm oob
        [str "# STOCKHOLM 1.0", str "#=GF ID test", str "test AC", str "B A", str "//"] [] =
      .error .memory :=
  ⟨ReadFastA_ragged_rows oob, rfl, rfl, rfl⟩

/-! ## C12 to C15: the homology threshold and the order of the hits -/

theorem kHomologyThreshold_length : kHomologyThreshold.length = 71 := rfl

theorem clamp_eq (x : Nat) : max 10 (min x 80) = clamp x 10 80 := by
  unfold clamp
  split_ifs <;> omega

theorem string_lt_iff : ∀ (a b : Str), string_lt a b = true ↔ List.Lex (· < ·) a b := by
  intro a
  induction a with
  | nil =>
    intro b
    cases b with
    | nil => simp [string_lt, List.Lex.not_nil_right]
    | cons y ys => simp [string_lt, List.Lex.nil]
  | cons x xs ih =>
    intro b
    cases b with
    | nil => simp [string_lt, List.Lex.not_nil_right]
    | cons y ys =>
      unfold string_lt
      constructor
      · intro h
        rw [Bool.or_eq_true, Bool.and_eq_true] at h
        rcases h with h1 | h1
        · exact List.Lex.rel (of_decide_eq_true h1)
        · have hxy : x = y := by simpa using h1.1
          subst hxy
          exact List.Lex.cons ((ih ys).1 h1.2)
      · intro h
        cases h with
        | cons h1 => simp [(ih ys).2 h1]
        | rel h1 => simp [h1]

theorem flt_lt_rank {a b : flt} (ha : a ≠ .nan) (hb : b ≠ .nan) :
    flt.lt a b = true ↔ a.rank < b.rank := by
  cases a <;> cases b <;> simp_all [flt.lt, flt.rank, Prod.Lex.lt_iff]

theorem flt_eq_rank {a b : flt} (ha : a ≠ .nan) (hb : b ≠ .nan) :
    flt.eq a b = true ↔ a.rank = b.rank := by
  cases a <;> cases b <;> simp_all [flt.eq, flt.rank]

theorem Hit_lt_key {a b : Hit} (ha : a.m_ide ≠ .nan) (hb : b.m_ide ≠ .nan) :
    a.lt b = true ↔ b.key < a.key := by
  unfold Hit.lt Hit.key
  rw [Prod.Lex.lt_iff, Prod.Lex.lt_iff]
  simp only [Bool.or_eq_true, Bool.and_eq_true, decide_eq_true_eq, flt_lt_rank hb ha,
    flt_eq_rank ha hb, string_lt_iff]
  constructor
  · rintro ((h | ⟨h1, h2⟩) | ⟨⟨h1, h2⟩, h3⟩)
    · exact Or.inl h
    · exact Or.inr ⟨h1.symm, Or.inl h2⟩
    · exact Or.inr ⟨h1.symm, Or.inr ⟨h2.symm, h3⟩⟩
  · rintro (h | ⟨h1, h2 | ⟨h2, h3⟩⟩)
    · exact Or.inl (Or.inl h)
    · exact Or.inl (Or.inr ⟨h1.symm, h2⟩)
    · exact Or.inr ⟨⟨h1.symm, h2.symm⟩, h3⟩
theorem clamp_index (x : Nat) : clamp x 10 80 - 10 ≤ 70 := by
  unfold clamp
  split_ifs <;> omega

/-- The lookup of `seq::drop` is inside the table, and `drop` compares the score with the
entry plus the cutoff. -/
theorem drop_lookup (s : seq) (t : flt) :
    ∃ thr, kHomologyThreshold[clamp s.m_length 10 80 - 10]? = some thr ∧
      s.drop t = .ok (flt.lt s.score (flt.add (.fin thr) t)) := by
  have hlt : clamp s.m_length 10 80 - 10 < kHomologyThreshold.length := by
    rw [kHomologyThreshold_length]
    have := clamp_index s.m_length
    omega
  refine ⟨kHomologyThreshold[clamp s.m_length 10 80 - 10], ?_, ?_⟩
  · exact List.getElem?_eq_getElem hlt
  · unfold seq.drop
    rw [clamp_eq, List.getElem?_eq_getElem hlt]

/-- C12: `seq::drop(t)` is true exactly when `score < T[clamp(alignment_length, 10, 80) -
10] + t`, where `T` is the table `kHomologyThreshold` of 71 entries; the index
`clamp(alignment_length, 10, 80) - 10` is at most 70 for every alignment length, so the
lookup is inside the table and `drop` never fails. -/
theorem drop_threshold (s : seq) (t : flt) :
    kHomologyThreshold.length = 71 ∧ clamp s.m_length 10 80 - 10 ≤ 70 ∧
      ∃ thr, kHomologyThreshold[clamp s.m_length 10 80 - 10]? = some thr ∧
        s.drop t = .ok (flt.lt s.score (flt.add (.fin thr) t)) :=
  ⟨rfl, clamp_index s.m_length, drop_lookup s t⟩

theorem flt_lt_add_mono (x thr t1 t2 : flt) (h : flt.le t1 t2 = true)
    (h1 : flt.lt x (flt.add thr t1) = true) : flt.lt x (flt.add thr t2) = true := by
  unfold flt.le at h
  cases x <;> cases thr <;> cases t1 <;> cases t2 <;> simp_all [flt.lt, flt.eq, flt.add]
  all_goals first
    | linarith
    | (rcases h with h | h <;> linarith)

/-- C13: `seq::drop` is monotonic in its cutoff: when `t1 <= t2` and `drop(t1)` is true,
`drop(t2)` is true. -/
theorem drop_monotone (s : seq) (t1 t2 : flt) (h : flt.le t1 t2 = true)
    (h1 : s.drop t1 = .ok true) : s.drop t2 = .ok true := by
  obtain ⟨thr, hthr, hd⟩ := drop_lookup s t1
  obtain ⟨thr2, hthr2, hd2⟩ := drop_lookup s t2
  rw [hthr] at hthr2
  injection hthr2 with hthr2
  subst hthr2
  rw [hd] at h1
  injection h1 with h1
  rw [hd2, flt_lt_add_mono _ _ _ _ h h1]

theorem drop_monotone_witness :
    sample_weak_row.drop (.fin (1 / 10)) = .ok true :=
  drop_monotone sample_weak_row (.fin 0) (.fin (1 / 10)) (by with_unfolding_all rfl)
    (by with_unfolding_all rfl)

/-- C14: for two hits whose identities compare equal (`m_ide == rhs.m_ide`), the hit with
the longer alignment ranks before the other under `Hit::operator<`, and when the
alignment lengths are equal as well, the hit with the lexicographically greater secondary
id ranks before the other. -/
theorem Hit_lt_ties (a b : Hit) (hide : flt.eq a.m_ide b.m_ide = true) :
    (b.m_seq.m_length < a.m_seq.m_length → a.lt b = true) ∧
      (a.m_seq.m_length = b.m_seq.m_length →
        List.Lex (· < ·) b.m_seq.m_id2 a.m_seq.m_id2 → a.lt b = true) := by
  constructor
  · intro h
    unfold Hit.lt
    simp [hide, h]
  · intro h1 h2
    unfold Hit.lt
    simp [hide, h1, (string_lt_iff _ _).2 h2]

theorem Hit_lt_ties_witness :
    (sample_hit "P1" 3 6).lt (sample_hit "P2" 2 4) = true ∧
      (sample_hit "P2" 3 6).lt (sample_hit "P1" 3 6) = true :=
  ⟨(Hit_lt_ties (sample_hit "P1" 3 6) (sample_hit "P2" 2 4) (by with_unfolding_all rfl)).1
      (by decide),
    (Hit_lt_ties (sample_hit "P2" 3 6) (sample_hit "P1" 3 6) (by with_unfolding_all rfl)).2
      rfl (by decide)⟩

/-- C15, as stated, fails: of the two hits `P1` and `P2` with the same identity and the
same alignment length, the one with the lexicographically smaller secondary id, `P1`,
does not rank first; `P2` ranks before it. -/
theorem Hit_lt_id2_counterexample :
    flt.eq (sample_hit "P1" 3 6).m_ide (sample_hit "P2" 3 6).m_ide = true ∧
      (sample_hit "P1" 3 6).m_seq.m_length = (sample_hit "P2" 3 6).m_seq.m_length ∧
      List.Lex (· < ·) (sample_hit "P1" 3 6).m_seq.m_id2 (sample_hit "P2" 3 6).m_seq.m_id2 ∧
      (sample_hit "P1" 3 6).lt (sample_hit "P2" 3 6) = false ∧
      (sample_hit "P2" 3 6).lt (sample_hit "P1" 3 6) = true :=
  ⟨by with_unfolding_all rfl, rfl, by decide, by with_unfolding_all rfl,
    by with_unfolding_all rfl⟩

/-- C15, amended: `Hit::operator<` orders hits by identity descending, then by alignment
length descending, and finally by secondary id descending: `a` ranks before `b` exactly
when `a` has the greater identity, or the identities compare equal and `a` has the longer
alignment, or identities and lengths are equal and `a` has the lexicographically greater
secondary id. -/
theorem Hit_lt_order (a b : Hit) :
    a.lt b = true ↔
      flt.lt b.m_ide a.m_ide = true ∨
      (flt.eq a.m_ide b.m_ide = true ∧ b.m_seq.m_length < a.m_seq.m_length) ∨
      (flt.eq a.m_ide b.m_ide = true ∧ a.m_seq.m_length = b.m_seq.m_length ∧
        List.Lex (· < ·) b.m_seq.m_id2 a.m_seq.m_id2) := by
  unfold Hit.lt
  simp only [Bool.or_eq_true, Bool.and_eq_true, decide_eq_true_eq, string_lt_iff, gt_iff_lt]
  tauto

/-! ## C16: the ranking step -/

theorem insert_hit_perm (h : Hit) : ∀ (l : List Hit), (insert_hit h l).Perm (h :: l) := by
  intro l
  induction l with
  | nil => exact List.Perm.refl _
  | cons x xs ih =>
    unfold insert_hit
    split
    · exact ((List.Perm.cons x ih).trans (List.Perm.swap h x xs))
    · exact List.Perm.refl _

/-- The sorted list holds the same hits. -/
theorem sort_hits_perm : ∀ (l : List Hit), (sort_hits l).Perm l := by
  intro l
  induction l with
  | nil => exact List.Perm.refl _
  | cons x xs ih =>
    show (insert_hit x (sort_hits xs)).Perm (x :: xs)
    exact (insert_hit_perm x _).trans (List.Perm.cons x ih)

theorem insert_hit_sorted (h : Hit) (hn : h.m_ide ≠ .nan) :
    ∀ (l : List Hit), (∀ x ∈ l, x.m_ide ≠ .nan) →
      l.Pairwise (fun a b => b.key ≤ a.key) →
      (insert_hit h l).Pairwise (fun a b => b.key ≤ a.key) := by
  intro l
  induction l with
  | nil => intro _ _; exact List.pairwise_singleton _ _
  | cons x xs ih =>
    intro hl hs
    rw [List.pairwise_cons] at hs
    unfold insert_hit
    split
    · rename_i hx
      have hx1 := (Hit_lt_key (hl x (List.mem_cons_self _ _)) hn).1 hx
      rw [List.pairwise_cons]
      refine ⟨?_, ih (fun y hy => hl y (List.mem_cons_of_mem _ hy)) hs.2⟩
      intro y hy
      rcases List.mem_cons.1 ((insert_hit_perm h xs).subset hy) with rfl | hy1
      · exact le_of_lt hx1
      · exact hs.1 y hy1
    · rename_i hx
      have hx1 : x.key ≤ h.key := by
        rw [← not_lt]
        exact fun hlt => hx ((Hit_lt_key (hl x (List.mem_cons_self _ _)) hn).2 hlt)
      rw [List.pairwise_cons]
      refine ⟨?_, List.pairwise_cons.2 hs⟩
      intro y hy
      rcases List.mem_cons.1 hy with rfl | hy1
      · exact hx1
      · exact le_trans (hs.1 y hy1) hx1

/-- On hits whose identities are numbers, the sorted list is in descending order of the
keys. -/
theorem sort_hits_sorted : ∀ (l : List Hit), (∀ x ∈ l, x.m_ide ≠ .nan) →
    (sort_hits l).Pairwise (fun a b => b.key ≤ a.key) := by
  intro l
  induction l with
  | nil => intro _; exact List.Pairwise.nil
  | cons x xs ih =>
    intro hl
    show (insert_hit x (sort_hits xs)).Pairwise _
    refine insert_hit_sorted x (hl x (List.mem_cons_self _ _)) _ ?_
      (ih (fun y hy => hl y (List.mem_cons_of_mem _ hy)))
    intro y hy
    exact hl y (List.mem_cons_of_mem _ ((sort_hits_perm xs).subset hy))

theorem number_hits_length : ∀ (l : List Hit) (n : Nat), (number_hits n l).length = l.length := by
  intro l
  induction l with
  | nil => intro n; rfl
  | cons x xs ih => intro n; simp [number_hits, ih]

theorem number_hits_getElem? : ∀ (l : List Hit) (n k : Nat) (h : Hit),
    (number_hits n l)[k]? = some h → n + k < 2 ^ 32 →
    ∃ h0, l[k]? = some h0 ∧ h = { h0 with m_nr := n + k } := by
  intro l
  induction l with
  | nil => intro n k h hk _; simp [number_hits] at hk
  | cons x xs ih =>
    intro n k h hk hlt
    unfold number_hits at hk
    cases k with
    | zero =>
      simp only [List.getElem?_cons_zero, Option.some.injEq] at hk
      exact ⟨x, List.getElem?_cons_zero, hk.symm⟩
    | succ k =>
      simp only [List.getElem?_cons_succ] at hk ⊢
      have hn : (n + 1) % 2 ^ 32 = n + 1 := Nat.mod_eq_of_lt (by omega)
      rw [hn] at hk
      obtain ⟨h0, e1, e2⟩ := ih (n + 1) k h hk (by omega)
      refine ⟨h0, e1, ?_⟩
      rw [e2]
      have : n + 1 + k = n + (k + 1) := by omega
      rw [this]

theorem number_hits_mem : ∀ (l : List Hit) (n : Nat) (h : Hit), h ∈ number_hits n l →
    ∃ h0 ∈ l, ∃ nr, h = { h0 with m_nr := nr } := by
  intro l
  induction l with
  | nil => intro n h hh; simp [number_hits] at hh
  | cons x xs ih =>
    intro n h hh
    unfold number_hits at hh
    rcases List.mem_cons.1 hh with rfl | hh
    · exact ⟨x, List.mem_cons_self _ _, n, rfl⟩
    · obtain ⟨h0, m0, nr, e⟩ := ih _ h hh
      exact ⟨h0, List.mem_cons_of_mem _ m0, nr, e⟩

theorem number_hits_pairwise (R : Hit → Hit → Prop)
    (hR : ∀ a b n m, R a b → R { a with m_nr := n } { b with m_nr := m }) :
    ∀ (l : List Hit) (n : Nat), l.Pairwise R → (number_hits n l).Pairwise R := by
  intro l
  induction l with
  | nil => intro n _; exact List.Pairwise.nil
  | cons x xs ih =>
    intro n hp
    rw [List.pairwise_cons] at hp
    unfold number_hits
    rw [List.pairwise_cons]
    refine ⟨?_, ih _ hp.2⟩
    intro y hy
    obtain ⟨h0, m0, nr, e⟩ := number_hits_mem _ _ _ hy
    rw [e]
    exact hR x h0 n nr (hp.1 h0 m0)

/-- The hits that the ranking step keeps, before they are numbered. -/
theorem kept_discarded (M : Nat) (hits : List Hit) :
    ∃ kept, rank_hits M hits = number_hits 1 kept ∧
      kept ++ discarded_hits M hits = sort_hits hits ∧ kept.length = min M hits.length := by
  have hlen : (sort_hits hits).length = hits.length := (sort_hits_perm hits).length_eq
  unfold rank_hits discarded_hits
  split
  · rename_i h
    refine ⟨(sort_hits hits).take M, rfl, List.take_append_drop _ _, ?_⟩
    rw [List.length_take, hlen]
  · rename_i h
    refine ⟨sort_hits hits, rfl, List.append_nil _, ?_⟩
    rw [hlen] at h ⊢
    omega
/-- Whatever algorithm sorts the hits: when the list `sorted` is in the order of
`Hit::operator<`, so are the hits that the ranking step keeps and numbers, and none of
them ranks strictly behind one that it erases. -/
theorem ranked_of_sorted (M : Nat) (sorted : List Hit)
    (hs : sorted.Pairwise (fun a b => b.lt a = false)) :
    (number_hits 1 (sorted.take M)).Pairwise (fun a b => b.lt a = false) ∧
      ∀ k ∈ number_hits 1 (sorted.take M), ∀ d ∈ sorted.drop M, d.lt k = false := by
  have hs1 := hs
  rw [← List.take_append_drop M sorted, List.pairwise_append] at hs1
  constructor
  · exact number_hits_pairwise _ (fun a b n m h => h) _ 1 hs1.1
  · intro k hk d hd
    obtain ⟨k0, hk0, nr, e⟩ := number_hits_mem _ _ _ hk
    rw [e]
    exact hs1.2.2 k0 hk0 d hd

/-- C16: the ranking step of `CreateHSSP` keeps `min(M, number of hits)` of the hits and
numbers them `1..N` in list order. When every identity is a number, the list is sorted by
`Hit::operator<` and no kept hit ranks strictly behind a discarded one. A hit whose row
has no or one matched column has the identity `0/0`, which is not a number (such a row is
not dropped either); it compares false with every hit, `operator<` is then no strict weak
ordering, and on the hits `P1 .. P4` the list comes out unsorted: `P2` (1/2) is placed
ahead of `P4` (9/10), and with `M = 2` it is kept while `P4` is discarded. -/
theorem rank_hits_spec (oob : Nat → Nat → Int) :
    (∀ (M : Nat) (hits : List Hit), M < 2 ^ 32 →
      (∃ kept, rank_hits M hits = number_hits 1 kept ∧
        (kept ++ discarded_hits M hits).Perm hits) ∧
      (rank_hits M hits).length = min M hits.length ∧
      (∀ (k : Nat) (h : Hit), (rank_hits M hits)[k]? = some h → h.m_nr = k + 1) ∧
      ((∀ h ∈ hits, h.m_ide ≠ .nan) →
        (rank_hits M hits).Pairwise (fun a b => b.lt a = false) ∧
        ∀ k ∈ rank_hits M hits, ∀ d ∈ discarded_hits M hits, d.lt k = false)) ∧
    (update_text oob "A" "D").map (fun r => (r.m_identical, r.m_length, r.score)) =
      .ok (0, 0, .nan) ∧
    (update_text oob "A" "D").bind (fun r => r.drop (.fin 0)) = .ok false ∧
    (sample_hit "P3" 0 0).m_ide = .nan ∧
    ((sample_hit "P2" 1 2).lt (sample_hit "P3" 0 0) = false ∧
      (sample_hit "P3" 0 0).lt (sample_hit "P2" 1 2) = false ∧
      (sample_hit "P3" 0 0).lt (sample_hit "P4" 9 10) = false ∧
      (sample_hit "P4" 9 10).lt (sample_hit "P3" 0 0) = false ∧
      (sample_hit "P4" 9 10).lt (sample_hit "P2" 1 2) = true) ∧
    (rank_hits 4 sample_hits).map (fun h => (h.m_seq.m_id2, h.m_nr)) =
      [(str "P1", 1), (str "P2", 2), (str "P3", 3), (str "P4", 4)] ∧
    (rank_hits 2 sample_hits).map (fun h => (h.m_seq.m_id2, h.m_nr)) =
      [(str "P1", 1), (str "P2", 2)] ∧
    (discarded_hits 2 sample_hits).map (fun h => h.m_seq.m_id2) = [str "P3", str "P4"] := by
  refine ⟨?_, rfl, by with_unfolding_all rfl, rfl,
    ⟨by with_unfolding_all rfl, by with_unfolding_all rfl, by with_unfolding_all rfl,
      by with_unfolding_all rfl, by with_unfolding_all rfl⟩,
    by with_unfolding_all rfl, by with_unfolding_all rfl, by with_unfolding_all rfl⟩
  intro M hits hM
  obtain ⟨kept, hk1, hk2, hk3⟩ := kept_discarded M hits
  have hlen : (rank_hits M hits).length = min M hits.length := by
    rw [hk1, number_hits_length, hk3]
  refine ⟨⟨kept, hk1, by rw [hk2]; exact sort_hits_perm hits⟩, hlen, ?_, ?_⟩
  · intro k h hkh
    have hklt : k < (rank_hits M hits).length := by
      by_contra hc
      rw [List.getElem?_eq_none (by omega)] at hkh
      cases hkh
    rw [hk1] at hkh
    obtain ⟨h0, -, e⟩ := number_hits_getElem? kept 1 k h hkh (by rw [hlen] at hklt; omega)
    rw [e]
    show 1 + k = k + 1
    omega
  · intro hn
    have hs := sort_hits_sorted hits hn
    rw [← hk2, List.pairwise_append] at hs
    have hmem : ∀ x, x ∈ kept ∨ x ∈ discarded_hits M hits → x.m_ide ≠ .nan := by
      intro x hx
      refine hn x ((sort_hits_perm hits).subset ?_)
      rw [← hk2]
      exact List.mem_append.2 hx
    constructor
    · rw [hk1]
      refine number_hits_pairwise _ (fun a b n m h => h) kept 1 ?_
      refine List.Pairwise.imp_of_mem ?_ hs.1
      intro a b ha hb hab
      cases hlt : b.lt a with
      | false => rfl
      | true =>
        have := (Hit_lt_key (hmem b (Or.inl hb)) (hmem a (Or.inl ha))).1 hlt
        exact absurd hab (not_le.2 this)
    · intro k hk d hd
      rw [hk1] at hk
      obtain ⟨k0, hk0, nr, e⟩ := number_hits_mem _ _ _ hk
      have hab := hs.2.2 k0 hk0 d hd
      rw [e]
      show d.lt k0 = false
      cases hlt : d.lt k0 with
      | false => rfl
      | true =>
        have := (Hit_lt_key (hmem d (Or.inr hd)) (hmem k0 (Or.inl hk0))).1 hlt
        exact absurd hab (not_le.2 this)

/-! ## C17, C19, C20: the conservation sums and the occupancy -/

theorem add_distance_frame (distance : ℚ) : ∀ (ks : List Nat) (st st1 : conservation_state),
    add_distance distance ks st = .ok st1 →
    st1.simval = st.simval ∧
      ∀ k, k ∉ ks → st1.sumvar[k]? = st.sumvar[k]? ∧ st1.sumdist[k]? = st.sumdist[k]? := by
  intro ks
  induction ks with
  | nil =>
    intro st st1 h
    injection h with h; subst h
    exact ⟨rfl, fun _ _ => ⟨rfl, rfl⟩⟩
  | cons k0 ks ih =>
    intro st st1 h
    unfold add_distance at h
    split at h
    · split at h
      · obtain ⟨e1, e2⟩ := ih _ _ h
        refine ⟨e1, ?_⟩
        intro k hk
        have hne : k0 ≠ k := fun e => hk (by rw [e]; exact List.mem_cons_self _ _)
        obtain ⟨f1, f2⟩ := e2 k (fun hm => hk (List.mem_cons_of_mem _ hm))
        rw [f1, f2]
        exact ⟨List.getElem?_set_ne hne, List.getElem?_set_ne hne⟩
      · obtain ⟨e1, e2⟩ := ih _ _ h
        exact ⟨e1, fun k hk => e2 k (fun hm => hk (List.mem_cons_of_mem _ hm))⟩
    · cases h

/-- A pair of rows changes `sumvar` and `sumdist` only at the columns of the overlap of
the two alignment spans. -/
theorem conservation_pair_frame (oob : Nat → Nat → Int) (si sj : seq)
    (st st1 : conservation_state) (h : conservation_pair oob si sj st = .ok st1) :
    ∀ k, k ∉ overlap_columns si sj →
      st1.sumvar[k]? = st.sumvar[k]? ∧ st1.sumdist[k]? = st.sumdist[k]? := by
  unfold conservation_pair at h
  split at h
  · cases h
  · split at h
    · exact (add_distance_frame _ _ _ _ h).2
    · injection h with h; subst h
      exact fun _ _ => ⟨rfl, rfl⟩

theorem mem_overlap_columns (si sj : seq) (k : Nat) :
    k ∈ overlap_columns si sj ↔
      si.m_begin ≤ k ∧ sj.m_begin ≤ k ∧ k < si.m_end ∧ k < sj.m_end := by
  unfold overlap_columns
  rw [List.mem_range'_1]
  omega

/-- C17: a pair of rows adds to `sumvar` and `sumdist` only at columns in the overlap of
the two alignment spans. Inside the overlap it also adds at a column where one of the
rows has a gap, because the vector `simval` is not cleared: for the query `ACD` and the
homolog `A.E` (distance 1/2) column 1, where the homolog has a gap, gets `sumdist =
3/4` from the pair. -/
theorem conservation_gap_column :
    (∀ (oob : Nat → Nat → Int) (si sj : seq) (st st1 : conservation_state),
      conservation_pair oob si sj st = .ok st1 →
      ∀ k, ¬ (si.m_begin ≤ k ∧ sj.m_begin ≤ k ∧ k < si.m_end ∧ k < sj.m_end) →
        st1.sumvar[k]? = st.sumvar[k]? ∧ st1.sumdist[k]? = st.sumdist[k]?) ∧
    (ReadFastA oob_zero sample_fasta_gap []).map
        (fun msa => msa.map (fun r => (r.chars, r.m_begin, r.m_end, r.m_pruned))) =
      .ok [(str "ACD", 0, 3, false), (str "A.E", 0, 3, false)] ∧
    (ReadFastA oob_zero sample_fasta_gap []).bind
        (fun msa => conservation_sums oob_zero msa [[0]]) =
      .ok ([3 / 4, 0, 1 / 2], [3 / 4, 3 / 4, 3 / 4]) := by
  refine ⟨?_, rfl, by decide!⟩
  intro oob si sj st st1 h k hk
  exact conservation_pair_frame oob si sj st st1 h k
    (fun hm => hk ((mem_overlap_columns si sj k).1 hm))

/-- C19: the sums of `CalculateConservation` depend on how the row indices are
distributed over the workers, because a worker carries its vector `simval` from one pair
to the next. For the query `ACD` and the homologs `ACE` and `A.D` the driver puts the
indices 0 and 1; one worker that gets both computes `sumvar[1] = 5/4`, two workers that
get one index each compute `sumvar[1] = 1/2`. -/
theorem conservation_depends_on_distribution :
    (ReadFastA oob_zero sample_fasta_three []).map
        (fun msa => (msa.map (fun r => r.chars), conservation_indices msa)) =
      .ok ([str "ACD", str "ACE", str "A.D"], [0, 1]) ∧
    distributes [0, 1] [[0, 1]] ∧ distributes [0, 1] [[0], [1]] ∧
    (ReadFastA oob_zero sample_fasta_three []).bind
        (fun msa => conservation_sums oob_zero msa [[0, 1]]) =
      .ok ([5 / 4, 5 / 4, 5 / 6], [5 / 4, 5 / 4, 5 / 4]) ∧
    (ReadFastA oob_zero sample_fasta_three []).bind
        (fun msa => conservation_sums oob_zero msa [[0], [1]]) =
      .ok ([5 / 4, 1 / 2, 5 / 6], [5 / 4, 5 / 4, 5 / 4]) := by
  refine ⟨rfl, ?_, ?_, ?_, ?_⟩
  · unfold distributes; decide!
  · unfold distributes; decide!
  · decide!
  · decide!

theorem update_dist_ok {dist dist1 : List Nat} {ix : Int} {f : Nat → Nat}
    (h : update_dist dist ix f = .ok dist1) : 0 ≤ ix := by
  unfold update_dist at h
  split at h
  · assumption
  · cases h

theorem count_occurrences_nocc (chain pos : Nat) : ∀ (hits : List Hit)
    (st st1 : occurrence_state), count_occurrences chain pos hits st = .ok st1 →
    st1.nocc = st.nocc +
      (hits.filter (fun h => decide (h.m_chain = chain) && valid_at pos h)).length := by
  intro hits
  induction hits with
  | nil =>
    intro st st1 h
    injection h with h; subst h
    rfl
  | cons hit hits ih =>
    intro st st1 h
    unfold count_occurrences at h
    split at h
    · rename_i hc
      rw [ih _ _ h, List.filter_cons_of_neg (by simp [hc])]
    · rename_i hc
      have hc1 : hit.m_chain = chain := by
        by_contra hne; exact hc hne
      split at h
      · cases h
      · rename_i c hcat
        split at h
        · rename_i hix
          split at h
          · cases h
          · rename_i dist1 hd
            have hv : valid_at pos hit = true := by
              unfold valid_at
              rw [hcat]
              simp only
              exact decide_eq_true (update_dist_ok hd)
            rw [ih _ _ h, List.filter_cons_of_pos (by simp [hc1, hv])]
            simp only [List.length_cons]
            omega
        · rename_i hix
          have hix1 : kResidueIX c = -1 := by
            by_contra hne; exact hix hne
          have hv : valid_at pos hit = false := by
            unfold valid_at
            rw [hcat]
            simp only [hix1]
            rfl
          rw [ih _ _ h, List.filter_cons_of_neg (by simp [hv])]

theorem CalculateVariability_nocc_ok (r r1 : ResidueHInfo) (hits : List Hit)
    (h : r.CalculateVariability hits = .ok r1) (hl : kResidueIX r.letter ≠ -1) :
    r1.nocc = r.nocc +
      (hits.filter (fun h => decide (h.m_chain = r.chain) && valid_at r.pos h)).length := by
  unfold ResidueHInfo.CalculateVariability at h
  rw [if_pos hl] at h
  split at h
  · cases h
  · split at h
    · cases h
    · rename_i occ hocc
      have := count_occurrences_nocc _ _ _ _ _ hocc
      split at h
      · cases h
      · split at h
        · cases h
        · split at h
          · cases h
          · injection h with h
            rw [← h]
            exact this

/-! ## C18: the weights of the residue entries -/

/-- C20: when `CalculateVariability` returns, `nocc` has grown by the number of hits of
the chain that hold a valid amino-acid letter at the column. But a hit of the chain that
holds a gap glyph there (index -2) passes the test `ix != -1` too: it is counted, and the
histogram is then written at `dist[-2]`, outside the array. In the alignment of the query
`AC` with the homolog ` C` the entry of column 0 ends so; the entry of column 1 gets `nocc
= 2`. -/
theorem CalculateVariability_nocc :
    (∀ (r r1 : ResidueHInfo) (hits : List Hit), r.CalculateVariability hits = .ok r1 →
      kResidueIX r.letter ≠ -1 →
      r1.nocc = r.nocc +
        (hits.filter (fun h => decide (h.m_chain = r.chain) && valid_at r.pos h)).length) ∧
    (∀ (chain pos c : Nat) (hit : Hit) (hits : List Hit) (st : occurrence_state),
      hit.m_chain = chain → hit.m_seq.char_at pos = .ok c → is_gap c = true →
      kResidueIX c ≠ -1 ∧ count_occurrences chain pos (hit :: hits) st = .error .memory) ∧
    (ReadFastA oob_zero sample_fasta_late []).map
        (fun msa => msa.map (fun r => (r.chars, r.m_begin, r.m_end))) =
      .ok [(str "AC", 0, 2), (str " C", 1, 2)] ∧
    ((ReadFastA oob_zero sample_fasta_late []).bind
        (fun msa => ChainToHits (fun _ => true) msa sample_chain [] [])).map
        (fun p => p.2.map (fun r => (r.letter, r.pos, r.nocc,
          (r.CalculateVariability p.1).map (fun r1 => r1.nocc)))) =
      .ok [(65, 0, 1, .error .memory), (67, 1, 1, .ok 2)] := by
  refine ⟨CalculateVariability_nocc_ok, ?_, rfl, by decide!⟩
  intro chain pos c hit hits st hc hcat hg
  have hix : kResidueIX c = -2 := by
    unfold is_gap at hg
    exact eq_of_beq hg
  refine ⟨by rw [hix]; decide, ?_⟩
  unfold count_occurrences
  rw [if_neg (by simp [hc]), hcat]
  simp only
  rw [if_pos (by rw [hix]; decide), hix]
  rfl

theorem column_weight_getD (sv sd : ℚ) (h : ¬ sd > 0) : column_weight sv sd = column_weight 0 sd := by
  unfold column_weight
  rw [if_neg h, if_neg h]

theorem skip_breaks_entry (e : ResidueHInfo) (rest : List ResidueHInfo) (h : e.letter ≠ 0) :
    skip_breaks (e :: rest) = ([], e :: rest) := by
  unfold skip_breaks
  rw [if_neg h]

theorem skip_breaks_break (m : ResidueHInfo) (rest : List ResidueHInfo) (h : m.letter = 0) :
    skip_breaks (m :: rest) = (m :: (skip_breaks rest).1, (skip_breaks rest).2) := by
  conv => lhs; unfold skip_breaks
  rw [if_pos h]

theorem skip_breaks_breaks (mk : List ResidueHInfo) (entry : ResidueHInfo)
    (l : List ResidueHInfo) (hmk : ∀ m ∈ mk, m.letter = 0) (he : entry.letter ≠ 0) :
    skip_breaks (mk ++ entry :: l) = (mk, entry :: l) := by
  induction mk with
  | nil => exact skip_breaks_entry entry l he
  | cons m mk ihm =>
    rw [List.cons_append, skip_breaks_break m _ (hmk m (List.mem_cons_self _ _)),
      ihm (fun x hx => hmk x (List.mem_cons_of_mem _ hx))]

/-- The loop of `ChainToHits` over the columns and the last loop of the driver of
`CalculateConservation` in lock-step: the entries that the one adds are the entries that
the other fills in. -/
theorem residue_weight_columns (s : seq) (chain : Nat) (sumvar sumdist : List ℚ)
    (hnul : ∀ i, s.char_at i ≠ .ok 0) :
    ∀ (is : List Nat), (∀ i ∈ is, i < sumvar.length ∧ i < sumdist.length) →
    ∀ (st st1 : residue_state), residue_columns s chain is st = .ok st1 →
    ∃ added added1, st1.res = st.res ++ added ∧ List.Forall₂ weighted added added1 ∧
      (∀ r ∈ added1, r.letter = 0 → r.consweight = 1) ∧
      (st.prev = none → ∀ e l, added = e :: l → e.letter ≠ 0) ∧
      (added1.filter (fun r => r.letter != 0)).map (fun r => (r.pos, r.consweight)) =
        (is.filter (fun i => match s.char_at i with
            | .ok c => !is_gap c
            | .error _ => false)).map
          (fun i => (i, column_weight (sumvar.getD i 0) (sumdist.getD i 0))) ∧
      ∀ (done tail : List ResidueHInfo),
        weight_columns s sumvar sumdist is
            { done := done ++ (skip_breaks (added ++ tail)).1,
              todo := (skip_breaks (added ++ tail)).2 } =
          .ok { done := done ++ added1 ++ (skip_breaks tail).1,
                todo := (skip_breaks tail).2 } := by
  intro is
  induction is with
  | nil =>
    intro _ st st1 h
    injection h with h; subst h
    refine ⟨[], [], by simp, List.Forall₂.nil, by simp, by simp, by simp, ?_⟩
    intro done tail
    simp [weight_columns]
  | cons i is ih =>
    intro hlen st st1 h
    obtain ⟨hi1, hi2⟩ := hlen i (List.mem_cons_self _ _)
    have hlen1 : ∀ j ∈ is, j < sumvar.length ∧ j < sumdist.length :=
      fun j hj => hlen j (List.mem_cons_of_mem _ hj)
    unfold residue_columns at h
    cases hc : residue_column s chain i st with
    | error e => rw [hc] at h; cases h
    | ok st2 =>
      rw [hc] at h
      simp only at h
      obtain ⟨added2, added3, e1, e2, e3, e6, e4, e5⟩ := ih hlen1 st2 st1 h
      unfold residue_column at hc
      cases hcat : s.char_at i with
      | error e => rw [hcat] at hc; cases hc
      | ok c =>
        rw [hcat] at hc
        simp only at hc
        by_cases hg : is_gap c = true
        · rw [if_pos hg] at hc
          injection hc with hc; subst hc
          refine ⟨added2, added3, e1, e2, e3, e6, ?_, ?_⟩
          · rw [List.filter_cons_of_neg (by rw [hcat]; simp [hg])]
            exact e4
          · intro done tail
            unfold weight_columns weight_column
            rw [hcat]
            simp only
            rw [if_pos hg]
            exact e5 done tail
        · rw [if_neg hg] at hc
          have hc0 : c ≠ 0 := fun h0 => hnul i (by rw [hcat, h0])
          cases htodo : st.todo with
          | nil => rw [htodo] at hc; cases hc
          | cons r rest =>
            rw [htodo] at hc
            simp only at hc
            injection hc with hc
            -- the entries added for this column
            generalize hres1 : (match st.prev with
              | some p =>
                if r.number > p.number + 1 then
                  st.res ++ [ResidueHInfo.chain_break ((st.res.length + 1) % 2 ^ 32)]
                else st.res
              | none => st.res) = res1 at hc
            have hmk : ∃ mk, res1 = st.res ++ mk ∧ (∀ m ∈ mk, m.letter = 0 ∧ m.consweight = 1) ∧
                (st.prev = none → mk = []) := by
              rw [← hres1]
              split
              · rename_i p hp
                split
                · refine ⟨[_], rfl, ?_, fun hn => by rw [hp] at hn; cases hn⟩
                  intro m hm
                  rw [List.mem_singleton.1 hm]
                  exact ⟨rfl, rfl⟩
                · exact ⟨[], by simp, by simp, fun _ => rfl⟩
              · exact ⟨[], by simp, by simp, fun _ => rfl⟩
            obtain ⟨mk, hmk1, hmk2, hmk3⟩ := hmk
            generalize hent : ResidueHInfo.new c i chain ((res1.length + 1) % 2 ^ 32)
              r.number r.dssp = entry at hc
            have hel : entry.letter = c := by rw [← hent]; rfl
            have hep : entry.pos = i := by rw [← hent]; rfl
            have hskip : ∀ (l : List ResidueHInfo), skip_breaks (mk ++ entry :: l) =
                (mk, entry :: l) :=
              fun l => skip_breaks_breaks mk entry l (fun m hm => (hmk2 m hm).1)
                (by rw [hel]; exact hc0)
            subst hc
            simp only at e1
            obtain ⟨sd, hsd⟩ : ∃ sd, sumdist[i]? = some sd := ⟨_, List.getElem?_eq_getElem hi2⟩
            obtain ⟨sv, hsv⟩ : ∃ sv, sumvar[i]? = some sv := ⟨_, List.getElem?_eq_getElem hi1⟩
            have hw : ∀ (x : ℚ), (if sd > 0 then sumvar[i]? else some 0) = some x →
                column_weight x sd = column_weight (sumvar.getD i 0) (sumdist.getD i 0) := by
              intro x hx
              rw [List.getD_eq_getElem?_getD, List.getD_eq_getElem?_getD, hsd, hsv]
              simp only [Option.getD_some]
              by_cases hpos : sd > 0
              · rw [if_pos hpos, hsv] at hx
                injection hx with hx
                rw [hx]
              · rw [if_neg hpos] at hx
                injection hx with hx
                rw [← hx, column_weight_getD sv sd hpos]
            obtain ⟨x, hx⟩ : ∃ x, (if sd > 0 then sumvar[i]? else some 0) = some x := by
              by_cases hpos : sd > 0
              · exact ⟨sv, by rw [if_pos hpos, hsv]⟩
              · exact ⟨0, by rw [if_neg hpos]⟩
            refine ⟨mk ++ entry :: added2,
              mk ++ { entry with consweight := column_weight x sd } :: added3, ?_, ?_, ?_, ?_,
              ?_, ?_⟩
            · rw [e1, hmk1]
              simp
            · refine List.rel_append ?_ (List.Forall₂.cons ?_ e2)
              · exact List.forall₂_same.2 (fun m _ => by cases m; rfl)
              · show _ = _
                rfl
            · intro r0 hr0 hl0
              rcases List.mem_append.1 hr0 with hm | hm
              · exact (hmk2 r0 hm).2
              · rcases List.mem_cons.1 hm with rfl | hm
                · exact absurd (hl0.symm.trans hel).symm hc0
                · exact e3 r0 hm hl0
            · intro hprev e l hel0
              rw [hmk3 hprev, List.nil_append] at hel0
              injection hel0 with hel1 _
              rw [← hel1, hel]
              exact hc0
            · have hfm : mk.filter (fun r => r.letter != 0) = [] := by
                rw [List.filter_eq_nil_iff]
                intro m hm
                simp [(hmk2 m hm).1]
              rw [List.filter_append, hfm, List.nil_append,
                List.filter_cons_of_pos (by show (entry.letter != 0) = true; simp [hel, hc0]),
                List.filter_cons_of_pos (by rw [hcat]; simp [hg]),
                List.map_cons, List.map_cons, e4]
              show (entry.pos, column_weight x sd) :: _ = _
              rw [hw x hx, hep]
            · intro done tail
              rw [List.append_assoc, List.cons_append, hskip]
              unfold weight_columns weight_column
              rw [hcat]
              simp only
              rw [if_neg hg, hsd]
              simp only
              rw [hx]
              simp only
              have := e5 (done ++ mk ++ [{ entry with consweight := column_weight x sd }]) tail
              simp only [List.append_assoc, List.singleton_append] at this ⊢
              rw [this]

theorem accumulate_length {sum csum r : List ℚ} (h : accumulate sum csum = .ok r) :
    r.length = csum.length := by
  unfold accumulate at h
  split at h
  · injection h with h
    rw [← h, List.length_append, List.length_zipWith, List.length_drop]
    omega
  · cases h

theorem conservation_worker_length {oob : Nat → Nat → Int} {msa : mseq} {indices : List Nat}
    {csum csum1 : List ℚ × List ℚ} (h : conservation_worker oob msa indices csum = .ok csum1) :
    csum1.1.length = csum.1.length ∧ csum1.2.length = csum.2.length := by
  unfold conservation_worker at h
  split at h
  · cases h
  · split at h
    · cases h
    · split at h
      · rename_i a b ha hb
        injection h with h
        rw [← h]
        exact ⟨accumulate_length ha, accumulate_length hb⟩
      · cases h

theorem conservation_workers_length {oob : Nat → Nat → Int} {msa : mseq} :
    ∀ (parts : List (List Nat)) (csum csum1 : List ℚ × List ℚ),
      conservation_workers oob msa parts csum = .ok csum1 →
      csum1.1.length = csum.1.length ∧ csum1.2.length = csum.2.length := by
  intro parts
  induction parts with
  | nil => intro csum csum1 h; injection h with h; subst h; exact ⟨rfl, rfl⟩
  | cons p parts ih =>
    intro csum csum1 h
    unfold conservation_workers at h
    split at h
    · cases h
    · rename_i c2 hc2
      obtain ⟨a1, a2⟩ := conservation_worker_length hc2
      obtain ⟨b1, b2⟩ := ih _ _ h
      exact ⟨b1.trans a1, b2.trans a2⟩

/-- The vectors `sumvar` and `sumdist` have the length of the query row. -/
theorem conservation_sums_length {oob : Nat → Nat → Int} {s : seq} {rest : mseq}
    {parts : List (List Nat)} {sumvar sumdist : List ℚ}
    (h : conservation_sums oob (s :: rest) parts = .ok (sumvar, sumdist)) :
    sumvar.length = s.length ∧ sumdist.length = s.length := by
  unfold conservation_sums at h
  obtain ⟨a1, a2⟩ := conservation_workers_length _ _ _ h
  simp only [List.length_replicate] at a1 a2
  exact ⟨a1, a2⟩

theorem char_at_mem {s : seq} {i c : Nat} (h : s.char_at i = .ok c) : c ∈ s.chars := by
  unfold seq.char_at at h
  split at h
  · cases h
  · rename_i hi
    split at h
    · cases h
    · rename_i c1 hc1
      injection h with h
      subst h
      unfold seq.chars
      refine List.mem_iff_getElem?.2 ⟨i, ?_⟩
      rw [List.getElem?_take_of_lt (by omega), List.getElem?_drop]
      exact hc1

/-- C18: the weight of a column is `sumvar/sumdist` when `sumdist > 0` and 1 otherwise.
When `ChainToHits` has added the range of entries of a chain to `res`,
`CalculateConservation` on the same alignment and that range returns the range with
nothing but weights changed: the entries with a letter, in order, are those of the query
columns that hold a residue, each with the weight of its column; the chain-break markers
keep the weight 1; and the closing assertion holds. The query row holds no NUL byte: its
residues are those of the sequence of the chain, to which the readers crop it. -/
theorem CalculateConservation_weights (oob : Nat → Nat → Int) (has_document : Str → Bool)
    (s : seq) (rest : mseq) (chain : MChain) (hits : List Hit) (res : List ResidueHInfo)
    (p : List Hit × List ResidueHInfo) (parts : List (List Nat)) (sums : List ℚ × List ℚ)
    (hnul : ∀ c ∈ s.chars, c ≠ 0)
    (hc : ChainToHits has_document (s :: rest) chain hits res = .ok p)
    (hs : conservation_sums oob (s :: rest) parts = .ok sums) :
    (∀ sv sd : ℚ, column_weight sv sd = if sd > 0 then sv / sd else 1) ∧
    ∃ range range1, p.2 = res ++ range ∧
      CalculateConservation oob (s :: rest) parts range = .ok range1 ∧
      List.Forall₂ weighted range range1 ∧
      (∀ r ∈ range1, r.letter = 0 → r.consweight = 1) ∧
      (range1.filter (fun r => r.letter != 0)).map (fun r => (r.pos, r.consweight)) =
        (query_columns s).map
          (fun i => (i, column_weight (sums.1.getD i 0) (sums.2.getD i 0))) := by
  refine ⟨fun _ _ => rfl, ?_⟩
  obtain ⟨sumvar, sumdist⟩ := sums
  obtain ⟨l1, l2⟩ := conservation_sums_length hs
  unfold ChainToHits at hc
  simp only at hc
  cases hr : residue_columns s chain.id (List.range s.length)
      { prev := none, todo := chain.residues, res := res } with
  | error e => rw [hr] at hc; cases hc
  | ok st =>
    rw [hr] at hc
    simp only at hc
    split at hc
    · cases hc
    · injection hc with hc
      subst hc
      obtain ⟨added, added1, e1, e2, e3, e6, e4, e5⟩ :=
        residue_weight_columns s chain.id sumvar sumdist
          (fun i hi => hnul 0 (char_at_mem hi) rfl) (List.range s.length)
          (fun i hi => by rw [l1, l2]; exact ⟨List.mem_range.1 hi, List.mem_range.1 hi⟩) _ _ hr
      refine ⟨added, added1, e1, ?_, e2, e3, e4⟩
      unfold CalculateConservation
      simp only
      rw [hs]
      simp only
      unfold assign_weights
      have hskip : skip_breaks (added ++ []) = ([], added ++ []) := by
        rw [List.append_nil]
        cases hadd : added with
        | nil => rfl
        | cons e l => exact skip_breaks_entry e l (e6 rfl e l hadd)
      have h5 := e5 [] []
      rw [hskip] at h5
      simp only [List.append_nil, List.nil_append] at h5
      have hsk : skip_breaks [] = (([] : List ResidueHInfo), ([] : List ResidueHInfo)) := rfl
      rw [hsk] at h5
      simp only [List.append_nil] at h5
      rw [h5]
      simp

theorem CalculateConservation_weights_witness :
    ((ChainToHits (fun _ => true) sample_gap_rows sample_chain_break [] []).bind
        (fun p => CalculateConservation oob_zero sample_gap_rows [[0]] p.2)).map
        (fun range1 => range1.map (fun r => (r.letter, r.pos, r.consweight))) =
      .ok [(65, 0, 1), (67, 1, 0), (0, 0, 1), (68, 2, 2 / 3)] ∧
    ∃ range range1,
      (match ChainToHits (fun _ => true) sample_gap_rows sample_chain_break [] [] with
        | .ok p => p
        | .error _ => ([], [])).2 = [] ++ range ∧
      CalculateConservation oob_zero sample_gap_rows [[0]] range = .ok range1 ∧
      List.Forall₂ weighted range range1 ∧
      (∀ r ∈ range1, r.letter = 0 → r.consweight = 1) ∧
      (range1.filter (fun r => r.letter != 0)).map (fun r => (r.pos, r.consweight)) =
        (query_columns sample_gap_query).map
          (fun i => (i, column_weight
            ((match conservation_sums oob_zero sample_gap_rows [[0]] with
              | .ok sums => sums
              | .error _ => ([], [])).1.getD i 0)
            ((match conservation_sums oob_zero sample_gap_rows [[0]] with
              | .ok sums => sums
              | .error _ => ([], [])).2.getD i 0))) :=
  ⟨by decide!,
    (CalculateConservation_weights oob_zero (fun _ => true) sample_gap_query
      sample_gap_rows.tail sample_chain_break [] [] _ [[0]] _
      (by decide!) (by decide!) (by decide!)).2⟩

/-! ## C11: writing an alignment with `WriteFastA` and reading it back -/

theorem new_accepted {id : Str} {s : seq} (h : seq.new id = .ok s) : accepted s := by
  have := (seq_new_parsed h).2.2.1
  exact ⟨s, by rw [this]; exact h⟩

theorem append_id {s s1 : seq} {text : Str} (h : s.append text = .ok s1) :
    s1.m_id = s.m_id := by
  unfold seq.append at h
  split at h
  · cases h
  · rename_i s2 hs2
    have h2 : s2.m_id = s.m_id := by
      unfold seq.reserve at hs2
      split at hs2
      · split at hs2
        · cases hs2
        · injection hs2 with hs2; subst hs2; rfl
      · injection hs2 with hs2; subst hs2; rfl
    unfold seq.write at h
    split at h
    · cases h
    · injection h with h; subst h; exact h2

theorem append_accepted {s s1 : seq} {text : Str} (h : s.append text = .ok s1)
    (ha : accepted s) : accepted s1 := by
  unfold accepted at *
  rw [append_id h]; exact ha

theorem mem_set_accepted {msa : mseq} {k : Nat} {r : seq} (hall : ∀ s ∈ msa, accepted s)
    (hr : accepted r) : ∀ s ∈ msa.set k r, accepted s := by
  intro s hs
  rcases List.mem_or_eq_of_mem_set hs with h | h
  · exact hall s h
  · rw [h]; exact hr

theorem mem_append_accepted {msa : mseq} {r : seq} (hall : ∀ s ∈ msa, accepted s)
    (hr : accepted r) : ∀ s ∈ msa ++ [r], accepted s := by
  intro s hs
  rcases List.mem_append.1 hs with h | h
  · exact hall s h
  · rw [List.mem_singleton.1 h]; exact hr

theorem declare_row_accepted {id : Str} {front : seq} {st st1 : stockholm_state}
    (h : declare_row id front st = .ok st1) (hall : ∀ s ∈ st.msa, accepted s) :
    ∀ s ∈ st1.msa, accepted s := by
  unfold declare_row at h
  split at h
  · split at h
    · cases h
    · rename_i s0 hs0
      injection h with h; subst h
      exact mem_append_accepted hall (new_accepted hs0)
  · injection h with h; subst h; exact hall

theorem grow_msa_accepted {id : Str} {ix : Nat} {msa msa1 : mseq}
    (h : grow_msa id ix msa = .ok msa1) (hall : ∀ s ∈ msa, accepted s) :
    ∀ s ∈ msa1, accepted s := by
  unfold grow_msa at h
  split at h
  · split at h
    · cases h
    · rename_i s0 hs0
      injection h with h; subst h
      exact mem_append_accepted hall (new_accepted hs0)
  · injection h with h; subst h; exact hall

theorem append_row_accepted {sseq : Str} {st st1 : stockholm_state}
    (h : append_row sseq st = .ok st1) (hall : ∀ s ∈ st.msa, accepted s) :
    ∀ s ∈ st1.msa, accepted s := by
  unfold append_row at h
  split at h
  · rename_i r hr
    split at h
    · cases h
    · rename_i r1 hr1
      injection h with h; subst h
      exact mem_set_accepted hall
        (append_accepted hr1 (hall r (List.mem_iff_getElem?.2 ⟨_, hr⟩)))
  · injection h with h; subst h; exact hall

theorem select_row_accepted {id sseq : Str} {front : seq} {st st1 : stockholm_state}
    (h : select_row id sseq front st = .ok st1) (hall : ∀ s ∈ st.msa, accepted s) :
    ∀ s ∈ st1.msa, accepted s := by
  unfold select_row at h
  split at h
  · injection h with h; subst h; exact hall
  · split at h
    · cases h
    · rename_i msa2 hmsa2
      split at h
      · cases h
      · injection h with h; subst h
        exact grow_msa_accepted hmsa2 hall

theorem stockholm_line_accepted {line : Str} {st st1 : stockholm_state}
    (h : stockholm_line line st = .ok st1) (hall : ∀ s ∈ st.msa, accepted s) :
    ∀ s ∈ st1.msa, accepted s := by
  unfold stockholm_line at h
  split at h
  · cases h
  · split at h
    · exact declare_row_accepted h hall
    · split at h
      · unfold sequence_line at h
        split at h
        · cases h
        · split at h
          · cases h
          · rename_i st2 hst2
            exact append_row_accepted h (select_row_accepted hst2 hall)
      · injection h with h; subst h; exact hall

theorem stockholm_body_accepted : ∀ (lines : List Str) (st st1 : stockholm_state),
    stockholm_body lines st = .ok st1 → (∀ s ∈ st.msa, accepted s) →
    ∀ s ∈ st1.msa, accepted s := by
  intro lines
  induction lines with
  | nil => intro st st1 h; cases h
  | cons line rest ih =>
    intro st st1 h hall
    unfold stockholm_body at h
    split at h
    · exact ih st st1 h hall
    · split at h
      · injection h with h; subst h; exact hall
      · split at h
        · cases h
        · rename_i st2 hst2
          exact ih st2 st1 h (stockholm_line_accepted hst2 hall)

theorem stockholm_parse_accepted {is : List Str} {msa : mseq} {qr : Str}
    (h : stockholm_parse is = .ok (msa, qr)) : ∀ s ∈ msa, accepted s := by
  unfold stockholm_parse at h
  split at h
  · cases h
  · split at h
    · cases h
    · split at h
      · cases h
      · split at h
        · cases h
        · split at h
          · cases h
          · rename_i s0 hs0
            split at h
            · cases h
            · rename_i st hst
              split at h
              · cases h
              · injection h with h
                injection h with h1 h2
                subst h1
                exact stockholm_body_accepted _ _ _ hst
                  (fun s hs => by rw [List.mem_singleton.1 hs]; exact new_accepted hs0)

theorem fasta_body_accepted : ∀ (lines : List Str) (msa msa1 : mseq),
    fasta_body lines msa = .ok msa1 → (∀ s ∈ msa, accepted s) →
    ∀ s ∈ msa1, accepted s := by
  intro lines
  induction lines with
  | nil => intro msa msa1 h hall; injection h with h; subst h; exact hall
  | cons line rest ih =>
    intro msa msa1 h hall
    unfold fasta_body at h
    split at h
    · exact ih msa msa1 h hall
    · split at h
      · split at h
        · cases h
        · rename_i s0 hs0
          exact ih _ msa1 h (mem_append_accepted hall (new_accepted hs0))
      · split at h
        · cases h
        · rename_i back hback
          split at h
          · cases h
          · rename_i back1 hback1
            refine ih _ msa1 h ?_
            intro s hs
            rcases List.mem_append.1 hs with hs | hs
            · exact hall s (List.dropLast_subset msa hs)
            · rw [List.mem_singleton.1 hs]
              exact append_accepted hback1 (hall back (List.mem_of_getLast?_eq_some hback))

theorem fasta_parse_accepted {is : List Str} {msa : mseq} (h : fasta_parse is = .ok msa) :
    ∀ s ∈ msa, accepted s := by
  unfold fasta_parse at h
  cases hb : fasta_body is [] with
  | error e => rw [hb] at h; cases h
  | ok msa0 =>
    rw [hb] at h
    simp only at h
    have hall := fasta_body_accepted is [] msa0 hb (fun s hs => by cases hs)
    split at h
    · cases h
    · cases h
    · split at h
      · cases h
      · injection h with h; subst h
        exact hall
theorem cut_spec {s s1 : seq} {pos n : Nat} (h : s.cut pos n = .ok s1) :
    pos + n ≤ s.m_size ∧ s1.m_id = s.m_id ∧ s1.m_data = s.m_data ∧
      s1.m_seq = s.m_seq + pos ∧ s1.m_size = n := by
  unfold seq.cut at h
  split at h
  · cases h
  · rename_i hle
    injection h with h; subst h
    exact ⟨not_not.1 hle, rfl, rfl, rfl, rfl⟩

theorem cut_all_forall2 {pos n : Nat} : ∀ (rows rows1 : mseq),
    cut_all pos n rows = .ok rows1 →
    List.Forall₂ (fun r r1 => r.cut pos n = .ok r1) rows rows1 := by
  intro rows
  induction rows with
  | nil => intro rows1 h; injection h with h; subst h; exact List.Forall₂.nil
  | cons r rest ih =>
    intro rows1 h
    unfold cut_all at h
    cases hc : r.cut pos n with
    | error e => rw [hc] at h; cases h
    | ok r1 =>
      rw [hc] at h
      simp only at h
      cases hr : cut_all pos n rest with
      | error e => rw [hr] at h; cases h
      | ok rest1 =>
        rw [hr] at h
        injection h with h; subst h
        exact List.Forall₂.cons hc (ih rest1 hr)

theorem update_rows_forall2 {oob : Nat → Nat → Int} {f : seq} : ∀ (rows rows1 : mseq),
    update_rows oob f rows = .ok rows1 →
    List.Forall₂ (fun r r1 => seq.update oob f r = .ok r1) rows rows1 := by
  intro rows
  induction rows with
  | nil => intro rows1 h; injection h with h; subst h; exact List.Forall₂.nil
  | cons r rest ih =>
    intro rows1 h
    unfold update_rows at h
    cases hc : seq.update oob f r with
    | error e => rw [hc] at h; cases h
    | ok r1 =>
      rw [hc] at h
      simp only at h
      cases hr : update_rows oob f rest with
      | error e => rw [hr] at h; cases h
      | ok rest1 =>
        rw [hr] at h
        injection h with h; subst h
        exact List.Forall₂.cons hc (ih rest1 hr)

/-- A successful `update` leaves the row inside its storage. -/
theorem update_storage {oob : Nat → Nat → Int} {qseq s s1 : seq}
    (h : seq.update oob qseq s = .ok s1) (hs : s.m_seq + s.m_size ≤ s.m_data.length) :
    s1.m_seq + s1.m_size ≤ s1.m_data.length := by
  obtain ⟨-, k2, k3⟩ := update_keeps h
  unfold seq.update at h
  split at h
  · cases h
  · cases hl : update_loop oob qseq.chars 0 (update_init s) with
    | error e => rw [hl] at h; cases h
    | ok st =>
      rw [hl] at h
      simp only at h
      obtain ⟨f1, f2, -, -⟩ := update_loop_frame _ 0 _ _ hl
      have f1 : st.s.m_seq = s.m_seq := f1
      have f2 : st.s.m_data.length = s.m_data.length := f2
      have f3 : st.s.m_size = s.m_size :=
        (update_loop_span _ 0 _ _ hl ⟨Or.inl rfl, Nat.le_refl 0⟩).2
      rw [k2, k3]
      unfold update_finish at h
      split at h
      · injection h with h; subst h
        show s.m_seq + s.m_size ≤ st.s.m_data.length
        omega
      · split at h
        · cases h
        · split at h
          · cases h
          · split at h
            · cases h
            · injection h with h; subst h
              show s.m_seq + s.m_size ≤ (st.s.m_data.take st.s.m_seq ++
                normalize st.s.m_begin st.s.m_end 0 st.s.chars ++
                st.s.m_data.drop (st.s.m_seq + st.s.m_size)).length
              rw [List.length_append, List.length_append, normalize_length,
                chars_length (by omega), List.length_take, List.length_drop]
              omega

/-- When a row starts at the start of its storage, `update` does not succeed on it if its
column 0 holds a residue opposite a gap of the query. -/
theorem update_column0 {oob : Nat → Nat → Int} {qseq s s1 : seq}
    (h : seq.update oob qseq s = .ok s1) (hs : s.m_seq = 0) (qc sc : Nat)
    (hq : qseq.chars.head? = some qc) (hc : s.m_data[0]? = some sc)
    (hg : is_gap qc = true) : is_gap sc = true := by
  unfold seq.update at h
  split at h
  · cases h
  · cases hchars : qseq.chars with
    | nil => rw [hchars] at hq; cases hq
    | cons c cs =>
      rw [hchars] at hq h
      injection hq with hq
      subst hq
      rw [update_loop_cons] at h
      cases hcol : update_column oob c 0 (update_init s) with
      | error e => rw [hcol] at h; cases h
      | ok st1 =>
        obtain ⟨sc1, hsc1, hcase⟩ := update_column_cases hcol
        have hsc1 : s.m_data[s.m_seq + 0]? = some sc1 := hsc1
        rw [hs, Nat.zero_add, hc] at hsc1
        injection hsc1 with hsc1
        subst hsc1
        rcases hcase with hcase | hcase | hcase | hcase
        · exact hcase.2.1
        · exact hcase.2.1
        · obtain ⟨-, -, st2, hst2, -⟩ := hcase
          unfold open_insertion at hst2
          have hq0 : (count_length (update_init s)).qgapf = false := rfl
          have hm0 : (count_length (update_init s)).s.m_seq + 0 = 0 := by
            show s.m_seq + 0 = 0
            omega
          rw [hq0] at hst2
          simp only [Bool.not_false, if_true] at hst2
          rw [if_pos hm0] at hst2
          cases hst2
        · rw [hcase.1] at hg; cases hg
theorem forall2_mem_right {α β : Type} {R : α → β → Prop} : ∀ {l1 : List α} {l2 : List β},
    List.Forall₂ R l1 l2 → ∀ y ∈ l2, ∃ x ∈ l1, R x y := by
  intro l1 l2 h
  induction h with
  | nil => intro y hy; cases hy
  | cons hab _ ih =>
    intro y hy
    rcases List.mem_cons.1 hy with rfl | hy
    · exact ⟨_, List.mem_cons_self _ _, hab⟩
    · obtain ⟨x, hx, hr⟩ := ih y hy
      exact ⟨x, List.mem_cons_of_mem _ hx, hr⟩

/-- The rows after the block "first cut the msa, if needed": still accepted and inside
their storage, and either every row starts at the start of its storage or the query row
starts with a residue. -/
theorem crop_rows {msa0 msa1 : mseq} {qr q : Str} (hcrop : crop msa0 qr q = .ok msa1)
    (hall : ∀ s ∈ msa0, parsed_row s) (hacc : ∀ s ∈ msa0, accepted s)
    (hqr : ∀ front rest, msa0 = front :: rest → qr = non_gap front.chars) :
    (∀ r ∈ msa1, accepted r ∧ r.m_seq + r.m_size ≤ r.m_data.length) ∧
    ((∀ r ∈ msa1, r.m_seq = 0) ∨
      ∃ f1 rest1 c, msa1 = f1 :: rest1 ∧ f1.chars.head? = some c ∧ is_gap c = false) := by
  unfold crop at hcrop
  split at hcrop
  · rename_i hq
    split at hcrop
    · cases hcrop
    · split at hcrop
      · cases hcrop
      · rename_i offset hoff
        split at hcrop
        · cases hcrop
        · rename_i front rest
          split at hcrop
          · cases hcrop
          · have hqr1 := hqr front rest rfl
            rw [hqr1] at hoff
            obtain ⟨w1, -, w3⟩ := window_spec hoff
            obtain ⟨c, hc1, hc2⟩ := w3 hq.1
            have hf2 := cut_all_forall2 _ _ hcrop
            constructor
            · intro r1 hr1
              obtain ⟨r, hr, hcut⟩ := forall2_mem_right hf2 r1 hr1
              obtain ⟨k1, k2, k3, k4, k5⟩ := cut_spec hcut
              obtain ⟨p1, p2, -, -, -⟩ := hall r hr
              refine ⟨?_, ?_⟩
              · unfold accepted; rw [k2]; exact hacc r hr
              · rw [k3, k4, k5, p1, p2]; omega
            · right
              cases hf2 with
              | cons hcut hrest =>
                rename_i f1 rest1
                obtain ⟨k1, k2, k3, k4, k5⟩ := cut_spec hcut
                have hp := hall front (List.mem_cons_self _ _)
                refine ⟨f1, rest1, c, rfl, ?_, hc2⟩
                rw [← hc1]
                unfold seq.chars at *
                rw [k3, k4, k5, hp.1, Nat.zero_add, List.drop_zero, ← hp.2.1, List.take_length]
  · injection hcrop with hcrop
    subst hcrop
    refine ⟨fun r hr => ⟨hacc r hr, ?_⟩, Or.inl (fun r hr => (hall r hr).1)⟩
    obtain ⟨p1, p2, -, -, -⟩ := hall r hr
    rw [p1, p2]; omega

/-- The rows that the common second part of the readers returns. -/
theorem crop_update_read (oob : Nat → Nat → Int) {msa0 msa1 msa : mseq} {qr q : Str} (w : Nat)
    (hall : ∀ s ∈ msa0, parsed_row s) (hacc : ∀ s ∈ msa0, accepted s)
    (hlen : 2 ≤ msa0.length)
    (hqr : ∀ front rest, msa0 = front :: rest → qr = non_gap front.chars)
    (hcrop : crop msa0 qr q = .ok msa1) (hupd : update_homologs oob msa1 = .ok msa)
    (hw : ∀ r ∈ msa, r.m_size = w) (hlt : w < UINT32_MAX) : read_rows msa := by
  obtain ⟨hrows, hcase⟩ := crop_rows hcrop hall hacc hqr
  have hlen1 : msa1.length = msa0.length := crop_length hcrop
  unfold update_homologs at hupd
  cases msa1 with
  | nil => cases hupd
  | cons f1 rest1 =>
    simp only at hupd
    cases hu : update_rows oob f1 rest1 with
    | error e => rw [hu] at hupd; cases hupd
    | ok rest2 =>
      rw [hu] at hupd
      injection hupd with hupd
      subst hupd
      have hf2 := update_rows_forall2 _ _ hu
      have hfw : f1.m_size = w := hw f1 (List.mem_cons_self _ _)
      have hne : rest2 ≠ [] := by
        intro he
        have := update_rows_length hu
        rw [he] at this
        simp only [List.length_cons, List.length_nil] at hlen1 this
        omega
      refine ⟨f1, rest2, rfl, hne, ?_, ?_⟩
      · intro r hr
        rcases List.mem_cons.1 hr with rfl | hr
        · exact hrows r (List.mem_cons_self _ _)
        · obtain ⟨r1, hr1, hup⟩ := forall2_mem_right hf2 r hr
          obtain ⟨a1, a2⟩ := hrows r1 (List.mem_cons_of_mem _ hr1)
          refine ⟨?_, update_storage hup a2⟩
          unfold accepted at *
          rw [(update_keeps hup).1]; exact a1
      · intro h hh qc sc hqc hsc hg
        obtain ⟨r1, hr1, hup⟩ := forall2_mem_right hf2 h hh
        obtain ⟨-, a2⟩ := hrows r1 (List.mem_cons_of_mem _ hr1)
        rcases hcase with hcase | ⟨f, rest, c, hm, hc1, hc2⟩
        · have hr1w : r1.m_size = w := by
            rw [← (update_keeps hup).2.2]; exact hw h (List.mem_cons_of_mem _ hh)
          have hlet := update_letters hup a2 (by rw [hr1w, hfw]) (by rw [hr1w]; exact hlt)
          cases hch : h.chars with
          | nil => rw [hch] at hsc; cases hsc
          | cons c0 cs0 =>
            rw [hch] at hsc hlet
            injection hsc with hsc
            subst hsc
            obtain ⟨a, as, hab, -, hr1c⟩ := List.forall₂_cons_right_iff.1 hlet
            have h0 : r1.chars[0]? = some a := by rw [hr1c]; exact List.getElem?_cons_zero
            have h0lt := chars_getElem?_lt h0
            rw [chars_getElem? r1 0 h0lt, hcase r1 (List.mem_cons_of_mem _ hr1)] at h0
            have hga := update_column0 hup (hcase r1 (List.mem_cons_of_mem _ hr1)) qc a hqc h0 hg
            rcases hab with hab | hab
            · exact hab.2
            · rw [hab.1] at hga; cases hga
        · injection hm with hm1 hm2
          subst hm1
          rw [hc1] at hqc
          injection hqc with hqc
          rw [← hqc, hc2] at hg
          cases hg

theorem ReadStockholm_read_rows {oob : Nat → Nat → Int} {is : List Str} {q : Str} {msa : mseq}
    (h : ReadStockholm oob is q = .ok msa) (w : Nat) (hw : ∀ r ∈ msa, r.m_size = w)
    (hlt : w < UINT32_MAX) : read_rows msa := by
  unfold ReadStockholm at h
  cases hp : stockholm_parse is with
  | error e => rw [hp] at h; cases h
  | ok pr =>
    obtain ⟨msa0, qr⟩ := pr
    rw [hp] at h
    simp only at h
    cases hc : crop msa0 qr q with
    | error e => rw [hc] at h; cases h
    | ok msa1 =>
      rw [hc] at h
      simp only at h
      obtain ⟨hall, f, rest, hm, hqr⟩ := stockholm_parse_inv hp
      refine crop_update_read oob w hall (stockholm_parse_accepted hp)
        (stockholm_parse_length hp) ?_ hc h hw hlt
      intro front rest1 hm1
      rw [hm] at hm1
      injection hm1 with hm1 _
      rw [← hm1]; exact hqr

theorem ReadFastA_read_rows {oob : Nat → Nat → Int} {is : List Str} {q : Str} {msa : mseq}
    (h : ReadFastA oob is q = .ok msa) (w : Nat) (hw : ∀ r ∈ msa, r.m_size = w)
    (hlt : w < UINT32_MAX) : read_rows msa := by
  unfold ReadFastA at h
  cases hp : fasta_parse is with
  | error e => rw [hp] at h; cases h
  | ok msa0 =>
    rw [hp] at h
    simp only at h
    cases msa0 with
    | nil => cases h
    | cons front rest =>
      simp only at h
      cases hc : crop (front :: rest) (non_gap front.chars) q with
      | error e => rw [hc] at h; cases h
      | ok msa1 =>
        rw [hc] at h
        simp only at h
        obtain ⟨hall, hlen⟩ := fasta_parse_parsed hp
        refine crop_update_read oob w hall (fasta_parse_accepted hp) hlen ?_ hc h hw hlt
        intro f r hm
        injection hm with hm1 _
        rw [← hm1]
theorem update_column_ok0 (oob : Nat → Nat → Int) (qc i : Nat) (st : update_state)
    (hr : st.s.m_seq + i < st.s.m_data.length)
    (h0 : i = 0 → is_gap qc = true →
      ∀ sc, st.s.m_data[st.s.m_seq + i]? = some sc → is_gap sc = true) :
    ∃ st1, update_column oob qc i st = .ok st1 := by
  unfold update_column
  rw [List.getElem?_eq_getElem hr]
  simp only [update_tail_eq]
  split
  · exact ⟨st, rfl⟩
  · split
    · exact ⟨_, rfl⟩
    · rename_i hs
      split
      · rename_i hq
        have hi : 1 ≤ i := by
          rcases Nat.eq_zero_or_pos i with h | h
          · exact absurd (h0 h hq _ (List.getElem?_eq_getElem hr)) hs
          · exact h
        obtain ⟨st1, h1⟩ := open_insertion_ok i (count_length st) hi hr
        rw [h1]
        exact ⟨_, rfl⟩
      · exact ⟨_, rfl⟩

theorem update_loop_ok0 (oob : Nat → Nat → Int) (qs : Str) : ∀ (i : Nat) (st : update_state),
    st.s.m_seq + i + qs.length ≤ st.s.m_data.length →
    (i = 0 → ∀ qc sc, qs.head? = some qc → st.s.m_data[st.s.m_seq + i]? = some sc →
      is_gap qc = true → is_gap sc = true) →
    ∃ st1, update_loop oob qs i st = .ok st1 := by
  induction qs with
  | nil => intro i st _ _; exact ⟨st, rfl⟩
  | cons qc qs ih =>
    intro i st hlen h0
    simp only [List.length_cons] at hlen
    obtain ⟨st1, h1⟩ := update_column_ok0 oob qc i st (by omega)
      (fun hi hq sc hsc => h0 hi qc sc rfl hsc hq)
    rw [update_loop_cons, h1]
    obtain ⟨f1, f2, -, -⟩ := update_column_frame h1
    exact ih (i + 1) st1 (by rw [f1, f2]; omega) (fun h => by omega)

/-- On a row that is as wide as the query and has no residue opposite a gap of the query
in column 0, `update` does not fail. -/
theorem update_ok0 (oob : Nat → Nat → Int) (qseq s : seq)
    (hq : qseq.m_seq + qseq.m_size ≤ qseq.m_data.length)
    (hs : s.m_seq + s.m_size ≤ s.m_data.length)
    (hw : s.m_size = qseq.m_size) (hhead : starts_aligned qseq s) :
    ∃ s1, seq.update oob qseq s = .ok s1 := by
  unfold seq.update
  rw [if_neg (by omega)]
  have hlen := chars_length hq
  obtain ⟨st, hst⟩ := update_loop_ok0 oob qseq.chars 0 (update_init s)
    (by show s.m_seq + 0 + qseq.chars.length ≤ s.m_data.length; rw [hlen]; omega)
    (by
      intro _ qc sc hqc hsc hg
      have hsc : s.m_data[s.m_seq + 0]? = some sc := hsc
      have hpos : 0 < s.m_size := by
        rw [hw, ← hlen]
        cases hch : qseq.chars with
        | nil => rw [hch] at hqc; cases hqc
        | cons a as => simp
      refine hhead qc sc hqc ?_ hg
      rw [List.head?_eq_getElem?, chars_getElem? s 0 hpos]
      exact hsc)
  rw [hst]
  simp only
  have hinit : span_inv 0 (update_init s).s := ⟨Or.inl rfl, Nat.le_refl 0⟩
  obtain ⟨⟨h1, h2⟩, h3⟩ := update_loop_span _ 0 _ _ hst hinit
  have h3 : st.s.m_size = s.m_size := h3
  obtain ⟨f1, f2, -, -⟩ := update_loop_frame _ 0 _ _ hst
  have f1 : st.s.m_seq = s.m_seq := f1
  have f2 : st.s.m_data.length = s.m_data.length := f2
  rw [Nat.zero_add, hlen] at h2
  unfold update_finish
  split
  · exact ⟨_, rfl⟩
  · rename_i hb
    have hlt : st.s.m_begin < st.s.m_end := by
      rcases h1 with h1 | h1
      · exact absurd h1 hb
      · exact h1
    rw [if_neg (by omega), if_neg (by omega), if_neg (by omega)]
    exact ⟨_, rfl⟩

theorem is_gap_dash (c : Nat) : is_gap (if is_gap c then 45 else c) = is_gap c := by
  by_cases h : is_gap c = true
  · rw [if_pos h, h]; rfl
  · rw [if_neg h]

theorem letters_dashed (text : Str) : letters (dashed text) = letters text := by
  unfold letters non_gap dashed
  induction text with
  | nil => rfl
  | cons c cs ih =>
    rw [List.map_cons]
    by_cases h : is_gap c = true
    · rw [List.filter_cons_of_neg (by rw [is_gap_dash, h]; simp),
        List.filter_cons_of_neg (by rw [h]; simp)]
      exact ih
    · rw [List.filter_cons_of_pos (by rw [is_gap_dash]; simpa using h),
        List.filter_cons_of_pos (by simpa using h), List.map_cons, List.map_cons, ih,
        if_neg h]

theorem fasta_body_header (id st : Str) (more : List Str) (acc : mseq) (s0 : seq)
    (h : seq.new id = .ok s0) (hid : 32 ∉ id) :
    fasta_body ((62 :: (id ++ 32 :: st)) :: more) acc = fasta_body more (acc ++ [s0]) := by
  have htw : ∀ (l : Str), 32 ∉ l → (l ++ 32 :: st).takeWhile (fun c => c != 32) = l := by
    intro l
    induction l with
    | nil => intro _; simp
    | cons a as ih =>
      intro hl
      rw [List.cons_append, List.takeWhile_cons_of_pos, ih]
      · exact fun hm => hl (List.mem_cons_of_mem _ hm)
      · have : a ≠ 32 := fun e => hl (by rw [e]; exact List.mem_cons_self _ _)
        simpa using this
  conv => lhs; unfold fasta_body
  rw [if_neg (by simp), if_pos (by simp)]
  simp only [List.drop_succ_cons, List.drop_zero]
  rw [htw id hid, h]

theorem fasta_body_text (line : Str) (more : List Str) (acc : mseq) (cur cur1 : seq)
    (hne : line ≠ []) (hhead : line.head? ≠ some 62) (h : cur.append line = .ok cur1) :
    fasta_body (line :: more) (acc ++ [cur]) = fasta_body more (acc ++ [cur1]) := by
  conv => lhs; unfold fasta_body
  rw [if_neg hne, if_neg hhead, List.getLast?_concat]
  simp only
  rw [h]
  simp only [List.dropLast_concat]

theorem fasta_body_empty (more : List Str) (acc : mseq) :
    fasta_body ([] :: more) acc = fasta_body more acc := by
  conv => lhs; unfold fasta_body
  rw [if_pos rfl]
theorem head_ne_of_forall {line : Str} (h : ∀ c ∈ line, c ≠ 62) : line.head? ≠ some 62 := by
  cases line with
  | nil => simp
  | cons a as =>
    intro he
    injection he with he
    exact h a (List.mem_cons_self _ _) he

/-- Reading back the lines that `WriteFastA` writes for the characters of one row. -/
theorem write_row_read (id : Str) : ∀ (cs : Str) (n : Nat) (line text : Str) (cur : seq)
    (acc : mseq) (more : List Str),
    holds id text cur → n = text.length + line.length → line.length = n % 72 →
    n + cs.length < 2 ^ 30 → (∀ c ∈ line, c ≠ 62) →
    (∀ c ∈ cs, (if is_gap c then 45 else c) ≠ 62) →
    ∃ cur1, holds id (text ++ line ++ dashed cs) cur1 ∧
      fasta_body (write_row cs n line ++ more) (acc ++ [cur]) =
        fasta_body more (acc ++ [cur1]) := by
  intro cs
  induction cs with
  | nil =>
    intro n line text cur acc more hh hn hl hlt hline _
    simp only [List.length_nil, Nat.add_zero] at hlt
    unfold write_row
    simp only [dashed, List.map_nil, List.append_nil, List.singleton_append]
    by_cases hempty : line = []
    · subst hempty
      exact ⟨cur, by simpa using hh, fasta_body_empty _ _⟩
    · obtain ⟨cur1, h1, h2⟩ := append_holds line hh
        (Or.inr (by have := Nat.mod_lt n (by decide : 72 > 0); omega)) (by omega)
      exact ⟨cur1, h2, fasta_body_text line more acc cur cur1 hempty
        (head_ne_of_forall hline) h1⟩
  | cons r rs ih =>
    intro n line text cur acc more hh hn hl hlt hline hcs
    simp only [List.length_cons] at hlt
    have hmod : (n + 1) % 2 ^ 32 = n + 1 := Nat.mod_eq_of_lt (by omega)
    have hrs : ∀ c ∈ rs, (if is_gap c then 45 else c) ≠ 62 :=
      fun c hc => hcs c (List.mem_cons_of_mem _ hc)
    have hr : (if is_gap r then 45 else r) ≠ 62 := hcs r (List.mem_cons_self _ _)
    have hline1 : ∀ c ∈ line ++ [if is_gap r then 45 else r], c ≠ 62 := by
      intro c hc
      rcases List.mem_append.1 hc with hc | hc
      · exact hline c hc
      · rw [List.mem_singleton.1 hc]; exact hr
    unfold write_row
    rw [hmod]
    by_cases h72 : (n + 1) % 72 = 0
    · rw [if_pos h72]
      have hlen1 : (line ++ [if is_gap r then 45 else r]).length ≤ 1024 := by
        rw [List.length_append, List.length_singleton]
        have := Nat.mod_lt n (by decide : 72 > 0)
        omega
      obtain ⟨cur1, h1, h2⟩ := append_holds (line ++ [if is_gap r then 45 else r]) hh
        (Or.inr hlen1) (by rw [List.length_append, List.length_singleton]; omega)
      obtain ⟨cur2, h3, h4⟩ := ih (n + 1) [] (text ++ (line ++ [if is_gap r then 45 else r]))
        cur1 acc more h2
        (by simp only [List.length_append, List.length_singleton, List.length_nil]; omega)
        (by simp only [List.length_nil]; omega) (by omega) (by simp) hrs
      refine ⟨cur2, ?_, ?_⟩
      · have : text ++ line ++ dashed (r :: rs) =
            text ++ (line ++ [if is_gap r then 45 else r]) ++ [] ++ dashed rs := by
          simp [dashed]
        rw [this]; exact h3
      · rw [List.cons_append, fasta_body_text _ _ acc cur cur1 (by simp)
          (head_ne_of_forall hline1) h1]
        exact h4
    · rw [if_neg h72]
      obtain ⟨cur2, h3, h4⟩ := ih (n + 1) (line ++ [if is_gap r then 45 else r]) text
        cur acc more hh
        (by simp only [List.length_append, List.length_singleton]; omega)
        (by simp only [List.length_append, List.length_singleton]; omega) (by omega)
        hline1 hrs
      refine ⟨cur2, ?_, h4⟩
      have : text ++ line ++ dashed (r :: rs) =
          text ++ (line ++ [if is_gap r then 45 else r]) ++ dashed rs := by
        simp [dashed]
      rw [this]; exact h3

theorem WriteFastA_ok (stats : seq → Str) : ∀ (rows : mseq),
    (∀ r ∈ rows, r.m_seq + r.m_size ≤ r.m_data.length) →
    ∃ lines, WriteFastA stats rows = .ok lines := by
  intro rows
  induction rows with
  | nil => intro _; exact ⟨[], rfl⟩
  | cons s rest ih =>
    intro h
    obtain ⟨lines, hl⟩ := ih (fun r hr => h r (List.mem_cons_of_mem _ hr))
    unfold WriteFastA
    rw [if_neg (by have := h s (List.mem_cons_self _ _); omega), hl]
    exact ⟨_, rfl⟩

/-- Reading back the lines that `WriteFastA` writes: one row for every row written, with
the same id and the characters as they were written. -/
theorem write_read_rows (stats : seq → Str) : ∀ (rows : mseq) (lines : List Str) (acc : mseq),
    WriteFastA stats rows = .ok lines →
    (∀ r ∈ rows, accepted r ∧ 32 ∉ r.m_id ∧ r.chars.length < 2 ^ 30 ∧
      ∀ c ∈ r.chars, (if is_gap c then 45 else c) ≠ 62) →
    ∃ rows1, fasta_body lines acc = .ok (acc ++ rows1) ∧
      List.Forall₂ (fun r r1 => holds r.m_id (dashed r.chars) r1) rows rows1 := by
  intro rows
  induction rows with
  | nil =>
    intro lines acc h _
    injection h with h; subst h
    exact ⟨[], by simp [fasta_body], List.Forall₂.nil⟩
  | cons s rest ih =>
    intro lines acc h hall
    unfold WriteFastA at h
    split at h
    · cases h
    · split at h
      · cases h
      · rename_i lines1 hl1
        injection h with h; subst h
        obtain ⟨⟨s0, hs0⟩, hid, hlen, hch⟩ := hall s (List.mem_cons_self _ _)
        obtain ⟨hh0, -⟩ := seq_new_holds hs0
        obtain ⟨cur1, h1, h2⟩ := write_row_read s.m_id s.chars 0 [] [] s0 acc lines1 hh0
          rfl rfl (by omega) (by simp) hch
        obtain ⟨rows1, h3, h4⟩ := ih lines1 (acc ++ [cur1]) hl1
          (fun r hr => hall r (List.mem_cons_of_mem _ hr))
        refine ⟨cur1 :: rows1, ?_, List.Forall₂.cons (by simpa using h1) h4⟩
        rw [fasta_body_header s.m_id (stats s) _ acc s0 hs0 hid, h2, h3]
        simp
theorem holds_chars {id text : Str} {s : seq} (h : holds id text s) :
    s.chars = text ∧ s.m_size = text.length ∧ s.m_seq + s.m_size ≤ s.m_data.length := by
  obtain ⟨hp, -, -, hd⟩ := h
  refine ⟨by rw [parsed_row_chars hp, hd], by rw [← hp.2.1, hd], ?_⟩
  rw [hp.1, hp.2.1]; omega

theorem holds_length {id text : Str} {s : seq} (h : holds id text s)
    (hlt : text.length < 2 ^ 32) : s.length = text.length := by
  obtain ⟨-, hsz, -⟩ := holds_chars h
  obtain ⟨⟨-, -, hb, he, -⟩, -, -, -⟩ := h
  unfold seq.length
  rw [hb, he, hsz]
  simp
  exact hlt

theorem dashed_length (text : Str) : (dashed text).length = text.length := by
  unfold dashed; rw [List.length_map]

theorem dashed_head (text : Str) (c : Nat) (h : (dashed text).head? = some c) :
    ∃ c0, text.head? = some c0 ∧ is_gap c = is_gap c0 := by
  cases text with
  | nil => cases h
  | cons a as =>
    unfold dashed at h
    rw [List.map_cons] at h
    injection h with h
    exact ⟨a, rfl, by rw [← h, is_gap_dash]⟩

theorem crop_none (msa : mseq) (qr : Str) : crop msa qr [] = .ok msa := by
  unfold crop
  rw [if_neg (by simp)]

/-- The loop over the homologs of the reader that reads back what `WriteFastA` wrote. -/
theorem update_rows_written (oob : Nat → Nat → Int) (f f1 : seq) (w : Nat)
    (hf : holds f.m_id (dashed f.chars) f1) (hfw : f.chars.length = w) (hlt : w < 2 ^ 30) :
    ∀ (rows0 rows : mseq),
      List.Forall₂ (fun r r1 => holds r.m_id (dashed r.chars) r1) rows0 rows →
      (∀ h ∈ rows0, starts_aligned f h ∧ h.chars.length = w) →
      ∃ rows2, update_rows oob f1 rows = .ok rows2 ∧
        List.Forall₂ (fun r r2 => r2.m_id = r.m_id ∧ letters r2.chars = letters r.chars)
          rows0 rows2 := by
  obtain ⟨fc, fs, fst⟩ := holds_chars hf
  rw [dashed_length, hfw] at fs
  intro rows0 rows h
  induction h with
  | nil => intro _; exact ⟨[], rfl, List.Forall₂.nil⟩
  | @cons h h1 rest0 rest1 hab _ ih =>
    intro hall
    obtain ⟨hal, hhw⟩ := hall h (List.mem_cons_self _ _)
    obtain ⟨rows2, hr2, hf2⟩ := ih (fun x hx => hall x (List.mem_cons_of_mem _ hx))
    obtain ⟨hc, hs, hst⟩ := holds_chars hab
    rw [dashed_length, hhw] at hs
    have hsa : starts_aligned f1 h1 := by
      intro qc sc hqc hsc hg
      rw [fc] at hqc
      rw [hc] at hsc
      obtain ⟨qc0, hq0, hq1⟩ := dashed_head _ _ hqc
      obtain ⟨sc0, hs0, hs1⟩ := dashed_head _ _ hsc
      rw [hs1]
      exact hal qc0 sc0 hq0 hs0 (by rw [← hq1]; exact hg)
    obtain ⟨h2, hup⟩ := update_ok0 oob f1 h1 fst hst (by rw [hs, fs]) hsa
    have hlet := update_letters hup hst (by rw [hs, fs])
      (by rw [hs]; unfold UINT32_MAX; omega)
    refine ⟨h2 :: rows2, ?_, List.Forall₂.cons ⟨?_, ?_⟩ hf2⟩
    · unfold update_rows
      rw [hup, hr2]
    · rw [(update_keeps hup).1]; exact hab.2.2.1
    · rw [letters_of_same_letter _ _ hlet, hc, letters_dashed]

/-- Writing rows such as a reader returns with `WriteFastA` and reading the text with
`ReadFastA`. -/
theorem write_read_fasta (oob : Nat → Nat → Int) (stats : seq → Str) (msa : mseq) (w : Nat)
    (hrows : read_rows msa) (hw : ∀ r ∈ msa, r.m_size = w) (hlt : w < 2 ^ 30)
    (hid : ∀ r ∈ msa, 32 ∉ r.m_id)
    (hch : ∀ r ∈ msa, ∀ c ∈ r.chars, is_gap c = true ∨ 0 ≤ kResidueIX c) :
    ∃ text msa1, WriteFastA stats msa = .ok text ∧ ReadFastA oob text [] = .ok msa1 ∧
      List.Forall₂ (fun r r1 => r1.m_id = r.m_id ∧ letters r1.chars = letters r.chars)
        msa msa1 := by
  obtain ⟨f, rest, hm, hne, hall, hal⟩ := hrows
  subst hm
  have hclen : ∀ r ∈ f :: rest, r.chars.length = w :=
    fun r hr => by rw [chars_length (hall r hr).2]; exact hw r hr
  obtain ⟨text, htext⟩ := WriteFastA_ok stats (f :: rest) (fun r hr => (hall r hr).2)
  obtain ⟨rows1, hbody, hf2⟩ := write_read_rows stats (f :: rest) text [] htext (by
    intro r hr
    refine ⟨(hall r hr).1, hid r hr, by rw [hclen r hr]; exact hlt, ?_⟩
    intro c hc
    rcases hch r hr c hc with hg | hg
    · rw [if_pos hg]; decide
    · by_cases hg1 : is_gap c = true
      · rw [if_pos hg1]; decide
      · rw [if_neg hg1]
        intro h62
        rw [h62] at hg
        exact absurd hg (by decide))
  rw [List.nil_append] at hbody
  obtain ⟨f1, rest1, hf1, hrest1, hrows1⟩ := List.forall₂_cons_left_iff.1 hf2
  subst hrows1
  have hlen1 : ∀ r1 ∈ f1 :: rest1, r1.length = w := by
    intro r1 hr1
    obtain ⟨r, hr, hh⟩ := forall2_mem_right hf2 r1 hr1
    rw [holds_length hh (by rw [dashed_length, hclen r hr]; omega), dashed_length, hclen r hr]
  have hparse : fasta_parse text = .ok (f1 :: rest1) := by
    unfold fasta_parse
    rw [hbody]
    simp only
    cases hr1 : rest1 with
    | nil =>
      rw [hr1] at hrest1
      cases hrest1
      exact absurd rfl hne
    | cons r1 rest2 =>
      simp only
      rw [if_neg]
      intro hany
      rw [List.any_eq_true] at hany
      obtain ⟨x, hx, hxl⟩ := hany
      rw [hlen1 x (by rw [hr1]; exact List.mem_cons_of_mem _ hx),
        hlen1 f1 (List.mem_cons_self _ _)] at hxl
      simp at hxl
  obtain ⟨rows2, hup, hfin⟩ := update_rows_written oob f f1 w hf1
    (hclen f (List.mem_cons_self _ _)) hlt rest rest1 hrest1
    (fun h hh => ⟨hal h hh, hclen h (List.mem_cons_of_mem _ hh)⟩)
  refine ⟨text, f1 :: rows2, htext, ?_, List.Forall₂.cons ⟨hf1.2.2.1, ?_⟩ hfin⟩
  · unfold ReadFastA
    rw [hparse]
    simp only
    rw [crop_none]
    simp only
    unfold update_homologs
    simp only
    rw [hup]
  · rw [(holds_chars hf1).1, letters_dashed]
/-- C11: when a reader has returned an alignment whose rows all have the same width
(below `2^30` columns), whose ids hold no space and whose rows are made of residue
letters and gap glyphs, then `WriteFastA` writes it and `ReadFastA` (with an empty query
substring) reads the text without error, and returns the same number of rows (at least
two), each with the id of the row written and with the same residue letters up to case. -/
theorem WriteFastA_round_trip (oob : Nat → Nat → Int) (stats : seq → Str) (is : List Str)
    (q : Str) (msa : mseq) (w : Nat)
    (hread : ReadStockholm oob is q = .ok msa ∨ ReadFastA oob is q = .ok msa)
    (hw : ∀ r ∈ msa, r.m_size = w) (hlt : w < 2 ^ 30)
    (hid : ∀ r ∈ msa, 32 ∉ r.m_id)
    (hch : ∀ r ∈ msa, ∀ c ∈ r.chars, is_gap c = true ∨ 0 ≤ kResidueIX c) :
    2 ≤ msa.length ∧
      ∃ text msa1, WriteFastA stats msa = .ok text ∧ ReadFastA oob text [] = .ok msa1 ∧
        msa1.length = msa.length ∧
        List.Forall₂ (fun r r1 => r1.m_id = r.m_id ∧ letters r1.chars = letters r.chars)
          msa msa1 := by
  have hrows : read_rows msa := by
    rcases hread with h | h
    · exact ReadStockholm_read_rows h w hw (by unfold UINT32_MAX; omega)
    · exact ReadFastA_read_rows h w hw (by unfold UINT32_MAX; omega)
  have h2 : 2 ≤ msa.length := by
    obtain ⟨f, rest, hm, hne, -, -⟩ := hrows
    rw [hm]
    cases rest with
    | nil => exact absurd rfl hne
    | cons a l => simp
  obtain ⟨text, msa1, h1, h3, h4⟩ := write_read_fasta oob stats msa w hrows hw hlt hid hch
  exact ⟨h2, text, msa1, h1, h3, h4.length_eq.symm, h4⟩

theorem WriteFastA_round_trip_witness :
    (WriteFastA (fun _ => str "0.6|3") sample_rows = .ok [str ">test 0.6|3", str "AC-DE",
        str ">B 0.6|3", str "AcCdE"] ∧
      (ReadFastA oob_zero [str ">test 0.6|3", str "AC-DE", str ">B 0.6|3", str "AcCdE"]
          []).map (fun msa1 => msa1.map (fun r => (r.m_id, r.chars))) =
        .ok [(str "test", str "AC-DE"), (str "B", str "AcCdE")]) ∧
    2 ≤ sample_rows.length ∧
      ∃ text msa1, WriteFastA (fun _ => str "0.6|3") sample_rows = .ok text ∧
        ReadFastA oob_zero text [] = .ok msa1 ∧ msa1.length = sample_rows.length ∧
        List.Forall₂ (fun r r1 => r1.m_id = r.m_id ∧ letters r1.chars = letters r.chars)
          sample_rows msa1 :=
  ⟨⟨rfl, rfl⟩,
    WriteFastA_round_trip oob_zero (fun _ => str "0.6|3") sample_lines (str "ACDE")
      sample_rows 5 (Or.inl rfl) (by decide) (by decide) (by decide) (by decide)⟩

/-! ## C25: `cut` and the alignment span -/

theorem residue_columns_blocks (s : seq) (chain : Nat) : ∀ (is : List Nat)
    (st st1 : residue_state), residue_columns s chain is st = .ok st1 →
    ∃ consumed blocks, st.todo = consumed ++ st1.todo ∧
      residue_blocks chain st.prev consumed blocks ∧ st1.res = st.res ++ blocks.flatten ∧
      consumed.length = (is.filter (fun i => match s.char_at i with
        | .ok c => !is_gap c
        | .error _ => false)).length := by
  intro is
  induction is with
  | nil =>
    intro st st1 h
    injection h with h
    subst h
    exact ⟨[], [], rfl, trivial, by simp, rfl⟩
  | cons i is ih =>
    intro st st1 h
    unfold residue_columns at h
    cases hcol : residue_column s chain i st with
    | error e => rw [hcol] at h; cases h
    | ok st2 =>
      rw [hcol] at h
      simp only at h
      obtain ⟨consumed, blocks, e1, e2, e3, e4⟩ := ih st2 st1 h
      unfold residue_column at hcol
      cases hc : s.char_at i with
      | error e => rw [hc] at hcol; cases hcol
      | ok c =>
        rw [hc] at hcol
        simp only at hcol
        split at hcol
        · injection hcol with hcol
          subst hcol
          rename_i hg
          refine ⟨consumed, blocks, e1, e2, e3, ?_⟩
          rw [e4, List.filter_cons, hc]
          simp [hg]
        · rename_i hg
          have hcount : (r0 : MResidue) → (r0 :: consumed).length =
              ((i :: is).filter (fun i => match s.char_at i with
                | .ok c => !is_gap c
                | .error _ => false)).length := by
            intro r0
            rw [List.filter_cons, hc]
            simp [hg, e4]
          cases htodo : st.todo with
          | nil => rw [htodo] at hcol; cases hcol
          | cons r rs =>
            rw [htodo] at hcol
            simp only at hcol
            injection hcol with hcol
            subst hcol
            simp only at e1 e2 e3
            cases hprev : st.prev with
            | none =>
              rw [hprev] at e3
              simp only at e3
              refine ⟨r :: consumed, [ResidueHInfo.new c i chain ((st.res.length + 1) % 2 ^ 32)
                r.number r.dssp] :: blocks, by rw [e1]; rfl,
                ⟨⟨c, i, _, Or.inl ⟨?_, rfl⟩⟩, e2⟩, ?_, hcount r⟩
              · rintro ⟨p, hp, -⟩
                cases hp
              · rw [e3]
                simp
            | some p =>
              rw [hprev] at e3
              simp only at e3
              by_cases hgt : r.number > p.number + 1
              · rw [if_pos hgt] at e3
                refine ⟨r :: consumed, [ResidueHInfo.chain_break ((st.res.length + 1) % 2 ^ 32),
                  ResidueHInfo.new c i chain
                    (((st.res ++ [ResidueHInfo.chain_break
                      ((st.res.length + 1) % 2 ^ 32)]).length + 1) % 2 ^ 32)
                    r.number r.dssp] :: blocks, by rw [e1]; rfl,
                  ⟨⟨c, i, _, Or.inr ⟨⟨p, rfl, hgt⟩, _, rfl⟩⟩, e2⟩, ?_, hcount r⟩
                rw [e3]
                simp
              · rw [if_neg hgt] at e3
                refine ⟨r :: consumed, [ResidueHInfo.new c i chain ((st.res.length + 1) % 2 ^ 32)
                  r.number r.dssp] :: blocks,
                  by rw [e1]; rfl, ⟨⟨c, i, _, Or.inl ⟨?_, rfl⟩⟩, e2⟩, ?_, hcount r⟩
                · rintro ⟨p1, hp1, h1⟩
                  injection hp1 with hp1
                  subst hp1
                  exact hgt h1
                · rw [e3]
                  simp

theorem residue_columns_ok (s : seq) (chain : Nat) : ∀ (is : List Nat) (st : residue_state),
    (∀ i ∈ is, ∃ c, s.char_at i = .ok c) →
    (is.filter (fun i => match s.char_at i with
        | .ok c => !is_gap c
        | .error _ => false)).length ≤ st.todo.length →
    ∃ st1, residue_columns s chain is st = .ok st1 := by
  intro is
  induction is with
  | nil => intro st _ _; exact ⟨st, rfl⟩
  | cons i is ih =>
    intro st hrow hlen
    obtain ⟨c, hc⟩ := hrow i (List.mem_cons_self _ _)
    have hrow1 : ∀ j ∈ is, ∃ c, s.char_at j = .ok c :=
      fun j hj => hrow j (List.mem_cons_of_mem _ hj)
    rw [List.filter_cons, hc] at hlen
    unfold residue_columns residue_column
    rw [hc]
    simp only
    by_cases hg : is_gap c = true
    · rw [if_pos hg]
      simp only
      simp only [hg, Bool.not_true, Bool.false_eq_true, if_false] at hlen
      exact ih st hrow1 hlen
    · rw [if_neg hg]
      simp only [hg, Bool.not_false, if_true, List.length_cons] at hlen
      cases htodo : st.todo with
      | nil => rw [htodo] at hlen; simp at hlen
      | cons r rs =>
        rw [htodo] at hlen
        simp only [List.length_cons] at hlen
        simp only
        exact ih _ hrow1 (by show _ ≤ rs.length; omega)

theorem residue_block_iff {chain : Nat} {r : MResidue} {m1 m2 : Prop}
    {b : List ResidueHInfo} (h : m1 ↔ m2) (hb : residue_block chain r m1 b) :
    residue_block chain r m2 b := by
  obtain ⟨c, i, n, hb | hb⟩ := hb
  · exact ⟨c, i, n, Or.inl ⟨fun h2 => hb.1 (h.2 h2), hb.2⟩⟩
  · exact ⟨c, i, n, Or.inr ⟨h.1 hb.1, hb.2⟩⟩

theorem residue_blocks_length (chain : Nat) : ∀ (rs : List MResidue) (prev : Option MResidue)
    (bs : List (List ResidueHInfo)), residue_blocks chain prev rs bs →
    bs.length = rs.length := by
  intro rs
  induction rs with
  | nil =>
    intro prev bs h
    cases bs with
    | nil => rfl
    | cons b bs => exact absurd h (by simp [residue_blocks])
  | cons r rs ih =>
    intro prev bs h
    cases bs with
    | nil => exact absurd h (by simp [residue_blocks])
    | cons b bs =>
      simp only [residue_blocks] at h
      simp only [List.length_cons, ih _ _ h.2]

theorem residue_blocks_pairs (chain : Nat) : ∀ (rs : List MResidue) (prev : Option MResidue)
    (bs : List (List ResidueHInfo)), residue_blocks chain prev rs bs →
    ∀ (k : Nat) (p r : MResidue), rs[k]? = some p → rs[k + 1]? = some r →
      ∃ b, bs[k + 1]? = some b ∧ residue_block chain r (r.number > p.number + 1) b := by
  intro rs
  induction rs with
  | nil => intro prev bs _ k p r hp; simp at hp
  | cons r0 rs ih =>
    intro prev bs h k p r hp hr
    cases bs with
    | nil => exact absurd h (by simp [residue_blocks])
    | cons b0 bs =>
      simp only [residue_blocks] at h
      cases k with
      | succ k =>
        simp only [List.getElem?_cons_succ] at hp hr ⊢
        exact ih _ _ h.2 k p r hp hr
      | zero =>
        simp only [List.getElem?_cons_zero, Nat.zero_add, List.getElem?_cons_succ] at hp hr ⊢
        injection hp with hp
        subst hp
        cases rs with
        | nil => simp at hr
        | cons r1 rs =>
          simp only [List.getElem?_cons_zero] at hr
          injection hr with hr
          subst hr
          cases bs with
          | nil => exact absurd h.2 (by simp [residue_blocks])
          | cons b1 bs =>
            have h2 := h.2
            simp only [residue_blocks] at h2
            refine ⟨b1, by simp, residue_block_iff ?_ h2.1⟩
            constructor
            · rintro ⟨p1, hp1, h1⟩
              injection hp1 with hp1
              subst hp1
              exact h1
            · intro h1
              exact ⟨_, rfl, h1⟩

theorem residue_blocks_count (chain : Nat) : ∀ (rs : List MResidue) (prev : Option MResidue)
    (bs : List (List ResidueHInfo)), residue_blocks chain prev rs bs →
    List.Chain' (· < ·) ((prev.toList ++ rs).map MResidue.number) →
    (bs.filter (fun b => b.length == 2)).length =
      numbering_gaps ((prev.toList ++ rs).map MResidue.number) := by
  intro rs
  induction rs with
  | nil =>
    intro prev bs h _
    cases bs with
    | nil => cases prev <;> rfl
    | cons b bs => exact absurd h (by simp [residue_blocks])
  | cons r rs ih =>
    intro prev bs h hinc
    cases bs with
    | nil => exact absurd h (by simp [residue_blocks])
    | cons b bs =>
      simp only [residue_blocks] at h
      obtain ⟨hb, hrest⟩ := h
      cases prev with
      | none =>
        have ih1 := ih (some r) bs hrest hinc
        simp only [Option.toList, List.nil_append, List.singleton_append] at ih1 ⊢
        obtain ⟨c, i, n, hb | hb⟩ := hb
        · rw [List.filter_cons, hb.2]
          simpa using ih1
        · obtain ⟨⟨p, hp, -⟩, -⟩ := hb
          cases hp
      | some p =>
        simp only [Option.toList, List.singleton_append, List.map_cons] at hinc ⊢
        have hlt : p.number < r.number := (List.chain'_cons.1 hinc).1
        have ih1 := ih (some r) bs hrest (List.chain'_cons.1 hinc).2
        simp only [Option.toList, List.singleton_append, List.map_cons] at ih1
        unfold numbering_gaps
        obtain ⟨c, i, n, hb | hb⟩ := hb
        · have hn : ¬ r.number > p.number + 1 := fun h1 => hb.1 ⟨p, rfl, h1⟩
          have hc : ¬ 1 < (r.number - p.number).natAbs := by omega
          rw [if_neg hc, hb.2, ← ih1]
          simp [List.filter_cons]
        · obtain ⟨⟨p1, hp1, h1⟩, m, hm⟩ := hb
          injection hp1 with hp1
          subst hp1
          have hc : 1 < (r.number - p.number).natAbs := by omega
          rw [if_pos hc, hm, ← ih1]
          simp [List.filter_cons]
          omega

theorem char_at_ok (s : seq) (i : Nat) (hi : i < s.m_size)
    (hs : s.m_seq + s.m_size ≤ s.m_data.length) : ∃ c, s.char_at i = .ok c := by
  unfold seq.char_at
  rw [if_neg (by omega), List.getElem?_eq_getElem (by omega)]
  exact ⟨_, rfl⟩

/-- When the query row has as many residue columns as the chain has residues,
`ChainToHits` returns, and what it adds to `res` is one block of entries for every
residue of the chain. -/
theorem ChainToHits_blocks (has_document : Str → Bool) (s : seq) (rest : mseq)
    (chain : MChain) (hits : List Hit) (res : List ResidueHInfo)
    (hspan : s.length ≤ s.m_size) (hstore : s.m_seq + s.m_size ≤ s.m_data.length)
    (hlen : (query_columns s).length = chain.residues.length) :
    ∃ (hits1 : List Hit) (blocks : List (List ResidueHInfo)),
      ChainToHits has_document (s :: rest) chain hits res = .ok (hits1, res ++ blocks.flatten) ∧
      residue_blocks chain.id none chain.residues blocks := by
  have hrow : ∀ i ∈ List.range s.length, ∃ c, s.char_at i = .ok c := by
    intro i hi
    exact char_at_ok s i (by have := List.mem_range.1 hi; omega) hstore
  obtain ⟨st1, h1⟩ := residue_columns_ok s chain.id (List.range s.length)
    { prev := none, todo := chain.residues, res := res } hrow (by
      show (query_columns s).length ≤ chain.residues.length
      omega)
  obtain ⟨consumed, blocks, e1, e2, e3, e4⟩ := residue_columns_blocks s chain.id _ _ _ h1
  have e1 : chain.residues = consumed ++ st1.todo := e1
  have e4 : consumed.length = (query_columns s).length := e4
  have htodo : st1.todo = [] := by
    have := congrArg List.length e1
    rw [List.length_append] at this
    exact List.length_eq_zero.1 (by omega)
  rw [htodo, List.append_nil] at e1
  refine ⟨hits ++ create_hits has_document s chain.id (res.length % 2 ^ 32) rest, blocks,
    ?_, by rw [e1]; exact e2⟩
  unfold ChainToHits
  simp only
  rw [h1]
  simp only
  rw [if_neg (by rw [htodo]; simp)]
  rw [e3]

/-- C21, as stated, fails: a marker is inserted only when the second number is greater
than the first plus one. For the query `ACD` and a chain whose residues are numbered 1,
5 and 3, `ChainToHits` puts a marker between the entries of the residues 1 and 5 and
none between those of the residues 5 and 3, although 3 is not 5 + 1. -/
theorem ChainToHits_marker_counterexample :
    (ChainToHits (fun _ => true) sample_gap_rows sample_chain_down [] []).map
        (fun p => p.2.map (fun r => (r.letter, r.seqNr, r.pdbNr))) =
      .ok [(65, 1, 1), (0, 2, 0), (67, 3, 5), (68, 4, 3)] := by
  decide!

/-- C21, amended: when the query row has as many residue columns as the chain has
residues, `ChainToHits` returns and adds to `res` one block of entries for every residue,
in order: the entry of the residue, and in front of it (directly behind the entry of the
residue before) a chain-break marker exactly when the number of the residue is greater
than the number of the residue before plus one. The first residue gets no marker. -/
theorem ChainToHits_markers (has_document : Str → Bool) (s : seq) (rest : mseq)
    (chain : MChain) (hits : List Hit) (res : List ResidueHInfo)
    (hspan : s.length ≤ s.m_size) (hstore : s.m_seq + s.m_size ≤ s.m_data.length)
    (hlen : (query_columns s).length = chain.residues.length) :
    ∃ (hits1 : List Hit) (blocks : List (List ResidueHInfo)),
      ChainToHits has_document (s :: rest) chain hits res = .ok (hits1, res ++ blocks.flatten) ∧
      blocks.length = chain.residues.length ∧
      (∀ r, chain.residues[0]? = some r →
        ∃ b, blocks[0]? = some b ∧ residue_block chain.id r False b) ∧
      ∀ (k : Nat) (p r : MResidue), chain.residues[k]? = some p →
        chain.residues[k + 1]? = some r →
        ∃ b, blocks[k + 1]? = some b ∧ residue_block chain.id r (r.number > p.number + 1) b := by
  obtain ⟨hits1, blocks, h1, h2⟩ :=
    ChainToHits_blocks has_document s rest chain hits res hspan hstore hlen
  refine ⟨hits1, blocks, h1, residue_blocks_length _ _ _ _ h2, ?_,
    residue_blocks_pairs _ _ _ _ h2⟩
  intro r hr
  cases hres : chain.residues with
  | nil => rw [hres] at hr; simp at hr
  | cons r0 rs =>
    rw [hres] at hr h2
    simp only [List.getElem?_cons_zero] at hr
    injection hr with hr
    subst hr
    cases blocks with
    | nil => exact absurd h2 (by simp [residue_blocks])
    | cons b bs =>
      simp only [residue_blocks] at h2
      refine ⟨b, by simp, residue_block_iff ?_ h2.1⟩
      constructor
      · rintro ⟨p, hp, -⟩
        cases hp
      · intro h
        exact absurd h not_false

theorem ChainToHits_markers_witness :
    ∃ (hits1 : List Hit) (blocks : List (List ResidueHInfo)),
      ChainToHits (fun _ => true) (sample_gap_query :: sample_gap_rows.tail) sample_chain_down
        [] [] = .ok (hits1, [] ++ blocks.flatten) ∧
      blocks.length = sample_chain_down.residues.length ∧
      (∀ r, sample_chain_down.residues[0]? = some r →
        ∃ b, blocks[0]? = some b ∧ residue_block sample_chain_down.id r False b) ∧
      ∀ (k : Nat) (p r : MResidue), sample_chain_down.residues[k]? = some p →
        sample_chain_down.residues[k + 1]? = some r →
        ∃ b, blocks[k + 1]? = some b ∧
          residue_block sample_chain_down.id r (r.number > p.number + 1) b :=
  ChainToHits_markers (fun _ => true) sample_gap_query sample_gap_rows.tail
    sample_chain_down [] [] (by decide!) (by decide!) (by decide!)

theorem residue_blocks_forall2 (chain : Nat) : ∀ (rs : List MResidue)
    (prev : Option MResidue) (bs : List (List ResidueHInfo)),
    residue_blocks chain prev rs bs →
    List.Forall₂ (fun r b => ∃ marked, residue_block chain r marked b) rs bs ∧
      bs.flatten.length = rs.length + (bs.filter (fun b => b.length == 2)).length := by
  intro rs
  induction rs with
  | nil =>
    intro prev bs h
    cases bs with
    | nil => exact ⟨List.Forall₂.nil, rfl⟩
    | cons b bs => exact absurd h (by simp [residue_blocks])
  | cons r rs ih =>
    intro prev bs h
    cases bs with
    | nil => exact absurd h (by simp [residue_blocks])
    | cons b bs =>
      simp only [residue_blocks] at h
      obtain ⟨f, hl⟩ := ih _ _ h.2
      refine ⟨List.Forall₂.cons ⟨_, h.1⟩ f, ?_⟩
      rw [List.flatten_cons, List.length_append, hl, List.filter_cons]
      obtain ⟨c, i, n, hb | hb⟩ := h.1
      · rw [hb.2]
        simp
        omega
      · obtain ⟨-, m, hm⟩ := hb
        rw [hm]
        simp
        omega

/-- C22: for a chain whose residue numbers are increasing and a query row with as many
residue columns as the chain has residues, `ChainToHits` returns and adds to `res` one
block of entries for every residue, which is the entry of the residue alone or a
chain-break marker and the entry; the number of blocks with a marker is the number of
pairs of consecutive residues whose numbers differ by more than one: every gap in the
numbering gives one marker, whatever its size. -/
theorem ChainToHits_marker_count (has_document : Str → Bool) (s : seq) (rest : mseq)
    (chain : MChain) (hits : List Hit) (res : List ResidueHInfo)
    (hspan : s.length ≤ s.m_size) (hstore : s.m_seq + s.m_size ≤ s.m_data.length)
    (hlen : (query_columns s).length = chain.residues.length)
    (hinc : List.Chain' (· < ·) (chain.residues.map MResidue.number)) :
    ∃ (hits1 : List Hit) (blocks : List (List ResidueHInfo)),
      ChainToHits has_document (s :: rest) chain hits res = .ok (hits1, res ++ blocks.flatten) ∧
      List.Forall₂ (fun r b => ∃ marked, residue_block chain.id r marked b)
        chain.residues blocks ∧
      (blocks.filter (fun b => b.length == 2)).length =
        numbering_gaps (chain.residues.map MResidue.number) ∧
      (blocks.flatten).length =
        chain.residues.length + numbering_gaps (chain.residues.map MResidue.number) := by
  obtain ⟨hits1, blocks, h1, h2⟩ :=
    ChainToHits_blocks has_document s rest chain hits res hspan hstore hlen
  obtain ⟨f, hl⟩ := residue_blocks_forall2 _ _ _ _ h2
  have hc := residue_blocks_count _ _ _ _ h2 hinc
  simp only [Option.toList, List.nil_append] at hc
  exact ⟨hits1, blocks, h1, f, hc, by rw [hl, hc]⟩

theorem ChainToHits_marker_count_witness :
    (ChainToHits (fun _ => true) sample_gap_rows sample_chain_gap [] []).map
        (fun p => p.2.map (fun r => (r.letter, r.seqNr, r.pdbNr))) =
      .ok [(65, 1, 4), (67, 2, 5), (0, 3, 0), (68, 4, 8)] ∧
    numbering_gaps (sample_chain_gap.residues.map MResidue.number) = 1 ∧
    ∃ (hits1 : List Hit) (blocks : List (List ResidueHInfo)),
      ChainToHits (fun _ => true) (sample_gap_query :: sample_gap_rows.tail) sample_chain_gap
        [] [] = .ok (hits1, [] ++ blocks.flatten) ∧
      List.Forall₂ (fun r b => ∃ marked, residue_block sample_chain_gap.id r marked b)
        sample_chain_gap.residues blocks ∧
      (blocks.filter (fun b => b.length == 2)).length =
        numbering_gaps (sample_chain_gap.residues.map MResidue.number) ∧
      (blocks.flatten).length = sample_chain_gap.residues.length +
        numbering_gaps (sample_chain_gap.residues.map MResidue.number) :=
  ⟨by decide!, by decide,
    ChainToHits_marker_count (fun _ => true) sample_gap_query sample_gap_rows.tail
      sample_chain_gap [] [] (by decide!) (by decide!) (by decide!)
      (by simp [sample_chain_gap])⟩

/-! ## C23: the clustering of the chain sequences -/

theorem cluster_scan_spec (a : Str) : ∀ (rest : List Str) (j0 j : Nat) (c : Bool),
    cluster_scan a j0 rest = some (j, c) →
    a ≠ [] ∧ j0 ≤ j ∧ ∃ b, rest[j - j0]? = some b ∧ b ≠ [] := by
  intro rest
  induction rest with
  | nil => intro j0 j c h; cases h
  | cons b rest ih =>
    intro j0 j c h
    unfold cluster_scan at h
    have hnext : cluster_scan a (j0 + 1) rest = some (j, c) →
        a ≠ [] ∧ j0 ≤ j ∧ ∃ b1, (b :: rest)[j - j0]? = some b1 ∧ b1 ≠ [] := by
      intro h1
      obtain ⟨h2, h3, b1, h4, h5⟩ := ih _ _ _ h1
      refine ⟨h2, by omega, b1, ?_, h5⟩
      have : j - j0 = (j - (j0 + 1)) + 1 := by omega
      rw [this, List.getElem?_cons_succ]
      exact h4
    split at h
    · exact hnext h
    · rename_i hne
      have hne : a ≠ [] ∧ b ≠ [] := by
        constructor
        · exact fun e => hne (Or.inl e)
        · exact fun e => hne (Or.inr e)
      split at h
      · injection h with h
        injection h with h1 h2
        subst h1
        exact ⟨hne.1, Nat.le_refl _, b, by simp, hne.2⟩
      · split at h
        · injection h with h
          injection h with h1 h2
          subst h1
          exact ⟨hne.1, Nat.le_refl _, b, by simp, hne.2⟩
        · exact hnext h

theorem cluster_pass_spec : ∀ (l : List Str) (i0 i j : Nat) (c : Bool),
    cluster_pass i0 l = some (i, j, c) →
    i0 ≤ i ∧ i < j ∧ (∃ a, l[i - i0]? = some a ∧ a ≠ []) ∧
      ∃ b, l[j - i0]? = some b ∧ b ≠ [] := by
  intro l
  induction l with
  | nil => intro i0 i j c h; cases h
  | cons a rest ih =>
    intro i0 i j c h
    unfold cluster_pass at h
    cases hs : cluster_scan a (i0 + 1) rest with
    | some r =>
      obtain ⟨j1, c1⟩ := r
      rw [hs] at h
      simp only at h
      injection h with h
      injection h with h1 h
      injection h with h2 h3
      subst h1 h2 h3
      obtain ⟨k1, k2, b, k3, k4⟩ := cluster_scan_spec a rest _ _ _ hs
      refine ⟨Nat.le_refl _, by omega, ⟨a, by simp, k1⟩, b, ?_, k4⟩
      have : j1 - i0 = (j1 - (i0 + 1)) + 1 := by omega
      rw [this, List.getElem?_cons_succ]
      exact k3
    | none =>
      rw [hs] at h
      simp only at h
      obtain ⟨k1, k2, ⟨a1, k3, k4⟩, b, k5, k6⟩ := ih _ _ _ _ h
      refine ⟨by omega, k2, ⟨a1, ?_, k4⟩, b, ?_, k6⟩
      · have : i - i0 = (i - (i0 + 1)) + 1 := by omega
        rw [this, List.getElem?_cons_succ]
        exact k3
      · have : j - i0 = (j - (i0 + 1)) + 1 := by omega
        rw [this, List.getElem?_cons_succ]
        exact k5

theorem countP_set_nil : ∀ (l : List Str) (k : Nat) (a : Str), l[k]? = some a → a ≠ [] →
    (l.set k []).countP (fun x => x != []) + 1 = l.countP (fun x => x != []) := by
  intro l
  induction l with
  | nil => intro k a h; simp at h
  | cons x l ih =>
    intro k a h ha
    cases k with
    | zero =>
      simp only [List.getElem?_cons_zero] at h
      injection h with h
      subst h
      simp [List.set, List.countP_cons, ha]
    | succ k =>
      simp only [List.getElem?_cons_succ] at h
      have := ih k a h ha
      simp only [List.set, List.countP_cons]
      omega

/-- With more passes allowed than there are non-empty strings, `ClusterSequences`
returns: every pass that finds a pair clears one non-empty string. -/
theorem ClusterSequences_ok : ∀ (fuel : Nat) (s : List Str) (ix : List Nat),
    ix.length = s.length → s.countP (fun x => x != []) < fuel →
    ∃ r, ClusterSequences fuel s ix = some (.ok r) ∧ r.1.length = s.length ∧
      r.2.length = s.length ∧ cluster_pass 0 r.1 = none := by
  intro fuel
  induction fuel with
  | zero => intro s ix _ h; omega
  | succ fuel ih =>
    intro s ix hix hc
    unfold ClusterSequences
    cases hp : cluster_pass 0 s with
    | none => exact ⟨(s, ix), rfl, rfl, hix, hp⟩
    | some r =>
      obtain ⟨i, j, c⟩ := r
      obtain ⟨-, hij, ⟨a, ha1, ha2⟩, b, hb1, hb2⟩ := cluster_pass_spec s 0 i j c hp
      rw [Nat.sub_zero] at ha1 hb1
      have hi : i < s.length := (List.getElem?_eq_some_iff.1 ha1).1
      have hj : j < s.length := (List.getElem?_eq_some_iff.1 hb1).1
      cases c with
      | true =>
        simp only
        rw [if_pos (by omega)]
        have hcnt := countP_set_nil s j b hb1 hb2
        obtain ⟨r, h1, h2, h3, h4⟩ := ih (s.set j []) (ix.set j i)
          (by simp [hix]) (by omega)
        exact ⟨r, h1, by simpa using h2, by simpa using h3, h4⟩
      | false =>
        simp only
        rw [if_pos (by omega)]
        have hcnt := countP_set_nil s i a ha1 ha2
        obtain ⟨r, h1, h2, h3, h4⟩ := ih (s.set i []) (ix.set i j)
          (by simp [hix]) (by omega)
        exact ⟨r, h1, by simpa using h2, by simpa using h3, h4⟩

theorem ClusterSequences_fuel : ∀ (fuel : Nat) (s : List Str) (ix : List Nat)
    (r : Except Error (List Str × List Nat)), ClusterSequences fuel s ix = some r →
    ∀ k, ClusterSequences (fuel + k) s ix = some r := by
  intro fuel
  induction fuel with
  | zero => intro s ix r h; cases h
  | succ fuel ih =>
    intro s ix r h k
    have e : fuel + 1 + k = (fuel + k) + 1 := by omega
    rw [e]
    unfold ClusterSequences at h ⊢
    cases hp : cluster_pass 0 s with
    | none => rw [hp] at h; exact h
    | some t =>
      obtain ⟨i, j, c⟩ := t
      rw [hp] at h
      cases c with
      | true =>
        simp only at h ⊢
        split at h
        · rename_i hlt
          rw [if_pos hlt]
          exact ih _ _ _ h k
        · rename_i hlt
          rw [if_neg hlt]
          exact h
      | false =>
        simp only at h ⊢
        split at h
        · rename_i hlt
          rw [if_pos hlt]
          exact ih _ _ _ h k
        · rename_i hlt
          rw [if_neg hlt]
          exact h

theorem cluster_scan_none (a : Str) (ha : a ≠ []) : ∀ (rest : List Str) (j0 : Nat),
    cluster_scan a j0 rest = none →
    ∀ b ∈ rest, b ≠ [] → contains a b = false ∧ contains b a = false := by
  intro rest
  induction rest with
  | nil => intro j0 _ b hb; cases hb
  | cons x rest ih =>
    intro j0 h b hb hne
    unfold cluster_scan at h
    split at h
    · rename_i hor
      rcases List.mem_cons.1 hb with e | hm
      · subst e
        rcases hor with e | e
        · exact absurd e ha
        · exact absurd e hne
      · exact ih _ h b hm hne
    · split at h
      · cases h
      · split at h
        · cases h
        · rename_i h1 h2
          rcases List.mem_cons.1 hb with e | hm
          · subst e
            exact ⟨by simpa using h1, by simpa using h2⟩
          · exact ih _ h b hm hne

theorem cluster_pass_none : ∀ (l : List Str) (i0 : Nat), cluster_pass i0 l = none →
    l.Pairwise (fun a b => a ≠ [] → b ≠ [] → contains a b = false ∧ contains b a = false) := by
  intro l
  induction l with
  | nil => intro _ _; exact List.Pairwise.nil
  | cons a rest ih =>
    intro i0 h
    unfold cluster_pass at h
    cases hs : cluster_scan a (i0 + 1) rest with
    | some r =>
      obtain ⟨j1, c1⟩ := r
      rw [hs] at h
      cases h
    | none =>
      rw [hs] at h
      simp only at h
      refine List.Pairwise.cons ?_ (ih _ h)
      intro b hb ha hne
      exact cluster_scan_none a ha rest _ hs b hb hne

/-- C23: `ClusterSequences` returns (a pass that finds a pair clears one string), and no
string that it leaves non-empty occurs in another one. But `ix[j]` keeps the index `i`
of the string in which `s[j]` was found when `s[i]` is itself cleared later, and
`std::unique` only removes equal neighbours. For the chains `ACD`, `GHI`, `ACD` the
selection is `0, 1, 0`: chain 0 is profiled twice. For `AB`, `A`, `ABC` it is `2, 0, 2`
and for `A`, `AB`, `ABC` it is `1, 2`: the chain `AB` is selected although its sequence
is a substring of the selected `ABC`. For two chains `ACD` the selection is chain 0. -/
theorem ClusterSequences_selection :
    (∀ (fuel : Nat) (seqset : List Str), seqset.length < fuel →
      ∃ sel, selected_chains fuel seqset = some (.ok sel) ∧
        ∀ k, selected_chains (fuel + k) seqset = some (.ok sel)) ∧
    (∀ (fuel : Nat) (s : List Str) (ix : List Nat) (r : List Str × List Nat),
      ix.length = s.length → ClusterSequences fuel s ix = some (.ok r) →
      r.1.Pairwise (fun a b => a ≠ [] → b ≠ [] → contains a b = false ∧ contains b a = false)) ∧
    selected_chains 4 [str "ACD", str "GHI", str "ACD"] = some (.ok [0, 1, 0]) ∧
    ¬ maximal_selection [str "ACD", str "GHI", str "ACD"] [0, 1, 0] ∧
    maximal_selection [str "ACD", str "GHI", str "ACD"] [0, 1] ∧
    selected_chains 4 [str "AB", str "A", str "ABC"] = some (.ok [2, 0, 2]) ∧
    selected_chains 4 [str "A", str "AB", str "ABC"] = some (.ok [1, 2]) ∧
    ¬ maximal_selection [str "A", str "AB", str "ABC"] [1, 2] ∧
    selected_chains 3 [str "ACD", str "ACD"] = some (.ok [0]) ∧
    maximal_selection [str "ACD", str "ACD"] [0] := by
  refine ⟨?_, ?_, by decide, ?_, ?_, by decide, by decide, ?_, by decide, ?_⟩
  · intro fuel seqset hf
    unfold selected_chains
    split
    · obtain ⟨r, h1, -, -, -⟩ := ClusterSequences_ok fuel seqset (List.range seqset.length)
        (by simp) (Nat.lt_of_le_of_lt (List.countP_le_length _) hf)
      refine ⟨unique r.2, by rw [h1]; rfl, fun k => ?_⟩
      rw [ClusterSequences_fuel _ _ _ _ h1 k]
      rfl
    · exact ⟨_, rfl, fun _ => rfl⟩
  · intro fuel s ix r hix h
    have hc : s.countP (fun x => x != []) < fuel + s.length + 1 :=
      Nat.lt_of_le_of_lt (List.countP_le_length _) (by omega)
    obtain ⟨r1, h1, -, -, h4⟩ := ClusterSequences_ok _ s ix hix hc
    have h2 := ClusterSequences_fuel _ _ _ _ h (s.length + 1)
    rw [← Nat.add_assoc, h1] at h2
    injection h2 with h2
    injection h2 with h2
    subst h2
    exact cluster_pass_none _ _ h4
  · rintro ⟨hnd, -, -⟩
    exact absurd hnd (by decide)
  · refine ⟨by decide, by decide, ?_⟩
    intro i hi
    have hi : i < 3 := hi
    interval_cases i <;> decide
  · rintro ⟨-, -, h⟩
    have := (h 1 (by decide)).1 (by decide) 2 (by decide) (by decide)
    exact absurd this (by decide)
  · refine ⟨by decide, by decide, ?_⟩
    intro i hi
    have hi : i < 2 := hi
    interval_cases i <;> decide

/-! ## C24, C28: the span that `update` finds and the characters around it -/

theorem update_column_ends {oob : Nat → Nat → Int} {data0 : Str} {o qc i : Nat}
    {st st1 : update_state} (h : update_column oob qc i st = .ok st1)
    (ho : st.s.m_seq = o) (hlen : st.s.m_data.length = data0.length)
    (hv : ∀ (j c : Nat), data0[j]? = some c →
      ∃ c1, st.s.m_data[j]? = some c1 ∧ case_variant c c1)
    (hinv : ends_inv data0 o st) : ends_inv data0 o st1 := by
  obtain ⟨sc, hsc, hcase⟩ := update_column_cases h
  -- the character of the row at column `i` on entry
  have hres : is_gap sc = false → ∃ c, data0[o + i]? = some c ∧ is_gap c = false := by
    intro hg
    have hlt : o + i < data0.length := by
      rw [← hlen, ← ho]
      exact (List.getElem?_eq_some_iff.1 hsc).1
    obtain ⟨c1, h1, h2⟩ := hv (o + i) _ (List.getElem?_eq_getElem hlt)
    rw [← ho, hsc] at h1
    injection h1 with h1
    subst h1
    exact ⟨_, List.getElem?_eq_getElem hlt, by rw [← case_variant_gap h2, hg]⟩
  have hcmp : ∀ (sc1 : Nat) (st2 : update_state), st2.s.m_begin = st.s.m_begin →
      is_gap sc = false → ends_inv data0 o (compare_column oob qc sc1 i st2) := by
    intro sc1 st2 hb hg _
    show (∃ c, data0[o + (if st2.s.m_begin = UINT32_MAX then i else st2.s.m_begin)]? = some c ∧
        is_gap c = false) ∧
      ∃ c, data0[o + (i + 1 - 1)]? = some c ∧ is_gap c = false
    refine ⟨?_, by rw [Nat.add_sub_cancel]; exact hres hg⟩
    split
    · exact hres hg
    · rename_i hne
      rw [hb] at hne ⊢
      exact (hinv hne).1
  rcases hcase with hc | hc | hc | hc
  · obtain ⟨-, -, rfl⟩ := hc
    exact hinv
  · obtain ⟨-, -, rfl⟩ := hc
    exact hinv
  · obtain ⟨-, hg, st2, hst2, rfl⟩ := hc
    obtain ⟨hb, -, -⟩ := open_insertion_span hst2
    exact hcmp sc (insertion_column sc st2) hb hg
  · obtain ⟨-, hg, rfl⟩ := hc
    obtain ⟨hb, -, -⟩ := close_insertion_span sc i (count_length st)
    exact hcmp (closed_char sc st) (matched_column (close_insertion sc i (count_length st)))
      hb hg

theorem update_loop_ends {oob : Nat → Nat → Int} (data0 : Str) (o : Nat) (qs : Str) :
    ∀ (i : Nat) (st st1 : update_state), update_loop oob qs i st = .ok st1 →
      st.s.m_seq = o → st.s.m_data.length = data0.length → i + qs.length ≤ UINT32_MAX →
      span_inv i st.s → letters_inv data0 o i st → ends_inv data0 o st →
      ends_inv data0 o st1 := by
  induction qs with
  | nil =>
    intro i st st1 h _ _ _ _ _ hinv
    injection h with h; subst h; exact hinv
  | cons qc qs ih =>
    intro i st st1 h ho hlen hi hspan hlet hinv
    rw [update_loop_cons] at h
    simp only [List.length_cons] at hi
    cases hc : update_column oob qc i st with
    | error e => rw [hc] at h; cases h
    | ok st2 =>
      rw [hc] at h
      have h1 := update_column_letters hc ho (by omega) hspan hlet
      have h2 := (update_column_span hc hspan).1
      obtain ⟨f1, f2, -, -⟩ := update_column_frame hc
      exact ih (i + 1) st2 st1 h (by rw [f1, ho]) (by rw [f2, hlen]) (by omega) h2 h1
        (update_column_ends hc ho hlen hlet.1 hinv)

theorem gap_variant {c c1 : Nat} (h : case_variant c c1) (hg : is_gap c = true) : c1 = c := by
  rcases h with h | h
  · exact h
  · rw [h]
    unfold tolower
    split
    · rename_i hr
      obtain ⟨h1, h2⟩ := hr
      exfalso
      interval_cases c <;> cases hg
    · rfl

/-- What a successful `update` leaves of a row that is as wide as the query: a row
without a residue keeps its characters and gets the span `[0, 0)`; in a row with a
residue the span starts at the first and ends behind the last residue, and the characters
are those of the loop `for (i = 0; i < m_size; ++i)` over a text of the same width. -/
theorem update_shape {oob : Nat → Nat → Int} {qseq s s1 : seq}
    (h : seq.update oob qseq s = .ok s1) (hs : s.m_seq + s.m_size ≤ s.m_data.length)
    (hw : s.m_size = qseq.m_size) (hlt : s.m_size < 2 ^ 32) :
    ((∀ c ∈ s.chars, is_gap c = true) → s1.m_begin = 0 ∧ s1.m_end = 0 ∧ s1.chars = s.chars) ∧
    ((∃ c ∈ s.chars, is_gap c = false) →
      s1.m_begin < s1.m_end ∧
      (∃ c, s.chars[s1.m_begin]? = some c ∧ is_gap c = false) ∧
      (∃ c, s.chars[s1.m_end - 1]? = some c ∧ is_gap c = false) ∧
      (∀ (j c : Nat), s.chars[j]? = some c → is_gap c = false →
        s1.m_begin ≤ j ∧ j < s1.m_end) ∧
      ∃ t : Str, t.length = s.m_size ∧ s1.chars = normalize s1.m_begin s1.m_end 0 t) := by
  have hmax : UINT32_MAX = 2 ^ 32 - 1 := rfl
  have hsize := (update_span h).2
  unfold seq.update at h
  split at h
  · cases h
  · rename_i hq
    have hqlen : qseq.chars.length = s.m_size := by
      rw [chars_length (by omega), hw]
    cases hl : update_loop oob qseq.chars 0 (update_init s) with
    | error e => rw [hl] at h; cases h
    | ok st =>
      rw [hl] at h
      simp only at h
      have hinit : span_inv 0 (update_init s).s := ⟨Or.inl rfl, Nat.le_refl 0⟩
      have hinv0 : letters_inv s.m_data s.m_seq 0 (update_init s) :=
        ⟨fun j c hj => ⟨c, hj, Or.inl rfl⟩, fun j c hj => absurd hj (Nat.not_lt_zero j)⟩
      have hends0 : ends_inv s.m_data s.m_seq (update_init s) := fun hne => absurd rfl hne
      obtain ⟨hv, hcov⟩ := update_loop_letters s.m_data s.m_seq qseq.chars 0
        (update_init s) st hl rfl (by rw [hqlen]; omega) hinit hinv0
      have hends := update_loop_ends s.m_data s.m_seq qseq.chars 0 (update_init s) st hl rfl
        rfl (by rw [hqlen]; omega) hinit hinv0 hends0
      rw [Nat.zero_add, hqlen] at hcov
      obtain ⟨⟨hsp, hsp2⟩, f3⟩ := update_loop_span _ 0 _ _ hl hinit
      rw [Nat.zero_add, hqlen] at hsp2
      obtain ⟨f1, f2, -, -⟩ := update_loop_frame _ 0 _ _ hl
      have f1 : st.s.m_seq = s.m_seq := f1
      have f2 : st.s.m_data.length = s.m_data.length := f2
      have f3 : st.s.m_size = s.m_size := f3
      have hstb : st.s.m_seq + st.s.m_size ≤ st.s.m_data.length := by omega
      obtain ⟨e1, e2⟩ := update_finish_chars h hstb
      have hstlen : st.s.chars.length = s.chars.length := by
        rw [chars_length hstb, chars_length hs, f3]
      -- a residue of the row lies in the span
      have hin : ∀ (j c : Nat), s.chars[j]? = some c → is_gap c = false →
          st.s.m_begin ≠ UINT32_MAX ∧ st.s.m_begin ≤ j ∧ j < st.s.m_end := by
        intro j c hj hg
        have hjlt := chars_getElem?_lt hj
        exact hcov j c hjlt (by rw [← chars_getElem? s j hjlt]; exact hj) hg
      -- the span that `update` returns
      have hspan1 : (st.s.m_begin = UINT32_MAX → s1.m_begin = 0 ∧ s1.m_end = 0) ∧
          (st.s.m_begin ≠ UINT32_MAX → s1.m_begin = st.s.m_begin ∧ s1.m_end = st.s.m_end) := by
        unfold update_finish at h
        split at h
        · rename_i hb
          injection h with h; subst h
          exact ⟨fun _ => ⟨rfl, rfl⟩, fun hne => absurd hb hne⟩
        · rename_i hb
          split at h
          · cases h
          · split at h
            · cases h
            · split at h
              · cases h
              · injection h with h; subst h
                exact ⟨fun he => absurd he hb, fun _ => ⟨rfl, rfl⟩⟩
      constructor
      · intro hall
        have hb : st.s.m_begin = UINT32_MAX := by
          by_contra hne
          obtain ⟨⟨c, hc, hg⟩, -⟩ := hends hne
          have hsp1 : st.s.m_begin < st.s.m_end := by
            rcases hsp with hsp | hsp
            · exact absurd hsp hne
            · exact hsp
          have hc1 : s.chars[st.s.m_begin]? = some c := by
            rw [chars_getElem? s _ (by omega)]
            exact hc
          have hmem : c ∈ s.chars := List.getElem?_mem hc1
          rw [hall c hmem] at hg
          cases hg
        refine ⟨(hspan1.1 hb).1, (hspan1.1 hb).2, ?_⟩
        rw [e1 hb]
        apply List.ext_getElem? 
        intro j
        by_cases hj : j < s.m_size
        · rw [chars_getElem? st.s j (by omega), chars_getElem? s j hj, f1]
          have hjd : s.m_seq + j < s.m_data.length := by omega
          obtain ⟨c1, h1, h2⟩ := hv _ _ (List.getElem?_eq_getElem hjd)
          rw [h1, List.getElem?_eq_getElem hjd]
          have hmem : s.m_data[s.m_seq + j] ∈ s.chars := by
            apply List.getElem?_mem (n := j)
            rw [chars_getElem? s j hj]
            exact List.getElem?_eq_getElem hjd
          rw [gap_variant h2 (hall _ hmem)]
        · rw [List.getElem?_eq_none (by rw [hstlen, chars_length hs]; omega),
            List.getElem?_eq_none (by rw [chars_length hs]; omega)]
      · rintro ⟨c, hc, hg⟩
        obtain ⟨j, hj⟩ := List.getElem?_of_mem hc
        obtain ⟨hne, -, -⟩ := hin j c hj hg
        obtain ⟨hb1, he1⟩ := hspan1.2 hne
        have hsp1 : st.s.m_begin < st.s.m_end := by
          rcases hsp with hsp | hsp
          · exact absurd hsp hne
          · exact hsp
        obtain ⟨⟨cb, hcb, hgb⟩, ce, hce, hge⟩ := hends hne
        rw [hb1, he1]
        refine ⟨hsp1, ⟨cb, ?_, hgb⟩, ⟨ce, ?_, hge⟩, ?_, st.s.chars, ?_, e2 hne⟩
        · rw [chars_getElem? s _ (by omega)]
          exact hcb
        · rw [chars_getElem? s _ (by omega)]
          exact hce
        · intro j c hj hg
          exact (hin j c hj hg).2
        · rw [hstlen, chars_length hs]

/-- C24, as stated, fails for a row without a residue: `update` gives it the span `[0,
0)` and skips the loop that blanks and normalises, so the row `---` keeps its three `-`,
all of them outside the span. -/
theorem update_blank_counterexample :
    (update_text oob_zero "ACD" "---").map (fun r => (r.chars, r.m_begin, r.m_end)) =
      .ok (str "---", 0, 0) := by
  rfl

/-- C24, amended: on a homolog row that is as wide as the query `update` returns when the
row has no residue opposite a gap of the query in column 0. Whenever it returns and the
row holds a residue, every character outside `[alignment_begin, alignment_end)` is the
blank and every gap character inside is `.`; a row without a residue keeps its characters
as they are and gets the span `[0, 0)`. -/
theorem update_normalized (oob : Nat → Nat → Int) (qseq s : seq)
    (hq : qseq.m_seq + qseq.m_size ≤ qseq.m_data.length)
    (hs : s.m_seq + s.m_size ≤ s.m_data.length)
    (hw : s.m_size = qseq.m_size) (hlt : s.m_size < 2 ^ 32) :
    (starts_aligned qseq s → ∃ s1, seq.update oob qseq s = .ok s1) ∧
    ∀ s1, seq.update oob qseq s = .ok s1 →
      ((∃ c ∈ s.chars, is_gap c = false) →
        ∀ (j c : Nat), s1.chars[j]? = some c →
          ((j < s1.m_begin ∨ s1.m_end ≤ j) → c = 32) ∧
          (s1.m_begin ≤ j → j < s1.m_end → is_gap c = true → c = 46)) ∧
      ((∀ c ∈ s.chars, is_gap c = true) →
        s1.chars = s.chars ∧ s1.m_begin = 0 ∧ s1.m_end = 0) := by
  refine ⟨update_ok0 oob qseq s hq hs hw, ?_⟩
  intro s1 h
  obtain ⟨h1, h2⟩ := update_shape h hs hw hlt
  refine ⟨?_, fun hall => ⟨(h1 hall).2.2, (h1 hall).1, (h1 hall).2.1⟩⟩
  intro hex j c hj
  obtain ⟨-, -, -, -, t, -, ht⟩ := h2 hex
  rw [ht, normalize_getElem?] at hj
  cases htj : t[j]? with
  | none => rw [htj] at hj; cases hj
  | some c0 =>
    rw [htj] at hj
    simp only [Option.map_some', Nat.zero_add] at hj
    injection hj with hj
    constructor
    · intro hout
      rw [← hj, if_pos (by omega)]
    · intro hb he hg
      rw [if_neg (by omega)] at hj
      by_cases hg0 : is_gap c0 = true
      · rw [if_pos hg0] at hj
        exact hj.symm
      · rw [if_neg hg0] at hj
        rw [← hj] at hg
        exact absurd hg hg0

theorem update_normalized_witness :
    (seq.update oob_zero sample_span_query sample_span_row).map
        (fun r => (r.chars, r.m_begin, r.m_end)) = .ok (str " C.E ", 1, 4) ∧
    (starts_aligned sample_span_query sample_span_row →
      ∃ s1, seq.update oob_zero sample_span_query sample_span_row = .ok s1) ∧
    ∀ s1, seq.update oob_zero sample_span_query sample_span_row = .ok s1 →
      ((∃ c ∈ sample_span_row.chars, is_gap c = false) →
        ∀ (j c : Nat), s1.chars[j]? = some c →
          ((j < s1.m_begin ∨ s1.m_end ≤ j) → c = 32) ∧
          (s1.m_begin ≤ j → j < s1.m_end → is_gap c = true → c = 46)) ∧
      ((∀ c ∈ sample_span_row.chars, is_gap c = true) →
        s1.chars = sample_span_row.chars ∧ s1.m_begin = 0 ∧ s1.m_end = 0) :=
  ⟨rfl, update_normalized oob_zero sample_span_query sample_span_row (by decide) (by decide)
    rfl (by decide)⟩

/-- C28: on a homolog row that is as wide as the query `update` returns when the row has
no residue opposite a gap of the query in column 0. Whenever it returns and the row
holds a residue, `alignment_begin` is the index of its first and `alignment_end` one past
the index of its last residue (every residue lies in the span, and the first and the last
column of the span hold one); for a row without a residue both are 0. -/
theorem update_span_ends (oob : Nat → Nat → Int) (qseq s : seq)
    (hq : qseq.m_seq + qseq.m_size ≤ qseq.m_data.length)
    (hs : s.m_seq + s.m_size ≤ s.m_data.length)
    (hw : s.m_size = qseq.m_size) (hlt : s.m_size < 2 ^ 32) :
    (starts_aligned qseq s → ∃ s1, seq.update oob qseq s = .ok s1) ∧
    ∀ s1, seq.update oob qseq s = .ok s1 →
      ((∃ c ∈ s.chars, is_gap c = false) →
        s1.m_begin < s1.m_end ∧
        (∃ c, s.chars[s1.m_begin]? = some c ∧ is_gap c = false) ∧
        (∃ c, s.chars[s1.m_end - 1]? = some c ∧ is_gap c = false) ∧
        ∀ (j c : Nat), s.chars[j]? = some c → is_gap c = false →
          s1.m_begin ≤ j ∧ j < s1.m_end) ∧
      ((∀ c ∈ s.chars, is_gap c = true) → s1.m_begin = 0 ∧ s1.m_end = 0) := by
  refine ⟨update_ok0 oob qseq s hq hs hw, ?_⟩
  intro s1 h
  obtain ⟨h1, h2⟩ := update_shape h hs hw hlt
  refine ⟨?_, fun hall => ⟨(h1 hall).1, (h1 hall).2.1⟩⟩
  intro hex
  obtain ⟨k1, k2, k3, k4, -⟩ := h2 hex
  exact ⟨k1, k2, k3, k4⟩

theorem update_span_ends_witness :
    (seq.update oob_zero sample_span_query sample_span_row).map
        (fun r => (r.m_begin, r.m_end)) = .ok (1, 4) ∧
    (starts_aligned sample_span_query sample_span_row →
      ∃ s1, seq.update oob_zero sample_span_query sample_span_row = .ok s1) ∧
    ∀ s1, seq.update oob_zero sample_span_query sample_span_row = .ok s1 →
      ((∃ c ∈ sample_span_row.chars, is_gap c = false) →
        s1.m_begin < s1.m_end ∧
        (∃ c, sample_span_row.chars[s1.m_begin]? = some c ∧ is_gap c = false) ∧
        (∃ c, sample_span_row.chars[s1.m_end - 1]? = some c ∧ is_gap c = false) ∧
        ∀ (j c : Nat), sample_span_row.chars[j]? = some c → is_gap c = false →
          s1.m_begin ≤ j ∧ j < s1.m_end) ∧
      ((∀ c ∈ sample_span_row.chars, is_gap c = true) → s1.m_begin = 0 ∧ s1.m_end = 0) :=
  ⟨rfl, update_span_ends oob_zero sample_span_query sample_span_row (by decide) (by decide)
    rfl (by decide)⟩

/-! ## C26: the scale of the column `VAR` -/

theorem kD_bounds (oob : Nat → Nat → Int) (i j : Nat) (hi : i < 20) (hj : j < 20) :
    -12 ≤ kD oob i j ∧ kD oob i j ≤ 15 := by
  have h : ∀ i, i < 20 → ∀ j, j < 20 → -12 ≤ kD oob_zero i j ∧ kD oob_zero i j ≤ 15 := by
    decide
  have e : kD oob i j = kD oob_zero i j := by
    unfold kD
    simp only [hi, hj, and_self, if_true]
  rw [e]
  exact h i hi j hj

theorem kResidueIX_valid (c : Nat) (h1 : kResidueIX c ≠ -1) (hg : is_gap c = false) :
    (kResidueIX c).toNat < 20 := by
  have h : ∀ k, k < 256 → kResidueIX k ≠ -1 → is_gap k = false → (kResidueIX k).toNat < 20 := by
    set_option maxRecDepth 100000 in decide
  have e1 : kResidueIX c = kResidueIX (c % 256) := by
    unfold kResidueIX
    rw [Nat.mod_mod]
  have e2 : is_gap c = is_gap (c % 256) := by
    unfold is_gap
    rw [e1]
  rw [e1] at h1 ⊢
  rw [e2] at hg
  exact h _ (Nat.mod_lt _ (by decide)) h1 hg

theorem kFloatMin_bounds : -(6 / 5) ≤ kFloatMin ∧ kFloatMin ≤ 3 / 2 := by
  unfold kFloatMin
  constructor <;> norm_num

theorem simval_bounds_set {l : List ℚ} (h : simval_bounds l) (k : Nat) (v : ℚ)
    (hv : -(6 / 5) ≤ v ∧ v ≤ 3 / 2) : simval_bounds (l.set k v) := by
  intro x hx
  rcases List.mem_or_eq_of_mem_set hx with hm | e
  · exact h x hm
  · rw [e]; exact hv

theorem compare_rows_column_bounds {oob : Nat → Nat → Int} {si sj : seq} {k : Nat}
    {st st1 : pair_state} (h : compare_rows_column oob si sj k st = .ok st1)
    (hb : simval_bounds st.simval) (ha : st.agr ≤ st.len) :
    simval_bounds st1.simval ∧ st1.agr ≤ st1.len := by
  unfold compare_rows_column at h
  split at h
  · cases h
  · rename_i ci hci
    split at h
    · injection h with h; subst h; exact ⟨hb, ha⟩
    · rename_i hgi
      split at h
      · cases h
      · rename_i cj hcj
        split at h
        · injection h with h; subst h; exact ⟨hb, ha⟩
        · rename_i hgj
          split at h
          · injection h with h
            subst h
            refine ⟨simval_bounds_set hb _ _ ?_, ?_⟩
            · split
              · rename_i hv
                have hi := kResidueIX_valid ci hv.1 (by simpa using hgi)
                have hj := kResidueIX_valid cj hv.2 (by simpa using hgj)
                obtain ⟨b1, b2⟩ := kD_bounds oob _ _ hi hj
                have c1 : ((-12 : Int) : ℚ) ≤ (kD oob (kResidueIX ci).toNat
                  (kResidueIX cj).toNat : ℚ) := by exact_mod_cast b1
                have c2 : (kD oob (kResidueIX ci).toNat (kResidueIX cj).toNat : ℚ) ≤
                  ((15 : Int) : ℚ) := by exact_mod_cast b2
                constructor
                · rw [le_div_iff₀ (by norm_num)]
                  norm_num at c1 ⊢
                  linarith
                · rw [div_le_iff₀ (by norm_num)]
                  norm_num at c2 ⊢
                  linarith
              · exact kFloatMin_bounds
            · show (if ci = cj then st.agr + 1 else st.agr) ≤ st.len + 1
              split <;> omega
          · cases h

theorem compare_rows_bounds {oob : Nat → Nat → Int} {si sj : seq} : ∀ (ks : List Nat)
    (st st1 : pair_state), compare_rows oob si sj ks st = .ok st1 →
    simval_bounds st.simval → st.agr ≤ st.len →
    simval_bounds st1.simval ∧ st1.agr ≤ st1.len := by
  intro ks
  induction ks with
  | nil => intro st st1 h hb ha; injection h with h; subst h; exact ⟨hb, ha⟩
  | cons k ks ih =>
    intro st st1 h hb ha
    unfold compare_rows at h
    split at h
    · cases h
    · rename_i st2 hst2
      obtain ⟨b2, a2⟩ := compare_rows_column_bounds hst2 hb ha
      exact ih _ _ h b2 a2

theorem weight_bounds_set {sumvar sumdist : List ℚ} (h : weight_bounds sumvar sumdist)
    (k : Nat) (sv sd d v : ℚ) (hsv : sumvar[k]? = some sv) (hsd : sumdist[k]? = some sd)
    (hd : 0 ≤ d) (hv : -(6 / 5) ≤ v ∧ v ≤ 3 / 2) :
    weight_bounds (sumvar.set k (sv + d * v)) (sumdist.set k (sd + d * (3 / 2))) := by
  obtain ⟨hl, hb⟩ := h
  refine ⟨by simp [hl], ?_⟩
  intro j x y hx hy
  by_cases hj : k = j
  · subst hj
    have hk1 : k < sumvar.length := (List.getElem?_eq_some_iff.1 hsv).1
    have hk2 : k < sumdist.length := (List.getElem?_eq_some_iff.1 hsd).1
    rw [List.getElem?_set_self hk1] at hx
    rw [List.getElem?_set_self hk2] at hy
    injection hx with hx
    injection hy with hy
    obtain ⟨b1, b2, b3⟩ := hb k sv sd hsv hsd
    have m1 : d * v ≤ d * (3 / 2) := mul_le_mul_of_nonneg_left hv.2 hd
    have m2 : d * (-(6 / 5)) ≤ d * v := mul_le_mul_of_nonneg_left hv.1 hd
    rw [← hx, ← hy]
    refine ⟨by nlinarith, by linarith, by nlinarith⟩
  · rw [List.getElem?_set_ne hj] at hx hy
    exact hb j x y hx hy

theorem add_distance_bounds (d : ℚ) (hd : 0 ≤ d) : ∀ (ks : List Nat)
    (st st1 : conservation_state), add_distance d ks st = .ok st1 →
    simval_bounds st.simval → weight_bounds st.sumvar st.sumdist →
    weight_bounds st1.sumvar st1.sumdist := by
  intro ks
  induction ks with
  | nil => intro st st1 h _ hw; injection h with h; subst h; exact hw
  | cons k ks ih =>
    intro st st1 h hb hw
    unfold add_distance at h
    split at h
    · rename_i v sv sd hv hsv hsd
      split at h
      · exact ih _ _ h hb
          (weight_bounds_set hw k sv sd d v hsv hsd hd (hb v (List.getElem?_mem hv)))
      · exact ih _ _ h hb hw
    · cases h

theorem conservation_pair_bounds {oob : Nat → Nat → Int} {si sj : seq}
    {st st1 : conservation_state} (h : conservation_pair oob si sj st = .ok st1)
    (hb : simval_bounds st.simval) (hw : weight_bounds st.sumvar st.sumdist) :
    simval_bounds st1.simval ∧ weight_bounds st1.sumvar st1.sumdist := by
  unfold conservation_pair at h
  split at h
  · cases h
  · rename_i p hp
    obtain ⟨b1, a1⟩ := compare_rows_bounds _ _ _ hp hb (Nat.le_refl 0)
    split at h
    · rename_i hlen
      have hd : (0 : ℚ) ≤ 1 - (p.agr : ℚ) / (p.len : ℚ) := by
        have hpos : (0 : ℚ) < (p.len : ℚ) := by exact_mod_cast hlen
        have hle : (p.agr : ℚ) ≤ (p.len : ℚ) := by exact_mod_cast a1
        have : (p.agr : ℚ) / (p.len : ℚ) ≤ 1 := (div_le_one hpos).2 hle
        linarith
      have e := (add_distance_frame _ _ _ _ h).1
      refine ⟨by rw [e]; exact b1, add_distance_bounds _ hd _ _ _ h b1 hw⟩
    · injection h with h
      subst h
      exact ⟨b1, hw⟩

theorem conservation_row_bounds {oob : Nat → Nat → Int} {si : seq} : ∀ (rows : mseq)
    (st st1 : conservation_state), conservation_row oob si rows st = .ok st1 →
    simval_bounds st.simval → weight_bounds st.sumvar st.sumdist →
    simval_bounds st1.simval ∧ weight_bounds st1.sumvar st1.sumdist := by
  intro rows
  induction rows with
  | nil => intro st st1 h hb hw; injection h with h; subst h; exact ⟨hb, hw⟩
  | cons sj rows ih =>
    intro st st1 h hb hw
    unfold conservation_row at h
    split at h
    · exact ih _ _ h hb hw
    · split at h
      · cases h
      · rename_i st2 hst2
        obtain ⟨b2, w2⟩ := conservation_pair_bounds hst2 hb hw
        exact ih _ _ h b2 w2

theorem conservation_rows_bounds {oob : Nat → Nat → Int} {msa : mseq} : ∀ (indices : List Nat)
    (st st1 : conservation_state), conservation_rows oob msa indices st = .ok st1 →
    simval_bounds st.simval → weight_bounds st.sumvar st.sumdist →
    simval_bounds st1.simval ∧ weight_bounds st1.sumvar st1.sumdist := by
  intro indices
  induction indices with
  | nil => intro st st1 h hb hw; injection h with h; subst h; exact ⟨hb, hw⟩
  | cons i indices ih =>
    intro st st1 h hb hw
    unfold conservation_rows at h
    split at h
    · cases h
    · split at h
      · cases h
      · split at h
        · cases h
        · rename_i st2 hst2
          obtain ⟨b2, w2⟩ := conservation_row_bounds _ _ _ hst2 hb hw
          exact ih _ _ h b2 w2

theorem accumulate_getElem? {sum csum r : List ℚ} (h : accumulate sum csum = .ok r) (k : Nat) :
    r[k]? = match sum[k]?, csum[k]? with
      | some a, some b => some (a + b)
      | _, b => b := by
  unfold accumulate at h
  split at h
  · rename_i hle
    injection h with h
    subst h
    by_cases hk : k < sum.length
    · rw [List.getElem?_append_left (by rw [List.length_zipWith]; omega),
        List.getElem?_zipWith, List.getElem?_eq_getElem hk,
        List.getElem?_eq_getElem (show k < csum.length by omega)]
    · rw [List.getElem?_append_right (by rw [List.length_zipWith]; omega),
        List.length_zipWith, List.getElem?_drop, List.getElem?_eq_none (show sum.length ≤ k by omega)]
      have e : sum.length + (k - min sum.length csum.length) = k := by omega
      rw [e]
  · cases h

theorem weight_bounds_zero (n : Nat) :
    weight_bounds (List.replicate n 0) (List.replicate n 0) := by
  refine ⟨by simp, ?_⟩
  intro k sv sd hsv hsd
  have h1 := List.getElem?_mem hsv
  have h2 := List.getElem?_mem hsd
  rw [List.mem_replicate] at h1 h2
  rw [h1.2, h2.2]
  norm_num

theorem accumulate_bounds {sumvar sumdist csumvar csumdist r1 r2 : List ℚ}
    (h1 : accumulate sumvar csumvar = .ok r1) (h2 : accumulate sumdist csumdist = .ok r2)
    (hw : weight_bounds sumvar sumdist) (hc : weight_bounds csumvar csumdist) :
    weight_bounds r1 r2 := by
  refine ⟨by rw [accumulate_length h1, accumulate_length h2]; exact hc.1, ?_⟩
  intro k sv sd hsv hsd
  rw [accumulate_getElem? h1] at hsv
  rw [accumulate_getElem? h2] at hsd
  by_cases hk : k < sumvar.length
  · have hk2 : k < sumdist.length := by rw [← hw.1]; exact hk
    rw [List.getElem?_eq_getElem hk] at hsv
    rw [List.getElem?_eq_getElem hk2] at hsd
    cases hcv : csumvar[k]? with
    | none =>
      rw [hcv] at hsv
      cases hsv
    | some cv =>
      cases hcd : csumdist[k]? with
      | none =>
        rw [hcd] at hsd
        cases hsd
      | some cd =>
        rw [hcv] at hsv
        rw [hcd] at hsd
        simp only at hsv hsd
        injection hsv with hsv
        injection hsd with hsd
        obtain ⟨a1, a2, a3⟩ := hw.2 k _ _ (List.getElem?_eq_getElem hk)
          (List.getElem?_eq_getElem hk2)
        obtain ⟨b1, b2, b3⟩ := hc.2 k _ _ hcv hcd
        rw [← hsv, ← hsd]
        exact ⟨by linarith, by linarith, by linarith⟩
  · have hk2 : ¬ k < sumdist.length := by rw [← hw.1]; exact hk
    rw [List.getElem?_eq_none (by omega)] at hsv
    rw [List.getElem?_eq_none (by omega)] at hsd
    exact hc.2 k sv sd hsv hsd

theorem conservation_worker_bounds {oob : Nat → Nat → Int} {msa : mseq} {indices : List Nat}
    {csum csum1 : List ℚ × List ℚ} (h : conservation_worker oob msa indices csum = .ok csum1)
    (hc : weight_bounds csum.1 csum.2) : weight_bounds csum1.1 csum1.2 := by
  unfold conservation_worker at h
  split at h
  · cases h
  · rename_i s rest
    split at h
    · cases h
    · rename_i st hst
      have hz : simval_bounds (List.replicate s.length (0 : ℚ)) := by
        intro v hv
        rw [(List.mem_replicate.1 hv).2]
        norm_num
      obtain ⟨-, hw⟩ := conservation_rows_bounds _ _ _ hst hz (weight_bounds_zero _)
      split at h
      · rename_i a b ha hb
        injection h with h
        rw [← h]
        exact accumulate_bounds ha hb hw hc
      · cases h

theorem conservation_workers_bounds {oob : Nat → Nat → Int} {msa : mseq} :
    ∀ (parts : List (List Nat)) (csum csum1 : List ℚ × List ℚ),
      conservation_workers oob msa parts csum = .ok csum1 →
      weight_bounds csum.1 csum.2 → weight_bounds csum1.1 csum1.2 := by
  intro parts
  induction parts with
  | nil => intro csum csum1 h hc; injection h with h; subst h; exact hc
  | cons p parts ih =>
    intro csum csum1 h hc
    unfold conservation_workers at h
    split at h
    · cases h
    · rename_i c2 hc2
      exact ih _ _ h (conservation_worker_bounds hc2 hc)

/-- The sums of `CalculateConservation` are within bounds, however the row indices are
distributed over the workers. -/
theorem conservation_sums_bounds {oob : Nat → Nat → Int} {msa : mseq}
    {parts : List (List Nat)} {sums : List ℚ × List ℚ}
    (h : conservation_sums oob msa parts = .ok sums) : weight_bounds sums.1 sums.2 := by
  unfold conservation_sums at h
  split at h
  · cases h
  · exact conservation_workers_bounds _ _ _ h (weight_bounds_zero _)

theorem column_weight_bounds (sv sd : ℚ) (h : 0 < sd → sv ≤ sd ∧ -(4 / 5) * sd ≤ sv) :
    -(4 / 5) ≤ column_weight sv sd ∧ column_weight sv sd ≤ 1 := by
  unfold column_weight
  split
  · rename_i hpos
    obtain ⟨h1, h2⟩ := h hpos
    constructor
    · rw [le_div_iff₀ hpos]
      exact h2
    · rw [div_le_one hpos]
      exact h1
  · norm_num

theorem skip_breaks_append : ∀ (l : List ResidueHInfo),
    (skip_breaks l).1 ++ (skip_breaks l).2 = l := by
  intro l
  induction l with
  | nil => rfl
  | cons r rest ih =>
    unfold skip_breaks
    split
    · simp only [List.cons_append, ih]
    · rfl

theorem weight_column_bounds {s : seq} {sumvar sumdist : List ℚ} {i : Nat}
    {st st1 : weight_state} (h : weight_column s sumvar sumdist i st = .ok st1)
    (hw : weight_bounds sumvar sumdist)
    (hst : ∀ r ∈ st.done ++ st.todo, -(4 / 5) ≤ r.consweight ∧ r.consweight ≤ 1) :
    ∀ r ∈ st1.done ++ st1.todo, -(4 / 5) ≤ r.consweight ∧ r.consweight ≤ 1 := by
  unfold weight_column at h
  split at h
  · cases h
  · split at h
    · injection h with h; subst h; exact hst
    · split at h
      · cases h
      · rename_i sd hsd
        split at h
        · cases h
        · rename_i sv hsv
          split at h
          · cases h
          · rename_i r rest htodo
            injection h with h
            subst h
            intro x hx
            simp only [List.append_assoc, List.cons_append] at hx
            rw [skip_breaks_append] at hx
            rcases List.mem_append.1 hx with hm | hm
            · exact hst x (List.mem_append_left _ hm)
            · rcases List.mem_cons.1 hm with e | hm
              · rw [e]
                show -(4 / 5) ≤ column_weight sv sd ∧ column_weight sv sd ≤ 1
                apply column_weight_bounds
                intro hpos
                rw [if_pos hpos] at hsv
                obtain ⟨-, b2, b3⟩ := hw.2 i sv sd hsv hsd
                exact ⟨b2, b3⟩
              · exact hst x (List.mem_append_right _ (by rw [htodo]; exact List.mem_cons_of_mem _ hm))

theorem weight_columns_bounds {s : seq} {sumvar sumdist : List ℚ} : ∀ (is : List Nat)
    (st st1 : weight_state), weight_columns s sumvar sumdist is st = .ok st1 →
    weight_bounds sumvar sumdist →
    (∀ r ∈ st.done ++ st.todo, -(4 / 5) ≤ r.consweight ∧ r.consweight ≤ 1) →
    ∀ r ∈ st1.done ++ st1.todo, -(4 / 5) ≤ r.consweight ∧ r.consweight ≤ 1 := by
  intro is
  induction is with
  | nil => intro st st1 h _ hst; injection h with h; subst h; exact hst
  | cons i is ih =>
    intro st st1 h hw hst
    unfold weight_columns at h
    split at h
    · cases h
    · rename_i st2 hst2
      exact ih _ _ h hw (weight_column_bounds hst2 hw hst)

/-- Every weight that `CalculateConservation` leaves in the range lies between `-4/5`
and 1, when the weights in the range did on entry (the constructors set them to 1). -/
theorem CalculateConservation_bounds {oob : Nat → Nat → Int} {msa : mseq}
    {parts : List (List Nat)} {res res1 : List ResidueHInfo}
    (h : CalculateConservation oob msa parts res = .ok res1)
    (hres : ∀ r ∈ res, -(4 / 5) ≤ r.consweight ∧ r.consweight ≤ 1) :
    ∀ r ∈ res1, -(4 / 5) ≤ r.consweight ∧ r.consweight ≤ 1 := by
  unfold CalculateConservation at h
  split at h
  · cases h
  · rename_i s rest
    split at h
    · cases h
    · rename_i sumvar sumdist hs
      have hw := conservation_sums_bounds hs
      unfold assign_weights at h
      split at h
      · cases h
      · rename_i st hst
        split at h
        · cases h
        · injection h with h
          subst h
          intro r hr
          exact weight_columns_bounds _ _ _ hst hw (by simpa using hres) r
            (List.mem_append_left _ hr)

theorem ivar_bounds (w : ℚ) (h1 : -(4 / 5) ≤ w) (h2 : w ≤ 1) :
    ∃ v, ivar w = some v ∧ v ≤ 180 ∧ (0 ≤ w → v ≤ 100) := by
  have hx0 : (0 : ℚ) ≤ 100 * (1 - w) := by linarith
  have hx1 : 100 * (1 - w) ≤ 180 := by linarith
  unfold ivar
  rw [if_neg (by
    rintro (h | h)
    · linarith
    · have : (180 : ℚ) < 2 ^ 32 := by norm_num
      linarith)]
  refine ⟨_, rfl, ?_, ?_⟩
  · have hf : Rat.floor (100 * (1 - w)) ≤ 180 := by
      have hfl : ((Rat.floor (100 * (1 - w)) : Int) : ℚ) ≤ 100 * (1 - w) :=
        Int.floor_le (100 * (1 - w))
      have h3 : ((Rat.floor (100 * (1 - w)) : Int) : ℚ) ≤ ((180 : Int) : ℚ) := by
        push_cast
        linarith
      exact_mod_cast h3
    omega
  · intro hw
    have hf : Rat.floor (100 * (1 - w)) ≤ 100 := by
      have hfl : ((Rat.floor (100 * (1 - w)) : Int) : ℚ) ≤ 100 * (1 - w) :=
        Int.floor_le (100 * (1 - w))
      have h3 : ((Rat.floor (100 * (1 - w)) : Int) : ℚ) ≤ ((100 : Int) : ℚ) := by
        push_cast
        linarith
      exact_mod_cast h3
    omega

/-- C26: the weight that `CalculateConservation` stores lies between `-4/5` and 1 (the
similarity values of the Dayhoff matrix go from `-1.2` to `1.5`, and a column's `sumvar`
is divided by 1.5 times the sum of the distances), so `VAR = trunc(100 * (1 - weight))` is
defined and lies in `0..180`; it is at most 100 when the weight is not negative. It
leaves the scale `0..100` when the similarities of a column are negative on balance: for
the query `ACDEFGHIKW` and the homolog `ACDEFGHIKG` (identity 9/10, not dropped for the
cutoff 0.1) the last column has the weight `kD(W, G) / 1.5 = -2/3` and `VAR = 166`. -/
theorem ivar_scale :
    (∀ (oob : Nat → Nat → Int) (msa : mseq) (parts : List (List Nat))
        (res res1 : List ResidueHInfo),
      CalculateConservation oob msa parts res = .ok res1 →
      (∀ r ∈ res, r.consweight = 1) →
      ∀ r ∈ res1, -(4 / 5) ≤ r.consweight ∧ r.consweight ≤ 1 ∧
        ∃ v, ivar r.consweight = some v ∧ v ≤ 180 ∧ (0 ≤ r.consweight → v ≤ 100)) ∧
    (ReadFastA oob_zero sample_fasta_var []).map
        (fun msa => msa.map (fun r => (r.chars, r.m_identical, r.m_length))) =
      .ok [(str "ACDEFGHIKW", 0, 0), (str "ACDEFGHIKG", 9, 10)] ∧
    (ReadFastA oob_zero sample_fasta_var []).map
        (fun msa => msa.tail.map (fun r => r.drop (.fin (1 / 10)))) = .ok [.ok false] ∧
    (ReadFastA oob_zero sample_fasta_var []).bind
        (fun msa => (ChainToHits (fun _ => true) msa sample_chain_ten [] []).bind
          (fun p => (CalculateConservation oob_zero msa [[0]] p.2).map
            (fun res => res.map (fun r => (r.letter, r.consweight, ivar r.consweight))))) =
      .ok [(65, 1, some 0), (67, 1, some 0), (68, 1, some 0), (69, 1, some 0),
        (70, 1, some 0), (71, 1, some 0), (72, 1, some 0), (73, 1, some 0),
        (75, 1, some 0), (87, -2 / 3, some 166)] := by
  refine ⟨?_, by decide!, by decide!, by decide!⟩
  intro oob msa parts res res1 h hres r hr
  obtain ⟨b1, b2⟩ := CalculateConservation_bounds h
    (fun x hx => by rw [hres x hx]; norm_num) r hr
  exact ⟨b1, b2, ivar_bounds _ b1 b2⟩

/-! ## C30: the insertions counted by `CalculateVariability` -/

theorem count_indels_nins (chain pos : Nat) (gap : Bool) : ∀ (hits : List Hit)
    (st st1 : indel_state), count_indels chain pos gap hits st = .ok st1 →
    st1.nins = st.nins + (if gap then
      (hits.filter (fun h => decide (h.m_chain = chain) && marked_at pos h)).length else 0) := by
  intro hits
  induction hits with
  | nil =>
    intro st st1 h
    injection h with h
    subst h
    cases gap <;> simp
  | cons hit hits ih =>
    intro st st1 h
    unfold count_indels at h
    split at h
    · rename_i hne
      rw [ih _ _ h, List.filter_cons]
      simp [hne]
    · rename_i heq
      simp only [ne_eq, not_not] at heq
      split at h
      · cases h
      · rename_i deleted hdel
        split at h
        · cases h
        · rename_i inserted hins
          rw [ih _ _ h, List.filter_cons]
          cases gap with
          | false =>
            simp only [Bool.false_eq_true, if_false] at hins ⊢
            injection hins with hins
            subst hins
            simp
          | true =>
            simp only [if_true] at hins ⊢
            unfold marked_at
            cases hc : hit.m_seq.char_at pos with
            | error e => rw [hc] at hins; cases hins
            | ok c =>
              rw [hc] at hins
              injection hins with hins
              subst hins
              by_cases hm : 97 ≤ c ∧ c ≤ 121
              · simp [heq, hm]
                omega
              · simp [heq, hm]

/-- C30: when `CalculateVariability` returns for an entry with a valid letter, `nins` has
grown by the number of hits of the entry's chain that hold a character from `a` to `y`
at the column, if the column after it exists and holds a gap in the query row of the
first hit of the list, whatever chain that hit belongs to, and by nothing otherwise. Take
a chain `A` whose query has a gap in column 9, where its homolog has an insertion (the
homolog row gets `k` in column 8; identity 19/21), and a chain `B` with an identical
homolog (identity 1), which ranks first. The entry of column 8 of chain `A` gets `nins =
0`, although its own query row has a gap in column 9 and the hit of its chain holds `k`;
with the alignment of chain `A` alone it gets `nins = 1`. -/
theorem CalculateVariability_nins :
    (∀ (r r1 : ResidueHInfo) (hits : List Hit), r.CalculateVariability hits = .ok r1 →
      kResidueIX r.letter ≠ -1 →
      ∃ first rest, hits = first :: rest ∧
        r1.nins = r.nins + (if gap_follows first.m_qseq r.pos then
          (hits.filter (fun h => decide (h.m_chain = r.chain) && marked_at r.pos h)).length
          else 0)) ∧
    (sample_profile [(sample_fasta_ins, sample_chain_of 65 20),
        (sample_fasta_same, sample_chain_of 66 20)]).map
        (fun p => p.1.map (fun h => (h.m_seq.m_id, h.m_chain, h.m_nr))) =
      .ok [(str "HB", 66, 1), (str "HA", 65, 2)] ∧
    (sample_profile [(sample_fasta_ins, sample_chain_of 65 20),
        (sample_fasta_same, sample_chain_of 66 20)]).map
        (fun p => p.1.map (fun h => (h.m_seq.m_identical, h.m_seq.m_length))) =
      .ok [(20, 20), (19, 21)] ∧
    (sample_profile [(sample_fasta_ins, sample_chain_of 65 20),
        (sample_fasta_same, sample_chain_of 66 20)]).map
        (fun p => p.1.map (fun h => (h.m_seq.chars, h.m_qseq.chars))) =
      .ok [(str "ACDEFGHIKLMNPQRSTVWY", str "ACDEFGHIKLMNPQRSTVWY"),
        (str "ACDEFGHIkAlMNPQRSTVWY", str "ACDEFGHIK-LMNPQRSTVWY")] ∧
    (sample_profile [(sample_fasta_ins, sample_chain_of 65 20),
        (sample_fasta_same, sample_chain_of 66 20)]).map
        (fun p => ((p.2.drop 8).take 1).map (fun r => (r.letter, r.chain, r.pos,
          (r.CalculateVariability p.1).map (fun r1 => r1.nins)))) =
      .ok [(75, 65, 8, .ok 0)] ∧
    (sample_profile [(sample_fasta_ins, sample_chain_of 65 20)]).map
        (fun p => ((p.2.drop 8).take 1).map (fun r => (r.letter, r.chain, r.pos,
          (r.CalculateVariability p.1).map (fun r1 => r1.nins)))) =
      .ok [(75, 65, 8, .ok 1)] := by
  refine ⟨?_, by decide!, by decide!, by decide!, by decide!, by decide!⟩
  intro r r1 hits h hv
  unfold ResidueHInfo.CalculateVariability at h
  rw [if_pos hv] at h
  split at h
  · cases h
  · split at h
    · cases h
    · split at h
      · cases h
      · rename_i first rest _
        refine ⟨first, rest, rfl, ?_⟩
        split at h
        · cases h
        · rename_i gap hgap
          split at h
          · cases h
          · rename_i ind hind
            injection h with h
            subst h
            have := count_indels_nins _ _ _ _ _ _ hind
            have hg : gap_follows first.m_qseq r.pos = gap := by
              unfold gap_follows
              rw [hgap]
            rw [hg]
            exact this

/-! ## C29: the insertion records -/

theorem gsi_scan_find (data : Str) (b p0 x : Nat) (hx : data[p0]? = some x)
    (hg : is_gap x = false) (hb : b ≤ p0) : ∀ (p : Nat), p0 ≤ p →
    (∀ j, p0 < j → j ≤ p → ∃ c, data[j]? = some c ∧ is_gap c = true) →
    gsi_scan data b p = some p0 := by
  intro p
  induction p with
  | zero =>
    intro hp _
    have e : p0 = 0 := by omega
    subst e
    unfold gsi_scan
    rw [hx]
    simp [hg]
  | succ n ih =>
    intro hp hgaps
    unfold gsi_scan
    rcases Nat.lt_or_ge p0 (n + 1) with hlt | hge
    · obtain ⟨c, hc, hgc⟩ := hgaps (n + 1) hlt (Nat.le_refl _)
      rw [hc]
      simp only
      rw [if_pos ⟨by omega, hgc⟩]
      exact ih (by omega) (fun j h1 h2 => hgaps j h1 (by omega))
    · have e : p0 = n + 1 := by omega
      subst e
      rw [hx]
      simp [hg]

theorem non_gap_cons (b : Nat) (sB : Str) :
    non_gap (b :: sB) = if is_gap b then non_gap sB else b :: non_gap sB := by
  unfold non_gap
  rw [List.filter_cons]
  cases is_gap b <;> rfl

/-- Columns without a matched pair, gone through after an insertion was opened: the
residues of the row are added to the open record, and nothing else changes. -/
theorem insertion_phase (oob : Nat → Nat → Int) : ∀ (qB sB : Str),
    List.Forall₂ (fun a b => is_gap a = true ∨ is_gap b = true) qB sB →
    ∀ (i : Nat) (st st1 : update_state), st.qgapf = true →
    (∀ (k c : Nat), sB[k]? = some c → st.s.m_data[st.s.m_seq + i + k]? = some c) →
    update_loop oob qB i st = .ok st1 →
    st1.qgapf = true ∧ st1.ins.m_seq = st.ins.m_seq ++ non_gap sB ∧
      st1.s.m_data = st.s.m_data ∧ st1.s.m_insertions = st.s.m_insertions ∧
      st1.s.m_seq = st.s.m_seq := by
  intro qB sB hf
  induction hf with
  | nil =>
    intro i st st1 hq _ h
    injection h with h
    subst h
    exact ⟨hq, by simp [non_gap], rfl, rfl, rfl⟩
  | @cons a b qB sB hab _ ih =>
    intro i st st1 hq hwin h
    rw [update_loop_cons] at h
    have hd : st.s.m_data[st.s.m_seq + i]? = some b := hwin 0 b (by simp)
    have hwin1 : ∀ (st2 : update_state), st2.s.m_data = st.s.m_data → st2.s.m_seq = st.s.m_seq →
        ∀ (k c : Nat), sB[k]? = some c → st2.s.m_data[st2.s.m_seq + (i + 1) + k]? = some c := by
      intro st2 e1 e2 k c hk
      rw [e1, e2]
      have := hwin (k + 1) c (by simpa using hk)
      rw [← this]
      congr 1
      omega
    unfold update_column at h
    rw [hd] at h
    simp only [update_tail_eq] at h
    rw [non_gap_cons]
    by_cases hb : is_gap b = true
    · rw [if_pos hb]
      by_cases ha : is_gap a = true
      · simp only [ha, hb, Bool.and_self, if_true] at h
        exact ih (i + 1) st st1 hq (hwin1 st rfl rfl) h
      · simp only [ha, hb, Bool.false_and, Bool.false_eq_true, if_false, if_true] at h
        exact ih (i + 1) (deletion_column (count_length st)) st1 hq
          (hwin1 (deletion_column (count_length st)) rfl rfl) h
    · have ha : is_gap a = true := by
        rcases hab with h1 | h1
        · exact h1
        · exact absurd h1 hb
      rw [if_neg hb]
      simp only [ha, hb, Bool.and_false, Bool.false_eq_true, if_false, if_true] at h
      have ho : open_insertion i (count_length st) = .ok (count_length st) := by
        unfold open_insertion
        have : (count_length st).qgapf = true := hq
        rw [this]
        rfl
      rw [ho] at h
      simp only at h
      obtain ⟨k1, k2, k3, k4, k5⟩ := ih (i + 1)
        (compare_column oob a b i (insertion_column b (count_length st))) st1 rfl
        (hwin1 (compare_column oob a b i (insertion_column b (count_length st))) rfl rfl) h
      refine ⟨k1, ?_, k3, k4, k5⟩
      rw [k2]
      show (st.ins.m_seq ++ [b]) ++ non_gap sB = st.ins.m_seq ++ b :: non_gap sB
      simp

/-- Columns without a matched pair, gone through after a matched column: up to the first
residue of the row nothing changes; that residue opens an insertion record, which starts
with the lower-cased residue `x` before the columns (at `p0`, lower-cased in the row too)
and takes up the residues of the row. -/
theorem block_phase (oob : Nat → Nat → Int) : ∀ (qB sB : Str),
    List.Forall₂ (fun a b => is_gap a = true ∨ is_gap b = true) qB sB →
    ∀ (i : Nat) (st st1 : update_state) (p0 x : Nat), st.qgapf = false →
    st.s.m_seq ≤ p0 → p0 < st.s.m_seq + i → st.s.m_data[p0]? = some x → is_gap x = false →
    (∀ j, p0 < j → j < st.s.m_seq + i → ∃ c, st.s.m_data[j]? = some c ∧ is_gap c = true) →
    (∀ (k c : Nat), sB[k]? = some c → st.s.m_data[st.s.m_seq + i + k]? = some c) →
    update_loop oob qB i st = .ok st1 →
    st1.s.m_insertions = st.s.m_insertions ∧ st1.s.m_seq = st.s.m_seq ∧
      ((non_gap sB = [] ∧ st1.qgapf = false ∧ st1.s.m_data = st.s.m_data) ∨
       (non_gap sB ≠ [] ∧ st1.qgapf = true ∧ st1.ins.m_seq = tolower x :: non_gap sB ∧
          st1.s.m_data = st.s.m_data.set p0 (tolower x))) := by
  intro qB sB hf
  induction hf with
  | nil =>
    intro i st st1 p0 x hq _ _ _ _ _ _ h
    injection h with h
    subst h
    exact ⟨rfl, rfl, Or.inl ⟨rfl, hq, rfl⟩⟩
  | @cons a b qB sB hab hrest ih =>
    intro i st st1 p0 x hq hp0 hp1 hx hgx hgaps hwin h
    rw [update_loop_cons] at h
    have hd : st.s.m_data[st.s.m_seq + i]? = some b := hwin 0 b (by simp)
    have hwin1 : ∀ (k c : Nat), sB[k]? = some c →
        st.s.m_data[st.s.m_seq + (i + 1) + k]? = some c := by
      intro k c hk
      have := hwin (k + 1) c (by simpa using hk)
      rw [← this]
      congr 1
      omega
    unfold update_column at h
    rw [hd] at h
    simp only [update_tail_eq] at h
    rw [non_gap_cons]
    by_cases hb : is_gap b = true
    · rw [if_pos hb]
      have hgaps1 : ∀ j, p0 < j → j < st.s.m_seq + (i + 1) →
          ∃ c, st.s.m_data[j]? = some c ∧ is_gap c = true := by
        intro j h1 h2
        rcases Nat.lt_or_ge j (st.s.m_seq + i) with hlt | hge
        · exact hgaps j h1 hlt
        · have e : j = st.s.m_seq + i := by omega
          rw [e]
          exact ⟨b, hd, hb⟩
      by_cases ha : is_gap a = true
      · simp only [ha, hb, Bool.and_self, if_true] at h
        exact ih (i + 1) st st1 p0 x hq hp0 (by omega) hx hgx hgaps1 hwin1 h
      · simp only [ha, hb, Bool.false_and, Bool.false_eq_true, if_false, if_true] at h
        exact ih (i + 1) (deletion_column (count_length st)) st1 p0 x hq hp0
          (by show p0 < st.s.m_seq + (i + 1); omega) hx hgx hgaps1 hwin1 h
    · have ha : is_gap a = true := by
        rcases hab with h1 | h1
        · exact h1
        · exact absurd h1 hb
      rw [if_neg hb]
      simp only [ha, hb, Bool.and_false, Bool.false_eq_true, if_false, if_true] at h
      have hscan : gsi_scan st.s.m_data st.s.m_seq (st.s.m_seq + i - 1) = some p0 :=
        gsi_scan_find st.s.m_data st.s.m_seq p0 x hx hgx hp0 _ (by omega)
          (fun j h1 h2 => hgaps j h1 (by omega))
      have e3 : st.s.m_data.getD p0 0 = x := by
        rw [List.getD_eq_getElem?_getD, hx]
        rfl
      have ho : ∃ st2, open_insertion i (count_length st) = .ok st2 ∧ st2.qgapf = false ∧
          st2.ins.m_seq = [tolower x] ∧ st2.s.m_data = st.s.m_data.set p0 (tolower x) ∧
          st2.s.m_seq = st.s.m_seq ∧ st2.s.m_insertions = st.s.m_insertions := by
        unfold open_insertion
        have e1 : (!(count_length st).qgapf) = true := by
          show (!st.qgapf) = true
          rw [hq]
          rfl
        have e2 : ¬ ((count_length st).s.m_seq + i = 0) := by
          show ¬ (st.s.m_seq + i = 0)
          omega
        have hscan1 : gsi_scan (count_length st).s.m_data (count_length st).s.m_seq
            ((count_length st).s.m_seq + i - 1) = some p0 := hscan
        rw [if_pos e1, if_neg e2, hscan1]
        refine ⟨_, rfl, hq, ?_, ?_, rfl, rfl⟩
        · show [tolower (st.s.m_data.getD p0 0)] = [tolower x]
          rw [e3]
        · show st.s.m_data.set p0 (tolower (st.s.m_data.getD p0 0)) = _
          rw [e3]
      obtain ⟨st2, ho, o1, o2, o3, o4, o5⟩ := ho
      rw [ho] at h
      simp only at h
      obtain ⟨k1, k2, k3, k4, k5⟩ := insertion_phase oob qB sB hrest (i + 1)
        (compare_column oob a b i (insertion_column b st2)) st1 rfl
        (by
          intro k c hk
          show st2.s.m_data[st2.s.m_seq + (i + 1) + k]? = some c
          rw [o3, o4, List.getElem?_set_ne (by omega)]
          exact hwin1 k c hk) h
      refine ⟨k4.trans o5, k5.trans o4, Or.inr ⟨by simp, k1, ?_, k3.trans o3⟩⟩
      rw [k2]
      show (st2.ins.m_seq ++ [b]) ++ non_gap sB = _
      rw [o2]
      rfl

/-- What a matched column leaves: no insertion is open, and the residue of the row at
the column is what it was up to case. -/
theorem matched_column_state {oob : Nat → Nat → Int} {qc i sc : Nat} {st st1 : update_state}
    (hr : st.s.m_data[st.s.m_seq + i]? = some sc) (hq : is_gap qc = false)
    (hs : is_gap sc = false) (h : update_column oob qc i st = .ok st1) :
    st1.qgapf = false ∧ st1.s.m_seq = st.s.m_seq ∧
      (∃ x, st1.s.m_data[st.s.m_seq + i]? = some x ∧ case_variant sc x) ∧
      ∀ j, j ≠ st.s.m_seq + i → st1.s.m_data[j]? = st.s.m_data[j]? := by
  rw [update_column_matched oob hr hq hs] at h
  injection h with h
  subst h
  have hlt : st.s.m_seq + i < st.s.m_data.length := (List.getElem?_eq_some_iff.1 hr).1
  refine ⟨rfl, ?_, ?_, ?_⟩
  · show (close_insertion sc i (count_length st)).s.m_seq = st.s.m_seq
    exact (close_insertion_frame sc i (count_length st)).1
  · show ∃ x, (close_insertion sc i (count_length st)).s.m_data[st.s.m_seq + i]? = some x ∧ _
    unfold close_insertion
    split
    · refine ⟨tolower sc, ?_, Or.inr rfl⟩
      show (st.s.m_data.set (st.s.m_seq + i) (tolower sc))[st.s.m_seq + i]? = _
      rw [List.getElem?_set_self hlt]
    · exact ⟨sc, hr, Or.inl rfl⟩
  · intro j hj
    show (close_insertion sc i (count_length st)).s.m_data[j]? = st.s.m_data[j]?
    unfold close_insertion
    split
    · show (st.s.m_data.set (st.s.m_seq + i) (tolower sc))[j]? = _
      rw [List.getElem?_set_ne (fun e => hj e.symm)]
    · rfl

/-- A matched column that follows an open insertion closes it: the record gets the
lower-cased residue of the column and is appended to the list, and the residue is
lower-cased in the row. -/
theorem closing_column {oob : Nat → Nat → Int} {qc i sc : Nat} {st st1 : update_state}
    (hr : st.s.m_data[st.s.m_seq + i]? = some sc) (hq : is_gap qc = false)
    (hs : is_gap sc = false) (hqf : st.qgapf = true)
    (h : update_column oob qc i st = .ok st1) :
    st1.s.m_insertions = st.s.m_insertions ++
        [{ st.ins with m_seq := st.ins.m_seq ++ [tolower sc] }] ∧
      st1.s.m_data = st.s.m_data.set (st.s.m_seq + i) (tolower sc) ∧
      st1.s.m_seq = st.s.m_seq := by
  rw [update_column_matched oob hr hq hs] at h
  injection h with h
  subst h
  have hc : (count_length st).qgapf = true := hqf
  refine ⟨?_, ?_, ?_⟩
  · show (close_insertion sc i (count_length st)).s.m_insertions = _
    unfold close_insertion
    rw [if_pos hc]
    rfl
  · show (close_insertion sc i (count_length st)).s.m_data = _
    unfold close_insertion
    rw [if_pos hc]
    rfl
  · exact (close_insertion_frame sc i (count_length st)).1

theorem update_column_insertions {oob : Nat → Nat → Int} {qc i : Nat} {st st1 : update_state}
    (h : update_column oob qc i st = .ok st1) :
    ∃ l, st1.s.m_insertions = st.s.m_insertions ++ l := by
  obtain ⟨sc, -, h | h | h | h⟩ := update_column_cases h
  · obtain ⟨-, -, rfl⟩ := h; exact ⟨[], by simp⟩
  · obtain ⟨-, -, rfl⟩ := h; exact ⟨[], by simp⟩
  · obtain ⟨-, -, st2, hst2, rfl⟩ := h
    refine ⟨[], ?_⟩
    show st2.s.m_insertions = st.s.m_insertions ++ []
    rw [List.append_nil]
    unfold open_insertion at hst2
    split at hst2
    · split at hst2
      · cases hst2
      · split at hst2
        · cases hst2
        · injection hst2 with hst2; subst hst2; rfl
    · injection hst2 with hst2; subst hst2; rfl
  · obtain ⟨-, -, rfl⟩ := h
    show ∃ l, (close_insertion sc i (count_length st)).s.m_insertions = st.s.m_insertions ++ l
    unfold close_insertion
    split
    · exact ⟨_, rfl⟩
    · exact ⟨[], by simp⟩

theorem update_loop_insertions {oob : Nat → Nat → Int} (qs : Str) :
    ∀ (i : Nat) (st st1 : update_state), update_loop oob qs i st = .ok st1 →
      ∃ l, st1.s.m_insertions = st.s.m_insertions ++ l := by
  induction qs with
  | nil => intro i st st1 h; injection h with h; subst h; exact ⟨[], by simp⟩
  | cons qc qs ih =>
    intro i st st1 h
    rw [update_loop_cons] at h
    cases hc : update_column oob qc i st with
    | error e => rw [hc] at h; cases h
    | ok st2 =>
      rw [hc] at h
      obtain ⟨l1, h1⟩ := update_column_insertions hc
      obtain ⟨l2, h2⟩ := ih (i + 1) st2 st1 h
      exact ⟨l1 ++ l2, by rw [h2, h1, List.append_assoc]⟩

theorem update_column_variant {oob : Nat → Nat → Int} {data0 : Str} {qc i : Nat}
    {st st1 : update_state} (h : update_column oob qc i st = .ok st1)
    (hv : ∀ (j c : Nat), data0[j]? = some c →
      ∃ c1, st.s.m_data[j]? = some c1 ∧ case_variant c c1) :
    ∀ (j c : Nat), data0[j]? = some c →
      ∃ c1, st1.s.m_data[j]? = some c1 ∧ case_variant c c1 := by
  obtain ⟨sc, hsc, h | h | h | h⟩ := update_column_cases h
  · obtain ⟨-, -, rfl⟩ := h; exact hv
  · obtain ⟨-, -, rfl⟩ := h; exact hv
  · obtain ⟨-, -, st2, hst2, rfl⟩ := h
    exact (open_insertion_variant hst2 hv : ∀ (j c : Nat), data0[j]? = some c →
      ∃ c1, st2.s.m_data[j]? = some c1 ∧ case_variant c c1)
  · obtain ⟨-, -, rfl⟩ := h
    exact close_insertion_variant (count_length st) hsc hv

theorem update_loop_variant {oob : Nat → Nat → Int} (data0 : Str) (qs : Str) :
    ∀ (i : Nat) (st st1 : update_state), update_loop oob qs i st = .ok st1 →
      (∀ (j c : Nat), data0[j]? = some c →
        ∃ c1, st.s.m_data[j]? = some c1 ∧ case_variant c c1) →
      ∀ (j c : Nat), data0[j]? = some c →
        ∃ c1, st1.s.m_data[j]? = some c1 ∧ case_variant c c1 := by
  induction qs with
  | nil => intro i st st1 h hv; injection h with h; subst h; exact hv
  | cons qc qs ih =>
    intro i st st1 h hv
    rw [update_loop_cons] at h
    cases hc : update_column oob qc i st with
    | error e => rw [hc] at h; cases h
    | ok st2 =>
      rw [hc] at h
      exact ih (i + 1) st2 st1 h (update_column_variant hc hv)

theorem update_finish_insertions {t s1 : seq} (h : update_finish t = .ok s1) :
    s1.m_insertions = t.m_insertions := by
  unfold update_finish at h
  split at h
  · injection h with h; subst h; rfl
  · split at h
    · cases h
    · split at h
      · cases h
      · split at h
        · cases h
        · injection h with h; subst h; rfl

theorem variant_tolower {c c1 : Nat} (h : case_variant c c1) : tolower c1 = tolower c := by
  rcases h with h | h
  · rw [h]
  · rw [h, tolower_idem]

theorem variant_of_lower {c c1 : Nat} (h : case_variant (tolower c) c1) : c1 = tolower c := by
  rcases h with h | h
  · exact h
  · rw [h, tolower_idem]

/-- C29, as stated, fails when a deletion separates two insertion runs: the state of an
open insertion is only reset by a matched column. For the query `A-C-E` and the homolog
`AD-FE` the insertion `F` in column 3 is preceded by the residue `D` and followed by the
matched column 4, but `update` appends no record `dFe` for it: the only record is `aDFe`
(at query position 2, homolog position 2, `Len` 2), and the `D` in the row stays
upper-case. -/
theorem update_insertion_counterexample :
    (seq.update oob_zero sample_block_query sample_block_row).map
        (fun r => (r.chars, r.m_insertions)) =
      .ok (str "aD.Fe", [{ m_ipos := 2, m_jpos := 2, m_seq := str "aDFe" }]) := by
  rfl

/-- C29, amended: take a stretch of columns between two matched columns that holds no
matched column and at least one residue of the homolog (a residue there stands opposite a
gap of the query: an insertion column). `update` returns when the homolog has no residue
opposite a gap of the query in column 0, and whenever it returns, it has appended exactly
one insertion record while going over the stretch and the matched column behind it: the
lower-cased residue of the matched column before the stretch, the residues of the
stretch in order, and the lower-cased residue of the matched column behind it, so that
its length minus 2 is the number of residues in the stretch; the two flanking residues
are lower-case in the row that `update` leaves. -/
theorem update_insertion_record (oob : Nat → Nat → Int) (qseq s : seq)
    (qP sP qB sB qR sR : Str) (qm sm qc sc : Nat)
    (hqs : qseq.m_seq + qseq.m_size ≤ qseq.m_data.length)
    (hs : s.m_seq + s.m_size ≤ s.m_data.length)
    (hw : s.m_size = qseq.m_size) (hlt : s.m_size < 2 ^ 32)
    (hq : qseq.chars = (qP ++ [qm]) ++ ((qB ++ [qc]) ++ qR))
    (hsr : s.chars = (sP ++ [sm]) ++ ((sB ++ [sc]) ++ sR))
    (hP : qP.length = sP.length)
    (hm : is_gap qm = false ∧ is_gap sm = false)
    (hblock : List.Forall₂ (fun a b => is_gap a = true ∨ is_gap b = true) qB sB)
    (hins : non_gap sB ≠ [])
    (hc : is_gap qc = false ∧ is_gap sc = false) :
    (starts_aligned qseq s → ∃ s1, seq.update oob qseq s = .ok s1) ∧
    ∀ s1, seq.update oob qseq s = .ok s1 →
      ∃ (st0 st1 : update_state) (rec : insertion) (l : List insertion),
        update_loop oob (qP ++ [qm]) 0 (update_init s) = .ok st0 ∧
        update_loop oob (qB ++ [qc]) (qP.length + 1) st0 = .ok st1 ∧
        st1.s.m_insertions = st0.s.m_insertions ++ [rec] ∧
        s1.m_insertions = st0.s.m_insertions ++ rec :: l ∧
        rec.m_seq = tolower sm :: (non_gap sB ++ [tolower sc]) ∧
        rec.m_seq.length - 2 = (non_gap sB).length ∧
        s1.chars[qP.length]? = some (tolower sm) ∧
        s1.chars[qP.length + 1 + qB.length]? = some (tolower sc) := by
  refine ⟨update_ok0 oob qseq s hqs hs hw, ?_⟩
  intro s1 h
  have hB : qB.length = sB.length := hblock.length_eq
  have hmax : UINT32_MAX = 2 ^ 32 - 1 := rfl
  -- the characters of the row on entry
  have hclen : s.chars.length = s.m_size := chars_length hs
  have hslen : sP.length + 1 + sB.length + 1 + sR.length = s.m_size := by
    rw [← hclen, hsr]
    simp only [List.length_append, List.length_cons, List.length_nil]
    omega
  have hd : ∀ (k c : Nat), s.chars[k]? = some c → s.m_data[s.m_seq + k]? = some c := by
    intro k c hk
    rw [← chars_getElem? s k (chars_getElem?_lt hk)]
    exact hk
  have hdm : s.m_data[s.m_seq + qP.length]? = some sm := by
    apply hd
    rw [hsr, List.getElem?_append_left (by simp; omega),
      List.getElem?_append_right (by omega), hP]
    simp
  have hdB : ∀ (k c : Nat), sB[k]? = some c →
      s.m_data[s.m_seq + (qP.length + 1) + k]? = some c := by
    intro k c hk
    have hklt : k < sB.length := (List.getElem?_eq_some_iff.1 hk).1
    have e : s.m_seq + (qP.length + 1) + k = s.m_seq + (qP.length + 1 + k) := by omega
    rw [e]
    apply hd
    rw [hsr, List.getElem?_append_right (by simp; omega),
      List.getElem?_append_left (by simp; omega),
      List.getElem?_append_left (by simp; omega)]
    simp only [List.length_append, List.length_cons, List.length_nil]
    have e2 : qP.length + 1 + k - (sP.length + (0 + 1)) = k := by omega
    rw [e2]
    exact hk
  have hdc : s.m_data[s.m_seq + (qP.length + 1 + qB.length)]? = some sc := by
    apply hd
    rw [hsr, List.getElem?_append_right (by simp; omega),
      List.getElem?_append_left (by simp; omega),
      List.getElem?_append_right (by simp; omega)]
    simp only [List.length_append, List.length_cons, List.length_nil]
    have e2 : qP.length + 1 + qB.length - (sP.length + (0 + 1)) - sB.length = 0 := by omega
    rw [e2]
    rfl
  -- the loop, in its three parts
  unfold seq.update at h
  rw [if_neg (by omega)] at h
  cases hl : update_loop oob qseq.chars 0 (update_init s) with
  | error e => rw [hl] at h; cases h
  | ok st2 =>
    rw [hl] at h
    simp only at h
    have hl0 := hl
    rw [hq, update_loop_append] at hl
    cases h0 : update_loop oob (qP ++ [qm]) 0 (update_init s) with
    | error e => rw [h0] at hl; cases hl
    | ok st0 =>
      rw [h0] at hl
      simp only at hl
      rw [update_loop_append] at hl
      have e1 : 0 + (qP ++ [qm]).length = qP.length + 1 := by simp
      rw [e1] at hl
      cases h1 : update_loop oob (qB ++ [qc]) (qP.length + 1) st0 with
      | error e => rw [h1] at hl; cases hl
      | ok st1 =>
        rw [h1] at hl
        simp only at hl
        -- the matched column before the stretch
        have h0a := h0
        rw [update_loop_append] at h0a
        cases hp : update_loop oob qP 0 (update_init s) with
        | error e => rw [hp] at h0a; cases h0a
        | ok stP =>
          rw [hp] at h0a
          simp only [Nat.zero_add] at h0a
          rw [update_loop_cons] at h0a
          cases hcm : update_column oob qm qP.length stP with
          | error e => rw [hcm] at h0a; cases h0a
          | ok stM =>
            rw [hcm] at h0a
            injection h0a with h0a
            subst h0a
            obtain ⟨fp1, fp2, fp3, -⟩ := update_loop_frame _ 0 _ _ hp
            have fp1 : stP.s.m_seq = s.m_seq := fp1
            have fp3 : ∀ j, s.m_seq + qP.length ≤ j → stP.s.m_data[j]? = s.m_data[j]? := by
              intro j hj
              exact fp3 j (by show s.m_seq + 0 + qP.length ≤ j; omega)
            have hrm : stP.s.m_data[stP.s.m_seq + qP.length]? = some sm := by
              rw [fp1, fp3 _ (Nat.le_refl _)]
              exact hdm
            obtain ⟨m1, m2, ⟨x, m3, m4⟩, m5⟩ := matched_column_state hrm hm.1 hm.2 hcm
            rw [fp1] at m2 m3 m5
            have hgx : is_gap x = false := by rw [case_variant_gap m4]; exact hm.2
            have hst0 : ∀ j, s.m_seq + qP.length < j → stM.s.m_data[j]? = s.m_data[j]? := by
              intro j hj
              rw [m5 j (by omega), fp3 j (by omega)]
            -- the stretch
            have h1a := h1
            rw [update_loop_append] at h1
            cases hb : update_loop oob qB (qP.length + 1) stM with
            | error e => rw [hb] at h1; cases h1
            | ok stB =>
              rw [hb] at h1
              simp only at h1
              rw [update_loop_cons] at h1
              cases hcc : update_column oob qc (qP.length + 1 + qB.length) stB with
              | error e => rw [hcc] at h1; cases h1
              | ok stC =>
                rw [hcc] at h1
                injection h1 with h1
                subst h1
                obtain ⟨b1, b2, b3⟩ := block_phase oob qB sB hblock (qP.length + 1) stM stB
                  (s.m_seq + qP.length) x m1 (by rw [m2]; omega) (by rw [m2]; omega) m3 hgx
                  (fun j h1 h2 => by rw [m2] at h2; omega)
                  (fun k c hk => by
                    rw [m2, hst0 _ (by omega)]
                    exact hdB k c hk) hb
                rcases b3 with ⟨b3, -⟩ | ⟨-, b4, b5, b6⟩
                · exact absurd b3 hins
                · rw [m2] at b2
                  have hp0lt : s.m_seq + qP.length < stM.s.m_data.length :=
                    (List.getElem?_eq_some_iff.1 m3).1
                  have hrc : stB.s.m_data[stB.s.m_seq + (qP.length + 1 + qB.length)]? =
                      some sc := by
                    rw [b2, b6, List.getElem?_set_ne (by omega), hst0 _ (by omega)]
                    exact hdc
                  obtain ⟨c1, c2, c3⟩ := closing_column hrc hc.1 hc.2 b4 hcc
                  rw [b2] at c2 c3
                  -- the columns behind the stretch
                  have e2 : qP.length + 1 + (qB ++ [qc]).length =
                      qP.length + 1 + qB.length + 1 := by simp; omega
                  rw [e2] at hl
                  obtain ⟨l, hl2⟩ := update_loop_insertions _ _ _ _ hl
                  have hv := update_loop_variant stC.s.m_data qR _ _ _ hl
                    (fun j c hj => ⟨c, hj, Or.inl rfl⟩)
                  have hfm : stC.s.m_data[s.m_seq + qP.length]? = some (tolower sm) := by
                    rw [c2, List.getElem?_set_ne (by omega), b6,
                      List.getElem?_set_self hp0lt, variant_tolower m4]
                  have hclt : s.m_seq + (qP.length + 1 + qB.length) < stB.s.m_data.length := by
                    have := (List.getElem?_eq_some_iff.1 hrc).1
                    rw [b2] at this
                    exact this
                  have hfc : stC.s.m_data[s.m_seq + (qP.length + 1 + qB.length)]? =
                      some (tolower sc) := by
                    rw [c2, List.getElem?_set_self hclt]
                  obtain ⟨y1, hy1, hy2⟩ := hv _ _ hfm
                  obtain ⟨y2, hy3, hy4⟩ := hv _ _ hfc
                  rw [variant_of_lower hy2] at hy1
                  rw [variant_of_lower hy4] at hy3
                  -- the row that `update` returns
                  have hqlen : qseq.chars.length = s.m_size := by
                    rw [chars_length hqs, hw]
                  have hinit : span_inv 0 (update_init s).s := ⟨Or.inl rfl, Nat.le_refl 0⟩
                  have hinv0 : letters_inv s.m_data s.m_seq 0 (update_init s) :=
                    ⟨fun j c hj => ⟨c, hj, Or.inl rfl⟩,
                      fun j c hj => absurd hj (Nat.not_lt_zero j)⟩
                  obtain ⟨-, hcov⟩ := update_loop_letters s.m_data s.m_seq qseq.chars 0
                    (update_init s) st2 hl0 rfl (by rw [hqlen]; omega) hinit hinv0
                  rw [Nat.zero_add, hqlen] at hcov
                  obtain ⟨f1, f2, -, -⟩ := update_loop_frame _ 0 _ _ hl0
                  have f1 : st2.s.m_seq = s.m_seq := f1
                  have f2 : st2.s.m_data.length = s.m_data.length := f2
                  have f3 : st2.s.m_size = s.m_size := (update_loop_span _ 0 _ _ hl0 hinit).2
                  have hstb : st2.s.m_seq + st2.s.m_size ≤ st2.s.m_data.length := by omega
                  obtain ⟨-, e2⟩ := update_finish_chars h hstb
                  have hchar : ∀ (j c0 c : Nat), j < s.m_size →
                      s.m_data[s.m_seq + j]? = some c0 → is_gap c0 = false →
                      st2.s.m_data[s.m_seq + j]? = some c → is_gap c = false →
                      s1.chars[j]? = some c := by
                    intro j c0 c hj hc0 hg0 hcj hgc
                    obtain ⟨k1, k2, k3⟩ := hcov j c0 hj hc0 hg0
                    rw [e2 k1, normalize_getElem?, chars_getElem? st2.s j (by omega), f1, hcj]
                    simp only [Option.map_some', Nat.zero_add]
                    rw [if_neg (by omega), if_neg (by rw [hgc]; simp)]
                  refine ⟨stM, stC, { stB.ins with m_seq := stB.ins.m_seq ++ [tolower sc] }, l,
                    rfl, h1a, by rw [c1, b1], ?_, ?_, ?_, ?_, ?_⟩
                  · rw [update_finish_insertions h, hl2, c1, b1, List.append_assoc]
                    rfl
                  · show stB.ins.m_seq ++ [tolower sc] = _
                    rw [b5, variant_tolower m4]
                    rfl
                  · show (stB.ins.m_seq ++ [tolower sc]).length - 2 = _
                    rw [b5]
                    simp
                  · exact hchar _ sm _ (by omega) hdm hm.2 hy1
                      (by rw [is_gap_tolower]; exact hm.2)
                  · exact hchar _ sc _ (by omega) hdc hc.2 hy3
                      (by rw [is_gap_tolower]; exact hc.2)

theorem update_insertion_record_witness :
    (starts_aligned sample_block_query sample_block_row →
      ∃ s1, seq.update oob_zero sample_block_query sample_block_row = .ok s1) ∧
    ∀ s1, seq.update oob_zero sample_block_query sample_block_row = .ok s1 →
      ∃ (st0 st1 : update_state) (rec : insertion) (l : List insertion),
        update_loop oob_zero ([] ++ [65]) 0 (update_init sample_block_row) = .ok st0 ∧
        update_loop oob_zero (str "-C-" ++ [69]) (([] : Str).length + 1) st0 = .ok st1 ∧
        st1.s.m_insertions = st0.s.m_insertions ++ [rec] ∧
        s1.m_insertions = st0.s.m_insertions ++ rec :: l ∧
        rec.m_seq = tolower 65 :: (non_gap (str "D-F") ++ [tolower 69]) ∧
        rec.m_seq.length - 2 = (non_gap (str "D-F")).length ∧
        s1.chars[([] : Str).length]? = some (tolower 65) ∧
        s1.chars[([] : Str).length + 1 + (str "-C-").length]? = some (tolower 69) :=
  update_insertion_record oob_zero sample_block_query sample_block_row [] [] (str "-C-")
    (str "D-F") [] [] 65 65 69 69 (by decide) (by decide) rfl (by decide) rfl rfl rfl
    ⟨rfl, rfl⟩
    (List.Forall₂.cons (Or.inl rfl) (List.Forall₂.cons (Or.inr rfl)
      (List.Forall₂.cons (Or.inl rfl) List.Forall₂.nil)))
    (by decide) ⟨rfl, rfl⟩

/-! ## C40: the residue index map -/

theorem kResidueIX_mod (c : Nat) : kResidueIX c = kResidueIX (c % 256) := by
  unfold kResidueIX
  rw [Nat.mod_mod]

/-- C40: the table `kResidueIX` gives each of the 20 letters of the header of the sequence
profile table, in the order `V L I M F W Y G A P S T C H R K Q E N D`, the index of its
column (0 to 19), and the lower-case letter the same index; every other byte has the
index -1 or -2, and the index is -2 for the bytes `' '`, `'-'`, `'.'`, `'_'` and `0x7F`
and no other, so these are the bytes for which `is_gap` holds. -/
theorem kResidueIX_table :
    profile_letters.length = 20 ∧
    (∀ k : Nat, k < 20 → ∃ c, profile_letters[k]? = some c ∧ 65 ≤ c ∧ c ≤ 90 ∧
      tolower c = c + 32 ∧ kResidueIX c = (k : Int) ∧ kResidueIX (tolower c) = (k : Int)) ∧
    (∀ c, c % 256 ∉ profile_letters → c % 256 ∉ profile_letters.map tolower →
      kResidueIX c = -1 ∨ kResidueIX c = -2) ∧
    (∀ c, (c % 256 ∈ profile_letters ∨ c % 256 ∈ profile_letters.map tolower) →
      0 ≤ kResidueIX c ∧ kResidueIX c < 20) ∧
    (∀ c, kResidueIX c = -2 ↔ c % 256 ∈ [32, 45, 46, 95, 127]) ∧
    (∀ c, is_gap c = true ↔ c % 256 ∈ [32, 45, 46, 95, 127]) := by
  have hlt : ∀ c : Nat, c % 256 < 256 := fun c => Nat.mod_lt c (by norm_num)
  have h2 : ∀ c, c < 256 → c ∉ profile_letters → c ∉ profile_letters.map tolower →
      kResidueIX c = -1 ∨ kResidueIX c = -2 := by
    set_option maxRecDepth 100000 in decide
  have h3 : ∀ c, c < 256 → (c ∈ profile_letters ∨ c ∈ profile_letters.map tolower) →
      0 ≤ kResidueIX c ∧ kResidueIX c < 20 := by
    set_option maxRecDepth 100000 in decide
  have h4 : ∀ c, c < 256 → (kResidueIX c = -2 ↔ c ∈ [32, 45, 46, 95, 127]) := by
    set_option maxRecDepth 100000 in decide
  refine ⟨rfl, ?_, ?_, ?_, ?_, ?_⟩
  · intro k hk
    interval_cases k <;> exact ⟨_, rfl, by decide⟩
  · intro c a b
    rw [kResidueIX_mod]
    exact h2 _ (hlt c) a b
  · intro c a
    rw [kResidueIX_mod]
    exact h3 _ (hlt c) a
  · intro c
    rw [kResidueIX_mod]
    exact h4 _ (hlt c)
  · intro c
    unfold is_gap
    rw [kResidueIX_mod, beq_iff_eq]
    exact h4 _ (hlt c)

/-! ## C39: the capacity of a row that grows by `append` -/

theorem seq_impl_holds (id : Str) : holds id [] (seq_impl id) :=
  ⟨⟨rfl, rfl, rfl, rfl, by show (0 : Nat) < 2 ^ 32; norm_num⟩,
    ⟨Nat.le_refl _, Or.inl rfl, by show (0 : Nat) ≤ max 1024 (2 * 0); omega⟩, rfl, rfl⟩

theorem append_calls_cons (s : seq) (text : Str) (rest : List Str) :
    append_calls s (text :: rest) =
      match s.append text with
      | .error e => .error e
      | .ok s1 => append_calls s1 rest := rfl

theorem append_calls_holds (id : Str) (frags : List Str) :
    ∀ (text : Str) (s : seq), holds id text s → (∀ t ∈ frags, t.length ≤ 1024) →
      text.length + frags.flatten.length < 2 ^ 30 →
      ∃ s1, append_calls s frags = .ok s1 ∧ holds id (text ++ frags.flatten) s1 := by
  induction frags with
  | nil =>
    intro text s h _ _
    exact ⟨s, rfl, by simpa using h⟩
  | cons t rest ih =>
    intro text s h hl hw
    rw [List.flatten_cons, List.length_append] at hw
    obtain ⟨s1, h1, h2⟩ := append_holds t h (Or.inr (hl t (List.mem_cons_self _ _)))
      (by omega)
    obtain ⟨s2, h3, h4⟩ := ih (text ++ t) s1 h2
      (fun u hu => hl u (List.mem_cons_of_mem _ hu)) (by rw [List.length_append]; omega)
    refine ⟨s2, ?_, ?_⟩
    · show (match s.append t with
        | Except.error e => Except.error e
        | Except.ok s1 => append_calls s1 rest) = _
      rw [h1]
      exact h3
    · rw [List.flatten_cons, ← List.append_assoc]
      exact h4

theorem append_overflow (s : seq) (text : Str)
    (hd : s.m_data.length = s.m_size) (hs : s.m_size ≤ s.m_space) (hp : 0 < s.m_space)
    (h31 : s.m_space < 2 ^ 31) (hl : text.length ≤ 2 * s.m_space)
    (hb : 2 * s.m_space < s.m_size + text.length) : s.append text = .error .memory := by
  have hn : new_space s text.length = s.m_space * 2 := by
    have hne : ¬ s.m_space = 0 := by omega
    unfold new_space
    rw [if_neg hne, Nat.mod_eq_of_lt (by omega), if_neg (by omega)]
  unfold seq.append seq.reserve
  rw [if_pos (by omega), hn, if_neg (by omega)]
  simp only
  unfold seq.write
  simp only []
  rw [if_pos (by omega)]

/-- C39: calls of `seq::append` from an empty buffer on keep `size <= space` and store
the concatenation of the texts when no text has more than 1024 characters (two blocks);
a longer text can be copied past the end of the storage, because a full buffer grows to
twice its capacity, or to the length of the new text if that is more, and not to the
size that the row will have: a text of at most twice the capacity that does not fit next
to the content is written past the end, as is a text of 2048 characters appended to a
row of one character. -/
theorem append_capacity :
    (∀ (id : Str) (frags : List Str), (∀ t ∈ frags, t.length ≤ 1024) →
      frags.flatten.length < 2 ^ 30 →
      ∃ s1, append_calls (seq_impl id) frags = .ok s1 ∧ s1.m_size ≤ s1.m_space ∧
        s1.m_size = frags.flatten.length ∧ s1.chars = frags.flatten) ∧
    (∀ (s : seq) (text : Str), s.m_data.length = s.m_size →
      s.m_size ≤ s.m_space → 0 < s.m_space → s.m_space < 2 ^ 31 →
      text.length ≤ 2 * s.m_space → 2 * s.m_space < s.m_size + text.length →
      s.append text = .error .memory) ∧
    (append_calls (seq_impl (str "Q")) [str "A"]).map
        (fun s => (s.m_data, s.m_size, s.m_space)) = .ok (str "A", 1, 1024) ∧
    append_calls (seq_impl (str "Q")) [str "A", List.replicate 2048 65] =
      .error .memory := by
  refine ⟨?_, append_overflow, rfl, ?_⟩
  · intro id frags hl hw
    obtain ⟨s1, h1, h2⟩ := append_calls_holds id frags [] (seq_impl id) (seq_impl_holds id) hl
      (by simpa using hw)
    obtain ⟨⟨p1, p2, p3, p4, p5⟩, ⟨c1, c2, c3⟩, hid, hdat⟩ := h2
    rw [List.nil_append] at hdat
    refine ⟨s1, h1, c1, by rw [← p2, hdat], ?_⟩
    unfold seq.chars
    rw [p1, List.drop_zero, ← p2, List.take_length, hdat]
  · have h1 : (seq_impl (str "Q")).append (str "A") = .ok
        { seq_impl (str "Q") with
          m_data := str "A", m_size := 1, m_end := 1, m_space := 1024 } := rfl
    have h2 := append_overflow
      { seq_impl (str "Q") with m_data := str "A", m_size := 1, m_end := 1, m_space := 1024 }
      (List.replicate 2048 65) rfl (by decide) (by decide) (by decide)
      (by rw [List.length_replicate]; decide) (by rw [List.length_replicate]; decide)
    rw [append_calls_cons, h1]
    simp only []
    rw [append_calls_cons, h2]

/-! ## C38: the conservation weight is at most 1 -/

/-- C38: the conservation weight that `CalculateConservation` gives an entry, in exact
arithmetic, is at most 1, so `100 * (1 - weight)` is not negative: for every pair of
rows `agr <= len`, so the distance `1 - agr / len` is not negative, no entry of the
similarity matrix exceeds 1.5, and so in every column `sumdist` is not negative and
`sumvar` is at most `sumdist`. -/
theorem conservation_weight_le_one (oob : Nat → Nat → Int) (msa : mseq)
    (parts : List (List Nat)) (res res1 : List ResidueHInfo)
    (h : CalculateConservation oob msa parts res = .ok res1)
    (hres : ∀ r ∈ res, r.consweight = 1) :
    (∀ r ∈ res1, r.consweight ≤ 1 ∧ 0 ≤ 100 * (1 - r.consweight)) ∧
    (∃ sumvar sumdist, conservation_sums oob msa parts = .ok (sumvar, sumdist) ∧
      sumvar.length = sumdist.length ∧
      ∀ (k : Nat) (sv sd : ℚ), sumvar[k]? = some sv → sumdist[k]? = some sd →
        0 ≤ sd ∧ sv ≤ sd ∧ column_weight sv sd ≤ 1) ∧
    (∀ (i j : Nat), i < 20 → j < 20 → (kD oob i j : ℚ) / 10 ≤ 3 / 2) ∧
    (∀ (si sj : seq) (ks : List Nat) (simval : List ℚ) (p : pair_state),
      compare_rows oob si sj ks { simval := simval, len := 0, agr := 0 } = .ok p →
      simval_bounds simval →
      (∀ v ∈ p.simval, v ≤ 3 / 2) ∧ p.agr ≤ p.len ∧
        (0 < p.len → 0 ≤ 1 - (p.agr : ℚ) / (p.len : ℚ))) := by
  refine ⟨?_, ?_, ?_, ?_⟩
  · intro r hr
    have hb := CalculateConservation_bounds h (fun r hr => by rw [hres r hr]; norm_num) r hr
    exact ⟨hb.2, by linarith [hb.2]⟩
  · unfold CalculateConservation at h
    cases msa with
    | nil => simp at h
    | cons s rest =>
      simp only at h
      cases hs : conservation_sums oob (s :: rest) parts with
      | error e => rw [hs] at h; simp at h
      | ok sums =>
        obtain ⟨sumvar, sumdist⟩ := sums
        have hw := conservation_sums_bounds hs
        refine ⟨sumvar, sumdist, rfl, hw.1, ?_⟩
        intro k sv sd h1 h2
        obtain ⟨b1, b2, b3⟩ := hw.2 k sv sd h1 h2
        exact ⟨b1, b2, (column_weight_bounds sv sd (fun _ => ⟨b2, b3⟩)).2⟩
  · intro i j hi hj
    have hk := (kD_bounds oob i j hi hj).2
    have : ((kD oob i j : Int) : ℚ) ≤ 15 := by exact_mod_cast hk
    linarith
  · intro si sj ks simval p hp hb
    obtain ⟨b1, hle⟩ := compare_rows_bounds ks _ p hp hb (Nat.le_refl 0)
    refine ⟨fun v hv => (b1 v hv).2, hle, ?_⟩
    intro h0
    have hpos : (0 : ℚ) < (p.len : ℚ) := by exact_mod_cast h0
    have : (p.agr : ℚ) / (p.len : ℚ) ≤ 1 := by
      rw [div_le_one hpos]
      exact_mod_cast hle
    linarith

theorem conservation_weight_le_one_witness :
    (∀ r ∈ sample_gap_weights, r.consweight ≤ 1 ∧ 0 ≤ 100 * (1 - r.consweight)) ∧
    sample_gap_weights.map (fun r => (r.letter, r.consweight)) =
      [(65, 1), (67, 0), (0, 1), (68, 2 / 3)] :=
  ⟨(conservation_weight_le_one oob_zero sample_gap_rows [[0]] sample_gap_entries
      sample_gap_weights (by decide!) (by decide!)).1, by decide!⟩

/-! ## C36: the indices of the histogram of `CalculateVariability` -/

theorem incremented_bins_ok (chain pos : Nat) : ∀ (hits : List Hit)
    (st st1 : occurrence_state), count_occurrences chain pos hits st = .ok st1 →
    st.dist.length = 20 →
    ∃ bins, incremented_bins chain pos hits = .ok bins ∧ ∀ b ∈ bins, 0 ≤ b ∧ b < 20 := by
  intro hits
  induction hits with
  | nil => intro st st1 _ _; exact ⟨[], rfl, by simp⟩
  | cons hit hits ih =>
    intro st st1 h hl
    unfold count_occurrences at h
    unfold incremented_bins
    split at h
    · rename_i hc
      rw [if_pos hc]
      exact ih st st1 h hl
    · rename_i hc
      rw [if_neg hc]
      split at h
      · cases h
      · rename_i c hcat
        try rw [hcat]
        try simp only
        split at h
        · rename_i hix
          rw [if_pos hix]
          split at h
          · cases h
          · rename_i dist1 hd
            unfold update_dist at hd
            split at hd
            · rename_i h0
              split at hd
              · rename_i d hget
                injection hd with hd
                have hlt : (kResidueIX c).toNat < st.dist.length :=
                  (List.getElem?_eq_some_iff.1 hget).1
                obtain ⟨bins, hb, hr⟩ := ih _ st1 h (by rw [← hd, List.length_set]; exact hl)
                refine ⟨kResidueIX c :: bins, by rw [hb]; rfl, ?_⟩
                intro b hb
                rcases List.mem_cons.1 hb with e | e
                · rw [e]
                  exact ⟨h0, by omega⟩
                · exact hr b e
              · cases hd
            · cases hd
        · rename_i hix
          rw [if_neg hix]
          exact ih st st1 h hl

/-- C36: when the first loop over the hits in `CalculateVariability` runs through, every
index at which it incremented the histogram lies in 0..19, and so it is when no hit of
the chain holds a gap glyph at the column. But a hit of the chain that holds `'.'` or
`' '` at the column has the index -2, which passes the test `ix != -1`: the loop
increments `dist[-2]`, outside the array. In the alignment of the query `ACD` with the
homolog `A.E` this happens for the entry of column 1. -/
theorem CalculateVariability_histogram :
    (∀ (chain pos : Nat) (hits : List Hit) (st st1 : occurrence_state),
      count_occurrences chain pos hits st = .ok st1 → st.dist.length = 20 →
      ∃ bins, incremented_bins chain pos hits = .ok bins ∧ ∀ b ∈ bins, 0 ≤ b ∧ b < 20) ∧
    (∀ (chain pos : Nat) (hits : List Hit) (bins : List Int),
      incremented_bins chain pos hits = .ok bins →
      (∀ hit ∈ hits, hit.m_chain = chain → ∀ c, hit.m_seq.char_at pos = .ok c →
        is_gap c = false) →
      ∀ b ∈ bins, 0 ≤ b ∧ b < 20) ∧
    (∀ (chain pos c : Nat) (hit : Hit) (hits : List Hit) (bins : List Int),
      hit.m_chain = chain → hit.m_seq.char_at pos = .ok c → (c = 46 ∨ c = 32) →
      incremented_bins chain pos (hit :: hits) = .ok bins → bins.head? = some (-2)) ∧
    (ReadFastA oob_zero sample_fasta_gap []).map
        (fun msa => msa.map (fun r => (r.chars, r.m_begin, r.m_end))) =
      .ok [(str "ACD", 0, 3), (str "A.E", 0, 3)] ∧
    ((ReadFastA oob_zero sample_fasta_gap []).bind
        (fun msa => ChainToHits (fun _ => true) msa sample_chain_three [] [])).map
        (fun p => p.2.map (fun r => (r.letter, r.pos,
          incremented_bins r.chain r.pos p.1))) =
      .ok [(65, 0, .ok [8]), (67, 1, .ok [-2]), (68, 2, .ok [17])] ∧
    ((ReadFastA oob_zero sample_fasta_gap []).bind
        (fun msa => ChainToHits (fun _ => true) msa sample_chain_three [] [])).map
        (fun p => p.2.map (fun r =>
          (r.CalculateVariability p.1).map (fun r1 => (r1.nocc, r1.dist.take 9)))) =
      .ok [.ok (2, [0, 0, 0, 0, 0, 0, 0, 0, 100]), .error .memory,
        .ok (2, [0, 0, 0, 0, 0, 0, 0, 0, 0])] := by
  refine ⟨incremented_bins_ok, ?_, ?_, rfl, by decide!, by decide!⟩
  · intro chain pos hits
    induction hits with
    | nil =>
      intro bins h _
      injection h with h
      subst h
      simp
    | cons hit hits ih =>
      intro bins h hv
      unfold incremented_bins at h
      split at h
      · exact ih bins h (fun x hx => hv x (List.mem_cons_of_mem _ hx))
      · rename_i hc
        split at h
        · cases h
        · rename_i c hcat
          have hg := hv hit (List.mem_cons_self _ _) (by simpa using hc) c hcat
          split at h
          · rename_i hix
            cases hb : incremented_bins chain pos hits with
            | error e => rw [hb] at h; cases h
            | ok bins0 =>
              rw [hb] at h
              injection h with h
              subst h
              have hr := ih bins0 hb (fun x hx => hv x (List.mem_cons_of_mem _ hx))
              have hlt := kResidueIX_valid c hix hg
              have h0 : 0 ≤ kResidueIX c := by
                by_contra hneg
                have hcases : ∀ k, k < 256 → kResidueIX k < 0 →
                    kResidueIX k = -1 ∨ is_gap k = true := by
                  set_option maxRecDepth 100000 in decide
                have := hcases (c % 256) (Nat.mod_lt c (by norm_num))
                  (by rw [← kResidueIX_mod]; omega)
                rw [← kResidueIX_mod] at this
                have e2 : is_gap (c % 256) = is_gap c := by
                  unfold is_gap
                  rw [← kResidueIX_mod]
                rw [e2, hg] at this
                rcases this with e | e
                · exact hix e
                · cases e
              intro b hb
              rcases List.mem_cons.1 hb with e | e
              · rw [e]
                exact ⟨h0, by omega⟩
              · exact hr b e
          · exact ih bins h (fun x hx => hv x (List.mem_cons_of_mem _ hx))
  · intro chain pos c hit hits bins hc hcat hgap h
    have hix : kResidueIX c = -2 := by
      rcases hgap with e | e <;> rw [e] <;> rfl
    unfold incremented_bins at h
    rw [if_neg (by simp [hc]), hcat] at h
    simp only at h
    rw [if_pos (by rw [hix]; decide), hix] at h
    cases hb : incremented_bins chain pos hits with
    | error e => rw [hb] at h; cases h
    | ok bins0 =>
      rw [hb] at h
      injection h with h
      subst h
      rfl

/-! ## C35: the indices of the lookups of the similarity matrix in `update` -/

theorem similarity_lookup_some (qc sc : Nat) :
    similarity_lookup qc sc = some (uint8 (kResidueIX qc), uint8 (kResidueIX sc)) := by
  unfold similarity_lookup
  rw [if_pos ⟨Int.ofNat_nonneg _, Int.ofNat_nonneg _⟩]

theorem kResidueIX_nonneg (c : Nat) (h1 : kResidueIX c ≠ -1) (hg : is_gap c = false) :
    0 ≤ kResidueIX c := by
  have hcases : ∀ k, k < 256 → kResidueIX k ≠ -1 → is_gap k = false → 0 ≤ kResidueIX k := by
    set_option maxRecDepth 100000 in decide
  have e2 : is_gap (c % 256) = is_gap c := by
    unfold is_gap
    rw [← kResidueIX_mod]
  have := hcases (c % 256) (Nat.mod_lt c (by norm_num)) (by rw [← kResidueIX_mod]; exact h1)
    (by rw [e2]; exact hg)
  rw [← kResidueIX_mod] at this
  exact this

/-- C35: `update` looks up the similarity matrix on every column in which the homolog has
a residue, with the `uint8` indices `(rq, rs)` of the two characters. On a column where
both rows hold a residue letter both indices lie in 0..19. On a column where the query
has a gap glyph and the homolog a residue (an insertion) the row index is 254, the
`uint8` of the gap index -2, outside the 20x20 matrix: for the query `A-C` and the
homolog `ADC` the count `similar` is 3 or 2 according to what that lookup reads. -/
theorem update_lookup_indices :
    (∀ (oob : Nat → Nat → Int) (qc sc i : Nat) (st : update_state),
      ∃ rq rs, similarity_lookup qc sc = some (rq, rs) ∧
        (compare_column oob qc sc i st).s.m_similar =
          if 0 ≤ kD oob rq rs then st.s.m_similar + 1 else st.s.m_similar) ∧
    (∀ (qc sc : Nat), kResidueIX qc ≠ -1 → is_gap qc = false → kResidueIX sc ≠ -1 →
      is_gap sc = false →
      ∃ rq rs, similarity_lookup qc sc = some (rq, rs) ∧ rq < 20 ∧ rs < 20) ∧
    (∀ (qc sc : Nat), is_gap qc = true →
      ∃ rs, similarity_lookup qc sc = some (254, rs)) ∧
    similarity_lookup 45 68 = some (254, 19) ∧
    (update_text oob_zero "A-C" "ADC").map (fun s => (s.chars, s.m_similar)) =
      .ok (str "aDc", 3) ∧
    (update_text (fun _ _ => -1) "A-C" "ADC").map (fun s => (s.chars, s.m_similar)) =
      .ok (str "aDc", 2) := by
  refine ⟨?_, ?_, ?_, rfl, rfl, rfl⟩
  · intro oob qc sc i st
    refine ⟨_, _, similarity_lookup_some qc sc, ?_⟩
    show (if (0 : Int) ≤ (uint8 (kResidueIX qc) : Int) ∧
        (0 : Int) ≤ (uint8 (kResidueIX sc) : Int) ∧
        0 ≤ kD oob (uint8 (kResidueIX qc)) (uint8 (kResidueIX sc)) then st.s.m_similar + 1
      else st.s.m_similar) = _
    by_cases hk : 0 ≤ kD oob (uint8 (kResidueIX qc)) (uint8 (kResidueIX sc))
    · rw [if_pos ⟨Int.ofNat_nonneg _, Int.ofNat_nonneg _, hk⟩, if_pos hk]
    · rw [if_neg (fun h => hk h.2.2), if_neg hk]
  · intro qc sc hq1 hq2 hs1 hs2
    refine ⟨_, _, similarity_lookup_some qc sc, ?_, ?_⟩
    · have h0 := kResidueIX_nonneg qc hq1 hq2
      have h1 := kResidueIX_valid qc hq1 hq2
      unfold uint8
      omega
    · have h0 := kResidueIX_nonneg sc hs1 hs2
      have h1 := kResidueIX_valid sc hs1 hs2
      unfold uint8
      omega
  · intro qc sc hg
    have hix : kResidueIX qc = -2 := by
      unfold is_gap at hg
      exact eq_of_beq hg
    refine ⟨uint8 (kResidueIX sc), ?_⟩
    rw [similarity_lookup_some, hix]
    rfl

/-! ## The counters of `update` -/

theorem open_insertion_tally {i : Nat} {st st1 : update_state}
    (h : open_insertion i st = .ok st1) :
    st1.tally = st.tally ∧ st1.s.m_identical = st.s.m_identical ∧ st1.qgapf = st.qgapf := by
  unfold open_insertion at h
  split at h
  · split at h
    · cases h
    · split at h
      · cases h
      · injection h with h
        subst h
        exact ⟨rfl, rfl, rfl⟩
  · injection h with h
    subst h
    exact ⟨rfl, rfl, rfl⟩

theorem close_insertion_tally (sc i : Nat) (st : update_state) :
    (close_insertion sc i st).tally = st.tally ∧
      (close_insertion sc i st).s.m_identical = st.s.m_identical := by
  unfold close_insertion
  split
  · exact ⟨rfl, rfl⟩
  · exact ⟨rfl, rfl⟩

theorem update_column_tally {oob : Nat → Nat → Int} {qc sc i : Nat} {st st1 : update_state}
    (h : update_column oob qc i st = .ok st1)
    (hsc : st.s.m_data[st.s.m_seq + i]? = some sc) :
    st1.tally = tally_column st.tally (qc, sc) ∧
      st1.s.m_identical ≤ st.s.m_identical + (if matched (qc, sc) then 1 else 0) ∧
      st.s.m_identical ≤ st1.s.m_identical := by
  obtain ⟨sc1, hsc1, hcase⟩ := update_column_cases h
  rw [hsc] at hsc1
  injection hsc1 with hsc1
  subst hsc1
  unfold tally_column matched
  rcases hcase with hc | hc | hc | hc
  · obtain ⟨hq, hs, rfl⟩ := hc
    simp [hq, hs]
  · obtain ⟨hq, hs, rfl⟩ := hc
    simp only [hq, hs, Bool.false_and, Bool.not_false, Bool.not_true, Bool.and_false,
      if_false, if_true, Bool.false_eq_true]
    exact ⟨rfl, Nat.le_refl _, Nat.le_refl _⟩
  · obtain ⟨hq, hs, st2, hst2, rfl⟩ := hc
    obtain ⟨e1, e2, -⟩ := open_insertion_tally hst2
    have hne : qc ≠ sc := by
      intro e
      rw [e, hs] at hq
      cases hq
    simp only [hq, hs, Bool.and_false, Bool.not_false, Bool.not_true, Bool.and_true,
      Bool.true_and, if_false, if_true, Bool.false_eq_true]
    refine ⟨?_, ?_, ?_⟩
    · show (update_state.tally (insertion_column sc st2)) = _
      have : (insertion_column sc st2).tally =
          { st2.tally with gapn := st2.tally.gapn + 1 } := rfl
      rw [this, e1]
      rfl
    · show (if qc = sc then (insertion_column sc st2).s.m_identical + 1
        else (insertion_column sc st2).s.m_identical) ≤ _
      rw [if_neg hne]
      show st2.s.m_identical ≤ _
      rw [e2]
      exact Nat.le_refl _
    · show _ ≤ (if qc = sc then (insertion_column sc st2).s.m_identical + 1
        else (insertion_column sc st2).s.m_identical)
      rw [if_neg hne]
      show _ ≤ st2.s.m_identical
      rw [e2]
      exact Nat.le_refl _
  · obtain ⟨hq, hs, rfl⟩ := hc
    obtain ⟨e1, e2⟩ := close_insertion_tally sc i (count_length st)
    simp only [hq, hs, Bool.and_false, Bool.not_false, Bool.and_true, Bool.false_and,
      if_false, if_true, Bool.false_eq_true]
    refine ⟨?_, ?_, ?_⟩
    · have : (compare_column oob qc (closed_char sc st) i
          (matched_column (close_insertion sc i (count_length st)))).tally =
          { ipos := (close_insertion sc i (count_length st)).tally.ipos + 1,
            length := if (close_insertion sc i (count_length st)).tally.m_ifir = 0 then 1
              else (close_insertion sc i (count_length st)).tally.length,
            gapn := 0,
            m_ifir := if (close_insertion sc i (count_length st)).tally.m_ifir = 0
              then (close_insertion sc i (count_length st)).tally.ipos
              else (close_insertion sc i (count_length st)).tally.m_ifir,
            m_ilas := (close_insertion sc i (count_length st)).tally.ipos,
            m_length := if (close_insertion sc i (count_length st)).tally.m_ifir = 0
              then (close_insertion sc i (count_length st)).tally.m_length
              else (close_insertion sc i (count_length st)).tally.length,
            m_gapn := if (close_insertion sc i (count_length st)).tally.m_ifir = 0
              then (close_insertion sc i (count_length st)).tally.m_gapn
              else (close_insertion sc i (count_length st)).tally.m_gapn +
                (close_insertion sc i (count_length st)).tally.gapn } := rfl
      rw [this, e1]
      rfl
    · show (if qc = closed_char sc st then
          (matched_column (close_insertion sc i (count_length st))).s.m_identical + 1
        else (matched_column (close_insertion sc i (count_length st))).s.m_identical) ≤ _
      have : (matched_column (close_insertion sc i (count_length st))).s.m_identical =
          st.s.m_identical := e2
      rw [this]
      split <;> omega
    · show _ ≤ (if qc = closed_char sc st then
          (matched_column (close_insertion sc i (count_length st))).s.m_identical + 1
        else (matched_column (close_insertion sc i (count_length st))).s.m_identical)
      have : (matched_column (close_insertion sc i (count_length st))).s.m_identical =
          st.s.m_identical := e2
      rw [this]
      split <;> omega

theorem update_loop_tally {oob : Nat → Nat → Int} : ∀ (cols : List (Nat × Nat)) (i : Nat)
    (st st1 : update_state), update_loop oob (cols.map Prod.fst) i st = .ok st1 →
    (∀ (k : Nat) (c : Nat × Nat), cols[k]? = some c →
      st.s.m_data[st.s.m_seq + i + k]? = some c.2) →
    st1.tally = cols.foldl tally_column st.tally ∧
      st1.s.m_identical ≤ st.s.m_identical + cols.countP matched ∧
      st.s.m_identical ≤ st1.s.m_identical := by
  intro cols
  induction cols with
  | nil =>
    intro i st st1 h _
    injection h with h
    subst h
    exact ⟨rfl, Nat.le_refl _, Nat.le_refl _⟩
  | cons c cols ih =>
    intro i st st1 h hwin
    rw [List.map_cons, update_loop_cons] at h
    cases hc : update_column oob c.1 i st with
    | error e => rw [hc] at h; cases h
    | ok st2 =>
      rw [hc] at h
      have h0 : st.s.m_data[st.s.m_seq + i]? = some c.2 := hwin 0 c (by simp)
      obtain ⟨t1, t2, t3⟩ := update_column_tally hc h0
      obtain ⟨f1, f2, f3, -⟩ := update_column_frame hc
      obtain ⟨u1, u2, u3⟩ := ih (i + 1) st2 st1 h (by
        intro k d hk
        rw [f1, f3 _ (by omega)]
        have := hwin (k + 1) d (by simpa using hk)
        rw [← this]
        congr 1
        omega)
      refine ⟨?_, ?_, by omega⟩
      · rw [u1, t1]
        rfl
      · rw [List.countP_cons]
        have : (c.1, c.2) = c := rfl
        rw [this] at t2
        omega

theorem any_matched_false {cols : List (Nat × Nat)} (h : cols.any matched = false) :
    cols.countP matched = 0 := by
  rw [List.countP_eq_zero]
  intro c hc hm
  have : cols.any matched = true := List.any_eq_true.2 ⟨c, hc, hm⟩
  rw [h] at this
  cases this

theorem any_matched_true {cols : List (Nat × Nat)} (h : cols.any matched = true) :
    0 < cols.countP matched := by
  obtain ⟨c, hc, hm⟩ := List.any_eq_true.1 h
  exact List.countP_pos_iff.2 ⟨c, hc, hm⟩

theorem matched_not_one_sided {c : Nat × Nat} (h : matched c = true) : one_sided c = false := by
  unfold matched at h
  unfold one_sided
  cases h1 : is_gap c.1 <;> cases h2 : is_gap c.2 <;> simp_all

theorem tally_column_both {t : tally} {c : Nat × Nat} (h1 : is_gap c.1 = true)
    (h2 : is_gap c.2 = true) :
    tally_column t c = t ∧ matched c = false ∧ one_sided c = false := by
  unfold tally_column matched one_sided
  simp [h1, h2]

theorem tally_column_one {t : tally} {c : Nat × Nat} (h : is_gap c.1 ≠ is_gap c.2) :
    (tally_column t c).length = (if t.length > 0 then t.length + 1 else t.length) ∧
      (tally_column t c).gapn = t.gapn + 1 ∧ (tally_column t c).m_ifir = t.m_ifir ∧
      (tally_column t c).m_length = t.m_length ∧ (tally_column t c).m_gapn = t.m_gapn ∧
      (tally_column t c).m_ilas = t.m_ilas ∧ t.ipos ≤ (tally_column t c).ipos ∧
      matched c = false ∧ one_sided c = true := by
  unfold tally_column matched one_sided
  cases h1 : is_gap c.1 <;> cases h2 : is_gap c.2 <;> simp_all

theorem tally_column_matched {t : tally} {c : Nat × Nat} (h1 : is_gap c.1 = false)
    (h2 : is_gap c.2 = false) :
    tally_column t c =
      { ipos := t.ipos + 1,
        length := if t.m_ifir = 0 then 1
          else if t.length > 0 then t.length + 1 else t.length,
        gapn := 0,
        m_ifir := if t.m_ifir = 0 then t.ipos else t.m_ifir,
        m_ilas := t.ipos,
        m_length := if t.m_ifir = 0 then t.m_length
          else if t.length > 0 then t.length + 1 else t.length,
        m_gapn := if t.m_ifir = 0 then t.m_gapn else t.m_gapn + t.gapn } ∧
      matched c = true ∧ one_sided c = false := by
  unfold tally_column matched one_sided
  simp [h1, h2]

theorem column_kind (c : Nat × Nat) :
    (is_gap c.1 = true ∧ is_gap c.2 = true) ∨ is_gap c.1 ≠ is_gap c.2 ∨
      (is_gap c.1 = false ∧ is_gap c.2 = false) := by
  cases h1 : is_gap c.1 <;> cases h2 : is_gap c.2 <;> simp

theorem upto_last_matched_cons (c : Nat × Nat) (cols : List (Nat × Nat)) :
    upto_last_matched (c :: cols) =
      if cols.any matched then c :: upto_last_matched cols
      else if matched c then [c] else [] := rfl

theorem upto_last_matched_count : ∀ (cols : List (Nat × Nat)),
    (upto_last_matched cols).countP matched = cols.countP matched := by
  intro cols
  induction cols with
  | nil => rfl
  | cons c cols ih =>
    rw [upto_last_matched_cons]
    by_cases ha : cols.any matched = true
    · rw [if_pos ha, List.countP_cons, List.countP_cons, ih]
    · have ha0 : cols.any matched = false := by simpa using ha
      rw [if_neg ha, List.countP_cons, any_matched_false ha0]
      by_cases hm : matched c = true
      · rw [if_pos hm, if_pos hm]
        simp [hm]
      · rw [if_neg hm, if_neg hm]
        rfl

/-- The counters after the first matched column. -/
theorem tally_started : ∀ (cols : List (Nat × Nat)) (t : tally), t.m_ifir ≠ 0 →
    0 < t.length →
    (cols.foldl tally_column t).m_ifir = t.m_ifir ∧
    (cols.foldl tally_column t).length =
      t.length + cols.countP matched + cols.countP one_sided ∧
    (cols.any matched = false →
      (cols.foldl tally_column t).m_length = t.m_length ∧
      (cols.foldl tally_column t).m_gapn = t.m_gapn ∧
      (cols.foldl tally_column t).m_ilas = t.m_ilas ∧
      (cols.foldl tally_column t).gapn = t.gapn + cols.countP one_sided) ∧
    (cols.any matched = true →
      (cols.foldl tally_column t).m_length =
        t.length + (upto_last_matched cols).countP matched +
          (upto_last_matched cols).countP one_sided ∧
      (cols.foldl tally_column t).m_gapn =
        t.m_gapn + t.gapn + (upto_last_matched cols).countP one_sided) := by
  intro cols
  induction cols with
  | nil =>
    intro t _ _
    exact ⟨rfl, rfl, fun _ => ⟨rfl, rfl, rfl, rfl⟩, fun h => by cases h⟩
  | cons c cols ih =>
    intro t h0 hl
    rw [List.foldl_cons, upto_last_matched_cons]
    rcases column_kind c with hk | hk | hk
    · obtain ⟨e, m, o⟩ := tally_column_both (t := t) hk.1 hk.2
      obtain ⟨i1, i2, i3, i4⟩ := ih t h0 hl
      rw [e]
      simp only [List.countP_cons, m, o, List.any_cons, Bool.false_or, if_false,
        Bool.false_eq_true, Nat.add_zero]
      refine ⟨i1, i2, i3, ?_⟩
      intro ha
      rw [if_pos ha]
      simp only [List.countP_cons, m, o, if_false, Bool.false_eq_true, Nat.add_zero]
      exact i4 ha
    · obtain ⟨e1, e2, e3, e4, e5, e6, -, m, o⟩ := tally_column_one (t := t) hk
      rw [if_pos hl] at e1
      obtain ⟨i1, i2, i3, i4⟩ := ih (tally_column t c) (by rw [e3]; exact h0)
        (by rw [e1]; omega)
      simp only [List.countP_cons, m, o, List.any_cons, Bool.false_or, if_false, if_true,
        Bool.false_eq_true, Nat.add_zero]
      refine ⟨by rw [i1, e3], by rw [i2, e1]; omega, ?_, ?_⟩
      · intro ha
        obtain ⟨j1, j2, j3, j4⟩ := i3 ha
        exact ⟨by rw [j1, e4], by rw [j2, e5], by rw [j3, e6], by rw [j4, e2]; omega⟩
      · intro ha
        rw [if_pos ha]
        simp only [List.countP_cons, m, o, if_false, if_true, Bool.false_eq_true,
          Nat.add_zero]
        obtain ⟨j1, j2⟩ := i4 ha
        exact ⟨by rw [j1, e1]; omega, by rw [j2, e5, e2]; omega⟩
    · obtain ⟨e, m, o⟩ := tally_column_matched (t := t) hk.1 hk.2
      rw [if_neg h0, if_neg h0, if_neg h0, if_neg h0, if_pos hl] at e
      have f1 : (tally_column t c).m_ifir = t.m_ifir := by rw [e]
      have f2 : (tally_column t c).length = t.length + 1 := by rw [e]
      have f3 : (tally_column t c).gapn = 0 := by rw [e]
      have f4 : (tally_column t c).m_length = t.length + 1 := by rw [e]
      have f5 : (tally_column t c).m_gapn = t.m_gapn + t.gapn := by rw [e]
      obtain ⟨i1, i2, i3, i4⟩ := ih (tally_column t c) (by rw [f1]; exact h0)
        (by rw [f2]; omega)
      simp only [List.countP_cons, m, o, List.any_cons, Bool.true_or, if_false, if_true,
        Bool.false_eq_true, Nat.add_zero]
      refine ⟨by rw [i1, f1], by rw [i2, f2]; omega, (fun h => by cases h), ?_⟩
      intro _
      by_cases ha : cols.any matched = true
      · rw [if_pos ha]
        simp only [List.countP_cons, m, o, if_false, if_true, Bool.false_eq_true,
          Nat.add_zero]
        obtain ⟨j1, j2⟩ := i4 ha
        exact ⟨by rw [j1, f2]; omega, by rw [j2, f5, f3]; omega⟩
      · have ha0 : cols.any matched = false := by simpa using ha
        rw [if_neg ha]
        simp only [List.countP_cons, List.countP_nil, m, o, if_false, if_true,
          Bool.false_eq_true, Nat.add_zero, Nat.zero_add]
        obtain ⟨j1, j2, -, -⟩ := i3 ha0
        exact ⟨by rw [j1, f4], by rw [j2, f5]⟩

/-- The counters before the first matched column. -/
theorem tally_idle : ∀ (cols : List (Nat × Nat)) (t : tally), t.m_ifir = 0 →
    t.length = 0 → cols.any matched = false →
    (cols.foldl tally_column t).m_ifir = 0 ∧ (cols.foldl tally_column t).length = 0 ∧
    (cols.foldl tally_column t).m_length = t.m_length ∧
    (cols.foldl tally_column t).m_gapn = t.m_gapn ∧
    (cols.foldl tally_column t).m_ilas = t.m_ilas ∧
    t.ipos ≤ (cols.foldl tally_column t).ipos := by
  intro cols
  induction cols with
  | nil => intro t h0 hl _; exact ⟨h0, hl, rfl, rfl, rfl, Nat.le_refl _⟩
  | cons c cols ih =>
    intro t h0 hl ha
    rw [List.any_cons, Bool.or_eq_false_iff] at ha
    rw [List.foldl_cons]
    rcases column_kind c with hk | hk | hk
    · obtain ⟨e, -, -⟩ := tally_column_both (t := t) hk.1 hk.2
      rw [e]
      exact ih t h0 hl ha.2
    · obtain ⟨e1, e2, e3, e4, e5, e6, e7, -, -⟩ := tally_column_one (t := t) hk
      rw [if_neg (by omega)] at e1
      obtain ⟨i1, i2, i3, i4, i5, i6⟩ := ih (tally_column t c) (by rw [e3]; exact h0)
        (by rw [e1]; exact hl) ha.2
      exact ⟨i1, i2, by rw [i3, e4], by rw [i4, e5], by rw [i5, e6], by omega⟩
    · obtain ⟨-, m, -⟩ := tally_column_matched (t := t) hk.1 hk.2
      rw [m] at ha
      cases ha.1

theorem split_first_matched : ∀ (cols : List (Nat × Nat)), cols.any matched = true →
    ∃ A m R, cols = A ++ m :: R ∧ A.any matched = false ∧ matched m = true ∧
      cols.dropWhile (fun c => !matched c) = m :: R := by
  intro cols
  induction cols with
  | nil => intro h; cases h
  | cons c cols ih =>
    intro h
    by_cases hm : matched c = true
    · exact ⟨[], c, cols, rfl, rfl, hm, by rw [List.dropWhile_cons]; simp [hm]⟩
    · have hm0 : matched c = false := by simpa using hm
      rw [List.any_cons, hm0, Bool.false_or] at h
      obtain ⟨A, m, R, e1, e2, e3, e4⟩ := ih h
      refine ⟨c :: A, m, R, by rw [e1]; rfl, by rw [List.any_cons, hm0, e2]; rfl, e3, ?_⟩
      rw [List.dropWhile_cons]
      simp only [hm0, Bool.not_false, if_true]
      exact e4

theorem dropWhile_snoc (p : Nat × Nat → Bool) (c : Nat × Nat) : ∀ (L : List (Nat × Nat)),
    (L ++ [c]).dropWhile p =
      if L.any (fun x => !p x) then L.dropWhile p ++ [c] else [c].dropWhile p := by
  intro L
  induction L with
  | nil => simp
  | cons x L ih =>
    rw [List.cons_append, List.dropWhile_cons, List.dropWhile_cons, List.any_cons]
    by_cases hx : p x = true
    · simp only [hx, if_true, Bool.not_true, Bool.false_or]
      exact ih
    · have hx0 : p x = false := by simpa using hx
      simp [hx0]

theorem upto_last_matched_reverse : ∀ (R : List (Nat × Nat)),
    R.reverse.dropWhile (fun c => !matched c) = (upto_last_matched R).reverse := by
  intro R
  induction R with
  | nil => rfl
  | cons c R ih =>
    rw [List.reverse_cons, dropWhile_snoc, upto_last_matched_cons]
    have hany : (R.reverse.any fun x => !!matched x) = R.any matched := by
      simp [List.any_reverse]
    rw [hany]
    by_cases ha : R.any matched = true
    · rw [if_pos ha, if_pos ha, ih, List.reverse_cons]
    · rw [if_neg ha, if_neg ha, List.dropWhile_cons]
      by_cases hm : matched c = true
      · simp [hm]
      · have hm0 : matched c = false := by simpa using hm
        simp [hm0]

theorem dropWhile_head (p : Nat × Nat → Bool) : ∀ (L : List (Nat × Nat)) (l : Nat × Nat)
    (rest : List (Nat × Nat)), L.dropWhile p = l :: rest → p l = false := by
  intro L
  induction L with
  | nil => intro l rest h; cases h
  | cons x L ih =>
    intro l rest h
    rw [List.dropWhile_cons] at h
    by_cases hx : p x = true
    · rw [if_pos hx] at h
      exact ih l rest h
    · rw [if_neg hx] at h
      injection h with h1 h2
      subst h1
      simpa using hx

/-- The one-sided columns up to the last matched column are those before it. -/
theorem upto_last_matched_one_sided (R : List (Nat × Nat)) (h : R.any matched = true) :
    (upto_last_matched R).countP one_sided =
      ((R.reverse.dropWhile (fun c => !matched c)).tail.reverse).countP one_sided := by
  have hr := upto_last_matched_reverse R
  cases hd : R.reverse.dropWhile (fun c => !matched c) with
  | nil =>
    rw [hd] at hr
    have hu : upto_last_matched R = [] := by
      have := congrArg List.reverse hr
      simpa using this.symm
    have h1 := upto_last_matched_count R
    rw [hu] at h1
    have h2 := any_matched_true h
    rw [← h1] at h2
    cases h2
  | cons l rest =>
    rw [hd] at hr
    have hu : upto_last_matched R = rest.reverse ++ [l] := by
      have := congrArg List.reverse hr
      simpa using this.symm
    have hl : matched l = true := by
      have := dropWhile_head _ _ l rest hd
      simpa using this
    rw [hu, List.countP_append, List.tail_cons]
    simp [matched_not_one_sided hl]

/-- The alignment length and the gap count that the counters of `update` end with, for a
row whose counters start at zero. -/
theorem tally_final (cols : List (Nat × Nat)) (t : tally) (h0 : t.m_ifir = 0)
    (hl : t.length = 0) (hi : 1 ≤ t.ipos) :
    (cols.countP matched ≤ 1 →
      (cols.foldl tally_column t).m_length = t.m_length ∧
      (cols.foldl tally_column t).m_gapn = t.m_gapn) ∧
    (2 ≤ cols.countP matched →
      (cols.foldl tally_column t).m_gapn =
        t.m_gapn + (strictly_between cols).countP one_sided ∧
      (cols.foldl tally_column t).m_length =
        cols.countP matched + (strictly_between cols).countP one_sided) := by
  by_cases ha : cols.any matched = true
  · obtain ⟨A, m, R, e1, e2, e3, e4⟩ := split_first_matched cols ha
    obtain ⟨a1, a2, a3, a4, -, a6⟩ := tally_idle A t h0 hl e2
    have hm : is_gap m.1 = false ∧ is_gap m.2 = false := by
      unfold matched at e3
      cases h1 : is_gap m.1 <;> cases h2 : is_gap m.2 <;> simp_all
    obtain ⟨em, -, -⟩ := tally_column_matched (t := A.foldl tally_column t) hm.1 hm.2
    rw [if_pos a1, if_pos a1, if_pos a1, if_pos a1] at em
    have f1 : (tally_column (A.foldl tally_column t) m).m_ifir ≠ 0 := by rw [em]; show (A.foldl tally_column t).ipos ≠ 0; omega
    have f2 : (tally_column (A.foldl tally_column t) m).length = 1 := by rw [em]
    have f3 : (tally_column (A.foldl tally_column t) m).gapn = 0 := by rw [em]
    have f4 : (tally_column (A.foldl tally_column t) m).m_length = t.m_length := by
      rw [em]; exact a3
    have f5 : (tally_column (A.foldl tally_column t) m).m_gapn = t.m_gapn := by
      rw [em]; exact a4
    obtain ⟨-, -, s3, s4⟩ := tally_started R _ f1 (by rw [f2]; omega)
    have hfold : cols.foldl tally_column t =
        R.foldl tally_column (tally_column (A.foldl tally_column t) m) := by
      rw [e1, List.foldl_append, List.foldl_cons]
    have hcount : cols.countP matched = 1 + R.countP matched := by
      rw [e1, List.countP_append, List.countP_cons, any_matched_false e2, if_pos e3]
      omega
    have hsb : strictly_between cols =
        (R.reverse.dropWhile (fun c => !matched c)).tail.reverse := by
      unfold strictly_between
      rw [e4, List.tail_cons]
    rw [hfold, hcount, hsb]
    by_cases hr : R.any matched = true
    · have hpos := any_matched_true hr
      obtain ⟨j1, j2⟩ := s4 hr
      refine ⟨fun hle => by omega, fun _ => ?_⟩
      rw [j1, j2, f2, f3, f5, upto_last_matched_count, upto_last_matched_one_sided R hr]
      omega
    · have hr0 : R.any matched = false := by simpa using hr
      obtain ⟨j1, j2, -, -⟩ := s3 hr0
      have hz := any_matched_false hr0
      refine ⟨fun _ => ⟨by rw [j1, f4], by rw [j2, f5]⟩, fun h2 => by omega⟩
  · have ha0 : cols.any matched = false := by simpa using ha
    obtain ⟨-, -, a3, a4, -, -⟩ := tally_idle cols t h0 hl ha0
    have hz := any_matched_false ha0
    exact ⟨fun _ => ⟨a3, a4⟩, fun h2 => by omega⟩

theorem update_finish_tally {t s1 : seq} (h : update_finish t = .ok s1) :
    s1.m_length = t.m_length ∧ s1.m_gapn = t.m_gapn ∧ s1.m_ifir = t.m_ifir ∧
      s1.m_ilas = t.m_ilas ∧ s1.m_identical = t.m_identical ∧
      s1.m_score = (t.m_identical, t.m_length) := by
  unfold update_finish at h
  simp only at h
  split at h
  · injection h with h
    subst h
    exact ⟨rfl, rfl, rfl, rfl, rfl, rfl⟩
  · split at h
    · cases h
    · split at h
      · cases h
      · split at h
        · cases h
        · injection h with h
          subst h
          exact ⟨rfl, rfl, rfl, rfl, rfl, rfl⟩

/-- The counters of a row after `update`, from the columns of the pair. -/
theorem update_tally {oob : Nat → Nat → Int} {qseq s s1 : seq}
    (h : seq.update oob qseq s = .ok s1) (hs : s.m_seq + s.m_size ≤ s.m_data.length)
    (hw : s.m_size = qseq.m_size) :
    s1.m_length = ((columns qseq s).foldl tally_column (update_init s).tally).m_length ∧
    s1.m_gapn = ((columns qseq s).foldl tally_column (update_init s).tally).m_gapn ∧
    s1.m_ifir = ((columns qseq s).foldl tally_column (update_init s).tally).m_ifir ∧
    s1.m_ilas = ((columns qseq s).foldl tally_column (update_init s).tally).m_ilas ∧
    s1.m_identical ≤ s.m_identical + (columns qseq s).countP matched ∧
    s.m_identical ≤ s1.m_identical ∧ s1.m_score = (s1.m_identical, s1.m_length) := by
  unfold seq.update at h
  split at h
  · cases h
  · rename_i hq
    have hq1 : qseq.m_seq + qseq.m_size ≤ qseq.m_data.length := by omega
    split at h
    · cases h
    · rename_i st hst
      have hlq : qseq.chars.length = qseq.m_size := chars_length hq1
      have hls : s.chars.length = s.m_size := chars_length hs
      have hmap : (columns qseq s).map Prod.fst = qseq.chars := by
        unfold columns
        rw [List.map_fst_zip]
        omega
      rw [← hmap] at hst
      obtain ⟨t1, t2, t3⟩ := update_loop_tally (columns qseq s) 0 (update_init s) st hst (by
        intro k c hk
        unfold columns at hk
        rw [List.getElem?_eq_some_iff] at hk
        obtain ⟨hlt, hk⟩ := hk
        rw [List.length_zip] at hlt
        have hks : k < s.m_size := by omega
        have hc2 : s.chars[k]? = some c.2 := by
          rw [List.getElem?_eq_some_iff]
          refine ⟨by omega, ?_⟩
          rw [← hk, List.getElem_zip]
        rw [chars_getElem? s k hks] at hc2
        show s.m_data[s.m_seq + 0 + k]? = some c.2
        rw [Nat.add_zero]
        exact hc2)
      obtain ⟨u1, u2, u3, u4, u5, u6⟩ := update_finish_tally h
      have e1 : st.tally.m_length = st.s.m_length := rfl
      refine ⟨by rw [u1, ← t1]; rfl, by rw [u2, ← t1]; rfl, by rw [u3, ← t1]; rfl,
        by rw [u4, ← t1]; rfl, by rw [u5]; exact t2, by rw [u5]; exact t3,
        by rw [u6, u5, u1]⟩

/-! ## C33: the alignment length and the gap count -/

/-- C33: for a query and a fresh homolog row of equal width with at least two matched
columns, `update` returns (when the row has no residue opposite a gap of the query in
column 0) and leaves `m_gapn` equal to the number of columns strictly between the first
and the last matched column in which exactly one of the two rows has a gap, and
`m_length` equal to the number of matched columns plus `m_gapn`. -/
theorem update_alignment_length (oob : Nat → Nat → Int) (qseq s : seq)
    (hq : qseq.m_seq + qseq.m_size ≤ qseq.m_data.length)
    (hs : s.m_seq + s.m_size ≤ s.m_data.length)
    (hw : s.m_size = qseq.m_size) (hfir : s.m_ifir = 0) (hgapn : s.m_gapn = 0)
    (h2 : 2 ≤ (columns qseq s).countP matched) :
    (starts_aligned qseq s → ∃ s1, seq.update oob qseq s = .ok s1) ∧
    ∀ s1, seq.update oob qseq s = .ok s1 →
      s1.m_gapn = (strictly_between (columns qseq s)).countP one_sided ∧
      s1.m_length = (columns qseq s).countP matched + s1.m_gapn := by
  refine ⟨update_ok0 oob qseq s hq hs hw, ?_⟩
  intro s1 h
  obtain ⟨t1, t2, -⟩ := update_tally h hs hw
  obtain ⟨-, f2⟩ := tally_final (columns qseq s) (update_init s).tally hfir rfl
    (Nat.le_refl 1)
  obtain ⟨g1, g2⟩ := f2 h2
  have e : (update_init s).tally.m_gapn = 0 := hgapn
  rw [e, Nat.zero_add] at g1
  exact ⟨by rw [t2, g1], by rw [t1, g2, t2, g1]⟩

theorem update_alignment_length_witness :
    (seq.update oob_zero sample_block_query sample_block_row).map
        (fun r => (r.m_gapn, r.m_length)) = .ok (3, 5) ∧
    (columns sample_block_query sample_block_row).countP matched = 2 ∧
    strictly_between (columns sample_block_query sample_block_row) =
      [(45, 68), (67, 45), (45, 70)] ∧
    (starts_aligned sample_block_query sample_block_row →
      ∃ s1, seq.update oob_zero sample_block_query sample_block_row = .ok s1) ∧
    ∀ s1, seq.update oob_zero sample_block_query sample_block_row = .ok s1 →
      s1.m_gapn =
        (strictly_between (columns sample_block_query sample_block_row)).countP one_sided ∧
      s1.m_length =
        (columns sample_block_query sample_block_row).countP matched + s1.m_gapn :=
  ⟨rfl, rfl, rfl, update_alignment_length oob_zero sample_block_query sample_block_row
    (by decide) (by decide) rfl rfl rfl (by decide)⟩

/-! ## C32: the score of a row with one matched column -/

/-- C32: after `update` of a fresh row with at least two matched columns,
`identical <= alignment_length` and `alignment_length >= 2`, and the score is their
quotient. But `m_length` is stored at the second and every later matched column only:
a row with exactly one matched column keeps the alignment length 0, and the score is a
division by zero. For the query `A` the homolog `A` ends with `identical = 1` and the
score 1/0, the homolog `D` with the score 0/0. -/
theorem update_score_fraction :
    (∀ (oob : Nat → Nat → Int) (qseq s s1 : seq),
      s.m_seq + s.m_size ≤ s.m_data.length → s.m_size = qseq.m_size →
      s.m_ifir = 0 → s.m_identical = 0 → s.m_length = 0 →
      seq.update oob qseq s = .ok s1 →
      s1.m_score = (s1.m_identical, s1.m_length) ∧
      (2 ≤ (columns qseq s).countP matched →
        s1.m_identical ≤ s1.m_length ∧ 2 ≤ s1.m_length) ∧
      ((columns qseq s).countP matched = 1 → s1.m_length = 0)) ∧
    (update_text oob_zero "A" "A").map
        (fun s => (s.m_identical, s.m_length, s.m_score)) = .ok (1, 0, (1, 0)) ∧
    (update_text oob_zero "A" "D").map
        (fun s => (s.m_identical, s.m_length, s.m_score)) = .ok (0, 0, (0, 0)) ∧
    (update_text oob_zero "A-" "AC").map
        (fun s => (s.m_identical, s.m_length, s.m_score)) = .ok (1, 0, (1, 0)) ∧
    (update_text oob_zero "AC" "AC").map
        (fun s => (s.m_identical, s.m_length, s.m_score)) = .ok (2, 2, (2, 2)) := by
  refine ⟨?_, rfl, rfl, rfl, rfl⟩
  intro oob qseq s s1 hs hw hfir hid hlen h
  obtain ⟨t1, -, -, -, t5, -, t7⟩ := update_tally h hs hw
  obtain ⟨f1, f2⟩ := tally_final (columns qseq s) (update_init s).tally hfir rfl
    (Nat.le_refl 1)
  refine ⟨t7, ?_, ?_⟩
  · intro h2
    obtain ⟨-, g2⟩ := f2 h2
    rw [t1, g2]
    rw [hid] at t5
    omega
  · intro h1
    obtain ⟨g1, -⟩ := f1 (by omega)
    rw [t1, g1]
    exact hlen

/-! ## C31: the passes of `ClusterSequences` -/

theorem cluster_scan_contains (a : Str) : ∀ (rest : List Str) (j0 j : Nat) (c : Bool),
    cluster_scan a j0 rest = some (j, c) →
    ∃ b, rest[j - j0]? = some b ∧ j0 ≤ j ∧
      (c = true → contains a b = true) ∧ (c = false → contains b a = true) := by
  intro rest
  induction rest with
  | nil => intro j0 j c h; cases h
  | cons b rest ih =>
    intro j0 j c h
    unfold cluster_scan at h
    have hnext : cluster_scan a (j0 + 1) rest = some (j, c) →
        ∃ b1, (b :: rest)[j - j0]? = some b1 ∧ j0 ≤ j ∧
          (c = true → contains a b1 = true) ∧ (c = false → contains b1 a = true) := by
      intro h1
      obtain ⟨b1, h4, h3, h5⟩ := ih _ _ _ h1
      refine ⟨b1, ?_, by omega, h5⟩
      have : j - j0 = (j - (j0 + 1)) + 1 := by omega
      rw [this, List.getElem?_cons_succ]
      exact h4
    split at h
    · exact hnext h
    · split at h
      · rename_i hc
        injection h with h
        injection h with h1 h2
        subst h1 h2
        exact ⟨b, by simp, Nat.le_refl _, fun _ => hc, fun e => by cases e⟩
      · split at h
        · rename_i hc
          injection h with h
          injection h with h1 h2
          subst h1 h2
          exact ⟨b, by simp, Nat.le_refl _, (fun e => by cases e), fun _ => hc⟩
        · exact hnext h

theorem cluster_pass_contains : ∀ (l : List Str) (i0 i j : Nat) (c : Bool),
    cluster_pass i0 l = some (i, j, c) →
    ∃ a b, l[i - i0]? = some a ∧ l[j - i0]? = some b ∧
      (c = true → contains a b = true) ∧ (c = false → contains b a = true) := by
  intro l
  induction l with
  | nil => intro i0 i j c h; cases h
  | cons a rest ih =>
    intro i0 i j c h
    have hspec := cluster_pass_spec (a :: rest) i0 i j c h
    unfold cluster_pass at h
    cases hs : cluster_scan a (i0 + 1) rest with
    | some r =>
      obtain ⟨j1, c1⟩ := r
      rw [hs] at h
      simp only at h
      injection h with h
      injection h with h1 h
      injection h with h2 h3
      subst h1 h2 h3
      obtain ⟨b, k3, k2, k4⟩ := cluster_scan_contains a rest _ _ _ hs
      refine ⟨a, b, by simp, ?_, k4⟩
      have : j1 - i0 = (j1 - (i0 + 1)) + 1 := by omega
      rw [this, List.getElem?_cons_succ]
      exact k3
    | none =>
      rw [hs] at h
      simp only at h
      have hspec1 := cluster_pass_spec rest (i0 + 1) i j c h
      obtain ⟨a1, b, k3, k5, k6⟩ := ih _ _ _ _ h
      refine ⟨a1, b, ?_, ?_, k6⟩
      · have : i - i0 = (i - (i0 + 1)) + 1 := by omega
        rw [this, List.getElem?_cons_succ]
        exact k3
      · have : j - i0 = (j - (i0 + 1)) + 1 := by omega
        rw [this, List.getElem?_cons_succ]
        exact k5

/-- One pass of `ClusterSequences`: it finds no pair and the function returns, or it
clears the string at one position `k`, not empty and contained in the non-empty string
at another position `w`, and sets `ix[k] = w`. -/
theorem ClusterSequences_step (s : List Str) (ix : List Nat) (hix : ix.length = s.length) :
    (cluster_pass 0 s = none ∧ ∀ fuel, ClusterSequences (fuel + 1) s ix = some (.ok (s, ix))) ∨
    ∃ k w a b, s[k]? = some b ∧ b ≠ [] ∧ s[w]? = some a ∧ a ≠ [] ∧ w ≠ k ∧
      contains a b = true ∧
      ∀ fuel, ClusterSequences (fuel + 1) s ix =
        ClusterSequences fuel (s.set k []) (ix.set k w) := by
  cases hp : cluster_pass 0 s with
  | none =>
    left
    refine ⟨rfl, ?_⟩
    intro fuel
    unfold ClusterSequences
    rw [hp]
  | some r =>
    right
    obtain ⟨i, j, c⟩ := r
    obtain ⟨-, hij, ⟨a, ha1, ha2⟩, b, hb1, hb2⟩ := cluster_pass_spec s 0 i j c hp
    obtain ⟨a1, b1, ha3, hb3, hc1, hc2⟩ := cluster_pass_contains s 0 i j c hp
    rw [Nat.sub_zero] at ha1 hb1 ha3 hb3
    rw [ha1] at ha3
    rw [hb1] at hb3
    injection ha3 with ha3
    injection hb3 with hb3
    subst ha3 hb3
    have hi : i < s.length := (List.getElem?_eq_some_iff.1 ha1).1
    have hj : j < s.length := (List.getElem?_eq_some_iff.1 hb1).1
    cases c with
    | true =>
      refine ⟨j, i, a, b, hb1, hb2, ha1, ha2, by omega, hc1 rfl, ?_⟩
      intro fuel
      conv => lhs; unfold ClusterSequences
      rw [hp]
      simp only
      rw [if_pos (by omega)]
    | false =>
      refine ⟨i, j, b, a, ha1, ha2, hb1, hb2, by omega, hc2 rfl, ?_⟩
      intro fuel
      conv => lhs; unfold ClusterSequences
      rw [hp]
      simp only
      rw [if_pos (by omega)]

theorem clustered_refl (s : List Str) (ix : List Nat) : clustered s ix (s, ix) :=
  ⟨rfl, rfl, fun _ _ h => Or.inl ⟨h, rfl⟩⟩

/-- Clearing one more string keeps the relation to the strings on entry. -/
theorem clustered_set {s0 s : List Str} {ix0 ix : List Nat} {k w : Nat} {a b : Str}
    (h : clustered s0 ix0 (s, ix)) (hix : ix.length = s.length)
    (hb : s[k]? = some b) (hbn : b ≠ []) (ha : s[w]? = some a) (han : a ≠ [])
    (hwk : w ≠ k) (hc : contains a b = true) :
    clustered s0 ix0 (s.set k [], ix.set k w) := by
  obtain ⟨h1, h2, h3⟩ := h
  have orig : ∀ (j : Nat) (x : Str), s[j]? = some x → x ≠ [] → s0[j]? = some x := by
    intro j x hx hxn
    have hj : j < s0.length := by
      rw [← h1]
      exact (List.getElem?_eq_some_iff.1 hx).1
    rcases h3 j _ (List.getElem?_eq_getElem hj) with ⟨e, -⟩ | ⟨-, e, -⟩
    · rw [List.getElem?_eq_getElem hj, ← e, hx]
    · have e1 : s[j]? = some [] := e
      rw [hx] at e1
      injection e1 with e1
      exact absurd e1 hxn
  refine ⟨by simpa using h1, by simpa using h2, ?_⟩
  intro j x hx
  by_cases hjk : k = j
  · subst hjk
    have hk : k < s.length := (List.getElem?_eq_some_iff.1 hb).1
    have hxb : x = b := by
      have := orig k b hb hbn
      rw [hx] at this
      injection this
    subst hxb
    right
    refine ⟨hbn, ?_, w, a, ?_, hwk, orig w a ha han, hc⟩
    · show (s.set k [])[k]? = some []
      rw [List.getElem?_set_self hk]
    · show (ix.set k w)[k]? = some w
      rw [List.getElem?_set_self (by omega)]
  · rcases h3 j x hx with ⟨e1, e2⟩ | ⟨e1, e2, e3⟩
    · left
      exact ⟨by show (s.set k [])[j]? = some x
                rw [List.getElem?_set_ne hjk]; exact e1,
             by show (ix.set k w)[j]? = ix0[j]?
                rw [List.getElem?_set_ne hjk]; exact e2⟩
    · right
      refine ⟨e1, ?_, ?_⟩
      · show (s.set k [])[j]? = some []
        rw [List.getElem?_set_ne hjk]
        exact e2
      · show ∃ i b, (ix.set k w)[j]? = some i ∧ _
        rw [List.getElem?_set_ne hjk]
        exact e3

theorem ClusterSequences_clustered (s0 : List Str) (ix0 : List Nat) : ∀ (fuel : Nat)
    (s : List Str) (ix : List Nat) (r : List Str × List Nat), ix.length = s.length →
    clustered s0 ix0 (s, ix) → ClusterSequences fuel s ix = some (.ok r) →
    clustered s0 ix0 r ∧
      r.1.countP (fun x => x != []) ≤ s.countP (fun x => x != []) ∧
      ClusterSequences
        (s.countP (fun x => x != []) - r.1.countP (fun x => x != []) + 1) s ix =
        some (.ok r) ∧
      ClusterSequences
        (s.countP (fun x => x != []) - r.1.countP (fun x => x != [])) s ix = none := by
  intro fuel
  induction fuel with
  | zero => intro s ix r _ _ h; cases h
  | succ fuel ih =>
    intro s ix r hix hcl h
    rcases ClusterSequences_step s ix hix with ⟨-, hs⟩ | ⟨k, w, a, b, hb, hbn, ha, han, hwk, hc, hs⟩
    · rw [hs fuel] at h
      injection h with h
      injection h with h
      subst h
      refine ⟨hcl, Nat.le_refl _, ?_, ?_⟩
      · rw [Nat.sub_self]
        exact hs 0
      · rw [Nat.sub_self]
        rfl
    · rw [hs fuel] at h
      have hcnt := countP_set_nil s k b hb hbn
      obtain ⟨i1, i2, i3, i4⟩ := ih (s.set k []) (ix.set k w) r (by simp [hix])
        (clustered_set hcl hix hb hbn ha han hwk hc) h
      have e : s.countP (fun x => x != []) - r.1.countP (fun x => x != []) =
          (s.set k []).countP (fun x => x != []) - r.1.countP (fun x => x != []) + 1 := by
        omega
      refine ⟨i1, by omega, ?_, ?_⟩
      · rw [e, hs]
        exact i3
      · rw [e, hs]
        exact i4

/-- C31: for a list of at least two strings with an index for every string,
`ClusterSequences` returns, whatever the bound on the passes above the number of
non-empty strings. Every pass but the last clears one string: the passes made are one
more than the strings cleared. On return every string is as on entry or cleared, no
non-empty string contains a non-empty string at another position, and every position
whose string was cleared has in `ix` another position whose string on entry contains the
cleared one; the other positions keep their index. -/
theorem ClusterSequences_clears (s : List Str) (ix : List Nat) (_ : 2 ≤ s.length)
    (hix : ix.length = s.length) :
    ∃ r : List Str × List Nat,
      (∀ fuel, s.countP (fun x => x != []) < fuel →
        ClusterSequences fuel s ix = some (.ok r)) ∧
      ClusterSequences
        (s.countP (fun x => x != []) - r.1.countP (fun x => x != []) + 1) s ix =
        some (.ok r) ∧
      ClusterSequences
        (s.countP (fun x => x != []) - r.1.countP (fun x => x != [])) s ix = none ∧
      r.1.length = s.length ∧ r.2.length = s.length ∧
      (∀ (j : Nat) (a : Str), s[j]? = some a → r.1[j]? = some a ∨ r.1[j]? = some []) ∧
      r.1.Pairwise (fun a b => a ≠ [] → b ≠ [] →
        contains a b = false ∧ contains b a = false) ∧
      (∀ (j : Nat) (a : Str), s[j]? = some a → a ≠ [] → r.1[j]? = some [] →
        ∃ i b, r.2[j]? = some i ∧ i ≠ j ∧ s[i]? = some b ∧ contains b a = true) ∧
      (∀ (j : Nat) (a : Str), s[j]? = some a → r.1[j]? = some a → r.2[j]? = ix[j]?) := by
  obtain ⟨r, h1, h3, h4, h5⟩ := ClusterSequences_ok (s.countP (fun x => x != []) + 1) s ix
    hix (Nat.lt_succ_self _)
  obtain ⟨⟨c1, c2, c3⟩, -, c5, c6⟩ := ClusterSequences_clustered s ix _ s ix r hix
    (clustered_refl s ix) h1
  refine ⟨r, ?_, c5, c6, h3, h4, ?_, cluster_pass_none _ _ h5, ?_, ?_⟩
  · intro fuel hf
    have := ClusterSequences_fuel _ s ix _ h1 (fuel - (s.countP (fun x => x != []) + 1))
    rw [show s.countP (fun x => x != []) + 1 +
      (fuel - (s.countP (fun x => x != []) + 1)) = fuel by omega] at this
    exact this
  · intro j a ha
    rcases c3 j a ha with ⟨e, -⟩ | ⟨-, e, -⟩
    · exact Or.inl e
    · exact Or.inr e
  · intro j a ha han hr
    rcases c3 j a ha with ⟨e, -⟩ | ⟨-, -, e⟩
    · rw [hr] at e
      injection e with e
      exact absurd e.symm han
    · exact e
  · intro j a ha hr
    rcases c3 j a ha with ⟨-, e⟩ | ⟨hn, e, -⟩
    · exact e
    · rw [hr] at e
      injection e with e
      exact absurd e hn

theorem ClusterSequences_clears_witness :
    ClusterSequences 3 [str "AB", str "A", str "ABC"] [0, 1, 2] =
      some (.ok ([[], [], str "ABC"], [2, 0, 2])) ∧
    ClusterSequences 2 [str "AB", str "A", str "ABC"] [0, 1, 2] = none ∧
    ∃ r : List Str × List Nat,
      (∀ fuel, [str "AB", str "A", str "ABC"].countP (fun x => x != []) < fuel →
        ClusterSequences fuel [str "AB", str "A", str "ABC"] [0, 1, 2] = some (.ok r)) ∧
      r.1.length = 3 ∧ r.2.length = 3 ∧
      r.1.Pairwise (fun a b => a ≠ [] → b ≠ [] →
        contains a b = false ∧ contains b a = false) :=
  ⟨by decide, by decide,
    (ClusterSequences_clears [str "AB", str "A", str "ABC"] [0, 1, 2] (by decide) rfl).imp
      (fun _ h => ⟨h.1, h.2.2.2.1, h.2.2.2.2.1, h.2.2.2.2.2.2.1⟩)⟩

/-! ## C37: the numbering of the entries and the span of a hit -/

theorem numbered_append {n : Nat} {l : List ResidueHInfo} {e : ResidueHInfo}
    (h : numbered n l) (he : e.seqNr = (l.length + 1) % 2 ^ 32) : numbered n (l ++ [e]) := by
  intro p x hp hx
  by_cases hlt : p < l.length
  · rw [List.getElem?_append_left hlt] at hx
    exact h p x hp hx
  · have hlen : p < (l ++ [e]).length := (List.getElem?_eq_some_iff.1 hx).1
    rw [List.length_append, List.length_singleton] at hlen
    have hpe : p = l.length := by omega
    subst hpe
    rw [List.getElem?_append_right (Nat.le_refl _), Nat.sub_self] at hx
    injection hx with hx
    subst hx
    exact he

theorem residue_column_numbered {s : seq} {chain i n : Nat} {st st1 : residue_state}
    (h : residue_column s chain i st = .ok st1) (hn : numbered n st.res) :
    numbered n st1.res := by
  unfold residue_column at h
  split at h
  · cases h
  · split at h
    · injection h with h
      subst h
      exact hn
    · split at h
      · cases h
      · rename_i r rest hr
        simp only at h
        injection h with h
        subst h
        simp only
        apply numbered_append
        · split
          · split
            · exact numbered_append hn rfl
            · exact hn
          · exact hn
        · rfl

theorem residue_columns_numbered (s : seq) (chain n : Nat) : ∀ (is : List Nat)
    (st st1 : residue_state), residue_columns s chain is st = .ok st1 →
    numbered n st.res → numbered n st1.res := by
  intro is
  induction is with
  | nil =>
    intro st st1 h hn
    injection h with h
    subst h
    exact hn
  | cons i is ih =>
    intro st st1 h hn
    unfold residue_columns at h
    split at h
    · cases h
    · rename_i st2 h2
      exact ih st2 st1 h (residue_column_numbered h2 hn)

theorem ChainToHits_numbered {has_document : Str → Bool} {s : seq} {rest : mseq}
    {chain : MChain} {hits hits1 : List Hit} {res res1 : List ResidueHInfo}
    (h : ChainToHits has_document (s :: rest) chain hits res = .ok (hits1, res1)) :
    hits1 = hits ++ create_hits has_document s chain.id (res.length % 2 ^ 32) rest ∧
      numbered res.length res1 := by
  unfold ChainToHits at h
  simp only at h
  split at h
  · cases h
  · rename_i st hst
    split at h
    · cases h
    · injection h with h
      injection h with h1 h2
      subst h1 h2
      refine ⟨rfl, residue_columns_numbered s chain.id res.length _ _ st hst ?_⟩
      intro p e hp he
      have := (List.getElem?_eq_some_iff.1 he).1
      have hlt : p < res.length := this
      omega

theorem create_hits_mem (has_document : Str → Bool) (q : seq) (chain offset : Nat) :
    ∀ (rows : mseq) (hit : Hit), hit ∈ create_hits has_document q chain offset rows →
    ∃ row ∈ rows, hit = Hit.new row q chain offset := by
  intro rows
  induction rows with
  | nil => intro hit h; cases h
  | cons r rows ih =>
    intro hit h
    unfold create_hits at h
    split at h
    · rcases List.mem_cons.1 h with e | e
      · exact ⟨r, List.mem_cons_self _ _, e⟩
      · obtain ⟨row, h1, h2⟩ := ih hit e
        exact ⟨row, List.mem_cons_of_mem _ h1, h2⟩
    · obtain ⟨row, h1, h2⟩ := ih hit h
      exact ⟨row, List.mem_cons_of_mem _ h1, h2⟩

theorem chain_breaks_le : ∀ (rs : List MResidue) (prev : Option MResidue),
    chain_breaks prev rs ≤ rs.length := by
  intro rs
  induction rs with
  | nil => intro prev; cases prev <;> exact Nat.le_refl _
  | cons r rs ih =>
    intro prev
    cases prev with
    | none =>
      show chain_breaks (some r) rs ≤ rs.length + 1
      have := ih (some r)
      omega
    | some p =>
      show (if r.number > p.number + 1 then 1 else 0) + chain_breaks (some r) rs ≤
        rs.length + 1
      have := ih (some r)
      split <;> omega

theorem flatten_getElem? (bs : List (List ResidueHInfo)) : ∀ (k : Nat)
    (b : List ResidueHInfo) (j : Nat), bs[k]? = some b → j < b.length →
    bs.flatten[(bs.take k).flatten.length + j]? = b[j]? := by
  induction bs with
  | nil => intro k b j h _; simp at h
  | cons a bs ih =>
    intro k b j h hj
    cases k with
    | zero =>
      simp only [List.getElem?_cons_zero] at h
      injection h with h
      subst h
      simp only [List.take_zero, List.flatten_nil, List.length_nil, Nat.zero_add,
        List.flatten_cons]
      rw [List.getElem?_append_left hj]
    | succ k =>
      rw [List.getElem?_cons_succ] at h
      simp only [List.take_succ_cons, List.flatten_cons, List.length_append]
      rw [Nat.add_assoc, List.getElem?_append_right (by omega), Nat.add_sub_cancel_left]
      exact ih k b j h hj

/-- The block of the residue `k` ends with the entry of that residue, and the blocks up
to it hold one entry for each residue and one marker for each chain break. -/
theorem residue_blocks_position (chain : Nat) : ∀ (rs : List MResidue)
    (prev : Option MResidue) (bs : List (List ResidueHInfo)),
    residue_blocks chain prev rs bs →
    ∀ (k : Nat) (r : MResidue), rs[k]? = some r →
      ∃ b c i n, bs[k]? = some b ∧ 0 < b.length ∧
        b[b.length - 1]? = some (ResidueHInfo.new c i chain n r.number r.dssp) ∧
        (bs.take k).flatten.length + b.length =
          k + 1 + chain_breaks prev (rs.take (k + 1)) := by
  intro rs
  induction rs with
  | nil => intro prev bs _ k r h; simp at h
  | cons r0 rs ih =>
    intro prev bs hb k r hk
    cases bs with
    | nil => cases hb
    | cons b0 bs =>
      obtain ⟨hb0, hrest⟩ := hb
      have hlen0 : b0.length = 1 + chain_breaks prev [r0] ∧
          ∃ c i n, b0[b0.length - 1]? =
            some (ResidueHInfo.new c i chain n r0.number r0.dssp) := by
        obtain ⟨c, i, n, ⟨hm, e⟩ | ⟨hm, m, e⟩⟩ := hb0
        · subst e
          refine ⟨?_, c, i, n, rfl⟩
          cases prev with
          | none => rfl
          | some p =>
            show 1 = 1 + ((if r0.number > p.number + 1 then 1 else 0) + 0)
            rw [if_neg (fun hgt => hm ⟨p, rfl, hgt⟩)]
        · subst e
          refine ⟨?_, c, i, n, rfl⟩
          obtain ⟨p, hp, hgt⟩ := hm
          subst hp
          show 2 = 1 + ((if r0.number > p.number + 1 then 1 else 0) + 0)
          rw [if_pos hgt]
      have hcons : ∀ (l : List MResidue),
          chain_breaks prev (r0 :: l) = chain_breaks prev [r0] + chain_breaks (some r0) l := by
        intro l
        cases prev with
        | none => show _ = chain_breaks (some r0) [] + _; simp [chain_breaks]
        | some p =>
          show _ + _ = (_ + chain_breaks (some r0) []) + _
          simp [chain_breaks]
      cases k with
      | zero =>
        simp only [List.getElem?_cons_zero] at hk
        injection hk with hk
        subst hk
        obtain ⟨h1, c, i, n, h2⟩ := hlen0
        refine ⟨b0, c, i, n, by simp, by omega, h2, ?_⟩
        simp only [List.take_zero, List.flatten_nil, List.length_nil, Nat.zero_add,
          List.take_succ_cons, List.take_zero]
        omega
      | succ k =>
        rw [List.getElem?_cons_succ] at hk
        obtain ⟨b, c, i, n, e1, e2, e3, e4⟩ := ih (some r0) bs hrest k r hk
        refine ⟨b, c, i, n, by rw [List.getElem?_cons_succ]; exact e1, e2, e3, ?_⟩
        simp only [List.take_succ_cons, List.flatten_cons, List.length_append]
        rw [hcons]
        omega

/-- The numbering that `ChainToHits` gives the entries of a chain, and the spans of its
hits: the entry of the residue `k` (counted from 0) has the `seqNr` offset plus `k + 1`
plus the number of chain-break markers in front of it in the chain, the span of a hit is
the span of its row plus the offset, and so the coverage test compares the position of
the residue, shifted by the markers, with the span of the row. -/
theorem ChainToHits_seqNr (has_document : Str → Bool) (s : seq) (rest : mseq)
    (chain : MChain) (hits : List Hit) (res : List ResidueHInfo)
    (hspan : s.length ≤ s.m_size) (hstore : s.m_seq + s.m_size ≤ s.m_data.length)
    (hlen : (query_columns s).length = chain.residues.length)
    (hwrap : res.length + 2 * chain.residues.length < 2 ^ 32) :
    ∃ (hits1 : List Hit) (res1 : List ResidueHInfo),
      ChainToHits has_document (s :: rest) chain hits res = .ok (hits ++ hits1, res1) ∧
      (∀ hit ∈ hits1, hit.m_seq ∈ rest ∧ hit.m_offset = res.length ∧
        hit.m_ifir = (hit.m_seq.m_ifir + res.length) % 2 ^ 32 ∧
        hit.m_ilas = (hit.m_seq.m_ilas + res.length) % 2 ^ 32) ∧
      ∀ (k : Nat) (r : MResidue), chain.residues[k]? = some r →
        ∃ e, res1[res.length + k + chain_breaks none (chain.residues.take (k + 1))]? =
            some e ∧
          e.pdbNr = r.number ∧ e.dssp = r.dssp ∧
          e.seqNr = res.length + (k + 1) + chain_breaks none (chain.residues.take (k + 1)) ∧
          ∀ hit ∈ hits1, hit.m_seq.m_ifir + res.length < 2 ^ 32 →
            hit.m_seq.m_ilas + res.length < 2 ^ 32 →
            (covers hit e = true ↔
              hit.m_seq.m_ifir ≤ k + 1 + chain_breaks none (chain.residues.take (k + 1)) ∧
              k + 1 + chain_breaks none (chain.residues.take (k + 1)) ≤
                hit.m_seq.m_ilas) := by
  obtain ⟨hits1, blocks, h, hb⟩ := ChainToHits_blocks has_document s rest chain hits res
    hspan hstore hlen
  obtain ⟨e1, hnum⟩ := ChainToHits_numbered h
  have hoff : res.length % 2 ^ 32 = res.length := Nat.mod_eq_of_lt (by omega)
  rw [hoff] at e1
  subst e1
  have hhit : ∀ hit ∈ create_hits has_document s chain.id res.length rest,
      hit.m_seq ∈ rest ∧ hit.m_offset = res.length ∧
        hit.m_ifir = (hit.m_seq.m_ifir + res.length) % 2 ^ 32 ∧
        hit.m_ilas = (hit.m_seq.m_ilas + res.length) % 2 ^ 32 := by
    intro hit hmem
    obtain ⟨row, hrow, e⟩ := create_hits_mem has_document s chain.id res.length rest hit hmem
    subst e
    exact ⟨hrow, rfl, rfl, rfl⟩
  refine ⟨_, _, h, hhit, ?_⟩
  intro k r hk
  obtain ⟨b, c, i, n, b1, b2, b3, b4⟩ := residue_blocks_position chain.id chain.residues
    none blocks hb k r hk
  have hkl : k < chain.residues.length := (List.getElem?_eq_some_iff.1 hk).1
  have hcb := chain_breaks_le (chain.residues.take (k + 1)) none
  rw [List.length_take] at hcb
  have hpos : (blocks.take k).flatten.length + (b.length - 1) =
      k + chain_breaks none (chain.residues.take (k + 1)) := by omega
  have hget := flatten_getElem? blocks k b (b.length - 1) b1 (by omega)
  rw [hpos, b3] at hget
  have hres : (res ++ blocks.flatten)[res.length + k +
      chain_breaks none (chain.residues.take (k + 1))]? =
      some (ResidueHInfo.new c i chain.id n r.number r.dssp) := by
    rw [Nat.add_assoc, List.getElem?_append_right (by omega), Nat.add_sub_cancel_left]
    exact hget
  have hseq := hnum _ _ (by omega) hres
  have hmod : (res.length + k + chain_breaks none (chain.residues.take (k + 1)) + 1) %
      2 ^ 32 = res.length + (k + 1) + chain_breaks none (chain.residues.take (k + 1)) := by
    rw [Nat.mod_eq_of_lt (by omega)]
    omega
  rw [hmod] at hseq
  refine ⟨_, hres, rfl, rfl, hseq, ?_⟩
  intro hit hmem w1 w2
  obtain ⟨-, -, f1, f2⟩ := hhit hit hmem
  unfold covers
  rw [decide_eq_true_iff, hseq, f1, f2, Nat.mod_eq_of_lt w1, Nat.mod_eq_of_lt w2]
  omega

/-- C37: `ChainToHits` gives the new hits the offset `res.size()` and the span of their
row plus that offset, and the entry of the chain's k-th residue (here `k + 1`) the `seqNr`
offset plus k plus the number of chain-break markers put in front of the first k residues
of the chain. The coverage test of a hit holds for the entry exactly when k plus that
number of markers lies between `ifir` and `ilas` of the row: it is the test of the claim
for the residues in front of which the chain has no marker, and it is shifted by one for
every marker behind a chain break. For the chain with the residues 1, 2 and 5 and the hit
`A.E` of the query `ACD`, whose span is the residues 1 to 3, the entry of the third
residue has `seqNr` 4 and the test fails for it; for the chain 1, 2, 3 it holds. -/
theorem ChainToHits_numbering :
    (∀ (has_document : Str → Bool) (s : seq) (rest : mseq) (chain : MChain)
        (hits : List Hit) (res : List ResidueHInfo),
      s.length ≤ s.m_size → s.m_seq + s.m_size ≤ s.m_data.length →
      (query_columns s).length = chain.residues.length →
      res.length + 2 * chain.residues.length < 2 ^ 32 →
      ∃ (hits1 : List Hit) (res1 : List ResidueHInfo),
        ChainToHits has_document (s :: rest) chain hits res = .ok (hits ++ hits1, res1) ∧
        (∀ hit ∈ hits1, hit.m_seq ∈ rest ∧ hit.m_offset = res.length ∧
          hit.m_ifir = (hit.m_seq.m_ifir + res.length) % 2 ^ 32 ∧
          hit.m_ilas = (hit.m_seq.m_ilas + res.length) % 2 ^ 32) ∧
        ∀ (k : Nat) (r : MResidue), chain.residues[k]? = some r →
          ∃ e, res1[res.length + k + chain_breaks none (chain.residues.take (k + 1))]? =
              some e ∧
            e.pdbNr = r.number ∧ e.dssp = r.dssp ∧
            e.seqNr =
              res.length + (k + 1) + chain_breaks none (chain.residues.take (k + 1)) ∧
            ∀ hit ∈ hits1, hit.m_seq.m_ifir + res.length < 2 ^ 32 →
              hit.m_seq.m_ilas + res.length < 2 ^ 32 →
              (covers hit e = true ↔
                hit.m_seq.m_ifir ≤
                  k + 1 + chain_breaks none (chain.residues.take (k + 1)) ∧
                k + 1 + chain_breaks none (chain.residues.take (k + 1)) ≤
                  hit.m_seq.m_ilas)) ∧
    (ReadFastA oob_zero sample_fasta_gap []).map
        (fun msa => msa.map (fun r => (r.chars, r.m_ifir, r.m_ilas))) =
      .ok [(str "ACD", 0, 0), (str "A.E", 1, 3)] ∧
    (ChainToHits (fun _ => true) sample_gap_rows sample_chain_break [] []).map
        (fun p => p.1.map (fun h => (h.m_offset, h.m_seq.m_ifir, h.m_seq.m_ilas))) =
      .ok [(0, 1, 3)] ∧
    (ChainToHits (fun _ => true) sample_gap_rows sample_chain_break [] []).map
        (fun p => p.1.map (fun h => (h.m_ifir, h.m_ilas))) = .ok [(1, 3)] ∧
    (ChainToHits (fun _ => true) sample_gap_rows sample_chain_break [] []).map
        (fun p => p.2.map (fun r => (r.letter, r.pdbNr, r.seqNr))) =
      .ok [(65, 1, 1), (67, 2, 2), (0, 0, 3), (68, 5, 4)] ∧
    (ChainToHits (fun _ => true) sample_gap_rows sample_chain_break [] []).map
        (fun p => p.2.map (fun r => p.1.map (fun h => covers h r))) =
      .ok [[true], [true], [true], [false]] ∧
    (ChainToHits (fun _ => true) sample_gap_rows sample_chain_three [] []).map
        (fun p => p.2.map (fun r => (r.pdbNr, r.seqNr, p.1.map (fun h => covers h r)))) =
      .ok [(1, 1, [true]), (2, 2, [true]), (3, 3, [true])] := by
  refine ⟨ChainToHits_seqNr, ?_, ?_, ?_, ?_, ?_, ?_⟩ <;> decide!

/-! ## C34: the statistics of a row after a round trip through the FASTA cache -/

theorem tally_column_flags (t : tally) (c d : Nat × Nat) (h1 : is_gap c.1 = is_gap d.1)
    (h2 : is_gap c.2 = is_gap d.2) : tally_column t c = tally_column t d := by
  unfold tally_column
  rw [h1, h2]

theorem tally_fold_flags : ∀ (cols cols1 : List (Nat × Nat)) (t : tally),
    cols.map (fun c => (is_gap c.1, is_gap c.2)) =
      cols1.map (fun c => (is_gap c.1, is_gap c.2)) →
    cols.foldl tally_column t = cols1.foldl tally_column t := by
  intro cols
  induction cols with
  | nil =>
    intro cols1 t h
    cases cols1 with
    | nil => rfl
    | cons d ds => simp at h
  | cons c cs ih =>
    intro cols1 t h
    cases cols1 with
    | nil => simp at h
    | cons d ds =>
      simp only [List.map_cons, List.cons.injEq, Prod.mk.injEq] at h
      rw [List.foldl_cons, List.foldl_cons, tally_column_flags t c d h.1.1 h.1.2]
      exact ih ds _ h.2

theorem dashed_flags (text : Str) : (dashed text).map is_gap = text.map is_gap := by
  unfold dashed
  rw [List.map_map]
  apply List.map_congr_left
  intro c _
  exact is_gap_dash c

theorem same_letter_flags {a b : Str} (h : List.Forall₂ same_letter a b) :
    b.map is_gap = a.map is_gap := by
  induction h with
  | nil => rfl
  | @cons x y xs ys hxy _ ih =>
    rw [List.map_cons, List.map_cons, ih]
    congr 1
    rcases hxy with ⟨g1, g2⟩ | ⟨_, hv⟩
    · rw [g1, g2]
    · exact case_variant_gap hv

theorem zip_flags (a b : Str) :
    (a.zip b).map (fun c => (is_gap c.1, is_gap c.2)) = (a.map is_gap).zip (b.map is_gap) := by
  rw [List.zip_map]
  rfl

/-- The counters of a row that depend on the gaps only are the same after a round trip
through `WriteFastA` and `ReadFastA`. -/
theorem update_written_tally {oob : Nat → Nat → Int} {f h0 h f1 h1 h2 : seq}
    (hs0 : h0.m_seq + h0.m_size ≤ h0.m_data.length) (hw0 : h0.m_size = f.m_size)
    (hlt : h0.m_size < UINT32_MAX)
    (hs1 : h1.m_seq + h1.m_size ≤ h1.m_data.length) (hw1 : h1.m_size = f1.m_size)
    (hf1 : f1.chars = dashed f.chars) (hh1 : h1.chars = dashed h.chars)
    (hfresh0 : h0.m_ifir = 0 ∧ h0.m_ilas = 0 ∧ h0.m_length = 0 ∧ h0.m_gapn = 0)
    (hfresh1 : h1.m_ifir = 0 ∧ h1.m_ilas = 0 ∧ h1.m_length = 0 ∧ h1.m_gapn = 0)
    (hup : seq.update oob f h0 = .ok h) (hup1 : seq.update oob f1 h1 = .ok h2) :
    h2.m_length = h.m_length ∧ h2.m_gapn = h.m_gapn ∧ h2.m_ifir = h.m_ifir ∧
      h2.m_ilas = h.m_ilas := by
  obtain ⟨a1, a2, a3, a4, -⟩ := update_tally hup hs0 hw0
  obtain ⟨b1, b2, b3, b4, -⟩ := update_tally hup1 hs1 hw1
  have hlet := update_letters hup hs0 hw0 hlt
  have hinit : (update_init h1).tally = (update_init h0).tally := by
    unfold update_state.tally update_init
    simp only [hfresh0.1, hfresh0.2.1, hfresh0.2.2.1, hfresh0.2.2.2, hfresh1.1, hfresh1.2.1,
      hfresh1.2.2.1, hfresh1.2.2.2]
  have hcols : (columns f1 h1).foldl tally_column (update_init h1).tally =
      (columns f h0).foldl tally_column (update_init h0).tally := by
    rw [hinit]
    apply tally_fold_flags
    unfold columns
    rw [zip_flags, zip_flags, hf1, hh1, dashed_flags, dashed_flags, same_letter_flags hlet]
  rw [hcols] at b1 b2 b3 b4
  exact ⟨by rw [b1, a1], by rw [b2, a2], by rw [b3, a3], by rw [b4, a4]⟩

/-- C34: writing the rows of `ReadStockholm` with `WriteFastA` and reading the text with
`ReadFastA` gives a row the same `alignment_length` (and `gapn`, `ifir`, `ilas`), which
depend on the gaps only. But `update` has lower-cased the residues around every
insertion, the file holds them in lower case, and the second `update` compares them with
the upper-case query: the identical count and the score of a row with an insertion are
lower after the round trip. For the Stockholm rows `AC-DE` and `ACCDE` the homolog has
identical 3 and the score 3/5 when parsed, and identical 2 and the score 2/5 when read
from the file. -/
theorem fasta_cache_statistics :
    (∀ (oob : Nat → Nat → Int) (f h0 h f1 h1 h2 : seq),
      h0.m_seq + h0.m_size ≤ h0.m_data.length → h0.m_size = f.m_size →
      h0.m_size < UINT32_MAX →
      h1.m_seq + h1.m_size ≤ h1.m_data.length → h1.m_size = f1.m_size →
      f1.chars = dashed f.chars → h1.chars = dashed h.chars →
      (h0.m_ifir = 0 ∧ h0.m_ilas = 0 ∧ h0.m_length = 0 ∧ h0.m_gapn = 0) →
      (h1.m_ifir = 0 ∧ h1.m_ilas = 0 ∧ h1.m_length = 0 ∧ h1.m_gapn = 0) →
      seq.update oob f h0 = .ok h → seq.update oob f1 h1 = .ok h2 →
      h2.m_length = h.m_length ∧ h2.m_gapn = h.m_gapn ∧ h2.m_ifir = h.m_ifir ∧
        h2.m_ilas = h.m_ilas) ∧
    (ReadStockholm oob_zero sample_lines (str "ACDE")).map
        (fun msa => msa.map (fun r => (r.chars, r.m_identical, r.m_length, r.m_score))) =
      .ok [(str "AC-DE", 0, 0, (0, 1)), (str "AcCdE", 3, 5, (3, 5))] ∧
    (ReadStockholm oob_zero sample_lines (str "ACDE")).bind
        (WriteFastA (fun _ => str "0.6|3")) =
      .ok [str ">test 0.6|3", str "AC-DE", str ">B 0.6|3", str "AcCdE"] ∧
    ((ReadStockholm oob_zero sample_lines (str "ACDE")).bind
        (WriteFastA (fun _ => str "0.6|3"))).bind
        (fun text => (ReadFastA oob_zero text (str "ACDE")).map
          (fun msa => msa.map (fun r => (r.chars, r.m_identical, r.m_length, r.m_score)))) =
      .ok [(str "AC-DE", 0, 0, (0, 1)), (str "AcCdE", 2, 5, (2, 5))] ∧
    (ReadFastA oob_zero [str ">test", str "ACDE", str ">B", str "ACDE"] (str "ACDE")).map
        (fun msa => msa.map (fun r => (r.chars, r.m_identical, r.m_length, r.m_score))) =
      .ok [(str "ACDE", 0, 0, (0, 1)), (str "ACDE", 4, 4, (4, 4))] := by
  refine ⟨?_, rfl, rfl, rfl, rfl⟩
  intro oob f h0 h f1 h1 h2 hs0 hw0 hlt hs1 hw1 hf1 hh1 hfresh0 hfresh1 hup hup1
  exact update_written_tally hs0 hw0 hlt hs1 hw1 hf1 hh1 hfresh0 hfresh1 hup hup1

end hmmer
